import Mathlib

/-!
# gr-sprite: PRN generation, CC430 baseband modulator and FFT correlators

Shallow embedding of `lib/correlator_cf_impl.{h,cc}` (dual-code demodulator) and
`lib/single_correlator_cf_impl.{h,cc}` (single-code energy detector).

Conventions of the embedding.

* A C array is a `List`; every access goes through the checked `rd` / `wr`, which
  return `none` outside the array, so a function that indexes out of bounds yields
  `none`.  Buffers that the C code leaves uninitialised are passed in with
  arbitrary prior contents.
* `int` is `Int`: for selectors in `[512 - 2^31, 2^31 - 1]` no arithmetic in these
  functions leaves the 32-bit range (below `512 - 2^31` the loop bound `511 - prn_id`
  overflows, which C leaves undefined).
* `float` / `double` are an exact commutative ring `R`, linearly ordered where the code
  compares (`ℚ` for evaluation, `ℝ` for the statements "in exact arithmetic");
  `gr_complex` is the pair of its real and imaginary part with the usual product.
* The FFT and `sqrt` are library functions: `work` takes them as arguments; the
  statements about exact values use the forward DFT `dft` and `Real.sqrt`.
* `for (k = lo; k < hi; k += step)` is `forLoop lo hi step body`, which runs the body
  exactly as many times as the C loop does.
* Where a statement is about cells being written before they are read, the function is
  transcribed a second time over buffers whose cells are `none` until their first write
  (`rd_written`, `wr_written`, namespace `tracked`).
-/

/-- Sequencing in a function that fails on an out-of-range access: `x.andThen f` runs `f` on
the result of `x` when `x` succeeds and fails when `x` fails (it is `Option.bind`). -/
@[noinline]
def Option.andThen {α β : Type} (x : Option α) (f : α → Option β) : Option β := x.bind f

namespace sprite

/-! ## C arrays and loops -/

/-- Checked read `a[i]` of a C array at an `int` index. -/
def rd {α : Type} (a : List α) (i : Int) : Option α :=
  if 0 ≤ i then a[i.toNat]? else none

/-- Checked write `a[i] = v` into a C array at an `int` index. -/
def wr {α : Type} (a : List α) (i : Int) (v : α) : Option (List α) :=
  if 0 ≤ i ∧ i.toNat < a.length then some (a.set i.toNat v) else none

/-- Runs `body k`, `body (k + step)`, ... for `n` iterations, threading the state and
stopping at the first failing iteration. -/
def loopFrom {σ : Type} (body : Int → σ → Option σ) (step : Int) : Nat → Int → σ → Option σ
  | 0, _, s => some s
  | n + 1, k, s => (body k s).bind (loopFrom body step n (k + step))

/-- The loop `for (int k = lo; k < hi; k += step) body`, for `step > 0`: the body runs for
`k = lo, lo + step, ...` while `k < hi`, that is `⌈(hi - lo) / step⌉` times. -/
def forLoop {σ : Type} (lo hi step : Int) (body : Int → σ → Option σ) (s : σ) : Option σ :=
  loopFrom body step ((hi - lo + step - 1) / step).toNat lo s

/-! ## Constants and code tables -/

/-- The macro `M_SEQUENCE_LENGTH`. -/
def M_SEQUENCE_LENGTH : Int := 511

/-- The macro `SPRITE_PRN_LENGTH`. -/
def SPRITE_PRN_LENGTH : Int := 512

/-! ## Code tables and PRN generation -/

namespace correlator_cf_impl

/-- The table `correlator_cf_impl::mseq1`. -/
def mseq1 : List Int := [
  1,0,1,0,1,0,1,0,1,0,0,0,0,0,0,1,0,1,0,0,1,0,1,0,1,1,1,1,0,0,1,0,
  1,1,1,0,1,1,1,0,0,0,0,0,0,1,1,1,0,0,1,1,1,0,1,0,0,1,0,0,1,1,1,1,
  0,1,0,1,1,1,0,1,0,1,0,0,0,1,0,0,1,0,0,0,0,1,1,0,0,1,1,1,0,0,0,0,
  1,0,1,1,1,1,0,1,1,0,1,1,0,0,1,1,0,1,0,0,0,0,1,1,1,0,1,1,1,1,0,0,
  0,0,1,1,1,1,1,1,1,1,1,0,0,0,0,0,1,1,1,1,0,1,1,1,1,1,0,0,0,1,0,1,
  1,1,0,0,1,1,0,0,1,0,0,0,0,0,1,0,0,1,0,1,0,0,1,1,1,0,1,1,0,1,0,0,
  0,1,1,1,1,0,0,1,1,1,1,1,0,0,1,1,0,1,1,0,0,0,1,0,1,0,1,0,0,1,0,0,
  0,1,1,1,0,0,0,1,1,0,1,1,0,1,0,1,0,1,1,1,0,0,0,1,0,0,1,1,0,0,0,1,
  0,0,0,1,0,0,0,0,0,0,0,0,1,0,0,0,0,1,0,0,0,1,1,0,0,0,0,1,0,0,1,1,
  1,0,0,1,0,1,0,1,0,1,1,0,0,0,0,1,1,0,1,1,1,1,0,1,0,0,1,1,0,1,1,1,
  0,0,1,0,0,0,1,0,1,0,0,0,0,1,0,1,0,1,1,0,1,0,0,1,1,1,1,1,1,0,1,1,
  0,0,1,0,0,1,0,0,1,0,1,1,0,1,1,1,1,1,1,0,0,1,0,0,1,1,0,1,0,1,0,0,
  1,1,0,0,1,1,0,0,0,0,0,0,0,1,1,0,0,0,1,1,0,0,1,0,1,0,0,0,1,1,0,1,
  0,0,1,0,1,1,1,1,1,1,1,0,1,0,0,0,1,0,1,1,0,0,0,1,1,1,0,1,0,1,1,0,
  0,1,0,1,1,0,0,1,1,1,1,0,0,0,1,1,1,1,1,0,1,1,1,0,1,0,0,0,0,0,1,1,
  0,1,0,1,1,0,1,1,0,1,1,1,0,1,1,0,0,0,0,0,1,0,1,1,0,1,0,1,1,1,1]

/-- The table `correlator_cf_impl::mseq2`. -/
def mseq2 : List Int := [
  1,0,1,0,1,0,1,0,1,1,1,1,0,1,1,1,1,1,1,0,0,1,1,1,1,0,1,0,0,1,0,0,
  1,1,1,1,1,0,0,1,0,1,1,1,1,1,0,1,0,0,0,0,0,0,1,0,1,1,0,0,0,1,0,0,
  1,1,0,0,1,1,1,0,1,1,1,1,0,1,0,1,1,0,1,1,0,1,1,1,0,1,0,1,0,1,1,0,
  1,0,0,1,0,1,1,1,0,1,0,0,0,1,0,0,0,0,0,1,0,0,0,0,1,1,0,1,0,1,1,1,
  0,1,1,0,0,0,0,1,0,0,0,1,1,1,1,1,1,1,1,1,0,0,0,1,1,0,0,0,0,0,1,0,
  1,0,0,0,1,1,1,0,1,1,0,1,0,0,0,0,1,0,1,1,1,0,0,0,0,1,1,1,0,0,0,0,
  0,1,1,1,0,1,0,0,1,1,0,1,0,1,0,1,0,0,1,1,0,0,0,1,1,1,1,0,1,1,0,1,
  1,0,0,1,1,1,1,1,1,0,1,1,1,0,1,1,1,0,0,1,1,1,0,0,1,1,0,0,0,0,1,1,
  0,0,0,1,0,1,1,1,1,0,0,1,1,0,1,0,0,0,1,1,0,0,1,0,0,0,0,0,0,0,0,1,
  0,0,1,0,1,0,0,0,0,1,1,1,1,0,0,1,0,0,1,1,0,1,1,1,0,0,0,1,1,1,0,0,
  1,0,0,0,1,0,0,1,0,0,0,0,1,0,0,1,1,1,0,1,0,1,1,1,1,1,1,1,0,1,0,1,
  0,0,1,0,0,0,1,1,0,1,1,0,1,0,1,0,0,0,0,0,1,1,0,0,1,1,0,0,1,0,1,0,
  0,1,0,1,0,1,0,0,0,1,0,1,0,0,1,1,1,0,0,0,1,0,1,0,1,1,1,0,0,1,0,1,
  0,1,1,0,0,0,0,0,0,0,1,1,0,1,1,1,1,0,0,0,1,0,0,0,1,0,1,1,0,1,0,1,
  1,0,0,1,0,0,1,0,0,1,0,1,1,0,0,1,1,0,1,1,0,0,0,1,1,0,1,0,0,1,1,1,
  1,0,0,0,0,0,0,1,1,1,1,1,0,1,1,0,0,1,0,1,1,0,1,1,1,1,1,0,0,0,0]

/-- The function `correlator_cf_impl::generate_prns`: fills `m_prn0` from `prn_id0`, pads it,
then fills `m_prn1` from `prn_id1` and pads it.  Returns the two buffers. -/
def generate_prns (prn_id0 prn_id1 : Int) (m_prn0 m_prn1 : List Int) :
    Option (List Int × List Int) :=
  ((if prn_id0 = -2 then
        -- Deep copy M-sequence
        forLoop 0 M_SEQUENCE_LENGTH 1
          (fun k m => (rd mseq1 k).andThen fun v => wr m k v) m_prn0
      else if prn_id0 = -1 then
        -- Deep copy M-sequence
        forLoop 0 M_SEQUENCE_LENGTH 1
          (fun k m => (rd mseq2 k).andThen fun v => wr m k v) m_prn0
      else
        -- Generate Gold Codes by xor'ing 2 M-sequences in different phases
        (forLoop 0 (M_SEQUENCE_LENGTH - prn_id0) 1
          (fun k m => (rd mseq1 k).andThen fun a => (rd mseq2 (k + prn_id0)).andThen fun b =>
            wr m k (Int.xor a b)) m_prn0).andThen fun m =>
        forLoop (M_SEQUENCE_LENGTH - prn_id0) M_SEQUENCE_LENGTH 1
          (fun k m => (rd mseq1 k).andThen fun a =>
            (rd mseq2 (k - M_SEQUENCE_LENGTH + prn_id0)).andThen fun b =>
            wr m k (Int.xor a b)) m)).andThen fun m_prn0 =>
  -- To pad out the last byte, add a zero to the end
  (wr m_prn0 (SPRITE_PRN_LENGTH - 1) 0).andThen fun m_prn0 =>
  ((if prn_id1 = -2 then
        -- Deep copy M-sequence
        forLoop 0 M_SEQUENCE_LENGTH 1
          (fun k m => (rd mseq1 k).andThen fun v => wr m k v) m_prn1
      else if prn_id1 = -1 then
        -- Deep copy M-sequence
        forLoop 0 M_SEQUENCE_LENGTH 1
          (fun k m => (rd mseq2 k).andThen fun v => wr m k v) m_prn1
      else
        -- Generate Gold Codes by xor'ing 2 M-sequences in different phases
        (forLoop 0 (M_SEQUENCE_LENGTH - prn_id1) 1
          (fun k m => (rd mseq1 k).andThen fun a => (rd mseq2 (k + prn_id1)).andThen fun b =>
            wr m k (Int.xor a b)) m_prn1).andThen fun m =>
        forLoop (M_SEQUENCE_LENGTH - prn_id1) M_SEQUENCE_LENGTH 1
          (fun k m => (rd mseq1 k).andThen fun a =>
            (rd mseq2 (k - M_SEQUENCE_LENGTH + prn_id1)).andThen fun b =>
            wr m k (Int.xor a b)) m)).andThen fun m_prn1 =>
  -- To pad out the last byte, add a zero to the end
  (wr m_prn1 (SPRITE_PRN_LENGTH - 1) 0).andThen fun m_prn1 =>
  some (m_prn0, m_prn1)

end correlator_cf_impl

namespace single_correlator_cf_impl

/-- The table `single_correlator_cf_impl::mseq1`. -/
def mseq1 : List Int := [
  1,0,1,0,1,0,1,0,1,0,0,0,0,0,0,1,0,1,0,0,1,0,1,0,1,1,1,1,0,0,1,0,
  1,1,1,0,1,1,1,0,0,0,0,0,0,1,1,1,0,0,1,1,1,0,1,0,0,1,0,0,1,1,1,1,
  0,1,0,1,1,1,0,1,0,1,0,0,0,1,0,0,1,0,0,0,0,1,1,0,0,1,1,1,0,0,0,0,
  1,0,1,1,1,1,0,1,1,0,1,1,0,0,1,1,0,1,0,0,0,0,1,1,1,0,1,1,1,1,0,0,
  0,0,1,1,1,1,1,1,1,1,1,0,0,0,0,0,1,1,1,1,0,1,1,1,1,1,0,0,0,1,0,1,
  1,1,0,0,1,1,0,0,1,0,0,0,0,0,1,0,0,1,0,1,0,0,1,1,1,0,1,1,0,1,0,0,
  0,1,1,1,1,0,0,1,1,1,1,1,0,0,1,1,0,1,1,0,0,0,1,0,1,0,1,0,0,1,0,0,
  0,1,1,1,0,0,0,1,1,0,1,1,0,1,0,1,0,1,1,1,0,0,0,1,0,0,1,1,0,0,0,1,
  0,0,0,1,0,0,0,0,0,0,0,0,1,0,0,0,0,1,0,0,0,1,1,0,0,0,0,1,0,0,1,1,
  1,0,0,1,0,1,0,1,0,1,1,0,0,0,0,1,1,0,1,1,1,1,0,1,0,0,1,1,0,1,1,1,
  0,0,1,0,0,0,1,0,1,0,0,0,0,1,0,1,0,1,1,0,1,0,0,1,1,1,1,1,1,0,1,1,
  0,0,1,0,0,1,0,0,1,0,1,1,0,1,1,1,1,1,1,0,0,1,0,0,1,1,0,1,0,1,0,0,
  1,1,0,0,1,1,0,0,0,0,0,0,0,1,1,0,0,0,1,1,0,0,1,0,1,0,0,0,1,1,0,1,
  0,0,1,0,1,1,1,1,1,1,1,0,1,0,0,0,1,0,1,1,0,0,0,1,1,1,0,1,0,1,1,0,
  0,1,0,1,1,0,0,1,1,1,1,0,0,0,1,1,1,1,1,0,1,1,1,0,1,0,0,0,0,0,1,1,
  0,1,0,1,1,0,1,1,0,1,1,1,0,1,1,0,0,0,0,0,1,0,1,1,0,1,0,1,1,1,1]

/-- The table `single_correlator_cf_impl::mseq2`. -/
def mseq2 : List Int := [
  1,0,1,0,1,0,1,0,1,1,1,1,0,1,1,1,1,1,1,0,0,1,1,1,1,0,1,0,0,1,0,0,
  1,1,1,1,1,0,0,1,0,1,1,1,1,1,0,1,0,0,0,0,0,0,1,0,1,1,0,0,0,1,0,0,
  1,1,0,0,1,1,1,0,1,1,1,1,0,1,0,1,1,0,1,1,0,1,1,1,0,1,0,1,0,1,1,0,
  1,0,0,1,0,1,1,1,0,1,0,0,0,1,0,0,0,0,0,1,0,0,0,0,1,1,0,1,0,1,1,1,
  0,1,1,0,0,0,0,1,0,0,0,1,1,1,1,1,1,1,1,1,0,0,0,1,1,0,0,0,0,0,1,0,
  1,0,0,0,1,1,1,0,1,1,0,1,0,0,0,0,1,0,1,1,1,0,0,0,0,1,1,1,0,0,0,0,
  0,1,1,1,0,1,0,0,1,1,0,1,0,1,0,1,0,0,1,1,0,0,0,1,1,1,1,0,1,1,0,1,
  1,0,0,1,1,1,1,1,1,0,1,1,1,0,1,1,1,0,0,1,1,1,0,0,1,1,0,0,0,0,1,1,
  0,0,0,1,0,1,1,1,1,0,0,1,1,0,1,0,0,0,1,1,0,0,1,0,0,0,0,0,0,0,0,1,
  0,0,1,0,1,0,0,0,0,1,1,1,1,0,0,1,0,0,1,1,0,1,1,1,0,0,0,1,1,1,0,0,
  1,0,0,0,1,0,0,1,0,0,0,0,1,0,0,1,1,1,0,1,0,1,1,1,1,1,1,1,0,1,0,1,
  0,0,1,0,0,0,1,1,0,1,1,0,1,0,1,0,0,0,0,0,1,1,0,0,1,1,0,0,1,0,1,0,
  0,1,0,1,0,1,0,0,0,1,0,1,0,0,1,1,1,0,0,0,1,0,1,0,1,1,1,0,0,1,0,1,
  0,1,1,0,0,0,0,0,0,0,1,1,0,1,1,1,1,0,0,0,1,0,0,0,1,0,1,1,0,1,0,1,
  1,0,0,1,0,0,1,0,0,1,0,1,1,0,0,1,1,0,1,1,0,0,0,1,1,0,1,0,0,1,1,1,
  1,0,0,0,0,0,0,1,1,1,1,1,0,1,1,0,0,1,0,1,1,0,1,1,1,1,1,0,0,0,0]

/-- The function `single_correlator_cf_impl::generate_prn`: fills `m_prn` from `prn_id` and
pads it. -/
def generate_prn (prn_id : Int) (m_prn : List Int) : Option (List Int) :=
  ((if prn_id = -2 then
        -- Deep copy M-sequence
        forLoop 0 M_SEQUENCE_LENGTH 1
          (fun k m => (rd mseq1 k).andThen fun v => wr m k v) m_prn
      else if prn_id = -1 then
        -- Deep copy M-sequence
        forLoop 0 M_SEQUENCE_LENGTH 1
          (fun k m => (rd mseq2 k).andThen fun v => wr m k v) m_prn
      else
        -- Generate Gold Codes by xor'ing 2 M-sequences in different phases
        (forLoop 0 (M_SEQUENCE_LENGTH - prn_id) 1
          (fun k m => (rd mseq1 k).andThen fun a => (rd mseq2 (k + prn_id)).andThen fun b =>
            wr m k (Int.xor a b)) m_prn).andThen fun m =>
        forLoop (M_SEQUENCE_LENGTH - prn_id) M_SEQUENCE_LENGTH 1
          (fun k m => (rd mseq1 k).andThen fun a =>
            (rd mseq2 (k - M_SEQUENCE_LENGTH + prn_id)).andThen fun b =>
            wr m k (Int.xor a b)) m)).andThen fun m_prn =>
  -- To pad out the last byte, add a zero to the end
  wr m_prn (SPRITE_PRN_LENGTH - 1) 0

end single_correlator_cf_impl


/-! ## Complex samples -/

/-- The sample type `gr_complex` (`std::complex<float>`): real and imaginary part, each a
`float` modelled by the exact ring `R`. -/
@[ext]
structure gr_complex (R : Type) where
  re : R
  im : R

namespace gr_complex
variable {R : Type}

/-- Complex arithmetic of `std::complex`: componentwise sum, `(a + bi)(c + di) =
(ac - bd) + (ad + bc)i`. -/
instance instCommRing [CommRing R] : CommRing (gr_complex R) where
  zero := ⟨0, 0⟩
  one := ⟨1, 0⟩
  add a b := ⟨a.re + b.re, a.im + b.im⟩
  neg a := ⟨-a.re, -a.im⟩
  mul a b := ⟨a.re * b.re - a.im * b.im, a.re * b.im + a.im * b.re⟩
  nsmul n a := ⟨n • a.re, n • a.im⟩
  zsmul n a := ⟨n • a.re, n • a.im⟩
  add_assoc a b c := gr_complex.ext (add_assoc _ _ _) (add_assoc _ _ _)
  zero_add a := gr_complex.ext (zero_add _) (zero_add _)
  add_zero a := gr_complex.ext (add_zero _) (add_zero _)
  add_comm a b := gr_complex.ext (add_comm _ _) (add_comm _ _)
  neg_add_cancel a := gr_complex.ext (neg_add_cancel _) (neg_add_cancel _)
  nsmul_zero a := gr_complex.ext (zero_nsmul _) (zero_nsmul _)
  nsmul_succ n a := gr_complex.ext (succ_nsmul _ _) (succ_nsmul _ _)
  zsmul_zero' a := gr_complex.ext (zero_zsmul _) (zero_zsmul _)
  zsmul_succ' n a := gr_complex.ext (by
    show ((n : Nat).succ : Int) • a.re = (n : Int) • a.re + a.re
    rw [Int.ofNat_succ, add_zsmul, one_zsmul]) (by
    show ((n : Nat).succ : Int) • a.im = (n : Int) • a.im + a.im
    rw [Int.ofNat_succ, add_zsmul, one_zsmul])
  zsmul_neg' n a := gr_complex.ext (by
    show (Int.negSucc n) • a.re = -(((n + 1 : Nat) : Int) • a.re)
    rw [Int.negSucc_eq, neg_zsmul]; norm_cast) (by
    show (Int.negSucc n) • a.im = -(((n + 1 : Nat) : Int) • a.im)
    rw [Int.negSucc_eq, neg_zsmul]; norm_cast)
  mul_assoc a b c := gr_complex.ext
    (by show (a.re * b.re - a.im * b.im) * c.re - (a.re * b.im + a.im * b.re) * c.im
          = a.re * (b.re * c.re - b.im * c.im) - a.im * (b.re * c.im + b.im * c.re); ring)
    (by show (a.re * b.re - a.im * b.im) * c.im + (a.re * b.im + a.im * b.re) * c.re
          = a.re * (b.re * c.im + b.im * c.re) + a.im * (b.re * c.re - b.im * c.im); ring)
  one_mul a := gr_complex.ext
    (by show 1 * a.re - 0 * a.im = a.re; ring) (by show 1 * a.im + 0 * a.re = a.im; ring)
  mul_one a := gr_complex.ext
    (by show a.re * 1 - a.im * 0 = a.re; ring) (by show a.re * 0 + a.im * 1 = a.im; ring)
  zero_mul a := gr_complex.ext
    (by show 0 * a.re - 0 * a.im = 0; ring) (by show 0 * a.im + 0 * a.re = 0; ring)
  mul_zero a := gr_complex.ext
    (by show a.re * 0 - a.im * 0 = 0; ring) (by show a.re * 0 + a.im * 0 = 0; ring)
  left_distrib a b c := gr_complex.ext
    (by show a.re * (b.re + c.re) - a.im * (b.im + c.im)
          = a.re * b.re - a.im * b.im + (a.re * c.re - a.im * c.im); ring)
    (by show a.re * (b.im + c.im) + a.im * (b.re + c.re)
          = a.re * b.im + a.im * b.re + (a.re * c.im + a.im * c.re); ring)
  right_distrib a b c := gr_complex.ext
    (by show (a.re + b.re) * c.re - (a.im + b.im) * c.im
          = a.re * c.re - a.im * c.im + (b.re * c.re - b.im * c.im); ring)
    (by show (a.re + b.re) * c.im + (a.im + b.im) * c.re
          = a.re * c.im + a.im * c.re + (b.re * c.im + b.im * c.re); ring)
  mul_comm a b := gr_complex.ext
    (by show a.re * b.re - a.im * b.im = b.re * a.re - b.im * a.im; ring)
    (by show a.re * b.im + a.im * b.re = b.re * a.im + b.im * a.re; ring)

/-- The function `conj` of `<complex>`. -/
def conj [Neg R] (z : gr_complex R) : gr_complex R := ⟨z.re, -z.im⟩

/-- The function `real` of `<complex>`. -/
def real (z : gr_complex R) : R := z.re

/-- Conversion of a real to a complex number (imaginary part 0), as in `double + complex`. -/
def ofReal [Zero R] (x : R) : gr_complex R := ⟨x, 0⟩

end gr_complex

/-- The value `cos(M_PI/2*k)` taken exactly: 1, 0, -1, 0 for `k = 0, 1, 2, 3` modulo 4 (the C
library returns this up to a rounding error of the order of `k * 1e-16`). -/
def cos_half_pi {R : Type} [Ring R] (k : Int) : R :=
  if k % 4 = 0 then 1 else if k % 4 = 2 then -1 else 0

/-- The value `sin(M_PI/2*k)` taken exactly: 0, 1, 0, -1 for `k = 0, 1, 2, 3` modulo 4. -/
def sin_half_pi {R : Type} [Ring R] (k : Int) : R :=
  if k % 4 = 1 then 1 else if k % 4 = 3 then -1 else 0

/-- Conversion of an `int` to `char` (8 bits, two's complement). -/
def to_char (x : Int) : Int := (x + 128) % 256 - 128

/-! ## The dual-code engine -/

/-- The members of a `correlator_cf_impl` object (`correlator_cf_impl.h`); the FFT input
and output buffers are those of the plans `m_fft0` and `m_fft1`. -/
structure correlator_cf_impl (R : Type) where
  m_prn0 : List Int
  m_prn1 : List Int
  m_template0 : List (gr_complex R)
  m_template1 : List (gr_complex R)
  m_buffer_real1 : List R
  m_buffer_real2 : List R
  m_buffer_real3 : List R
  m_fft_buffer_in0 : List (gr_complex R)
  m_fft_buffer_out0 : List (gr_complex R)
  m_fft_buffer_in1 : List (gr_complex R)
  m_fft_buffer_out1 : List (gr_complex R)

namespace correlator_cf_impl

/-- The function `correlator_cf_impl::cc430_modulator`: differential encoding of the chips
into `diffs`, the half-rate rails `iBB` and `qBB`, and the quarter-cycle subcarrier into
`baseBand`.  `diffs`, `iBB`, `qBB` are the scratch members `m_buffer_real1..3`; all four
buffers are returned. -/
def cc430_modulator {R : Type} [CommRing R] (prnBits : List Int) (diffs iBB qBB : List R)
    (baseBand : List (gr_complex R)) :
    Option (List R × List R × List R × List (gr_complex R)) :=
  -- Differentially encode with +/-1 values
  (rd prnBits 0).andThen fun p0 =>
  (wr diffs 0 (((-2 * p0 + 1 : Int) : R))).andThen fun diffs =>
  (forLoop 1 SPRITE_PRN_LENGTH 1
    (fun k (diffs : List R) =>
      (rd prnBits k).andThen fun pk => (rd prnBits (k - 1)).andThen fun pk1 =>
      if to_char (pk - pk1) = 0 then wr diffs k 1 else wr diffs k (-1)) diffs).andThen fun diffs =>
  -- Initialize with offset between I and Q
  (wr iBB 0 1).andThen fun iBB =>
  (rd diffs 0).andThen fun d0 => (wr qBB 0 d0).andThen fun qBB =>
  (rd diffs 0).andThen fun d0 => (wr qBB 1 d0).andThen fun qBB =>
  (forLoop 1 (SPRITE_PRN_LENGTH - 2) 2
    (fun k (iBB : List R) =>
      (rd diffs k).andThen fun d => (rd iBB (k - 1)).andThen fun p =>
      (wr iBB k (d * p)).andThen fun iBB =>
      (rd iBB k).andThen fun v => wr iBB (k + 1) v) iBB).andThen fun iBB =>
  (rd diffs (SPRITE_PRN_LENGTH - 1)).andThen fun d =>
  (rd iBB (SPRITE_PRN_LENGTH - 2)).andThen fun p =>
  (wr iBB (SPRITE_PRN_LENGTH - 1) (d * p)).andThen fun iBB =>
  (forLoop 2 SPRITE_PRN_LENGTH 2
    (fun k (qBB : List R) =>
      (rd diffs k).andThen fun d => (rd qBB (k - 1)).andThen fun p =>
      (wr qBB k (d * p)).andThen fun qBB =>
      (rd qBB k).andThen fun v => wr qBB (k + 1) v) qBB).andThen fun qBB =>
  (forLoop 0 SPRITE_PRN_LENGTH 1
    (fun k (baseBand : List (gr_complex R)) =>
      (rd iBB k).andThen fun i => (rd qBB k).andThen fun q =>
      wr baseBand k
        (gr_complex.ofReal (i * cos_half_pi k) + (⟨0, q * sin_half_pi k⟩ : gr_complex R)))
    baseBand).andThen fun baseBand =>
  some (diffs, iBB, qBB, baseBand)

/-- The constructor `correlator_cf_impl::correlator_cf_impl`, run on a freshly allocated
object `self` (members with arbitrary contents): generates the two codes, modulates them
into the two templates and conjugates the templates in place. -/
def make {R : Type} [CommRing R] (prn_id0 prn_id1 : Int) (self : correlator_cf_impl R) :
    Option (correlator_cf_impl R) :=
  (generate_prns prn_id0 prn_id1 self.m_prn0 self.m_prn1).andThen fun prns =>
  (cc430_modulator prns.1 self.m_buffer_real1 self.m_buffer_real2 self.m_buffer_real3
    self.m_template0).andThen fun r0 =>
  (cc430_modulator prns.2 r0.1 r0.2.1 r0.2.2.1 self.m_template1).andThen fun r1 =>
  (forLoop 0 SPRITE_PRN_LENGTH 1
    (fun k (t : List (gr_complex R) × List (gr_complex R)) =>
      (rd t.1 k).andThen fun a => (wr t.1 k (gr_complex.conj a)).andThen fun t0 =>
      (rd t.2 k).andThen fun b => (wr t.2 k (gr_complex.conj b)).andThen fun t1 =>
      some (t0, t1)) (r0.2.2.2, r1.2.2.2)).andThen fun t =>
  some { self with
    m_prn0 := prns.1, m_prn1 := prns.2, m_template0 := t.1, m_template1 := t.2,
    m_buffer_real1 := r1.1, m_buffer_real2 := r1.2.1, m_buffer_real3 := r1.2.2.1 }

/-- The block "Find largest value in FFT" of `correlator_cf_impl::work`, which the function
runs on `m_fft_buffer_out0` and then on `m_fft_buffer_out1`: returns `(max, index)`.  The
loop state is `(mag, max, index)`; `index` is a `float` in the source. -/
def peak_scan {R : Type} [CommRing R] [LinearOrder R] (F : List (gr_complex R)) :
    Option (R × R) :=
  (rd F 0).andThen fun f0 =>
  let mag := gr_complex.real (f0 * gr_complex.conj f0)
  (forLoop 1 SPRITE_PRN_LENGTH 1
    (fun j (s : R × R × R) =>
      (rd F j).andThen fun f =>
      let mag := gr_complex.real (f * gr_complex.conj f)
      if mag > s.2.1 then some (mag, mag, ((j : Int) : R)) else some (mag, s.2.1, s.2.2))
    (mag, mag, 0)).andThen fun s =>
  some (s.2.1, s.2.2)

/-- The function `correlator_cf_impl::work`.  `fft` is the forward transform run by
`execute()` from a plan's input buffer to its output buffer, `sqrt` the square root of
`<cmath>`.  Returns the object, the output buffer and the returned item count. -/
def work {R : Type} [CommRing R] [LinearOrder R]
    (fft : List (gr_complex R) → List (gr_complex R)) (sqrt : R → R)
    (self : correlator_cf_impl R) (noutput_items : Int) (inp : List (gr_complex R))
    (out : List R) : Option (correlator_cf_impl R × List R × Int) :=
  (forLoop 0 noutput_items 1
    (fun k (st : correlator_cf_impl R × List R) =>
      -- Pointwise multiply by baseband template and copy to fft input
      (forLoop 0 SPRITE_PRN_LENGTH 1
        (fun j (b : List (gr_complex R) × List (gr_complex R)) =>
          (rd st.1.m_template0 j).andThen fun t0 => (rd inp (j + k)).andThen fun x0 =>
          (wr b.1 j (t0 * x0)).andThen fun in0 =>
          (rd st.1.m_template1 j).andThen fun t1 => (rd inp (j + k)).andThen fun x1 =>
          (wr b.2 j (t1 * x1)).andThen fun in1 =>
          some (in0, in1))
        (st.1.m_fft_buffer_in0, st.1.m_fft_buffer_in1)).andThen fun b =>
      -- Take FFT
      let out0 := fft b.1
      let out1 := fft b.2
      -- Find largest value in FFT
      (peak_scan out0).andThen fun p0 =>
      (peak_scan out1).andThen fun p1 =>
      (wr st.2 k (if p1.1 ≥ p0.1 then sqrt p1.1 else -sqrt p0.1)).andThen fun out =>
      some ({ st.1 with
        m_fft_buffer_in0 := b.1, m_fft_buffer_out0 := out0,
        m_fft_buffer_in1 := b.2, m_fft_buffer_out1 := out1 }, out))
    (self, out)).andThen fun st =>
  -- Tell runtime system how many output items we produced.
  some (st.1, st.2, noutput_items)

end correlator_cf_impl

/-! ## The single-code engine -/

/-- The members of a `single_correlator_cf_impl` object (`single_correlator_cf_impl.h`); the
FFT input and output buffers are those of the plan `m_fft`. -/
structure single_correlator_cf_impl (R : Type) where
  m_prn : List Int
  m_template : List (gr_complex R)
  m_buffer_real1 : List R
  m_buffer_real2 : List R
  m_buffer_real3 : List R
  m_fft_buffer_in : List (gr_complex R)
  m_fft_buffer_out : List (gr_complex R)

namespace single_correlator_cf_impl

/-- The function `single_correlator_cf_impl::cc430_modulator`: differential encoding of the chips
into `diffs`, the half-rate rails `iBB` and `qBB`, and the quarter-cycle subcarrier into
`baseBand`.  `diffs`, `iBB`, `qBB` are the scratch members `m_buffer_real1..3`; all four
buffers are returned. -/
def cc430_modulator {R : Type} [CommRing R] (prnBits : List Int) (diffs iBB qBB : List R)
    (baseBand : List (gr_complex R)) :
    Option (List R × List R × List R × List (gr_complex R)) :=
  -- Differentially encode with +/-1 values
  (rd prnBits 0).andThen fun p0 =>
  (wr diffs 0 (((-2 * p0 + 1 : Int) : R))).andThen fun diffs =>
  (forLoop 1 SPRITE_PRN_LENGTH 1
    (fun k (diffs : List R) =>
      (rd prnBits k).andThen fun pk => (rd prnBits (k - 1)).andThen fun pk1 =>
      if to_char (pk - pk1) = 0 then wr diffs k 1 else wr diffs k (-1)) diffs).andThen fun diffs =>
  -- Initialize with offset between I and Q
  (wr iBB 0 1).andThen fun iBB =>
  (rd diffs 0).andThen fun d0 => (wr qBB 0 d0).andThen fun qBB =>
  (rd diffs 0).andThen fun d0 => (wr qBB 1 d0).andThen fun qBB =>
  (forLoop 1 (SPRITE_PRN_LENGTH - 2) 2
    (fun k (iBB : List R) =>
      (rd diffs k).andThen fun d => (rd iBB (k - 1)).andThen fun p =>
      (wr iBB k (d * p)).andThen fun iBB =>
      (rd iBB k).andThen fun v => wr iBB (k + 1) v) iBB).andThen fun iBB =>
  (rd diffs (SPRITE_PRN_LENGTH - 1)).andThen fun d =>
  (rd iBB (SPRITE_PRN_LENGTH - 2)).andThen fun p =>
  (wr iBB (SPRITE_PRN_LENGTH - 1) (d * p)).andThen fun iBB =>
  (forLoop 2 SPRITE_PRN_LENGTH 2
    (fun k (qBB : List R) =>
      (rd diffs k).andThen fun d => (rd qBB (k - 1)).andThen fun p =>
      (wr qBB k (d * p)).andThen fun qBB =>
      (rd qBB k).andThen fun v => wr qBB (k + 1) v) qBB).andThen fun qBB =>
  (forLoop 0 SPRITE_PRN_LENGTH 1
    (fun k (baseBand : List (gr_complex R)) =>
      (rd iBB k).andThen fun i => (rd qBB k).andThen fun q =>
      wr baseBand k
        (gr_complex.ofReal (i * cos_half_pi k) + (⟨0, q * sin_half_pi k⟩ : gr_complex R)))
    baseBand).andThen fun baseBand =>
  some (diffs, iBB, qBB, baseBand)

/-- The constructor `single_correlator_cf_impl::single_correlator_cf_impl`, run on a freshly
allocated object `self` (members with arbitrary contents): generates the code, modulates it
into the template and conjugates the template in place. -/
def make {R : Type} [CommRing R] (prn_id : Int) (self : single_correlator_cf_impl R) :
    Option (single_correlator_cf_impl R) :=
  (generate_prn prn_id self.m_prn).andThen fun prn =>
  (cc430_modulator prn self.m_buffer_real1 self.m_buffer_real2 self.m_buffer_real3
    self.m_template).andThen fun r =>
  (forLoop 0 SPRITE_PRN_LENGTH 1
    (fun k (t : List (gr_complex R)) =>
      (rd t k).andThen fun a => wr t k (gr_complex.conj a)) r.2.2.2).andThen fun t =>
  some { self with
    m_prn := prn, m_template := t,
    m_buffer_real1 := r.1, m_buffer_real2 := r.2.1, m_buffer_real3 := r.2.2.1 }

/-- The function `single_correlator_cf_impl::work`.  `fft` is the forward transform run by
`execute()` from the plan's input buffer to its output buffer.  Returns the object, the
output buffer and the returned item count. -/
def work {R : Type} [CommRing R]
    (fft : List (gr_complex R) → List (gr_complex R))
    (self : single_correlator_cf_impl R) (noutput_items : Int) (inp : List (gr_complex R))
    (out : List R) : Option (single_correlator_cf_impl R × List R × Int) :=
  (forLoop 0 noutput_items 1
    (fun k (st : single_correlator_cf_impl R × List R) =>
      -- Pointwise multiply by baseband template and copy to fft input
      (forLoop 0 SPRITE_PRN_LENGTH 1
        (fun j (b : List (gr_complex R)) =>
          (rd st.1.m_template j).andThen fun t => (rd inp (j + k)).andThen fun x =>
          wr b j (t * x))
        st.1.m_fft_buffer_in).andThen fun b =>
      -- Take FFT
      let fout := fft b
      -- Sum power
      (forLoop 0 SPRITE_PRN_LENGTH 1
        (fun j (pow : R) =>
          (rd fout j).andThen fun f => some (pow + gr_complex.real (f * gr_complex.conj f)))
        0).andThen fun pow =>
      (wr st.2 k pow).andThen fun out =>
      some ({ st.1 with m_fft_buffer_in := b, m_fft_buffer_out := fout }, out))
    (self, out)).andThen fun st =>
  -- Tell runtime system how many output items we produced.
  some (st.1, st.2, noutput_items)

end single_correlator_cf_impl

/-! ## Closed forms used in the proofs -/

/-- Chip `k` of the code selected by `s`, read off the tables `m1`, `m2`: the raw
M-sequences for `-2` and `-1`, otherwise `m1` XOR `m2` rotated cyclically by `s`. -/
def chip (m1 m2 : List Int) (s : Int) (k : Nat) : Int :=
  if s = -2 then m1.getD k 0
  else if s = -1 then m2.getD k 0
  else Int.xor (m1.getD k 0) (m2.getD (((k : Int) + s) % 511).toNat 0)

/-- The 512-chip code selected by `s`: 511 chips followed by the padding zero. -/
def prn_code (m1 m2 : List Int) (s : Int) : List Int :=
  (List.range 511).map (chip m1 m2 s) ++ [0]

/-- One slot of PRN generation over arbitrary tables: the block that `generate_prns` runs
once per code buffer and `generate_prn` runs once (used to share proofs between them). -/
def prn_slot (m1 m2 : List Int) (prn_id : Int) (m_prn : List Int) : Option (List Int) :=
  (if prn_id = -2 then
      forLoop 0 M_SEQUENCE_LENGTH 1 (fun k m => (rd m1 k).andThen fun v => wr m k v) m_prn
    else if prn_id = -1 then
      forLoop 0 M_SEQUENCE_LENGTH 1 (fun k m => (rd m2 k).andThen fun v => wr m k v) m_prn
    else
      (forLoop 0 (M_SEQUENCE_LENGTH - prn_id) 1
        (fun k m => (rd m1 k).andThen fun a => (rd m2 (k + prn_id)).andThen fun b =>
          wr m k (Int.xor a b)) m_prn).andThen fun m =>
      forLoop (M_SEQUENCE_LENGTH - prn_id) M_SEQUENCE_LENGTH 1
        (fun k m => (rd m1 k).andThen fun a =>
          (rd m2 (k - M_SEQUENCE_LENGTH + prn_id)).andThen fun b =>
          wr m k (Int.xor a b)) m).andThen fun m_prn =>
  wr m_prn (SPRITE_PRN_LENGTH - 1) 0

/-- Entry `k` of `diffs` as the modulator leaves it for the chips `code`. -/
def diff_seq (code : List Int) (k : Nat) : Int :=
  if k = 0 then -2 * code.getD 0 0 + 1
  else if to_char (code.getD k 0 - code.getD (k - 1) 0) = 0 then 1 else -1

/-- Entry `k` of `iBB` as the modulator leaves it: 1 at 0, multiplied by `diffs[k]` at each
odd `k` and held at each even `k`. -/
def iBB_seq (code : List Int) : Nat → Int
  | 0 => 1
  | k + 1 => if (k + 1) % 2 = 1 then diff_seq code (k + 1) * iBB_seq code k else iBB_seq code k

/-- Entry `k` of `qBB` as the modulator leaves it: `diffs[0]` at 0 and 1, multiplied by
`diffs[k]` at each even `k ≥ 2` and held at each odd `k`. -/
def qBB_seq (code : List Int) : Nat → Int
  | 0 => diff_seq code 0
  | k + 1 => if k ≠ 0 ∧ (k + 1) % 2 = 0 then diff_seq code (k + 1) * qBB_seq code k
      else qBB_seq code k

/-- Entry `k` of `baseBand` as the modulator leaves it. -/
def baseBand_seq {R : Type} [CommRing R] (code : List Int) (k : Nat) : gr_complex R :=
  gr_complex.ofReal (((iBB_seq code k : Int) : R) * cos_half_pi (k : Int)) +
    (⟨0, ((qBB_seq code k : Int) : R) * sin_half_pi (k : Int)⟩ : gr_complex R)

/-- The buffer holding `f 0, ..., f 511`. -/
@[irreducible]
def buf512 {α : Type} (f : Nat → α) : List α := (List.range 512).map f

/-- The squared magnitude `|z|^2 = re^2 + im^2`. -/
def normSq {R : Type} [CommRing R] (z : gr_complex R) : R := z.re * z.re + z.im * z.im

/-! ## The per-window step of section 4.3, stated on its own -/

/-- The window at output position `k`: samples `k .. k + 511` of the input stream. -/
def window {R : Type} [CommRing R] (inp : List (gr_complex R)) (k : Nat) :
    List (gr_complex R) :=
  buf512 fun j => inp.getD (k + j) 0

/-- Step 1: the pointwise product `P[j] = T[j] * W[j]` for `j` in `[0, 511]`. -/
def pointwise {R : Type} [CommRing R] (T W : List (gr_complex R)) : List (gr_complex R) :=
  buf512 fun j => T.getD j 0 * W.getD j 0

/-- Step 3: `max = max_j |F[j]|^2` over the 512 bins. -/
def max_mag {R : Type} [CommRing R] [LinearOrder R] (F : List (gr_complex R)) : R :=
  (Finset.range 512).sup' ⟨0, Finset.mem_range.mpr (by decide)⟩ fun j => normSq (F.getD j 0)

/-- Step 4, the dual-code decision: `+sqrt(max1)` if `max1 >= max0`, else `-sqrt(max0)`. -/
def dual_output {R : Type} [CommRing R] [LinearOrder R]
    (fft : List (gr_complex R) → List (gr_complex R)) (sqrt : R → R)
    (T0 T1 W : List (gr_complex R)) : R :=
  if max_mag (fft (pointwise T1 W)) ≥ max_mag (fft (pointwise T0 W))
  then sqrt (max_mag (fft (pointwise T1 W))) else -sqrt (max_mag (fft (pointwise T0 W)))

/-- Step 5, the single-code decision: `sum_j |F[j]|^2` over the 512 bins. -/
def single_output {R : Type} [CommRing R]
    (fft : List (gr_complex R) → List (gr_complex R)) (T W : List (gr_complex R)) : R :=
  ∑ j ∈ Finset.range 512, normSq ((fft (pointwise T W)).getD j 0)

/-- The body of the sample loop of `correlator_cf_impl::work`. -/
def dual_body {R : Type} [CommRing R] [LinearOrder R]
    (fft : List (gr_complex R) → List (gr_complex R)) (sqrt : R → R)
    (inp : List (gr_complex R)) (k : Int) (st : correlator_cf_impl R × List R) :
    Option (correlator_cf_impl R × List R) :=
  (forLoop 0 SPRITE_PRN_LENGTH 1
    (fun j (b : List (gr_complex R) × List (gr_complex R)) =>
      (rd st.1.m_template0 j).andThen fun t0 => (rd inp (j + k)).andThen fun x0 =>
      (wr b.1 j (t0 * x0)).andThen fun in0 =>
      (rd st.1.m_template1 j).andThen fun t1 => (rd inp (j + k)).andThen fun x1 =>
      (wr b.2 j (t1 * x1)).andThen fun in1 =>
      some (in0, in1))
    (st.1.m_fft_buffer_in0, st.1.m_fft_buffer_in1)).andThen fun b =>
  (correlator_cf_impl.peak_scan (fft b.1)).andThen fun p0 =>
  (correlator_cf_impl.peak_scan (fft b.2)).andThen fun p1 =>
  (wr st.2 k (if p1.1 ≥ p0.1 then sqrt p1.1 else -sqrt p0.1)).andThen fun out =>
  some ({ st.1 with
    m_fft_buffer_in0 := b.1, m_fft_buffer_out0 := fft b.1,
    m_fft_buffer_in1 := b.2, m_fft_buffer_out1 := fft b.2 }, out)

/-- The body of the sample loop of `single_correlator_cf_impl::work`. -/
def single_body {R : Type} [CommRing R]
    (fft : List (gr_complex R) → List (gr_complex R))
    (inp : List (gr_complex R)) (k : Int) (st : single_correlator_cf_impl R × List R) :
    Option (single_correlator_cf_impl R × List R) :=
  (forLoop 0 SPRITE_PRN_LENGTH 1
    (fun j (b : List (gr_complex R)) =>
      (rd st.1.m_template j).andThen fun t => (rd inp (j + k)).andThen fun x =>
      wr b j (t * x))
    st.1.m_fft_buffer_in).andThen fun b =>
  (forLoop 0 SPRITE_PRN_LENGTH 1
    (fun j (pow : R) =>
      (rd (fft b) j).andThen fun f =>
      some (pow + gr_complex.real (f * gr_complex.conj f)))
    0).andThen fun pow =>
  (wr st.2 k pow).andThen fun out =>
  some ({ st.1 with m_fft_buffer_in := b, m_fft_buffer_out := fft b }, out)

/-- The dual engine after `i` iterations of the sample loop on `inp`: untouched for `i = 0`,
otherwise with the FFT buffers of the last window processed. -/
def after_steps {R : Type} [CommRing R]
    (fft : List (gr_complex R) → List (gr_complex R)) (self : correlator_cf_impl R)
    (inp : List (gr_complex R)) : Nat → correlator_cf_impl R
  | 0 => self
  | i + 1 => { self with
      m_fft_buffer_in0 := pointwise self.m_template0 (window inp i),
      m_fft_buffer_out0 := fft (pointwise self.m_template0 (window inp i)),
      m_fft_buffer_in1 := pointwise self.m_template1 (window inp i),
      m_fft_buffer_out1 := fft (pointwise self.m_template1 (window inp i)) }

/-- The single engine after `i` iterations of the sample loop on `inp`. -/
def single_after_steps {R : Type} [CommRing R]
    (fft : List (gr_complex R) → List (gr_complex R)) (self : single_correlator_cf_impl R)
    (inp : List (gr_complex R)) : Nat → single_correlator_cf_impl R
  | 0 => self
  | i + 1 => { self with
      m_fft_buffer_in := pointwise self.m_template (window inp i),
      m_fft_buffer_out := fft (pointwise self.m_template (window inp i)) }

/-- Modelled from the spec: the forward 512-point discrete Fourier transform that
`execute()` of the FFT plan `fft::fft_complex(SPRITE_PRN_LENGTH, true, 1)` computes (the
transform is GNU Radio's, not code of this repository):
`F[m] = sum_j x[j] * w^(j*m)` for `m` in `[0, 511]`, where `w = exp(-2*pi*i/512)` is passed
in as `w`. -/
def dft {R : Type} [CommRing R] (w : gr_complex R) (x : List (gr_complex R)) :
    List (gr_complex R) :=
  buf512 fun m => ∑ j ∈ Finset.range 512, x.getD j 0 * w ^ (j * m)

/-! ## Exact arithmetic: the reals -/

/-- A `gr_complex` over the reals as a complex number. -/
def toComplex (z : gr_complex ℝ) : ℂ := ⟨z.re, z.im⟩

/-- The embedding `toComplex` as a ring homomorphism. -/
def toComplexHom : gr_complex ℝ →+* ℂ where
  toFun := toComplex
  map_one' := rfl
  map_zero' := rfl
  map_mul' _ _ := Complex.ext rfl rfl
  map_add' _ _ := Complex.ext rfl rfl

/-! ## Predicates of the statements -/

/-- A 512-chip code that copies the 511-entry table `table` and ends in the padding zero. -/
def IsPaddedCopy (table code : List Int) : Prop :=
  code.length = 512 ∧ (∀ k : Nat, k ≤ 510 → code[k]? = table[k]?) ∧ code[511]? = some 0

/-- A 512-chip code whose chip `k ≤ 510` is `m1[k] XOR m2[(k + s) mod 511]` and whose last
chip is the padding zero. -/
def IsGoldCode (m1 m2 : List Int) (s : Int) (code : List Int) : Prop :=
  code.length = 512 ∧
  (∀ k : Nat, k ≤ 510 → ∃ a b, m1[k]? = some a ∧ m2[(((k : Int) + s) % 511).toNat]? = some b ∧
    code[k]? = some (Int.xor a b)) ∧
  code[511]? = some 0

/-- A 512-entry code all of whose entries are 0 or 1 and whose last entry is 0. -/
def IsBitCode (code : List Int) : Prop :=
  code.length = 512 ∧ (∀ k : Nat, k < 512 → code[k]? = some 0 ∨ code[k]? = some 1) ∧
  code[511]? = some 0

/-- The streaming contract of a `work` function `run` whose per-window step is `step`,
for the object `self`: a call for `n` items on an input of at least `n + 511` samples
and an output buffer of at least `n` entries
* returns `n` and an output buffer whose entries `k < n` are `step` of the window at `k`
  and whose entries `k ≥ n` are untouched;
* gives the same result on every input that agrees with `inp` on the samples `0 .. n + 510`;
* gives, for every split `n = n1 + n2`, the same outputs and the same final object as a
  call for `n1` items followed by a call for `n2` items on the input and the output buffer
  advanced by `n1`. -/
def StreamingContract {S R : Type} [CommRing R]
    (run : S → Int → List (gr_complex R) → List R → Option (S × List R × Int))
    (step : List (gr_complex R) → R) (self : S) : Prop :=
  ∀ (n : Nat) (inp : List (gr_complex R)) (out : List R),
    n + 511 ≤ inp.length → n ≤ out.length →
    ∃ self' out', run self (n : Int) inp out = some (self', out', (n : Int)) ∧
      out'.length = out.length ∧
      (∀ k, k < n → out'[k]? = some (step (window inp k))) ∧
      (∀ k, n ≤ k → out'[k]? = out[k]?) ∧
      (∀ inp2 : List (gr_complex R), (∀ j, j < n + 511 → inp2[j]? = inp[j]?) →
        run self (n : Int) inp2 out = some (self', out', (n : Int))) ∧
      (∀ n1 n2 : Nat, n1 + n2 = n → ∃ self1 out1 out2,
        run self (n1 : Int) inp out = some (self1, out1, (n1 : Int)) ∧
        run self1 (n2 : Int) (inp.drop n1) (out1.drop n1) = some (self', out2, (n2 : Int)) ∧
        out' = out1.take n1 ++ out2)

/-- The value `m` is the largest squared magnitude among the 512 bins of `F`. -/
def IsMaxMag {R : Type} [CommRing R] [LinearOrder R] (F : List (gr_complex R)) (m : R) :
    Prop :=
  (∃ j, j < 512 ∧ normSq (F.getD j 0) = m) ∧ ∀ j, j < 512 → normSq (F.getD j 0) ≤ m

/-- The members of a dual engine that `work` relies on have their declared length 512. -/
def WellSized {R : Type} (self : correlator_cf_impl R) : Prop :=
  self.m_template0.length = 512 ∧ self.m_template1.length = 512 ∧
  self.m_fft_buffer_in0.length = 512 ∧ self.m_fft_buffer_in1.length = 512

/-- The members of a single engine that `work` relies on have their declared length 512. -/
def SingleWellSized {R : Type} (self : single_correlator_cf_impl R) : Prop :=
  self.m_template.length = 512 ∧ self.m_fft_buffer_in.length = 512

/-- A dual engine all of whose buffers are zero-filled and of their declared length, used
to instantiate the statements. -/
def zero_engine (R : Type) [CommRing R] : correlator_cf_impl R :=
  { m_prn0 := List.replicate 512 0, m_prn1 := List.replicate 512 0,
    m_template0 := List.replicate 512 0, m_template1 := List.replicate 512 0,
    m_buffer_real1 := List.replicate 512 0, m_buffer_real2 := List.replicate 512 0,
    m_buffer_real3 := List.replicate 512 0,
    m_fft_buffer_in0 := List.replicate 512 0, m_fft_buffer_out0 := List.replicate 512 0,
    m_fft_buffer_in1 := List.replicate 512 0, m_fft_buffer_out1 := List.replicate 512 0 }

/-- A single engine all of whose buffers are zero-filled and of their declared length, used
to instantiate the statements. -/
def single_zero_engine (R : Type) [CommRing R] : single_correlator_cf_impl R :=
  { m_prn := List.replicate 512 0, m_template := List.replicate 512 0,
    m_buffer_real1 := List.replicate 512 0, m_buffer_real2 := List.replicate 512 0,
    m_buffer_real3 := List.replicate 512 0,
    m_fft_buffer_in := List.replicate 512 0, m_fft_buffer_out := List.replicate 512 0 }

/-- The relations of section 4.2, steps 1 to 3, between a code and the three sequences
`diff`, `iBB`, `qBB` (each of 512 entries). -/
def ModulatorSequences {R : Type} [CommRing R] (code : List Int) (diff iBB qBB : List R) :
    Prop :=
  diff.length = 512 ∧ iBB.length = 512 ∧ qBB.length = 512 ∧
  diff.getD 0 0 = ((1 - 2 * code.getD 0 0 : Int) : R) ∧
  (∀ k, 1 ≤ k → k ≤ 511 →
    diff.getD k 0 = if code.getD k 0 = code.getD (k - 1) 0 then 1 else -1) ∧
  iBB.getD 0 0 = 1 ∧
  (∀ k, k % 2 = 1 → 1 ≤ k → k ≤ 509 →
    iBB.getD k 0 = diff.getD k 0 * iBB.getD (k - 1) 0 ∧ iBB.getD (k + 1) 0 = iBB.getD k 0) ∧
  iBB.getD 511 0 = diff.getD 511 0 * iBB.getD 510 0 ∧
  qBB.getD 0 0 = diff.getD 0 0 ∧ qBB.getD 1 0 = diff.getD 0 0 ∧
  (∀ k, k % 2 = 0 → 2 ≤ k → k ≤ 510 →
    qBB.getD k 0 = diff.getD k 0 * qBB.getD (k - 1) 0 ∧ qBB.getD (k + 1) 0 = qBB.getD k 0)

/-- Every entry of the 512-entry code is 0 or 1. -/
def IsBits (code : List Int) : Prop :=
  code.length = 512 ∧ ∀ k, k < 512 → code.getD k 0 = 0 ∨ code.getD k 0 = 1

/-- The member arrays of a freshly allocated dual engine have their declared length 512
(their contents are arbitrary). -/
def Allocated {R : Type} (self : correlator_cf_impl R) : Prop :=
  self.m_prn0.length = 512 ∧ self.m_prn1.length = 512 ∧
  self.m_template0.length = 512 ∧ self.m_template1.length = 512 ∧
  self.m_buffer_real1.length = 512 ∧ self.m_buffer_real2.length = 512 ∧
  self.m_buffer_real3.length = 512 ∧
  self.m_fft_buffer_in0.length = 512 ∧ self.m_fft_buffer_in1.length = 512

/-- The member arrays of a freshly allocated single engine have their declared length 512
(their contents are arbitrary). -/
def SingleAllocated {R : Type} (self : single_correlator_cf_impl R) : Prop :=
  self.m_prn.length = 512 ∧ self.m_template.length = 512 ∧
  self.m_buffer_real1.length = 512 ∧ self.m_buffer_real2.length = 512 ∧
  self.m_buffer_real3.length = 512 ∧ self.m_fft_buffer_in.length = 512

/-- The Gold-code split with the two ranges meeting at `split - s`: chip `k` is
`m1[k] XOR m2[k + s]` for `k` in `[0, split - s)` and `m1[k] XOR m2[k - 511 + s]` for `k` in
`[split - s, 510]`, every table entry named being read with a checked access.  Section 4.1
states the split with `split = 510`; the loops of the generator meet at `split = 511`. -/
def GoldSplitAt (split : Int) (m1 m2 : List Int) (s : Int) (code : List Int) : Prop :=
  (∀ k : Int, 0 ≤ k → k < split - s →
    ∃ a b, rd m1 k = some a ∧ rd m2 (k + s) = some b ∧ rd code k = some (Int.xor a b)) ∧
  (∀ k : Int, split - s ≤ k → k ≤ 510 →
    ∃ a b, rd m1 k = some a ∧ rd m2 (k - 511 + s) = some b ∧ rd code k = some (Int.xor a b))

/-- The staggering law in the words of the testable properties: `iBB[2m+1] = iBB[2m]` for
`m` in `[0, 255]` and `qBB[2m] = qBB[2m-1]` for `m` in `[1, 255]`. -/
def StaggeringAsStated {R : Type} [CommRing R] (iBB qBB : List R) : Prop :=
  (∀ m : Nat, m ≤ 255 → iBB.getD (2 * m + 1) 0 = iBB.getD (2 * m) 0) ∧
  (∀ m : Nat, 1 ≤ m → m ≤ 255 → qBB.getD (2 * m) 0 = qBB.getD (2 * m - 1) 0)

/-- The pairs the modulator's loops hold constant: `iBB[k+1] = iBB[k]` for odd `k`, that is
`iBB[2m] = iBB[2m-1]` for `m` in `[1, 255]`, and `qBB[1] = qBB[0]`, `qBB[k+1] = qBB[k]` for
even `k`, that is `qBB[2m+1] = qBB[2m]` for `m` in `[0, 255]`. -/
def Staggering {R : Type} [CommRing R] (iBB qBB : List R) : Prop :=
  (∀ m : Nat, 1 ≤ m → m ≤ 255 → iBB.getD (2 * m) 0 = iBB.getD (2 * m - 1) 0) ∧
  (∀ m : Nat, m ≤ 255 → qBB.getD (2 * m + 1) 0 = qBB.getD (2 * m) 0)

/-- The product of the signs `1 - 2*code[j]` of the chips `j < k` (closed form used in the
proof of the phase-rotation law). -/
def phase_prod (code : List Int) : Nat → Int
  | 0 => 1
  | k + 1 => (1 - 2 * code.getD k 0) * phase_prod code k

/-! ## Buffers that record which cells have been written

The constructors run on freshly allocated members, whose cells hold no defined value until
they are written.  Here a cell is `none` until its first write, and a read of such a cell
fails like an access out of range. -/

/-- Checked read of a cell that must have been written: fails on an index out of range and
on a cell never written. -/
def rd_written {α : Type} (a : List (Option α)) (i : Int) : Option α :=
  (rd a i).andThen fun c => c

/-- Checked write to a buffer that records its writes: the cell becomes written. -/
def wr_written {α : Type} (a : List (Option α)) (i : Int) (v : α) : Option (List (Option α)) :=
  wr a i (some v)

/-- A buffer of `n` cells none of which has been written. -/
def unwritten (α : Type) (n : Nat) : List (Option α) := List.replicate n none

/-- A buffer all of whose cells have been written, with the contents `l`. -/
def written {α : Type} (l : List α) : List (Option α) := l.map some

namespace tracked

/-- The block of `generate_prns` (run once on `m_prn0`, once on `m_prn1`) and of
`generate_prn` (run on `m_prn`) over a code buffer that records its writes; `mseq1`, `mseq2`
are the constant tables of the header. -/
def generate_prn (mseq1 mseq2 : List Int) (prn_id : Int) (m_prn : List (Option Int)) :
    Option (List (Option Int)) :=
  (if prn_id = -2 then
      -- Deep copy M-sequence
      forLoop 0 M_SEQUENCE_LENGTH 1
        (fun k m => (rd mseq1 k).andThen fun v => wr_written m k v) m_prn
    else if prn_id = -1 then
      -- Deep copy M-sequence
      forLoop 0 M_SEQUENCE_LENGTH 1
        (fun k m => (rd mseq2 k).andThen fun v => wr_written m k v) m_prn
    else
      -- Generate Gold Codes by xor'ing 2 M-sequences in different phases
      (forLoop 0 (M_SEQUENCE_LENGTH - prn_id) 1
        (fun k m => (rd mseq1 k).andThen fun a => (rd mseq2 (k + prn_id)).andThen fun b =>
          wr_written m k (Int.xor a b)) m_prn).andThen fun m =>
      forLoop (M_SEQUENCE_LENGTH - prn_id) M_SEQUENCE_LENGTH 1
        (fun k m => (rd mseq1 k).andThen fun a =>
          (rd mseq2 (k - M_SEQUENCE_LENGTH + prn_id)).andThen fun b =>
          wr_written m k (Int.xor a b)) m).andThen fun m_prn =>
  -- To pad out the last byte, add a zero to the end
  wr_written m_prn (SPRITE_PRN_LENGTH - 1) 0

/-- The function `cc430_modulator` (the same in both engines) over buffers that record their
writes: the code is read from a recording buffer, and `diffs`, `iBB`, `qBB`, `baseBand`
record theirs. -/
def cc430_modulator {R : Type} [CommRing R] (prnBits : List (Option Int))
    (diffs iBB qBB : List (Option R)) (baseBand : List (Option (gr_complex R))) :
    Option (List (Option R) × List (Option R) × List (Option R) ×
      List (Option (gr_complex R))) :=
  -- Differentially encode with +/-1 values
  (rd_written prnBits 0).andThen fun p0 =>
  (wr_written diffs 0 (((-2 * p0 + 1 : Int) : R))).andThen fun diffs =>
  (forLoop 1 SPRITE_PRN_LENGTH 1
    (fun k (diffs : List (Option R)) =>
      (rd_written prnBits k).andThen fun pk => (rd_written prnBits (k - 1)).andThen fun pk1 =>
      if to_char (pk - pk1) = 0 then wr_written diffs k 1 else wr_written diffs k (-1))
    diffs).andThen fun diffs =>
  -- Initialize with offset between I and Q
  (wr_written iBB 0 1).andThen fun iBB =>
  (rd_written diffs 0).andThen fun d0 => (wr_written qBB 0 d0).andThen fun qBB =>
  (rd_written diffs 0).andThen fun d0 => (wr_written qBB 1 d0).andThen fun qBB =>
  (forLoop 1 (SPRITE_PRN_LENGTH - 2) 2
    (fun k (iBB : List (Option R)) =>
      (rd_written diffs k).andThen fun d => (rd_written iBB (k - 1)).andThen fun p =>
      (wr_written iBB k (d * p)).andThen fun iBB =>
      (rd_written iBB k).andThen fun v => wr_written iBB (k + 1) v) iBB).andThen fun iBB =>
  (rd_written diffs (SPRITE_PRN_LENGTH - 1)).andThen fun d =>
  (rd_written iBB (SPRITE_PRN_LENGTH - 2)).andThen fun p =>
  (wr_written iBB (SPRITE_PRN_LENGTH - 1) (d * p)).andThen fun iBB =>
  (forLoop 2 SPRITE_PRN_LENGTH 2
    (fun k (qBB : List (Option R)) =>
      (rd_written diffs k).andThen fun d => (rd_written qBB (k - 1)).andThen fun p =>
      (wr_written qBB k (d * p)).andThen fun qBB =>
      (rd_written qBB k).andThen fun v => wr_written qBB (k + 1) v) qBB).andThen fun qBB =>
  (forLoop 0 SPRITE_PRN_LENGTH 1
    (fun k (baseBand : List (Option (gr_complex R))) =>
      (rd_written iBB k).andThen fun i => (rd_written qBB k).andThen fun q =>
      wr_written baseBand k
        (gr_complex.ofReal (i * cos_half_pi k) + (⟨0, q * sin_half_pi k⟩ : gr_complex R)))
    baseBand).andThen fun baseBand =>
  some (diffs, iBB, qBB, baseBand)

end tracked

/-! ## M-sequences -/

/-- Entry `k` of a 511-entry table read cyclically: `t[k mod 511]`. -/
def cyc (t : List Int) (k : Nat) : Int := t.getD (k % 511) 0

/-- The XOR of the entries `a[k + i]`, `i` in `taps`, of the table read cyclically. -/
def lfsr_next (taps : List Nat) (t : List Int) (k : Nat) : Int :=
  taps.foldl (fun acc i => Int.xor acc (cyc t (k + i))) 0

/-- The table satisfies, read cyclically modulo 511, the linear recurrence of order 9 over
GF(2) with the given taps: the taps are a set of offsets in `[0, 8]` that includes 0, and
`a[k+9]` is the XOR of the `a[k+i]`, `i` a tap, for every `k`. -/
def IsRecurrence (taps : List Nat) (t : List Int) : Prop :=
  taps.Nodup ∧ 0 ∈ taps ∧ (∀ i ∈ taps, i ≤ 8) ∧ ∀ k : Nat, cyc t (k + 9) = lfsr_next taps t k

/-- The table read cyclically repeats after `p` entries. -/
def IsCyclicPeriod (t : List Int) (p : Nat) : Prop := ∀ k : Nat, cyc t (k + p) = cyc t k

/-- The cyclic window of 9 consecutive entries starting at `k`. -/
def window9 (t : List Int) (k : Nat) : List Int := (List.range 9).map fun i => cyc t (k + i)

/-- An M-sequence of length 511: 511 bits that satisfy a linear recurrence of order 9 when
read cyclically, with least cyclic period 511, whose 511 cyclic windows of 9 bits are
pairwise distinct and none all-zero. -/
def IsMSequence (t : List Int) : Prop :=
  t.length = 511 ∧ (∀ x ∈ t, x = 0 ∨ x = 1) ∧
  (∃ taps, IsRecurrence taps t) ∧
  (IsCyclicPeriod t 511 ∧ ∀ p, 0 < p → p < 511 → ¬ IsCyclicPeriod t p) ∧
  (∀ j k, j < 511 → k < 511 → window9 t j = window9 t k → j = k) ∧
  (∀ k, k < 511 → window9 t k ≠ List.replicate 9 0)
/-! ## Lemmas on arrays and loops -/

theorem andThen_eq_bind {α β : Type} (x : Option α) (f : α → Option β) :
    x.andThen f = x.bind f := rfl

theorem andThen_eq_some {α β : Type} {x : Option α} {f : α → Option β} {b : β}
    (h : x.andThen f = some b) : ∃ a, x = some a ∧ f a = some b :=
  Option.bind_eq_some.mp h

@[simp]
theorem andThen_some {α β : Type} (a : α) (f : α → Option β) : (some a).andThen f = f a := rfl


theorem rd_eq_getD {α : Type} (a : List α) (d : α) (k : Nat) (h : k < a.length) :
    rd a (k : Int) = some (a.getD k d) := by
  simp [rd, List.getD, List.getElem?_eq_getElem h]

theorem wr_eq_set {α : Type} (a : List α) (k : Nat) (v : α) (h : k < a.length) :
    wr a (k : Int) v = some (a.set k v) := by
  simp [wr, h]

/-- A loop whose `i`-th iteration stores `g (lo + i)` at index `lo + i` fills the slice
`[lo, lo + n)` with `g` and leaves the rest of the buffer alone. -/
theorem loopFrom_fill {α : Type} (body : Int → List α → Option (List α)) (g : Nat → α) :
    ∀ (n lo : Nat) (m : List α),
      (∀ i, i < n → ∀ m' : List α, body ((lo + i : Nat) : Int) m' = wr m' ((lo + i : Nat) : Int) (g (lo + i))) →
      lo + n ≤ m.length →
      ∃ m', loopFrom body 1 n (lo : Int) m = some m' ∧ m'.length = m.length ∧
        ∀ j, m'[j]? = if lo ≤ j ∧ j < lo + n then some (g j) else m[j]?
  | 0, lo, m, _, _ => ⟨m, rfl, rfl, fun j => by
      rw [if_neg (by omega)]⟩
  | n + 1, lo, m, hb, hlen => by
      have h0 := hb 0 (Nat.succ_pos n) m
      simp only [Nat.add_zero] at h0
      have hlo : lo < m.length := by omega
      rw [wr_eq_set _ _ _ hlo] at h0
      obtain ⟨m', hm', hl', hg'⟩ := loopFrom_fill body g n (lo + 1) (m.set lo (g lo))
        (fun i hi m' => by
          have := hb (i + 1) (Nat.succ_lt_succ hi) m'
          rwa [show lo + (i + 1) = lo + 1 + i by omega] at this)
        (by rw [List.length_set]; omega)
      refine ⟨m', ?_, ?_, ?_⟩
      · show (body (lo : Int) m).bind (loopFrom body 1 n ((lo : Int) + 1)) = some m'
        rw [h0]
        exact_mod_cast hm'
      · rw [hl', List.length_set]
      · intro j
        rw [hg' j, List.getElem?_set]
        by_cases h1 : lo = j
        · subst h1
          have : ¬ (lo + 1 ≤ lo ∧ lo < lo + 1 + n) := by omega
          simp [this, hlo]
        · by_cases h2 : lo + 1 ≤ j ∧ j < lo + 1 + n
          · have : lo ≤ j ∧ j < lo + (n + 1) := by omega
            simp [h2, this]
          · have : ¬ (lo ≤ j ∧ j < lo + (n + 1)) := by omega
            simp [h1, h2, this]

theorem buf512_length {α : Type} (f : Nat → α) : (buf512 f).length = 512 := by
  simp [buf512]

theorem buf512_getElem? {α : Type} (f : Nat → α) (j : Nat) :
    (buf512 f)[j]? = if j < 512 then some (f j) else none := by
  unfold buf512
  by_cases h : j < 512
  · rw [if_pos h, List.getElem?_map, List.getElem?_range h]; rfl
  · rw [if_neg h]
    exact List.getElem?_eq_none (by simpa using h)

theorem buf512_getD {α : Type} (f : Nat → α) (d : α) (j : Nat) (h : j < 512) :
    (buf512 f).getD j d = f j := by
  simp [List.getD, buf512_getElem?, h]

theorem eq_buf512 {α : Type} (l : List α) (f : Nat → α) (hl : l.length = 512)
    (h : ∀ j, j < 512 → l[j]? = some (f j)) : l = buf512 f := by
  refine List.ext_getElem? fun j => ?_
  rw [buf512_getElem?]
  by_cases hj : j < 512
  · rw [if_pos hj, h j hj]
  · rw [if_neg hj]
    exact List.getElem?_eq_none (by omega)

theorem buf512_congr {α : Type} (f g : Nat → α) (h : ∀ j, j < 512 → f j = g j) :
    buf512 f = buf512 g :=
  eq_buf512 _ _ (buf512_length f) fun j hj => by rw [buf512_getElem?, if_pos hj, h j hj]


theorem forLoop_one {σ : Type} (lo hi : Int) (body : Int → σ → Option σ) (s : σ) :
    forLoop lo hi 1 body s = loopFrom body 1 (hi - lo).toNat lo s := by
  simp [forLoop]

theorem prn_code_length (m1 m2 : List Int) (s : Int) : (prn_code m1 m2 s).length = 512 := by
  simp [prn_code]

theorem prn_code_getElem? (m1 m2 : List Int) (s : Int) (j : Nat) :
    (prn_code m1 m2 s)[j]? =
      if j < 511 then some (chip m1 m2 s j) else if j = 511 then some 0 else none := by
  unfold prn_code
  by_cases h1 : j < 511
  · rw [List.getElem?_append_left (by simpa using h1)]
    simp [h1]
  · rw [List.getElem?_append_right (by simpa using h1)]
    by_cases h2 : j = 511
    · subst h2; simp
    · have : j - 511 ≠ 0 := by omega
      simp [h1, h2]
      omega

/-- After a buffer whose first 511 entries are the chips is padded, it is the code. -/
theorem pad_eq_prn_code (m1 m2 : List Int) (s : Int) (m : List Int) (hlen : m.length = 512)
    (hm : ∀ j, j < 511 → m[j]? = some (chip m1 m2 s j)) :
    wr m (SPRITE_PRN_LENGTH - 1) 0 = some (prn_code m1 m2 s) := by
  have : wr m (SPRITE_PRN_LENGTH - 1) 0 = some (m.set 511 0) := by
    have := wr_eq_set m 511 (0 : Int) (by omega)
    simpa [SPRITE_PRN_LENGTH] using this
  rw [this]
  refine congrArg some (List.ext_getElem? fun j => ?_)
  rw [prn_code_getElem?, List.getElem?_set]
  by_cases h1 : j < 511
  · have : (511 : Nat) ≠ j := by omega
    simp [h1, this, hm j h1]
  · by_cases h2 : j = 511
    · subst h2; simp [hlen]
    · have h3 : (511 : Nat) ≠ j := fun h => h2 h.symm
      have h4 : m.length ≤ j := by omega
      simp [h1, h2, h3, List.getElem?_eq_none h4]

/-- Closed form of one slot of PRN generation: for every selector in `[-2, 510]` and every
prior content of the 512-entry buffer, the slot is generated without an out-of-range
access and equals `prn_code`. -/
theorem prn_slot_eq (m1 m2 : List Int) (h1 : m1.length = 511) (h2 : m2.length = 511)
    (s : Int) (hs : -2 ≤ s) (hs' : s ≤ 510) (m : List Int) (hlen : m.length = 512) :
    prn_slot m1 m2 s m = some (prn_code m1 m2 s) := by
  unfold prn_slot
  simp only [andThen_eq_bind]
  by_cases c1 : s = -2
  · subst c1
    obtain ⟨m', hm', hl', hg'⟩ := loopFrom_fill
      (fun k m => (rd m1 k).bind fun v => wr m k v) (fun k => m1.getD k 0) 511 0 m
      (fun i hi m' => by
        simp only [Nat.zero_add]
        rw [rd_eq_getD m1 0 i (by omega)]; rfl)
      (by omega)
    have e : forLoop 0 M_SEQUENCE_LENGTH 1 (fun k m => (rd m1 k).bind fun v => wr m k v) m
        = some m' := by
      rw [forLoop_one]; simpa [M_SEQUENCE_LENGTH] using hm'
    simp only [if_true, e, Option.some_bind]
    apply pad_eq_prn_code _ _ _ _ (by omega)
    intro j hj
    rw [hg' j, if_pos (by omega)]
    simp [chip]
  · by_cases c2 : s = -1
    · subst c2
      obtain ⟨m', hm', hl', hg'⟩ := loopFrom_fill
        (fun k m => (rd m2 k).bind fun v => wr m k v) (fun k => m2.getD k 0) 511 0 m
        (fun i hi m' => by
          simp only [Nat.zero_add]
          rw [rd_eq_getD m2 0 i (by omega)]; rfl)
        (by omega)
      have e : forLoop 0 M_SEQUENCE_LENGTH 1 (fun k m => (rd m2 k).bind fun v => wr m k v) m
          = some m' := by
        rw [forLoop_one]; simpa [M_SEQUENCE_LENGTH] using hm'
      simp only [c1, if_false, if_true, e, Option.some_bind]
      apply pad_eq_prn_code _ _ _ _ (by omega)
      intro j hj
      rw [hg' j, if_pos (by omega)]
      simp [chip]
    · obtain ⟨t, rfl⟩ : ∃ t : Nat, s = (t : Int) := ⟨s.toNat, by omega⟩
      have ht : t ≤ 510 := by omega
      obtain ⟨ma, hma, hla, hga⟩ := loopFrom_fill
        (fun k m => (rd m1 k).bind fun a => (rd m2 (k + (t : Int))).bind fun b =>
          wr m k (Int.xor a b)) (chip m1 m2 (t : Int)) (511 - t) 0 m
        (fun i hi m' => by
          simp only [Nat.zero_add]
          rw [rd_eq_getD m1 0 i (by omega)]
          have : ((i : Int) + (t : Int)) = ((i + t : Nat) : Int) := by push_cast; rfl
          rw [this, rd_eq_getD m2 0 (i + t) (by omega)]
          simp only [Option.some_bind, chip, c1, c2, if_false]
          have e : (((i : Int) + (t : Int)) % 511).toNat = i + t := by omega
          rw [e])
        (by omega)
      obtain ⟨mb, hmb, hlb, hgb⟩ := loopFrom_fill
        (fun k m => (rd m1 k).bind fun a =>
          (rd m2 (k - M_SEQUENCE_LENGTH + (t : Int))).bind fun b =>
          wr m k (Int.xor a b)) (chip m1 m2 (t : Int)) t (511 - t) ma
        (fun i hi m' => by
          dsimp only
          rw [rd_eq_getD m1 0 (511 - t + i) (by omega)]
          have : (((511 - t + i : Nat) : Int) - M_SEQUENCE_LENGTH + (t : Int)) = ((i : Nat) : Int) := by
            simp only [M_SEQUENCE_LENGTH]; omega
          rw [this, rd_eq_getD m2 0 i (by omega)]
          simp only [Option.some_bind, chip, c1, c2, if_false]
          have e : ((((511 - t + i : Nat) : Int) + (t : Int)) % 511).toNat = i := by omega
          rw [e])
        (by omega)
      have ea : forLoop 0 (M_SEQUENCE_LENGTH - (t : Int)) 1
          (fun k m => (rd m1 k).bind fun a => (rd m2 (k + (t : Int))).bind fun b =>
            wr m k (Int.xor a b)) m = some ma := by
        rw [forLoop_one]
        have : (M_SEQUENCE_LENGTH - (t : Int) - 0).toNat = 511 - t := by
          simp only [M_SEQUENCE_LENGTH]; omega
        rw [this]; exact_mod_cast hma
      have eb : forLoop (M_SEQUENCE_LENGTH - (t : Int)) M_SEQUENCE_LENGTH 1
          (fun k m => (rd m1 k).bind fun a =>
            (rd m2 (k - M_SEQUENCE_LENGTH + (t : Int))).bind fun b =>
            wr m k (Int.xor a b)) ma = some mb := by
        rw [forLoop_one]
        have e1 : (M_SEQUENCE_LENGTH - (M_SEQUENCE_LENGTH - (t : Int))).toNat = t := by
          simp only [M_SEQUENCE_LENGTH]; omega
        have e2 : M_SEQUENCE_LENGTH - (t : Int) = ((511 - t : Nat) : Int) := by
          simp only [M_SEQUENCE_LENGTH]; omega
        rw [e1, e2]; exact hmb
      simp only [c1, c2, if_false, ea, eb, Option.some_bind]
      apply pad_eq_prn_code _ _ _ _ (by omega)
      intro j hj
      rw [hgb j]
      by_cases hj2 : 511 - t ≤ j ∧ j < 511 - t + t
      · rw [if_pos hj2]
      · rw [if_neg hj2, hga j, if_pos (by omega)]

theorem generate_prn_eq_slot (s : Int) (m : List Int) :
    single_correlator_cf_impl.generate_prn s m =
      prn_slot single_correlator_cf_impl.mseq1 single_correlator_cf_impl.mseq2 s m := rfl

theorem generate_prns_eq_slots (a b : Int) (m0 m1 : List Int) :
    correlator_cf_impl.generate_prns a b m0 m1 =
      (prn_slot correlator_cf_impl.mseq1 correlator_cf_impl.mseq2 a m0).bind fun c0 =>
      (prn_slot correlator_cf_impl.mseq1 correlator_cf_impl.mseq2 b m1).bind fun c1 =>
      some (c0, c1) := by
  unfold correlator_cf_impl.generate_prns prn_slot
  simp only [andThen_eq_bind, Option.bind_assoc]

set_option maxRecDepth 8000 in
theorem mseq1_length : correlator_cf_impl.mseq1.length = 511 := by decide
set_option maxRecDepth 8000 in
theorem mseq2_length : correlator_cf_impl.mseq2.length = 511 := by decide
set_option maxRecDepth 8000 in
theorem single_mseq1_length : single_correlator_cf_impl.mseq1.length = 511 := by decide
set_option maxRecDepth 8000 in
theorem single_mseq2_length : single_correlator_cf_impl.mseq2.length = 511 := by decide

/-- Closed form of `generate_prn` on valid selectors. -/
theorem generate_prn_eq (s : Int) (hs : -2 ≤ s) (hs' : s ≤ 510) (m : List Int)
    (hlen : m.length = 512) :
    single_correlator_cf_impl.generate_prn s m =
      some (prn_code single_correlator_cf_impl.mseq1 single_correlator_cf_impl.mseq2 s) := by
  rw [generate_prn_eq_slot]
  exact prn_slot_eq _ _ single_mseq1_length single_mseq2_length s hs hs' m hlen

/-- Closed form of `generate_prns` on valid selectors. -/
theorem generate_prns_eq (a b : Int) (ha : -2 ≤ a) (ha' : a ≤ 510) (hb : -2 ≤ b)
    (hb' : b ≤ 510) (m0 m1 : List Int) (h0 : m0.length = 512) (h1 : m1.length = 512) :
    correlator_cf_impl.generate_prns a b m0 m1 =
      some (prn_code correlator_cf_impl.mseq1 correlator_cf_impl.mseq2 a,
            prn_code correlator_cf_impl.mseq1 correlator_cf_impl.mseq2 b) := by
  rw [generate_prns_eq_slots,
    prn_slot_eq _ _ mseq1_length mseq2_length a ha ha' m0 h0,
    prn_slot_eq _ _ mseq1_length mseq2_length b hb hb' m1 h1]
  rfl

theorem getElem?_eq_some_getD {α : Type} (l : List α) (d : α) (k : Nat) (h : k < l.length) :
    l[k]? = some (l.getD k d) := by
  simp [List.getD, List.getElem?_eq_getElem h]

theorem prn_code_paddedCopy1 (m1 m2 : List Int) (h1 : m1.length = 511) :
    IsPaddedCopy m1 (prn_code m1 m2 (-2)) := by
  refine ⟨prn_code_length _ _ _, fun k hk => ?_, ?_⟩
  · rw [prn_code_getElem?, if_pos (by omega), getElem?_eq_some_getD m1 0 k (by omega)]
    simp [chip]
  · rw [prn_code_getElem?]; simp

theorem prn_code_paddedCopy2 (m1 m2 : List Int) (h2 : m2.length = 511) :
    IsPaddedCopy m2 (prn_code m1 m2 (-1)) := by
  refine ⟨prn_code_length _ _ _, fun k hk => ?_, ?_⟩
  · rw [prn_code_getElem?, if_pos (by omega), getElem?_eq_some_getD m2 0 k (by omega)]
    simp [chip]
  · rw [prn_code_getElem?]; simp

theorem prn_code_gold (m1 m2 : List Int) (h1 : m1.length = 511) (h2 : m2.length = 511)
    (s : Int) (hs : 0 ≤ s) : IsGoldCode m1 m2 s (prn_code m1 m2 s) := by
  refine ⟨prn_code_length _ _ _, fun k hk => ?_, ?_⟩
  · refine ⟨m1.getD k 0, m2.getD (((k : Int) + s) % 511).toNat 0,
      getElem?_eq_some_getD m1 0 k (by omega),
      getElem?_eq_some_getD m2 0 _ (by omega), ?_⟩
    rw [prn_code_getElem?, if_pos (by omega)]
    have c1 : s ≠ -2 := by omega
    have c2 : s ≠ -1 := by omega
    simp [chip, c1, c2]
  · rw [prn_code_getElem?]; simp

set_option maxRecDepth 8000 in
theorem mseq1_bits : ∀ x ∈ correlator_cf_impl.mseq1, x = 0 ∨ x = 1 := by decide
set_option maxRecDepth 8000 in
theorem mseq2_bits : ∀ x ∈ correlator_cf_impl.mseq2, x = 0 ∨ x = 1 := by decide
set_option maxRecDepth 8000 in
theorem single_mseq1_bits : ∀ x ∈ single_correlator_cf_impl.mseq1, x = 0 ∨ x = 1 := by decide
set_option maxRecDepth 8000 in
theorem single_mseq2_bits : ∀ x ∈ single_correlator_cf_impl.mseq2, x = 0 ∨ x = 1 := by decide

theorem getD_bit (l : List Int) (hl : ∀ x ∈ l, x = 0 ∨ x = 1) (k : Nat) :
    l.getD k 0 = 0 ∨ l.getD k 0 = 1 := by
  by_cases h : k < l.length
  · have : l.getD k 0 = l[k] := by simp [List.getD, List.getElem?_eq_getElem h]
    rw [this]
    exact hl _ (List.getElem_mem h)
  · left
    simp [List.getD, List.getElem?_eq_none (Nat.le_of_not_lt h)]

theorem xor_bit (a b : Int) (ha : a = 0 ∨ a = 1) (hb : b = 0 ∨ b = 1) :
    Int.xor a b = 0 ∨ Int.xor a b = 1 := by
  rcases ha with rfl | rfl <;> rcases hb with rfl | rfl <;> decide

theorem chip_bit (m1 m2 : List Int) (h1 : ∀ x ∈ m1, x = 0 ∨ x = 1)
    (h2 : ∀ x ∈ m2, x = 0 ∨ x = 1) (s : Int) (k : Nat) :
    chip m1 m2 s k = 0 ∨ chip m1 m2 s k = 1 := by
  unfold chip
  split
  · exact getD_bit m1 h1 k
  · split
    · exact getD_bit m2 h2 k
    · exact xor_bit _ _ (getD_bit m1 h1 k) (getD_bit m2 h2 _)

theorem prn_code_bitCode (m1 m2 : List Int) (h1 : ∀ x ∈ m1, x = 0 ∨ x = 1)
    (h2 : ∀ x ∈ m2, x = 0 ∨ x = 1) (s : Int) : IsBitCode (prn_code m1 m2 s) := by
  refine ⟨prn_code_length _ _ _, fun k hk => ?_, ?_⟩
  · rw [prn_code_getElem?]
    by_cases h : k < 511
    · rw [if_pos h]
      rcases chip_bit m1 m2 h1 h2 s k with e | e
      · left; rw [e]
      · right; rw [e]
    · have : k = 511 := by omega
      left; simp [this]
  · rw [prn_code_getElem?]; simp

/-! ## Claims on PRN generation -/

/-- C1: selector -2 yields M-sequence #1 in chips 0..510 followed by the padding zero, and
selector -1 yields M-sequence #2 likewise; this holds for `generate_prn` of the single engine
and for each of the two slots of `generate_prns` of the dual engine (the other slot holding
any valid selector), whatever the buffers held before. -/
theorem raw_mseq_selectors (other : Int) (ho : -2 ≤ other) (ho' : other ≤ 510)
    (m_prn0 m_prn1 : List Int) (h0 : m_prn0.length = 512) (h1 : m_prn1.length = 512) :
    (∃ code, single_correlator_cf_impl.generate_prn (-2) m_prn0 = some code ∧
      IsPaddedCopy single_correlator_cf_impl.mseq1 code) ∧
    (∃ code, single_correlator_cf_impl.generate_prn (-1) m_prn0 = some code ∧
      IsPaddedCopy single_correlator_cf_impl.mseq2 code) ∧
    (∃ c0 c1, correlator_cf_impl.generate_prns (-2) other m_prn0 m_prn1 = some (c0, c1) ∧
      IsPaddedCopy correlator_cf_impl.mseq1 c0) ∧
    (∃ c0 c1, correlator_cf_impl.generate_prns (-1) other m_prn0 m_prn1 = some (c0, c1) ∧
      IsPaddedCopy correlator_cf_impl.mseq2 c0) ∧
    (∃ c0 c1, correlator_cf_impl.generate_prns other (-2) m_prn0 m_prn1 = some (c0, c1) ∧
      IsPaddedCopy correlator_cf_impl.mseq1 c1) ∧
    (∃ c0 c1, correlator_cf_impl.generate_prns other (-1) m_prn0 m_prn1 = some (c0, c1) ∧
      IsPaddedCopy correlator_cf_impl.mseq2 c1) :=
  ⟨⟨_, generate_prn_eq _ (by decide) (by decide) _ h0,
      prn_code_paddedCopy1 _ _ single_mseq1_length⟩,
   ⟨_, generate_prn_eq _ (by decide) (by decide) _ h0,
      prn_code_paddedCopy2 _ _ single_mseq2_length⟩,
   ⟨_, _, generate_prns_eq _ _ (by decide) (by decide) ho ho' _ _ h0 h1,
      prn_code_paddedCopy1 _ _ mseq1_length⟩,
   ⟨_, _, generate_prns_eq _ _ (by decide) (by decide) ho ho' _ _ h0 h1,
      prn_code_paddedCopy2 _ _ mseq2_length⟩,
   ⟨_, _, generate_prns_eq _ _ ho ho' (by decide) (by decide) _ _ h0 h1,
      prn_code_paddedCopy1 _ _ mseq1_length⟩,
   ⟨_, _, generate_prns_eq _ _ ho ho' (by decide) (by decide) _ _ h0 h1,
      prn_code_paddedCopy2 _ _ mseq2_length⟩⟩

/-- C2: for a selector `s` in `[0, 510]` chip `k ≤ 510` of the generated code is
`mseq1[k] XOR mseq2[(k + s) mod 511]` and chip 511 is 0, for `generate_prn` and for each slot
of `generate_prns` (the other slot holding any valid selector). -/
theorem gold_selectors (s : Int) (hs : 0 ≤ s) (hs' : s ≤ 510)
    (other : Int) (ho : -2 ≤ other) (ho' : other ≤ 510)
    (m_prn0 m_prn1 : List Int) (h0 : m_prn0.length = 512) (h1 : m_prn1.length = 512) :
    (∃ code, single_correlator_cf_impl.generate_prn s m_prn0 = some code ∧
      IsGoldCode single_correlator_cf_impl.mseq1 single_correlator_cf_impl.mseq2 s code) ∧
    (∃ c0 c1, correlator_cf_impl.generate_prns s other m_prn0 m_prn1 = some (c0, c1) ∧
      IsGoldCode correlator_cf_impl.mseq1 correlator_cf_impl.mseq2 s c0) ∧
    (∃ c0 c1, correlator_cf_impl.generate_prns other s m_prn0 m_prn1 = some (c0, c1) ∧
      IsGoldCode correlator_cf_impl.mseq1 correlator_cf_impl.mseq2 s c1) :=
  ⟨⟨_, generate_prn_eq s (by omega) hs' _ h0,
      prn_code_gold _ _ single_mseq1_length single_mseq2_length s hs⟩,
   ⟨_, _, generate_prns_eq s other (by omega) hs' ho ho' _ _ h0 h1,
      prn_code_gold _ _ mseq1_length mseq2_length s hs⟩,
   ⟨_, _, generate_prns_eq other s ho ho' (by omega) hs' _ _ h0 h1,
      prn_code_gold _ _ mseq1_length mseq2_length s hs⟩⟩

/-- C3: for selectors in `[-2, 510]` every one of the 512 entries of each generated code is
0 or 1 and entry 511 is 0, for `generate_prns` (both slots) and for `generate_prn`. -/
theorem prn_entries_are_bits (a b : Int) (ha : -2 ≤ a) (ha' : a ≤ 510) (hb : -2 ≤ b)
    (hb' : b ≤ 510) (m_prn0 m_prn1 : List Int) (h0 : m_prn0.length = 512)
    (h1 : m_prn1.length = 512) :
    (∃ c0 c1, correlator_cf_impl.generate_prns a b m_prn0 m_prn1 = some (c0, c1) ∧
      IsBitCode c0 ∧ IsBitCode c1) ∧
    (∃ code, single_correlator_cf_impl.generate_prn a m_prn0 = some code ∧ IsBitCode code) :=
  ⟨⟨_, _, generate_prns_eq a b ha ha' hb hb' _ _ h0 h1,
      prn_code_bitCode _ _ mseq1_bits mseq2_bits a, prn_code_bitCode _ _ mseq1_bits mseq2_bits b⟩,
   ⟨_, generate_prn_eq a ha ha' _ h0,
      prn_code_bitCode _ _ single_mseq1_bits single_mseq2_bits a⟩⟩

theorem raw_mseq_selectors_witness :
    (-2 : Int) ≤ 5 ∧ (5 : Int) ≤ 510 ∧
    (List.replicate 512 (7 : Int)).length = 512 ∧ (List.replicate 512 (9 : Int)).length = 512 ∧
    ((∃ code, single_correlator_cf_impl.generate_prn (-2) (List.replicate 512 7) = some code ∧
      IsPaddedCopy single_correlator_cf_impl.mseq1 code) ∧
    (∃ code, single_correlator_cf_impl.generate_prn (-1) (List.replicate 512 7) = some code ∧
      IsPaddedCopy single_correlator_cf_impl.mseq2 code) ∧
    (∃ c0 c1, correlator_cf_impl.generate_prns (-2) 5 (List.replicate 512 7)
        (List.replicate 512 9) = some (c0, c1) ∧ IsPaddedCopy correlator_cf_impl.mseq1 c0) ∧
    (∃ c0 c1, correlator_cf_impl.generate_prns (-1) 5 (List.replicate 512 7)
        (List.replicate 512 9) = some (c0, c1) ∧ IsPaddedCopy correlator_cf_impl.mseq2 c0) ∧
    (∃ c0 c1, correlator_cf_impl.generate_prns 5 (-2) (List.replicate 512 7)
        (List.replicate 512 9) = some (c0, c1) ∧ IsPaddedCopy correlator_cf_impl.mseq1 c1) ∧
    (∃ c0 c1, correlator_cf_impl.generate_prns 5 (-1) (List.replicate 512 7)
        (List.replicate 512 9) = some (c0, c1) ∧ IsPaddedCopy correlator_cf_impl.mseq2 c1)) :=
  ⟨by decide, by decide, List.length_replicate _ _, List.length_replicate _ _,
    raw_mseq_selectors 5 (by decide) (by decide) (List.replicate 512 7) (List.replicate 512 9)
      (List.length_replicate _ _) (List.length_replicate _ _)⟩

theorem gold_selectors_witness :
    (0 : Int) ≤ 3 ∧ (3 : Int) ≤ 510 ∧ (-2 : Int) ≤ -1 ∧ (-1 : Int) ≤ 510 ∧
    (List.replicate 512 (7 : Int)).length = 512 ∧ (List.replicate 512 (9 : Int)).length = 512 ∧
    ((∃ code, single_correlator_cf_impl.generate_prn 3 (List.replicate 512 7) = some code ∧
      IsGoldCode single_correlator_cf_impl.mseq1 single_correlator_cf_impl.mseq2 3 code) ∧
    (∃ c0 c1, correlator_cf_impl.generate_prns 3 (-1) (List.replicate 512 7)
        (List.replicate 512 9) = some (c0, c1) ∧
      IsGoldCode correlator_cf_impl.mseq1 correlator_cf_impl.mseq2 3 c0) ∧
    (∃ c0 c1, correlator_cf_impl.generate_prns (-1) 3 (List.replicate 512 7)
        (List.replicate 512 9) = some (c0, c1) ∧
      IsGoldCode correlator_cf_impl.mseq1 correlator_cf_impl.mseq2 3 c1)) :=
  ⟨by decide, by decide, by decide, by decide, List.length_replicate _ _,
    List.length_replicate _ _,
    gold_selectors 3 (by decide) (by decide) (-1) (by decide) (by decide)
      (List.replicate 512 7) (List.replicate 512 9)
      (List.length_replicate _ _) (List.length_replicate _ _)⟩

theorem prn_entries_are_bits_witness :
    (-2 : Int) ≤ 510 ∧ (510 : Int) ≤ 510 ∧ (-2 : Int) ≤ -2 ∧ (-2 : Int) ≤ 510 ∧
    (List.replicate 512 (7 : Int)).length = 512 ∧ (List.replicate 512 (9 : Int)).length = 512 ∧
    ((∃ c0 c1, correlator_cf_impl.generate_prns 510 (-2) (List.replicate 512 7)
        (List.replicate 512 9) = some (c0, c1) ∧ IsBitCode c0 ∧ IsBitCode c1) ∧
    (∃ code, single_correlator_cf_impl.generate_prn 510 (List.replicate 512 7) = some code ∧
      IsBitCode code)) :=
  ⟨by decide, by decide, by decide, by decide, List.length_replicate _ _,
    List.length_replicate _ _,
    prn_entries_are_bits 510 (-2) (by decide) (by decide) (by decide) (by decide)
      (List.replicate 512 7) (List.replicate 512 9)
      (List.length_replicate _ _) (List.length_replicate _ _)⟩

/-- Invariant rule for loops: if `Inv 0` holds initially and every iteration `i < n` runs
without failure and takes `Inv i` to `Inv (i + 1)`, the loop runs without failure and ends
in a state satisfying `Inv n`. -/
theorem loopFrom_inv {σ : Type} (body : Int → σ → Option σ) (step : Int) :
    ∀ (n : Nat) (lo : Int) (Inv : Nat → σ → Prop) (s : σ), Inv 0 s →
      (∀ i s, i < n → Inv i s → ∃ s', body (lo + (i : Int) * step) s = some s' ∧ Inv (i + 1) s') →
      ∃ s', loopFrom body step n lo s = some s' ∧ Inv n s'
  | 0, _, _, s, h0, _ => ⟨s, rfl, h0⟩
  | n + 1, lo, Inv, s, h0, hstep => by
      obtain ⟨s1, hb, h1⟩ := hstep 0 s (Nat.succ_pos n) h0
      simp only [Nat.cast_zero, zero_mul, add_zero] at hb
      obtain ⟨s', hs', hI⟩ := loopFrom_inv body step n (lo + step) (fun i => Inv (i + 1)) s1 h1
        (fun i t hi hinv => by
          have := hstep (i + 1) t (Nat.succ_lt_succ hi) hinv
          rwa [show lo + ((i + 1 : Nat) : Int) * step = lo + step + (i : Int) * step by
            push_cast; ring] at this)
      exact ⟨s', by show (body lo s).bind _ = some s'; rw [hb]; exact hs', hI⟩

theorem real_mul_conj {R : Type} [CommRing R] (z : gr_complex R) :
    gr_complex.real (z * gr_complex.conj z) = normSq z := by
  show z.re * z.re - z.im * (-z.im) = z.re * z.re + z.im * z.im
  ring

/-- Closed form of the peak scan: it returns the largest squared magnitude and the first
index at which it is attained. -/
theorem peak_scan_eq {R : Type} [CommRing R] [LinearOrder R] (F : List (gr_complex R))
    (hF : F.length = 512) :
    ∃ j0 : Nat, j0 < 512 ∧
      correlator_cf_impl.peak_scan F = some (normSq (F.getD j0 0), ((j0 : Nat) : R)) ∧
      (∀ j, j < 512 → normSq (F.getD j 0) ≤ normSq (F.getD j0 0)) ∧
      (∀ j, j < j0 → normSq (F.getD j 0) < normSq (F.getD j0 0)) := by
  have h0 : rd F 0 = some (F.getD 0 0) := by
    simpa using rd_eq_getD F 0 0 (by omega)
  obtain ⟨s, hs, j0, hj0, hidx, hmax, hle, hlt⟩ := loopFrom_inv
    (fun j (s : R × R × R) =>
      (rd F j).andThen fun f =>
      let mag := gr_complex.real (f * gr_complex.conj f)
      if mag > s.2.1 then some (mag, mag, ((j : Int) : R)) else some (mag, s.2.1, s.2.2))
    1 511 1
    (fun i s => ∃ j0 : Nat, j0 ≤ i ∧ s.2.2 = ((j0 : Nat) : R) ∧ s.2.1 = normSq (F.getD j0 0) ∧
      (∀ j, j ≤ i → normSq (F.getD j 0) ≤ normSq (F.getD j0 0)) ∧
      (∀ j, j < j0 → normSq (F.getD j 0) < normSq (F.getD j0 0)))
    (normSq (F.getD 0 0), normSq (F.getD 0 0), 0)
    ⟨0, le_refl 0, by simp, rfl, fun j hj => by
        have : j = 0 := by omega
        rw [this], fun j hj => absurd hj (Nat.not_lt_zero j)⟩
    (fun i s hi ⟨j0, hj0, hidx, hmax, hle, hlt⟩ => by
      have hr : rd F ((1 : Int) + (i : Int) * 1) = some (F.getD (i + 1) 0) := by
        have := rd_eq_getD F 0 (i + 1) (by omega)
        rwa [show (((i + 1 : Nat) : Int)) = (1 : Int) + (i : Int) * 1 by push_cast; ring] at this
      simp only [hr, andThen_some, real_mul_conj]
      by_cases hgt : normSq (F.getD (i + 1) 0) > s.2.1
      · refine ⟨_, if_pos hgt, i + 1, le_refl _, ?_, rfl, ?_, ?_⟩
        · show (((1 : Int) + (i : Int) * 1 : Int) : R) = ((i + 1 : Nat) : R)
          push_cast; ring
        · intro j hj
          by_cases hji : j ≤ i
          · exact le_trans (hle j hji) (by rw [← hmax]; exact le_of_lt hgt)
          · have : j = i + 1 := by omega
            rw [this]
        · intro j hj
          exact lt_of_le_of_lt (hle j (by omega)) (by rw [← hmax]; exact hgt)
      · refine ⟨_, if_neg hgt, j0, by omega, hidx, hmax, ?_, hlt⟩
        intro j hj
        by_cases hji : j ≤ i
        · exact hle j hji
        · have : j = i + 1 := by omega
          rw [this, ← hmax]
          exact not_lt.mp hgt)
  refine ⟨j0, by omega, ?_, fun j hj => hle j (by omega), hlt⟩
  unfold correlator_cf_impl.peak_scan
  have hloop : forLoop 1 SPRITE_PRN_LENGTH 1
      (fun j (s : R × R × R) =>
        (rd F j).andThen fun f =>
        let mag := gr_complex.real (f * gr_complex.conj f)
        if mag > s.2.1 then some (mag, mag, ((j : Int) : R)) else some (mag, s.2.1, s.2.2))
      (normSq (F.getD 0 0), normSq (F.getD 0 0), 0) = some s := by
    rw [forLoop_one]
    simpa [SPRITE_PRN_LENGTH] using hs
  simp only [real_mul_conj] at hloop
  simp only [h0, andThen_some, real_mul_conj, hloop, hidx, hmax]

/-! ## Closed form of the modulator -/

theorem getElem?_eq_some_of_rd {α : Type} (l : List α) (k : Nat) (v : α)
    (h : l[k]? = some v) : rd l (k : Int) = some v := by
  simp [rd, h]

/-- The rail loops of the modulator (`iBB` from `lo = 1`, `qBB` from `lo = 2`): each of the
`n` iterations multiplies the previous entry by `diffs[k]` into entry `k` and copies it to
entry `k + 1`. -/
theorem rail_loop {R : Type} [CommRing R] (diffs : List R) (d f : Nat → R)
    (hd : ∀ j, j < 512 → diffs[j]? = some (d j)) (lo n : Nat) (hlo : 1 ≤ lo)
    (hn : lo + 2 * n ≤ 512)
    (hf1 : ∀ i, i < n → f (lo + 2 * i) = d (lo + 2 * i) * f (lo + 2 * i - 1))
    (hf2 : ∀ i, i < n → f (lo + 2 * i + 1) = f (lo + 2 * i))
    (s : List R) (hs : s.length = 512) (h0 : ∀ j, j < lo → s[j]? = some (f j)) :
    ∃ s', loopFrom
        (fun k (x : List R) =>
          (rd diffs k).andThen fun d => (rd x (k - 1)).andThen fun p =>
          (wr x k (d * p)).andThen fun x =>
          (rd x k).andThen fun v => wr x (k + 1) v) 2 n (lo : Int) s = some s' ∧
      s'.length = 512 ∧ ∀ j, j < lo + 2 * n → s'[j]? = some (f j) := by
  obtain ⟨s', hs', hl, hg⟩ := loopFrom_inv
    (fun k (x : List R) =>
      (rd diffs k).andThen fun d => (rd x (k - 1)).andThen fun p =>
      (wr x k (d * p)).andThen fun x =>
      (rd x k).andThen fun v => wr x (k + 1) v) 2 n (lo : Int)
    (fun i x => x.length = 512 ∧ ∀ j, j < lo + 2 * i → x[j]? = some (f j))
    s ⟨hs, fun j hj => h0 j (by omega)⟩
    (fun i x hi ⟨hl, hg⟩ => by
      have ek : ((lo : Int) + (i : Int) * 2) = ((lo + 2 * i : Nat) : Int) := by
        push_cast; ring
      have ek1 : (((lo + 2 * i : Nat) : Int) - 1) = ((lo + 2 * i - 1 : Nat) : Int) := by
        omega
      have ek2 : (((lo + 2 * i : Nat) : Int) + 1) = ((lo + 2 * i + 1 : Nat) : Int) := by
        omega
      have r1 := getElem?_eq_some_of_rd diffs _ _ (hd (lo + 2 * i) (by omega))
      have r2 := getElem?_eq_some_of_rd x _ _ (hg (lo + 2 * i - 1) (by omega))
      have w1 := wr_eq_set x (lo + 2 * i) (d (lo + 2 * i) * f (lo + 2 * i - 1)) (by omega)
      have r3 : rd (x.set (lo + 2 * i) (d (lo + 2 * i) * f (lo + 2 * i - 1)))
          ((lo + 2 * i : Nat) : Int) = some (d (lo + 2 * i) * f (lo + 2 * i - 1)) :=
        getElem?_eq_some_of_rd _ _ _ (by
          rw [List.getElem?_set]; simp; omega)
      have w2 := wr_eq_set (x.set (lo + 2 * i) (d (lo + 2 * i) * f (lo + 2 * i - 1)))
        (lo + 2 * i + 1) (d (lo + 2 * i) * f (lo + 2 * i - 1))
        (by rw [List.length_set]; omega)
      simp only [ek, ek1, ek2, r1, r2, w1, r3, w2, andThen_some]
      refine ⟨_, rfl, by simp [hl], fun j hj => ?_⟩
      rw [List.getElem?_set, List.getElem?_set]
      by_cases c2 : lo + 2 * i + 1 = j
      · subst c2
        simp only [if_true, List.length_set]
        rw [if_pos (by omega), hf2 i hi, hf1 i hi]
      · rw [if_neg c2]
        by_cases c1 : lo + 2 * i = j
        · subst c1
          simp only [if_true]
          rw [if_pos (by omega), hf1 i hi]
        · rw [if_neg c1]
          exact hg j (by omega))
  exact ⟨s', hs', hl, hg⟩

theorem diff_seq_succ (code : List Int) (k : Nat) :
    diff_seq code (k + 1) =
      if to_char (code.getD (k + 1) 0 - code.getD k 0) = 0 then 1 else -1 := by
  simp [diff_seq]

/-- The first stage of the modulator leaves `diff_seq` in `diffs`. -/
theorem diffs_stage {R : Type} [CommRing R] (code : List Int) (hc : code.length = 512)
    (diffs : List R) (hd : diffs.length = 512) :
    ((rd code 0).andThen fun p0 =>
      (wr diffs 0 (((-2 * p0 + 1 : Int) : R))).andThen fun diffs =>
      forLoop 1 SPRITE_PRN_LENGTH 1
        (fun k (diffs : List R) =>
          (rd code k).andThen fun pk => (rd code (k - 1)).andThen fun pk1 =>
          if to_char (pk - pk1) = 0 then wr diffs k 1 else wr diffs k (-1)) diffs) =
      some (buf512 fun k => ((diff_seq code k : Int) : R)) := by
  have r0 : rd code 0 = some (code.getD 0 0) := by
    simpa using rd_eq_getD code 0 0 (by omega)
  have w0 : wr diffs 0 (((-2 * code.getD 0 0 + 1 : Int) : R)) =
      some (diffs.set 0 (((-2 * code.getD 0 0 + 1 : Int) : R))) := by
    simpa using wr_eq_set diffs 0 (((-2 * code.getD 0 0 + 1 : Int) : R)) (by omega)
  obtain ⟨m', hm', hl', hg'⟩ := loopFrom_fill
    (fun k (diffs : List R) =>
      (rd code k).andThen fun pk => (rd code (k - 1)).andThen fun pk1 =>
      if to_char (pk - pk1) = 0 then wr diffs k 1 else wr diffs k (-1))
    (fun k => ((diff_seq code k : Int) : R)) 511 1
    (diffs.set 0 (((-2 * code.getD 0 0 + 1 : Int) : R)))
    (fun i hi m' => by
      have e1 : (((1 + i : Nat) : Int) - 1) = ((i : Nat) : Int) := by omega
      have e2 : diff_seq code (1 + i) =
          if to_char (code.getD (1 + i) 0 - code.getD i 0) = 0 then 1 else -1 := by
        rw [Nat.add_comm 1 i]; exact diff_seq_succ code i
      simp only [e1, rd_eq_getD code 0 (1 + i) (by omega), rd_eq_getD code 0 i (by omega),
        andThen_some, e2]
      by_cases c : to_char (code.getD (1 + i) 0 - code.getD i 0) = 0
      · rw [if_pos c, if_pos c, Int.cast_one]
      · rw [if_neg c, if_neg c, Int.cast_neg, Int.cast_one])
    (by rw [List.length_set]; omega)
  rw [r0, andThen_some, w0, andThen_some, forLoop_one]
  have hn : (SPRITE_PRN_LENGTH - 1).toNat = 511 := by simp [SPRITE_PRN_LENGTH]
  rw [hn]
  have h1 : ((1 : Nat) : Int) = (1 : Int) := rfl
  rw [h1] at hm'
  rw [hm']
  refine congrArg some (eq_buf512 _ _ (by rw [hl', List.length_set]; exact hd) fun j hj => ?_)
  rw [hg' j]
  by_cases c : 1 ≤ j ∧ j < 1 + 511
  · rw [if_pos c]
  · have : j = 0 := by omega
    subst this
    rw [if_neg c, List.getElem?_set]
    simp [hd, diff_seq]

theorem iBB_seq_odd (code : List Int) (k : Nat) (h : k % 2 = 0) :
    iBB_seq code (k + 1) = diff_seq code (k + 1) * iBB_seq code k := by
  have : (k + 1) % 2 = 1 := by omega
  simp [iBB_seq, this]

theorem iBB_seq_even (code : List Int) (k : Nat) (h : k % 2 = 1) :
    iBB_seq code (k + 1) = iBB_seq code k := by
  have : ¬ (k + 1) % 2 = 1 := by omega
  simp [iBB_seq, this]

theorem qBB_seq_one (code : List Int) : qBB_seq code 1 = diff_seq code 0 := by
  simp [qBB_seq]

theorem qBB_seq_even (code : List Int) (k : Nat) (h0 : k ≠ 0) (h : k % 2 = 1) :
    qBB_seq code (k + 1) = diff_seq code (k + 1) * qBB_seq code k := by
  have : (k + 1) % 2 = 0 := by omega
  simp [qBB_seq, this, h0]

theorem qBB_seq_odd (code : List Int) (k : Nat) (h : k % 2 = 0) :
    qBB_seq code (k + 1) = qBB_seq code k := by
  have : ¬ (k + 1) % 2 = 0 := by omega
  simp [qBB_seq, this]

theorem rd_buf512 {α : Type} (f : Nat → α) (k : Nat) (h : k < 512) :
    rd (buf512 f) (k : Int) = some (f k) :=
  getElem?_eq_some_of_rd _ _ _ (by rw [buf512_getElem?, if_pos h])

/-- The `iBB` stage of the modulator leaves `iBB_seq` in `iBB`. -/
theorem iBB_stage {R : Type} [CommRing R] (code : List Int) (iBB : List R)
    (hi : iBB.length = 512) :
    ((wr iBB 0 1).andThen fun iBB =>
      (forLoop 1 (SPRITE_PRN_LENGTH - 2) 2
        (fun k (iBB : List R) =>
          (rd (buf512 fun k => ((diff_seq code k : Int) : R)) k).andThen fun d =>
          (rd iBB (k - 1)).andThen fun p =>
          (wr iBB k (d * p)).andThen fun iBB =>
          (rd iBB k).andThen fun v => wr iBB (k + 1) v) iBB).andThen fun iBB =>
      (rd (buf512 fun k => ((diff_seq code k : Int) : R)) (SPRITE_PRN_LENGTH - 1)).andThen
        fun d =>
      (rd iBB (SPRITE_PRN_LENGTH - 2)).andThen fun p =>
      wr iBB (SPRITE_PRN_LENGTH - 1) (d * p)) =
      some (buf512 fun k => ((iBB_seq code k : Int) : R)) := by
  have w0 : wr iBB 0 (1 : R) = some (iBB.set 0 1) := by
    simpa using wr_eq_set iBB 0 (1 : R) (by omega)
  obtain ⟨s, hs, hl, hg⟩ := rail_loop (buf512 fun k => ((diff_seq code k : Int) : R))
    (fun k => ((diff_seq code k : Int) : R)) (fun k => ((iBB_seq code k : Int) : R))
    (fun j hj => by rw [buf512_getElem?, if_pos hj]) 1 255 (le_refl 1) (by decide)
    (fun i _ => by
      show ((iBB_seq code (1 + 2 * i) : Int) : R) =
        ((diff_seq code (1 + 2 * i) : Int) : R) * ((iBB_seq code (1 + 2 * i - 1) : Int) : R)
      rw [show 1 + 2 * i = 2 * i + 1 by omega, iBB_seq_odd code (2 * i) (by omega),
        Int.cast_mul]
      rfl)
    (fun i _ => by
      show ((iBB_seq code (1 + 2 * i + 1) : Int) : R) = ((iBB_seq code (1 + 2 * i) : Int) : R)
      rw [iBB_seq_even code (1 + 2 * i) (by omega)])
    (iBB.set 0 1) (by rw [List.length_set]; exact hi)
    (fun j hj => by
      have : j = 0 := by omega
      subst this
      rw [List.getElem?_set]
      simp [hi, iBB_seq])
  have hloop : forLoop 1 (SPRITE_PRN_LENGTH - 2) 2
      (fun k (iBB : List R) =>
        (rd (buf512 fun k => ((diff_seq code k : Int) : R)) k).andThen fun d =>
        (rd iBB (k - 1)).andThen fun p =>
        (wr iBB k (d * p)).andThen fun iBB =>
        (rd iBB k).andThen fun v => wr iBB (k + 1) v) (iBB.set 0 1) = some s := by
    unfold forLoop
    have hn : ((SPRITE_PRN_LENGTH - 2 - 1 + 2 - 1) / 2).toNat = 255 := by
      simp [SPRITE_PRN_LENGTH]
    rw [hn]
    exact hs
  have r1 : rd (buf512 fun k => ((diff_seq code k : Int) : R)) (SPRITE_PRN_LENGTH - 1) =
      some ((diff_seq code 511 : Int) : R) := by
    have := rd_buf512 (fun k => ((diff_seq code k : Int) : R)) 511 (by decide)
    simpa [SPRITE_PRN_LENGTH] using this
  have r2 : rd s (SPRITE_PRN_LENGTH - 2) = some ((iBB_seq code 510 : Int) : R) := by
    have := getElem?_eq_some_of_rd s 510 _ (hg 510 (by decide))
    simpa [SPRITE_PRN_LENGTH] using this
  have w1 : wr s (SPRITE_PRN_LENGTH - 1)
      (((diff_seq code 511 : Int) : R) * ((iBB_seq code 510 : Int) : R)) =
      some (s.set 511 (((diff_seq code 511 : Int) : R) * ((iBB_seq code 510 : Int) : R))) := by
    have := wr_eq_set s 511
      (((diff_seq code 511 : Int) : R) * ((iBB_seq code 510 : Int) : R)) (by omega)
    simpa [SPRITE_PRN_LENGTH] using this
  rw [w0, andThen_some, hloop, andThen_some, r1, andThen_some, r2, andThen_some, w1]
  refine congrArg some (eq_buf512 _ _ (by rw [List.length_set]; exact hl) fun j hj => ?_)
  rw [List.getElem?_set]
  by_cases c : 511 = j
  · subst c
    rw [if_pos rfl, if_pos (by omega), iBB_seq_odd code 510 (by decide), Int.cast_mul]
  · rw [if_neg c]
    exact hg j (by omega)

/-- The `qBB` stage of the modulator leaves `qBB_seq` in `qBB`. -/
theorem qBB_stage {R : Type} [CommRing R] (code : List Int) (qBB : List R)
    (hq : qBB.length = 512) :
    ((rd (buf512 fun k => ((diff_seq code k : Int) : R)) 0).andThen fun d0 =>
      (wr qBB 0 d0).andThen fun qBB =>
      (rd (buf512 fun k => ((diff_seq code k : Int) : R)) 0).andThen fun d0 =>
      (wr qBB 1 d0).andThen fun qBB =>
      forLoop 2 SPRITE_PRN_LENGTH 2
        (fun k (qBB : List R) =>
          (rd (buf512 fun k => ((diff_seq code k : Int) : R)) k).andThen fun d =>
          (rd qBB (k - 1)).andThen fun p =>
          (wr qBB k (d * p)).andThen fun qBB =>
          (rd qBB k).andThen fun v => wr qBB (k + 1) v) qBB) =
      some (buf512 fun k => ((qBB_seq code k : Int) : R)) := by
  have r0 : rd (buf512 fun k => ((diff_seq code k : Int) : R)) 0 =
      some ((diff_seq code 0 : Int) : R) := by
    simpa using rd_buf512 (fun k => ((diff_seq code k : Int) : R)) 0 (by decide)
  have w0 : wr qBB 0 ((diff_seq code 0 : Int) : R) =
      some (qBB.set 0 ((diff_seq code 0 : Int) : R)) := by
    simpa using wr_eq_set qBB 0 ((diff_seq code 0 : Int) : R) (by omega)
  have w1 : wr (qBB.set 0 ((diff_seq code 0 : Int) : R)) 1 ((diff_seq code 0 : Int) : R) =
      some ((qBB.set 0 ((diff_seq code 0 : Int) : R)).set 1 ((diff_seq code 0 : Int) : R)) := by
    simpa using wr_eq_set (qBB.set 0 ((diff_seq code 0 : Int) : R)) 1
      ((diff_seq code 0 : Int) : R) (by rw [List.length_set]; omega)
  obtain ⟨s, hs, hl, hg⟩ := rail_loop (buf512 fun k => ((diff_seq code k : Int) : R))
    (fun k => ((diff_seq code k : Int) : R)) (fun k => ((qBB_seq code k : Int) : R))
    (fun j hj => by rw [buf512_getElem?, if_pos hj]) 2 255 (by decide) (by decide)
    (fun i _ => by
      show ((qBB_seq code (2 + 2 * i) : Int) : R) =
        ((diff_seq code (2 + 2 * i) : Int) : R) * ((qBB_seq code (2 + 2 * i - 1) : Int) : R)
      rw [show 2 + 2 * i = 2 * i + 1 + 1 by omega,
        qBB_seq_even code (2 * i + 1) (by omega) (by omega), Int.cast_mul]
      rfl)
    (fun i _ => by
      show ((qBB_seq code (2 + 2 * i + 1) : Int) : R) = ((qBB_seq code (2 + 2 * i) : Int) : R)
      rw [qBB_seq_odd code (2 + 2 * i) (by omega)])
    ((qBB.set 0 ((diff_seq code 0 : Int) : R)).set 1 ((diff_seq code 0 : Int) : R))
    (by rw [List.length_set, List.length_set]; exact hq)
    (fun j hj => by
      rw [List.getElem?_set, List.getElem?_set]
      by_cases c : 1 = j
      · subst c
        simp [hq, qBB_seq_one]
      · have : j = 0 := by omega
        subst this
        simp [hq, qBB_seq])
  have hloop : forLoop 2 SPRITE_PRN_LENGTH 2
      (fun k (qBB : List R) =>
        (rd (buf512 fun k => ((diff_seq code k : Int) : R)) k).andThen fun d =>
        (rd qBB (k - 1)).andThen fun p =>
        (wr qBB k (d * p)).andThen fun qBB =>
        (rd qBB k).andThen fun v => wr qBB (k + 1) v)
      ((qBB.set 0 ((diff_seq code 0 : Int) : R)).set 1 ((diff_seq code 0 : Int) : R)) =
      some s := by
    unfold forLoop
    have hn : ((SPRITE_PRN_LENGTH - 2 + 2 - 1) / 2).toNat = 255 := by
      simp [SPRITE_PRN_LENGTH]
    rw [hn]
    exact hs
  rw [r0, andThen_some, w0, andThen_some, andThen_some, w1, andThen_some, hloop]
  exact congrArg some (eq_buf512 _ _ hl fun j hj => hg j (by omega))

/-- The last stage of the modulator leaves `baseBand_seq` in `baseBand`. -/
theorem baseBand_stage {R : Type} [CommRing R] (code : List Int)
    (baseBand : List (gr_complex R)) (hb : baseBand.length = 512) :
    forLoop 0 SPRITE_PRN_LENGTH 1
      (fun k (baseBand : List (gr_complex R)) =>
        (rd (buf512 fun k => ((iBB_seq code k : Int) : R)) k).andThen fun i =>
        (rd (buf512 fun k => ((qBB_seq code k : Int) : R)) k).andThen fun q =>
        wr baseBand k
          (gr_complex.ofReal (i * cos_half_pi k) + (⟨0, q * sin_half_pi k⟩ : gr_complex R)))
      baseBand = some (buf512 (baseBand_seq code)) := by
  obtain ⟨m', hm', hl', hg'⟩ := loopFrom_fill
    (fun k (baseBand : List (gr_complex R)) =>
      (rd (buf512 fun k => ((iBB_seq code k : Int) : R)) k).andThen fun i =>
      (rd (buf512 fun k => ((qBB_seq code k : Int) : R)) k).andThen fun q =>
      wr baseBand k
        (gr_complex.ofReal (i * cos_half_pi k) + (⟨0, q * sin_half_pi k⟩ : gr_complex R)))
    (baseBand_seq code) 512 0 baseBand
    (fun i hi m' => by
      simp only [Nat.zero_add]
      rw [rd_buf512 _ i hi, andThen_some, rd_buf512 _ i hi, andThen_some]
      rfl)
    (by omega)
  rw [forLoop_one]
  have hn : (SPRITE_PRN_LENGTH - 0).toNat = 512 := by simp [SPRITE_PRN_LENGTH]
  rw [hn]
  have h0 : ((0 : Nat) : Int) = (0 : Int) := rfl
  rw [h0] at hm'
  rw [hm']
  refine congrArg some (eq_buf512 _ _ (by rw [hl']; exact hb) fun j hj => ?_)
  rw [hg' j, if_pos (by omega)]

/-- Closed form of `cc430_modulator`: for every 512-entry code and whatever the four
512-entry buffers held before, the modulator runs without an out-of-range access and
leaves `diff_seq`, `iBB_seq`, `qBB_seq` and `baseBand_seq` in them. -/
theorem cc430_modulator_eq {R : Type} [CommRing R] (code : List Int) (hc : code.length = 512)
    (diffs iBB qBB : List R) (hd : diffs.length = 512) (hi : iBB.length = 512)
    (hq : qBB.length = 512) (baseBand : List (gr_complex R)) (hb : baseBand.length = 512) :
    correlator_cf_impl.cc430_modulator code diffs iBB qBB baseBand =
      some (buf512 fun k => ((diff_seq code k : Int) : R),
        buf512 fun k => ((iBB_seq code k : Int) : R),
        buf512 fun k => ((qBB_seq code k : Int) : R),
        buf512 (baseBand_seq code)) := by
  have hA := diffs_stage (R := R) code hc diffs hd
  have hB := iBB_stage (R := R) code iBB hi
  have hC := qBB_stage (R := R) code qBB hq
  have hD := baseBand_stage (R := R) code baseBand hb
  have r0 : rd code 0 = some (code.getD 0 0) := by
    simpa using rd_eq_getD code 0 0 (by omega)
  have w0 : wr diffs 0 (((-2 * code.getD 0 0 + 1 : Int) : R)) =
      some (diffs.set 0 (((-2 * code.getD 0 0 + 1 : Int) : R))) := by
    simpa using wr_eq_set diffs 0 (((-2 * code.getD 0 0 + 1 : Int) : R)) (by omega)
  rw [r0, andThen_some, w0, andThen_some] at hA
  have wi : wr iBB 0 (1 : R) = some (iBB.set 0 1) := by
    simpa using wr_eq_set iBB 0 (1 : R) (by omega)
  rw [wi, andThen_some] at hB
  obtain ⟨s, hs, hB1⟩ := andThen_eq_some hB
  obtain ⟨d, hd1, hB2⟩ := andThen_eq_some hB1
  obtain ⟨p, hp1, hB3⟩ := andThen_eq_some hB2
  have rq0 : rd (buf512 fun k => ((diff_seq code k : Int) : R)) 0 =
      some ((diff_seq code 0 : Int) : R) := by
    simpa using rd_buf512 (fun k => ((diff_seq code k : Int) : R)) 0 (by decide)
  have wq0 : wr qBB 0 ((diff_seq code 0 : Int) : R) =
      some (qBB.set 0 ((diff_seq code 0 : Int) : R)) := by
    simpa using wr_eq_set qBB 0 ((diff_seq code 0 : Int) : R) (by omega)
  have wq1 : wr (qBB.set 0 ((diff_seq code 0 : Int) : R)) 1 ((diff_seq code 0 : Int) : R) =
      some ((qBB.set 0 ((diff_seq code 0 : Int) : R)).set 1 ((diff_seq code 0 : Int) : R)) := by
    simpa using wr_eq_set (qBB.set 0 ((diff_seq code 0 : Int) : R)) 1
      ((diff_seq code 0 : Int) : R) (by rw [List.length_set]; omega)
  rw [rq0, andThen_some, wq0, andThen_some, andThen_some, wq1, andThen_some] at hC
  unfold correlator_cf_impl.cc430_modulator
  rw [r0, andThen_some, w0, andThen_some, hA, andThen_some, wi, andThen_some,
    rq0, andThen_some, wq0, andThen_some, andThen_some, wq1, andThen_some,
    hs, andThen_some, hd1, andThen_some, hp1, andThen_some, hB3, andThen_some,
    hC, andThen_some, hD, andThen_some]

theorem single_cc430_modulator_eq_dual {R : Type} [CommRing R] (code : List Int)
    (diffs iBB qBB : List R) (baseBand : List (gr_complex R)) :
    single_correlator_cf_impl.cc430_modulator code diffs iBB qBB baseBand =
      correlator_cf_impl.cc430_modulator code diffs iBB qBB baseBand := rfl

/-! ## Closed form of `work` -/

theorem work_eq_loop {R : Type} [CommRing R] [LinearOrder R]
    (fft : List (gr_complex R) → List (gr_complex R)) (sqrt : R → R)
    (self : correlator_cf_impl R) (n : Int) (inp : List (gr_complex R)) (out : List R) :
    correlator_cf_impl.work fft sqrt self n inp out =
      (forLoop 0 n 1 (dual_body fft sqrt inp) (self, out)).andThen fun st =>
        some (st.1, st.2, n) := rfl

theorem single_work_eq_loop {R : Type} [CommRing R]
    (fft : List (gr_complex R) → List (gr_complex R))
    (self : single_correlator_cf_impl R) (n : Int) (inp : List (gr_complex R)) (out : List R) :
    single_correlator_cf_impl.work fft self n inp out =
      (forLoop 0 n 1 (single_body fft inp) (self, out)).andThen fun st =>
        some (st.1, st.2, n) := rfl

theorem fill_step {α : Type} (l : List α) (g : Nat → α) (i : Nat) (hi : i < l.length)
    (h : ∀ j, j < i → l[j]? = some (g j)) :
    ∀ j, j < i + 1 → (l.set i (g i))[j]? = some (g j) := by
  intro j hj
  rw [List.getElem?_set]
  by_cases e : i = j
  · subst e; simp [hi]
  · rw [if_neg e]; exact h j (by omega)

theorem window_getD {R : Type} [CommRing R] (inp : List (gr_complex R)) (k j : Nat)
    (h : j < 512) : (window inp k).getD j 0 = inp.getD (k + j) 0 :=
  buf512_getD _ _ _ h

/-- The copy loop of the dual engine leaves the two pointwise products in the FFT inputs. -/
theorem dual_fill {R : Type} [CommRing R] (T0 T1 inp : List (gr_complex R)) (k : Nat)
    (hT0 : T0.length = 512) (hT1 : T1.length = 512) (hk : k + 512 ≤ inp.length)
    (a b : List (gr_complex R)) (ha : a.length = 512) (hb : b.length = 512) :
    forLoop 0 SPRITE_PRN_LENGTH 1
      (fun j (b : List (gr_complex R) × List (gr_complex R)) =>
        (rd T0 j).andThen fun t0 => (rd inp (j + (k : Int))).andThen fun x0 =>
        (wr b.1 j (t0 * x0)).andThen fun in0 =>
        (rd T1 j).andThen fun t1 => (rd inp (j + (k : Int))).andThen fun x1 =>
        (wr b.2 j (t1 * x1)).andThen fun in1 =>
        some (in0, in1)) (a, b) =
      some (pointwise T0 (window inp k), pointwise T1 (window inp k)) := by
  obtain ⟨s, hs, hla, hlb, hga, hgb⟩ := loopFrom_inv
    (fun j (b : List (gr_complex R) × List (gr_complex R)) =>
      (rd T0 j).andThen fun t0 => (rd inp (j + (k : Int))).andThen fun x0 =>
      (wr b.1 j (t0 * x0)).andThen fun in0 =>
      (rd T1 j).andThen fun t1 => (rd inp (j + (k : Int))).andThen fun x1 =>
      (wr b.2 j (t1 * x1)).andThen fun in1 =>
      some (in0, in1)) 1 512 0
    (fun i s => s.1.length = 512 ∧ s.2.length = 512 ∧
      (∀ j, j < i → s.1[j]? = some (T0.getD j 0 * inp.getD (k + j) 0)) ∧
      (∀ j, j < i → s.2[j]? = some (T1.getD j 0 * inp.getD (k + j) 0)))
    (a, b) ⟨ha, hb, fun j hj => absurd hj (Nat.not_lt_zero j),
      fun j hj => absurd hj (Nat.not_lt_zero j)⟩
    (fun i s hi ⟨hla, hlb, hga, hgb⟩ => by
      have e1 : ((0 : Int) + (i : Int) * 1) = (i : Int) := by ring
      have e2 : ((i : Int) + (k : Int)) = ((k + i : Nat) : Int) := by push_cast; ring
      simp only [e1, e2, rd_eq_getD T0 0 i (by omega), rd_eq_getD T1 0 i (by omega),
        rd_eq_getD inp 0 (k + i) (by omega), andThen_some,
        wr_eq_set s.1 i _ (by omega), wr_eq_set s.2 i _ (by omega)]
      exact ⟨_, rfl, by simp [hla], by simp [hlb],
        fill_step s.1 (fun j => T0.getD j 0 * inp.getD (k + j) 0) i (by omega) hga,
        fill_step s.2 (fun j => T1.getD j 0 * inp.getD (k + j) 0) i (by omega) hgb⟩)
  rw [forLoop_one]
  have hn : (SPRITE_PRN_LENGTH - 0).toNat = 512 := by simp [SPRITE_PRN_LENGTH]
  rw [hn, hs]
  have e0 : s.1 = pointwise T0 (window inp k) :=
    eq_buf512 _ _ hla fun j hj => by rw [hga j hj, window_getD inp k j hj]
  have e1 : s.2 = pointwise T1 (window inp k) :=
    eq_buf512 _ _ hlb fun j hj => by rw [hgb j hj, window_getD inp k j hj]
  rw [← e0, ← e1]

/-- The copy loop of the single engine leaves the pointwise product in the FFT input. -/
theorem single_fill {R : Type} [CommRing R] (T inp : List (gr_complex R)) (k : Nat)
    (hT : T.length = 512) (hk : k + 512 ≤ inp.length)
    (a : List (gr_complex R)) (ha : a.length = 512) :
    forLoop 0 SPRITE_PRN_LENGTH 1
      (fun j (b : List (gr_complex R)) =>
        (rd T j).andThen fun t => (rd inp (j + (k : Int))).andThen fun x =>
        wr b j (t * x)) a =
      some (pointwise T (window inp k)) := by
  obtain ⟨s, hs, hla, hga⟩ := loopFrom_inv
    (fun j (b : List (gr_complex R)) =>
      (rd T j).andThen fun t => (rd inp (j + (k : Int))).andThen fun x =>
      wr b j (t * x)) 1 512 0
    (fun i s => s.length = 512 ∧
      (∀ j, j < i → s[j]? = some (T.getD j 0 * inp.getD (k + j) 0)))
    a ⟨ha, fun j hj => absurd hj (Nat.not_lt_zero j)⟩
    (fun i s hi ⟨hla, hga⟩ => by
      have e1 : ((0 : Int) + (i : Int) * 1) = (i : Int) := by ring
      have e2 : ((i : Int) + (k : Int)) = ((k + i : Nat) : Int) := by push_cast; ring
      simp only [e1, e2, rd_eq_getD T 0 i (by omega),
        rd_eq_getD inp 0 (k + i) (by omega), andThen_some, wr_eq_set s i _ (by omega)]
      exact ⟨_, rfl, by simp [hla],
        fill_step s (fun j => T.getD j 0 * inp.getD (k + j) 0) i (by omega) hga⟩)
  rw [forLoop_one]
  have hn : (SPRITE_PRN_LENGTH - 0).toNat = 512 := by simp [SPRITE_PRN_LENGTH]
  rw [hn, hs]
  have e0 : s = pointwise T (window inp k) :=
    eq_buf512 _ _ hla fun j hj => by rw [hga j hj, window_getD inp k j hj]
  rw [← e0]

theorem max_mag_eq {R : Type} [CommRing R] [LinearOrder R] (F : List (gr_complex R))
    (j0 : Nat) (hj0 : j0 < 512)
    (hle : ∀ j, j < 512 → normSq (F.getD j 0) ≤ normSq (F.getD j0 0)) :
    max_mag F = normSq (F.getD j0 0) := by
  unfold max_mag
  apply le_antisymm
  · exact Finset.sup'_le _ _ fun j hj => hle j (Finset.mem_range.mp hj)
  · exact Finset.le_sup' (fun j => normSq (F.getD j 0)) (Finset.mem_range.mpr hj0)

/-- The peak scan returns `max_mag` as its first component. -/
theorem peak_scan_fst {R : Type} [CommRing R] [LinearOrder R] (F : List (gr_complex R))
    (hF : F.length = 512) :
    ∃ idx : R, correlator_cf_impl.peak_scan F = some (max_mag F, idx) := by
  obtain ⟨j0, hj0, hp, hle, _⟩ := peak_scan_eq F hF
  exact ⟨_, by rw [hp, max_mag_eq F j0 hj0 hle]⟩

/-- The power loop of the single engine sums the squared magnitudes of the 512 bins. -/
theorem power_sum {R : Type} [CommRing R] (F : List (gr_complex R)) (hF : F.length = 512) :
    forLoop 0 SPRITE_PRN_LENGTH 1
      (fun j (pow : R) =>
        (rd F j).andThen fun f => some (pow + gr_complex.real (f * gr_complex.conj f))) 0 =
      some (∑ j ∈ Finset.range 512, normSq (F.getD j 0)) := by
  obtain ⟨s, hs, hsum⟩ := loopFrom_inv
    (fun j (pow : R) =>
      (rd F j).andThen fun f => some (pow + gr_complex.real (f * gr_complex.conj f)))
    1 512 0 (fun i s => s = ∑ j ∈ Finset.range i, normSq (F.getD j 0)) 0 (by simp)
    (fun i s hi hsum => by
      have e1 : ((0 : Int) + (i : Int) * 1) = (i : Int) := by ring
      simp only [e1, rd_eq_getD F 0 i (by omega), andThen_some, real_mul_conj]
      exact ⟨_, rfl, by rw [Finset.sum_range_succ, hsum]⟩)
  rw [forLoop_one]
  have hn : (SPRITE_PRN_LENGTH - 0).toNat = 512 := by simp [SPRITE_PRN_LENGTH]
  rw [hn, hs, hsum]

theorem pointwise_length {R : Type} [CommRing R] (T W : List (gr_complex R)) :
    (pointwise T W).length = 512 := buf512_length _

theorem after_steps_templates {R : Type} [CommRing R]
    (fft : List (gr_complex R) → List (gr_complex R)) (self : correlator_cf_impl R)
    (inp : List (gr_complex R)) (i : Nat) :
    (after_steps fft self inp i).m_template0 = self.m_template0 ∧
    (after_steps fft self inp i).m_template1 = self.m_template1 := by
  cases i <;> exact ⟨rfl, rfl⟩

theorem after_steps_lengths {R : Type} [CommRing R]
    (fft : List (gr_complex R) → List (gr_complex R)) (self : correlator_cf_impl R)
    (hi0 : self.m_fft_buffer_in0.length = 512) (hi1 : self.m_fft_buffer_in1.length = 512)
    (inp : List (gr_complex R)) (i : Nat) :
    (after_steps fft self inp i).m_fft_buffer_in0.length = 512 ∧
    (after_steps fft self inp i).m_fft_buffer_in1.length = 512 := by
  cases i
  · exact ⟨hi0, hi1⟩
  · exact ⟨pointwise_length self.m_template0 _, pointwise_length self.m_template1 _⟩

theorem single_after_steps_template {R : Type} [CommRing R]
    (fft : List (gr_complex R) → List (gr_complex R)) (self : single_correlator_cf_impl R)
    (inp : List (gr_complex R)) (i : Nat) :
    (single_after_steps fft self inp i).m_template = self.m_template := by
  cases i <;> rfl

theorem single_after_steps_length {R : Type} [CommRing R]
    (fft : List (gr_complex R) → List (gr_complex R)) (self : single_correlator_cf_impl R)
    (hi : self.m_fft_buffer_in.length = 512) (inp : List (gr_complex R)) (i : Nat) :
    (single_after_steps fft self inp i).m_fft_buffer_in.length = 512 := by
  cases i
  · exact hi
  · exact pointwise_length self.m_template _

/-- One iteration of the sample loop of the dual engine: it stores the dual-code decision
for the window at `k` in `out[k]`, leaves the two products and their transforms in the FFT
buffers and leaves the rest of the object alone. -/
theorem dual_body_eq {R : Type} [CommRing R] [LinearOrder R]
    (fft : List (gr_complex R) → List (gr_complex R)) (sqrt : R → R)
    (hfft : ∀ x, x.length = 512 → (fft x).length = 512)
    (inp : List (gr_complex R)) (k : Nat) (hk : k + 512 ≤ inp.length)
    (self : correlator_cf_impl R) (out : List R)
    (hT0 : self.m_template0.length = 512) (hT1 : self.m_template1.length = 512)
    (hi0 : self.m_fft_buffer_in0.length = 512) (hi1 : self.m_fft_buffer_in1.length = 512)
    (ho : k < out.length) :
    dual_body fft sqrt inp (k : Int) (self, out) =
      some ({ self with
          m_fft_buffer_in0 := pointwise self.m_template0 (window inp k),
          m_fft_buffer_out0 := fft (pointwise self.m_template0 (window inp k)),
          m_fft_buffer_in1 := pointwise self.m_template1 (window inp k),
          m_fft_buffer_out1 := fft (pointwise self.m_template1 (window inp k)) },
        out.set k (dual_output fft sqrt self.m_template0 self.m_template1 (window inp k))) := by
  obtain ⟨i0, h0⟩ := peak_scan_fst (fft (pointwise self.m_template0 (window inp k)))
    (hfft _ (pointwise_length _ _))
  obtain ⟨i1, h1⟩ := peak_scan_fst (fft (pointwise self.m_template1 (window inp k)))
    (hfft _ (pointwise_length _ _))
  unfold dual_body
  dsimp only
  rw [dual_fill self.m_template0 self.m_template1 inp k hT0 hT1 hk _ _ hi0 hi1, andThen_some]
  dsimp only
  rw [h0, andThen_some, h1, andThen_some]
  dsimp only
  rw [wr_eq_set out k _ ho, andThen_some]
  rfl

/-- One iteration of the sample loop of the single engine: it stores the total energy of
the window at `k` in `out[k]`, leaves the product and its transform in the FFT buffers and
leaves the rest of the object alone. -/
theorem single_body_eq {R : Type} [CommRing R]
    (fft : List (gr_complex R) → List (gr_complex R))
    (hfft : ∀ x, x.length = 512 → (fft x).length = 512)
    (inp : List (gr_complex R)) (k : Nat) (hk : k + 512 ≤ inp.length)
    (self : single_correlator_cf_impl R) (out : List R)
    (hT : self.m_template.length = 512) (hi : self.m_fft_buffer_in.length = 512)
    (ho : k < out.length) :
    single_body fft inp (k : Int) (self, out) =
      some ({ self with
          m_fft_buffer_in := pointwise self.m_template (window inp k),
          m_fft_buffer_out := fft (pointwise self.m_template (window inp k)) },
        out.set k (single_output fft self.m_template (window inp k))) := by
  unfold single_body
  dsimp only
  rw [single_fill self.m_template inp k hT hk _ hi, andThen_some,
    power_sum _ (hfft _ (pointwise_length _ _)), andThen_some, wr_eq_set out k _ ho,
    andThen_some]
  rfl

theorem prefix_step {α : Type} (l out : List α) (f : Nat → α) (i : Nat) (hi : i < l.length)
    (h : ∀ j, l[j]? = if j < i then some (f j) else out[j]?) :
    ∀ j, (l.set i (f i))[j]? = if j < i + 1 then some (f j) else out[j]? := by
  intro j
  rw [List.getElem?_set]
  by_cases e : i = j
  · subst e; simp [hi]
  · rw [if_neg e, h j]
    by_cases c : j < i
    · rw [if_pos c, if_pos (by omega)]
    · rw [if_neg c, if_neg (by omega)]

theorem eq_prefix_append {α : Type} (l out : List α) (f : Nat → α) (n : Nat)
    (h : ∀ j, l[j]? = if j < n then some (f j) else out[j]?) :
    l = (List.range n).map f ++ out.drop n := by
  refine List.ext_getElem? fun j => ?_
  rw [h j]
  by_cases c : j < n
  · rw [if_pos c, List.getElem?_append_left (by simpa using c), List.getElem?_map,
      List.getElem?_range c]
    rfl
  · rw [if_neg c, List.getElem?_append_right (by simpa using c), List.getElem?_drop]
    congr 1
    simp only [List.length_map, List.length_range]
    omega

/-- Closed form of `correlator_cf_impl::work`: called for `n` items on an input of at least
`n + 511` samples and an output buffer of at least `n` entries, it returns `n` and leaves in
`out[k]`, for each `k < n`, the dual-code decision for the window at `k`; the rest of the
output buffer is unchanged and the object is the one described by `after_steps`. -/
theorem work_closed {R : Type} [CommRing R] [LinearOrder R]
    (fft : List (gr_complex R) → List (gr_complex R)) (sqrt : R → R)
    (hfft : ∀ x, x.length = 512 → (fft x).length = 512)
    (self : correlator_cf_impl R)
    (hT0 : self.m_template0.length = 512) (hT1 : self.m_template1.length = 512)
    (hi0 : self.m_fft_buffer_in0.length = 512) (hi1 : self.m_fft_buffer_in1.length = 512)
    (n : Nat) (inp : List (gr_complex R)) (hinp : n + 511 ≤ inp.length)
    (out : List R) (hout : n ≤ out.length) :
    correlator_cf_impl.work fft sqrt self (n : Int) inp out =
      some (after_steps fft self inp n, (List.range n).map (fun k =>
        dual_output fft sqrt self.m_template0 self.m_template1 (window inp k)) ++ out.drop n,
        (n : Int)) := by
  obtain ⟨s, hs, e0, hl, hg⟩ := loopFrom_inv (dual_body fft sqrt inp) 1 n 0
    (fun i st => st.1 = after_steps fft self inp i ∧ st.2.length = out.length ∧
      ∀ j, st.2[j]? = if j < i then some
        (dual_output fft sqrt self.m_template0 self.m_template1 (window inp j)) else out[j]?)
    (self, out) ⟨rfl, rfl, fun j => by simp⟩
    (fun i st hi ⟨e0, hl, hg⟩ => by
      have e : ((0 : Int) + (i : Int) * 1) = (i : Int) := by ring
      obtain ⟨t0, t1⟩ := after_steps_templates fft self inp i
      obtain ⟨l0, l1⟩ := after_steps_lengths fft self hi0 hi1 inp i
      have hb := dual_body_eq fft sqrt hfft inp i (by omega) st.1 st.2
        (by rw [e0, t0]; exact hT0) (by rw [e0, t1]; exact hT1)
        (by rw [e0]; exact l0) (by rw [e0]; exact l1) (by omega)
      rw [e, hb]
      refine ⟨_, rfl, ?_, by simp [hl], ?_⟩
      · dsimp only
        rw [e0, t0, t1]
        cases i <;> rfl
      · dsimp only
        rw [e0, t0, t1]
        exact prefix_step st.2 out (fun j =>
          dual_output fft sqrt self.m_template0 self.m_template1 (window inp j)) i
          (by omega) hg)
  rw [work_eq_loop, forLoop_one]
  have hn : ((n : Int) - 0).toNat = n := by omega
  rw [hn, hs, andThen_some, eq_prefix_append s.2 out _ n hg, e0]

/-- Closed form of `single_correlator_cf_impl::work`: called for `n` items on an input of at
least `n + 511` samples and an output buffer of at least `n` entries, it returns `n` and
leaves in `out[k]`, for each `k < n`, the total energy for the window at `k`; the rest of
the output buffer is unchanged and the object is the one described by
`single_after_steps`. -/
theorem single_work_closed {R : Type} [CommRing R]
    (fft : List (gr_complex R) → List (gr_complex R))
    (hfft : ∀ x, x.length = 512 → (fft x).length = 512)
    (self : single_correlator_cf_impl R)
    (hT : self.m_template.length = 512) (hi : self.m_fft_buffer_in.length = 512)
    (n : Nat) (inp : List (gr_complex R)) (hinp : n + 511 ≤ inp.length)
    (out : List R) (hout : n ≤ out.length) :
    single_correlator_cf_impl.work fft self (n : Int) inp out =
      some (single_after_steps fft self inp n, (List.range n).map (fun k =>
        single_output fft self.m_template (window inp k)) ++ out.drop n, (n : Int)) := by
  obtain ⟨s, hs, e0, hl, hg⟩ := loopFrom_inv (single_body fft inp) 1 n 0
    (fun i st => st.1 = single_after_steps fft self inp i ∧ st.2.length = out.length ∧
      ∀ j, st.2[j]? = if j < i then some
        (single_output fft self.m_template (window inp j)) else out[j]?)
    (self, out) ⟨rfl, rfl, fun j => by simp⟩
    (fun i st hi' ⟨e0, hl, hg⟩ => by
      have e : ((0 : Int) + (i : Int) * 1) = (i : Int) := by ring
      have t0 := single_after_steps_template fft self inp i
      have l0 := single_after_steps_length fft self hi inp i
      have hb := single_body_eq fft hfft inp i (by omega) st.1 st.2
        (by rw [e0, t0]; exact hT) (by rw [e0]; exact l0) (by omega)
      rw [e, hb]
      refine ⟨_, rfl, ?_, by simp [hl], ?_⟩
      · dsimp only
        rw [e0, t0]
        cases i <;> rfl
      · dsimp only
        rw [e0, t0]
        exact prefix_step st.2 out (fun j =>
          single_output fft self.m_template (window inp j)) i (by omega) hg)
  rw [single_work_eq_loop, forLoop_one]
  have hn : ((n : Int) - 0).toNat = n := by omega
  rw [hn, hs, andThen_some, eq_prefix_append s.2 out _ n hg, e0]

/-! ## The streaming contract -/

theorem window_congr {R : Type} [CommRing R] (inp inp2 : List (gr_complex R)) (k : Nat)
    (h : ∀ j, j < k + 512 → inp2[j]? = inp[j]?) : window inp2 k = window inp k := by
  unfold window
  exact buf512_congr _ _ fun j hj => by
    simp only [List.getD_eq_getElem?_getD, h (k + j) (by omega)]

theorem window_drop {R : Type} [CommRing R] (inp : List (gr_complex R)) (n k : Nat) :
    window (inp.drop n) k = window inp (n + k) := by
  unfold window
  exact buf512_congr _ _ fun j _ => by
    simp only [List.getD_eq_getElem?_getD, List.getElem?_drop, Nat.add_assoc]

/-- A `work` function with a closed form of the shape proved for the two engines meets
the streaming contract. -/
theorem streaming_of_closed {S R : Type} [CommRing R]
    (run : S → Int → List (gr_complex R) → List R → Option (S × List R × Int))
    (step : S → List (gr_complex R) → R) (after : S → List (gr_complex R) → Nat → S)
    (G : S → Prop)
    (hclosed : ∀ self, G self → ∀ (n : Nat) (inp : List (gr_complex R)) (out : List R),
      n + 511 ≤ inp.length → n ≤ out.length →
      run self (n : Int) inp out = some (after self inp n,
        (List.range n).map (fun k => step self (window inp k)) ++ out.drop n, (n : Int)))
    (hG : ∀ self inp n, G self → G (after self inp n))
    (hstep : ∀ self inp n, step (after self inp n) = step self)
    (hcongr : ∀ self inp inp2 n, (∀ j, j < n + 511 → inp2[j]? = inp[j]?) →
      after self inp2 n = after self inp n)
    (hadd : ∀ self inp n1 n2,
      after (after self inp n1) (inp.drop n1) n2 = after self inp (n1 + n2))
    (self : S) (hself : G self) : StreamingContract run (step self) self := by
  intro n inp out hinp hout
  refine ⟨_, _, hclosed self hself n inp out hinp hout, ?_, ?_, ?_, ?_, ?_⟩
  · simp only [List.length_append, List.length_map, List.length_range, List.length_drop]
    omega
  · intro k hk
    rw [List.getElem?_append_left (by simpa using hk), List.getElem?_map,
      List.getElem?_range hk]
    rfl
  · intro k hk
    rw [List.getElem?_append_right (by simpa using hk), List.getElem?_drop]
    congr 1
    simp only [List.length_map, List.length_range]
    omega
  · intro inp2 hagree
    have hlen2 : n + 511 ≤ inp2.length := by
      by_contra hc
      rcases Nat.eq_zero_or_pos n with h0 | hpos
      · have h1 := hagree inp2.length (by omega)
        rw [List.getElem?_eq_none (le_refl _)] at h1
        have : inp2.length < inp.length := by omega
        rw [List.getElem?_eq_getElem this] at h1
        exact Option.noConfusion h1
      · have hlt : inp2.length < n + 511 := by omega
        have h1 := hagree inp2.length hlt
        rw [List.getElem?_eq_none (le_refl _)] at h1
        have : inp2.length < inp.length := by omega
        rw [List.getElem?_eq_getElem this] at h1
        exact Option.noConfusion h1
    rw [hclosed self hself n inp2 out hlen2 hout, hcongr self inp inp2 n hagree]
    have : (List.range n).map (fun k => step self (window inp2 k)) =
        (List.range n).map (fun k => step self (window inp k)) := by
      apply List.map_congr_left
      intro k hk
      have hk' : k < n := List.mem_range.mp hk
      show step self (window inp2 k) = step self (window inp k)
      rw [window_congr inp inp2 k fun j hj => hagree j (by omega)]
    rw [this]
  · intro n1 n2 hn
    subst hn
    refine ⟨after self inp n1,
      (List.range n1).map (fun k => step self (window inp k)) ++ out.drop n1,
      (List.range n2).map (fun k => step (after self inp n1) (window (inp.drop n1) k)) ++
        (out.drop n1).drop n2,
      hclosed self hself n1 inp out (by omega) (by omega), ?_, ?_⟩
    · have hd : ((List.range n1).map (fun k => step self (window inp k)) ++
          out.drop n1).drop n1 = out.drop n1 :=
        List.drop_left' (by simp)
      rw [hd, hclosed (after self inp n1) (hG self inp n1 hself) n2 (inp.drop n1)
        (out.drop n1) (by simp only [List.length_drop]; omega)
        (by simp only [List.length_drop]; omega), hadd]
    · have ht : ((List.range n1).map (fun k => step self (window inp k)) ++
          out.drop n1).take n1 = (List.range n1).map (fun k => step self (window inp k)) :=
        List.take_left' (by simp)
      rw [ht, hstep, ← List.append_assoc, List.drop_drop]
      congr 1
      · rw [List.range_add, List.map_append, List.map_map]
        congr 1
        apply List.map_congr_left
        intro k _
        show step self (window inp (n1 + k)) = step self (window (inp.drop n1) k)
        rw [window_drop]

theorem after_steps_congr {R : Type} [CommRing R]
    (fft : List (gr_complex R) → List (gr_complex R)) (self : correlator_cf_impl R)
    (inp inp2 : List (gr_complex R)) (n : Nat)
    (h : ∀ j, j < n + 511 → inp2[j]? = inp[j]?) :
    after_steps fft self inp2 n = after_steps fft self inp n := by
  cases n with
  | zero => rfl
  | succ m =>
    have e := window_congr inp inp2 m fun j hj => h j (by omega)
    simp only [after_steps, e]

theorem after_steps_add {R : Type} [CommRing R]
    (fft : List (gr_complex R) → List (gr_complex R)) (self : correlator_cf_impl R)
    (inp : List (gr_complex R)) (n1 n2 : Nat) :
    after_steps fft (after_steps fft self inp n1) (inp.drop n1) n2 =
      after_steps fft self inp (n1 + n2) := by
  cases n2 with
  | zero => rfl
  | succ m =>
    obtain ⟨t0, t1⟩ := after_steps_templates fft self inp n1
    show ({ after_steps fft self inp n1 with
      m_fft_buffer_in0 := pointwise (after_steps fft self inp n1).m_template0
        (window (inp.drop n1) m),
      m_fft_buffer_out0 := fft (pointwise (after_steps fft self inp n1).m_template0
        (window (inp.drop n1) m)),
      m_fft_buffer_in1 := pointwise (after_steps fft self inp n1).m_template1
        (window (inp.drop n1) m),
      m_fft_buffer_out1 := fft (pointwise (after_steps fft self inp n1).m_template1
        (window (inp.drop n1) m)) } : correlator_cf_impl R) = after_steps fft self inp (n1 + m + 1)
    rw [t0, t1, window_drop]
    cases n1 <;> rfl

theorem single_after_steps_congr {R : Type} [CommRing R]
    (fft : List (gr_complex R) → List (gr_complex R)) (self : single_correlator_cf_impl R)
    (inp inp2 : List (gr_complex R)) (n : Nat)
    (h : ∀ j, j < n + 511 → inp2[j]? = inp[j]?) :
    single_after_steps fft self inp2 n = single_after_steps fft self inp n := by
  cases n with
  | zero => rfl
  | succ m =>
    have e := window_congr inp inp2 m fun j hj => h j (by omega)
    simp only [single_after_steps, e]

theorem single_after_steps_add {R : Type} [CommRing R]
    (fft : List (gr_complex R) → List (gr_complex R)) (self : single_correlator_cf_impl R)
    (inp : List (gr_complex R)) (n1 n2 : Nat) :
    single_after_steps fft (single_after_steps fft self inp n1) (inp.drop n1) n2 =
      single_after_steps fft self inp (n1 + n2) := by
  cases n2 with
  | zero => rfl
  | succ m =>
    have t0 := single_after_steps_template fft self inp n1
    show ({ single_after_steps fft self inp n1 with
      m_fft_buffer_in := pointwise (single_after_steps fft self inp n1).m_template
        (window (inp.drop n1) m),
      m_fft_buffer_out := fft (pointwise (single_after_steps fft self inp n1).m_template
        (window (inp.drop n1) m)) } : single_correlator_cf_impl R) =
      single_after_steps fft self inp (n1 + m + 1)
    rw [t0, window_drop]
    cases n1 <;> rfl

/-- The dual engine meets the streaming contract. -/
theorem dual_streaming {R : Type} [CommRing R] [LinearOrder R]
    (fft : List (gr_complex R) → List (gr_complex R)) (sqrt : R → R)
    (hfft : ∀ x, x.length = 512 → (fft x).length = 512)
    (self : correlator_cf_impl R) (hself : WellSized self) :
    StreamingContract (correlator_cf_impl.work fft sqrt)
      (dual_output fft sqrt self.m_template0 self.m_template1) self :=
  streaming_of_closed (correlator_cf_impl.work fft sqrt)
    (fun self => dual_output fft sqrt self.m_template0 self.m_template1)
    (after_steps fft) WellSized
    (fun self h n inp out hinp hout =>
      work_closed fft sqrt hfft self h.1 h.2.1 h.2.2.1 h.2.2.2 n inp hinp out hout)
    (fun self inp n h => by
      obtain ⟨t0, t1⟩ := after_steps_templates fft self inp n
      obtain ⟨l0, l1⟩ := after_steps_lengths fft self h.2.2.1 h.2.2.2 inp n
      exact ⟨by rw [t0]; exact h.1, by rw [t1]; exact h.2.1, l0, l1⟩)
    (fun self inp n => by
      obtain ⟨t0, t1⟩ := after_steps_templates fft self inp n
      show dual_output fft sqrt _ _ = dual_output fft sqrt _ _
      rw [t0, t1])
    (after_steps_congr fft) (after_steps_add fft) self hself

/-- The single engine meets the streaming contract. -/
theorem single_streaming {R : Type} [CommRing R]
    (fft : List (gr_complex R) → List (gr_complex R))
    (hfft : ∀ x, x.length = 512 → (fft x).length = 512)
    (self : single_correlator_cf_impl R) (hself : SingleWellSized self) :
    StreamingContract (single_correlator_cf_impl.work fft)
      (single_output fft self.m_template) self :=
  streaming_of_closed (single_correlator_cf_impl.work fft)
    (fun self => single_output fft self.m_template)
    (single_after_steps fft) SingleWellSized
    (fun self h n inp out hinp hout =>
      single_work_closed fft hfft self h.1 h.2 n inp hinp out hout)
    (fun self inp n h =>
      ⟨by rw [single_after_steps_template]; exact h.1,
        single_after_steps_length fft self h.2 inp n⟩)
    (fun self inp n => by
      show single_output fft _ = single_output fft _
      rw [single_after_steps_template])
    (single_after_steps_congr fft) (single_after_steps_add fft) self hself

/-! ## Claims on the correlation engine -/

theorem zero_engine_wellSized (R : Type) [CommRing R] : WellSized (zero_engine R) :=
  ⟨List.length_replicate _ _, List.length_replicate _ _, List.length_replicate _ _,
    List.length_replicate _ _⟩

theorem single_zero_engine_wellSized (R : Type) [CommRing R] :
    SingleWellSized (single_zero_engine R) :=
  ⟨List.length_replicate _ _, List.length_replicate _ _⟩

theorem normSq_nonneg (z : gr_complex ℝ) : 0 ≤ normSq z :=
  add_nonneg (mul_self_nonneg _) (mul_self_nonneg _)

theorem max_mag_isMax {R : Type} [CommRing R] [LinearOrder R] (F : List (gr_complex R)) :
    IsMaxMag F (max_mag F) := by
  obtain ⟨j, hj, e⟩ := Finset.exists_mem_eq_sup' (s := Finset.range 512)
    ⟨0, Finset.mem_range.mpr (by decide)⟩ (fun j => normSq (F.getD j 0))
  refine ⟨⟨j, Finset.mem_range.mp hj, e.symm⟩, fun i hi => ?_⟩
  exact Finset.le_sup' (fun j => normSq (F.getD j 0)) (Finset.mem_range.mpr hi)

theorem max_mag_nonneg (F : List (gr_complex ℝ)) : 0 ≤ max_mag F :=
  le_trans (normSq_nonneg (F.getD 0 0)) ((max_mag_isMax F).2 0 (by decide))

/-- The decision rule on two non-negative peak energies, over the reals. -/
theorem decision_rules (max0 max1 : ℝ) (h0 : 0 ≤ max0) (h1 : 0 ≤ max1) :
    (max1 ≥ max0 → (if max1 ≥ max0 then Real.sqrt max1 else -Real.sqrt max0) = Real.sqrt max1) ∧
    (¬ max1 ≥ max0 →
      (if max1 ≥ max0 then Real.sqrt max1 else -Real.sqrt max0) = -Real.sqrt max0) ∧
    (max0 = max1 →
      (if max1 ≥ max0 then Real.sqrt max1 else -Real.sqrt max0) = Real.sqrt max1 ∧
      0 ≤ (if max1 ≥ max0 then Real.sqrt max1 else -Real.sqrt max0)) ∧
    (0 ≤ (if max1 ≥ max0 then Real.sqrt max1 else -Real.sqrt max0) ↔ max1 ≥ max0) ∧
    (if max1 ≥ max0 then Real.sqrt max1 else -Real.sqrt max0) *
      (if max1 ≥ max0 then Real.sqrt max1 else -Real.sqrt max0) = max max0 max1 := by
  by_cases h : max1 ≥ max0
  · rw [if_pos h]
    refine ⟨fun _ => rfl, fun c => absurd h c, fun _ => ⟨rfl, Real.sqrt_nonneg _⟩,
      ⟨fun _ => h, fun _ => Real.sqrt_nonneg _⟩, ?_⟩
    rw [Real.mul_self_sqrt h1, max_eq_right h]
  · rw [if_neg h]
    have hlt : max1 < max0 := not_le.mp h
    have hpos : 0 < Real.sqrt max0 := Real.sqrt_pos.mpr (lt_of_le_of_lt h1 hlt)
    refine ⟨fun c => absurd c h, fun _ => rfl, fun e => absurd (le_of_eq e) h,
      ⟨fun c => absurd c (by linarith), fun c => absurd c h⟩, ?_⟩
    rw [neg_mul_neg, Real.mul_self_sqrt h0, max_eq_left (le_of_lt hlt)]

theorem max_mag_zeros {R : Type} [CommRing R] [LinearOrder R] :
    max_mag (buf512 fun _ => (0 : gr_complex R)) = 0 := by
  have hz : ∀ j, j < 512 → normSq ((buf512 fun _ => (0 : gr_complex R)).getD j 0) = 0 := by
    intro j hj
    rw [buf512_getD _ _ _ hj]
    show (0 : R) * 0 + 0 * 0 = 0
    ring
  rw [max_mag_eq _ 0 (by decide) fun j hj => by rw [hz j hj, hz 0 (by decide)]]
  exact hz 0 (by decide)

theorem pointwise_zero_window {R : Type} [CommRing R] (T inp : List (gr_complex R)) (k : Nat)
    (hz : ∀ j, j < 512 → inp.getD (k + j) 0 = 0) :
    pointwise T (window inp k) = buf512 fun _ => 0 := by
  unfold pointwise
  exact buf512_congr _ _ fun j hj => by rw [window_getD inp k j hj, hz j hj, mul_zero]

/-- The forward DFT of the all-zero buffer is the all-zero buffer, whatever the root. -/
theorem dft_zeros {R : Type} [CommRing R] (w : gr_complex R) :
    dft w (buf512 fun _ => 0) = buf512 fun _ => 0 := by
  unfold dft
  exact buf512_congr _ _ fun m _ => Finset.sum_eq_zero fun j hj => by
    rw [buf512_getD _ _ _ (Finset.mem_range.mp hj), zero_mul]

/-- C4: for every call of the dual engine's `work` and every output position `k`, with
`max0` and `max1` the largest squared bin magnitudes of the transforms of the window at `k`
multiplied by template 0 and by template 1, the output is `+sqrt(max1)` when `max1 >= max0`
and `-sqrt(max0)` otherwise; on a tie it is `+sqrt(max1)`, which is non-negative; it is
non-negative exactly when `max1 >= max0`, and its square is `max(max0, max1)`.  When the
window is all zero and the transform maps the zero buffer to itself (as the DFT does), both
maxima and the output are 0.  Exact real arithmetic, any transform of 512 bins. -/
theorem dual_decision (fft : List (gr_complex ℝ) → List (gr_complex ℝ))
    (hfft : ∀ x, x.length = 512 → (fft x).length = 512)
    (self : correlator_cf_impl ℝ) (hself : WellSized self)
    (n : Nat) (inp : List (gr_complex ℝ)) (hinp : n + 511 ≤ inp.length)
    (out : List ℝ) (hout : n ≤ out.length) (k : Nat) (hk : k < n) :
    ∃ self' out' o max0 max1,
      correlator_cf_impl.work fft Real.sqrt self (n : Int) inp out =
        some (self', out', (n : Int)) ∧
      out'[k]? = some o ∧
      IsMaxMag (fft (pointwise self.m_template0 (window inp k))) max0 ∧
      IsMaxMag (fft (pointwise self.m_template1 (window inp k))) max1 ∧
      (max1 ≥ max0 → o = Real.sqrt max1) ∧
      (¬ max1 ≥ max0 → o = -Real.sqrt max0) ∧
      (max0 = max1 → o = Real.sqrt max1 ∧ 0 ≤ o) ∧
      (0 ≤ o ↔ max1 ≥ max0) ∧
      o * o = max max0 max1 ∧
      ((∀ j, j < 512 → inp.getD (k + j) 0 = 0) →
        fft (buf512 fun _ => 0) = (buf512 fun _ => 0) → max0 = 0 ∧ max1 = 0 ∧ o = 0) := by
  obtain ⟨self', out', hw, _, hget, _⟩ := dual_streaming fft Real.sqrt hfft self hself n inp out
    hinp hout
  obtain ⟨r1, r2, r3, r4, r5⟩ := decision_rules
    (max_mag (fft (pointwise self.m_template0 (window inp k))))
    (max_mag (fft (pointwise self.m_template1 (window inp k))))
    (max_mag_nonneg _) (max_mag_nonneg _)
  refine ⟨self', out', _, _, _, hw, hget k hk, max_mag_isMax _, max_mag_isMax _,
    r1, r2, r3, r4, r5, ?_⟩
  intro hz hf
  have e0 : max_mag (fft (pointwise self.m_template0 (window inp k))) = 0 := by
    rw [pointwise_zero_window _ inp k hz, hf, max_mag_zeros]
  have e1 : max_mag (fft (pointwise self.m_template1 (window inp k))) = 0 := by
    rw [pointwise_zero_window _ inp k hz, hf, max_mag_zeros]
  refine ⟨e0, e1, ?_⟩
  unfold dual_output
  rw [e0, e1]
  simp

/-- C5: on every 512-entry transform output `F` the peak scan of the dual engine's `work`
returns `max = max_j |F[j]|^2` and, as `index`, the smallest `j` in `[0, 511]` at which the
maximum is attained; when all bins have the same magnitude the index is 0. -/
theorem peak_extraction {R : Type} [CommRing R] [LinearOrder R] (F : List (gr_complex R))
    (hF : F.length = 512) :
    ∃ j0 : Nat, j0 < 512 ∧
      correlator_cf_impl.peak_scan F = some (normSq (F.getD j0 0), ((j0 : Nat) : R)) ∧
      (∀ j, j < 512 → normSq (F.getD j 0) ≤ normSq (F.getD j0 0)) ∧
      (∀ j, j < j0 → normSq (F.getD j 0) < normSq (F.getD j0 0)) ∧
      ((∀ j, j < 512 → normSq (F.getD j 0) = normSq (F.getD 0 0)) → j0 = 0) := by
  obtain ⟨j0, hj0, hp, hle, hlt⟩ := peak_scan_eq F hF
  refine ⟨j0, hj0, hp, hle, hlt, fun hall => ?_⟩
  by_contra hne
  have h1 := hlt 0 (Nat.pos_of_ne_zero hne)
  rw [hall j0 hj0] at h1
  exact lt_irrefl _ h1

/-- C6: `work` of the dual engine and `work` of the single engine meet the streaming
contract: called for `N ≥ 0` items on an input of at least `N + 511` samples they return
`N`, write exactly `out[0..N-1]`, read only `in[0..N+510]`, `out[k]` is the per-window step
on `in[k..k+511]`, and a call for `N1 + N2` items equals a call for `N1` items followed by a
call for `N2` items on the input advanced by `N1`. -/
theorem work_streaming_contract {R : Type} [CommRing R] [LinearOrder R]
    (fft : List (gr_complex R) → List (gr_complex R)) (sqrt : R → R)
    (hfft : ∀ x, x.length = 512 → (fft x).length = 512)
    (dual : correlator_cf_impl R) (hdual : WellSized dual)
    (single : single_correlator_cf_impl R) (hsingle : SingleWellSized single) :
    StreamingContract (correlator_cf_impl.work fft sqrt)
      (dual_output fft sqrt dual.m_template0 dual.m_template1) dual ∧
    StreamingContract (single_correlator_cf_impl.work fft)
      (single_output fft single.m_template) single :=
  ⟨dual_streaming fft sqrt hfft dual hdual, single_streaming fft hfft single hsingle⟩

theorem dual_decision_witness :
    (∀ x : List (gr_complex ℝ), x.length = 512 → (id x).length = 512) ∧
    WellSized (zero_engine ℝ) ∧
    1 + 511 ≤ (List.replicate 512 (0 : gr_complex ℝ)).length ∧
    1 ≤ [(0 : ℝ)].length ∧ 0 < 1 ∧
    ∃ self' out' o max0 max1,
      correlator_cf_impl.work id Real.sqrt (zero_engine ℝ) ((1 : Nat) : Int)
        (List.replicate 512 0) [0] = some (self', out', ((1 : Nat) : Int)) ∧
      out'[0]? = some o ∧
      IsMaxMag (id (pointwise (zero_engine ℝ).m_template0
        (window (List.replicate 512 0) 0))) max0 ∧
      IsMaxMag (id (pointwise (zero_engine ℝ).m_template1
        (window (List.replicate 512 0) 0))) max1 ∧
      (max1 ≥ max0 → o = Real.sqrt max1) ∧
      (¬ max1 ≥ max0 → o = -Real.sqrt max0) ∧
      (max0 = max1 → o = Real.sqrt max1 ∧ 0 ≤ o) ∧
      (0 ≤ o ↔ max1 ≥ max0) ∧
      o * o = max max0 max1 ∧
      ((∀ j, j < 512 → (List.replicate 512 (0 : gr_complex ℝ)).getD (0 + j) 0 = 0) →
        id (buf512 fun _ => (0 : gr_complex ℝ)) = (buf512 fun _ => 0) →
        max0 = 0 ∧ max1 = 0 ∧ o = 0) :=
  ⟨fun _ h => h, zero_engine_wellSized ℝ, by rw [List.length_replicate], le_refl 1,
    by decide,
    dual_decision id (fun _ h => h) (zero_engine ℝ) (zero_engine_wellSized ℝ) 1
      (List.replicate 512 0) (by rw [List.length_replicate]) [0] (le_refl 1) 0 (by decide)⟩

theorem peak_extraction_witness :
    (List.replicate 512 (0 : gr_complex ℚ)).length = 512 ∧
    ∃ j0 : Nat, j0 < 512 ∧
      correlator_cf_impl.peak_scan (List.replicate 512 (0 : gr_complex ℚ)) =
        some (normSq ((List.replicate 512 (0 : gr_complex ℚ)).getD j0 0), ((j0 : Nat) : ℚ)) ∧
      (∀ j, j < 512 → normSq ((List.replicate 512 (0 : gr_complex ℚ)).getD j 0) ≤
        normSq ((List.replicate 512 (0 : gr_complex ℚ)).getD j0 0)) ∧
      (∀ j, j < j0 → normSq ((List.replicate 512 (0 : gr_complex ℚ)).getD j 0) <
        normSq ((List.replicate 512 (0 : gr_complex ℚ)).getD j0 0)) ∧
      ((∀ j, j < 512 → normSq ((List.replicate 512 (0 : gr_complex ℚ)).getD j 0) =
        normSq ((List.replicate 512 (0 : gr_complex ℚ)).getD 0 0)) → j0 = 0) :=
  ⟨List.length_replicate _ _, peak_extraction _ (List.length_replicate _ _)⟩

theorem work_streaming_contract_witness :
    (∀ x : List (gr_complex ℚ), x.length = 512 → (id x).length = 512) ∧
    WellSized (zero_engine ℚ) ∧ SingleWellSized (single_zero_engine ℚ) ∧
    StreamingContract (correlator_cf_impl.work id id)
      (dual_output id id (zero_engine ℚ).m_template0 (zero_engine ℚ).m_template1)
      (zero_engine ℚ) ∧
    StreamingContract (single_correlator_cf_impl.work id)
      (single_output id (single_zero_engine ℚ).m_template) (single_zero_engine ℚ) :=
  ⟨fun _ h => h, zero_engine_wellSized ℚ, single_zero_engine_wellSized ℚ,
    work_streaming_contract id id (fun _ h => h) (zero_engine ℚ) (zero_engine_wellSized ℚ)
      (single_zero_engine ℚ) (single_zero_engine_wellSized ℚ)⟩

/-! ## Claims on the modulator -/

theorem to_char_sub_bits (a b : Int) (ha : a = 0 ∨ a = 1) (hb : b = 0 ∨ b = 1) :
    to_char (a - b) = 0 ↔ a = b := by
  rcases ha with rfl | rfl <;> rcases hb with rfl | rfl <;> decide

theorem diff_seq_bits (code : List Int) (hbits : IsBits code) (k : Nat) (h1 : 1 ≤ k)
    (h2 : k ≤ 511) :
    diff_seq code k = if code.getD k 0 = code.getD (k - 1) 0 then 1 else -1 := by
  obtain ⟨j, rfl⟩ : ∃ j, k = j + 1 := ⟨k - 1, by omega⟩
  rw [diff_seq_succ, Nat.add_sub_cancel]
  by_cases c : code.getD (j + 1) 0 = code.getD j 0
  · rw [if_pos c, if_pos ((to_char_sub_bits _ _ (hbits.2 _ (by omega))
      (hbits.2 _ (by omega))).mpr c)]
  · rw [if_neg c, if_neg (fun h => c ((to_char_sub_bits _ _ (hbits.2 _ (by omega))
      (hbits.2 _ (by omega))).mp h))]

/-- The closed-form sequences satisfy the relations of section 4.2 on codes of bits. -/
theorem closed_form_sequences {R : Type} [CommRing R] (code : List Int) (hbits : IsBits code) :
    ModulatorSequences code (buf512 fun k => ((diff_seq code k : Int) : R))
      (buf512 fun k => ((iBB_seq code k : Int) : R))
      (buf512 fun k => ((qBB_seq code k : Int) : R)) := by
  refine ⟨buf512_length _, buf512_length _, buf512_length _, ?_, ?_, ?_, ?_, ?_, ?_, ?_, ?_⟩
  · rw [buf512_getD _ _ _ (by decide)]
    congr 1
    simp only [diff_seq, if_true]
    ring
  · intro k h1 h2
    rw [buf512_getD _ _ _ (by omega), diff_seq_bits code hbits k h1 h2]
    split <;> simp
  · rw [buf512_getD _ _ _ (by decide)]
    simp [iBB_seq]
  · intro k hodd h1 h2
    obtain ⟨j, rfl⟩ : ∃ j, k = j + 1 := ⟨k - 1, by omega⟩
    rw [buf512_getD _ _ _ (by omega), buf512_getD _ _ _ (by omega),
      buf512_getD _ _ _ (by omega), buf512_getD _ _ _ (by omega), Nat.add_sub_cancel,
      iBB_seq_even code (j + 1) (by omega), iBB_seq_odd code j (by omega)]
    exact ⟨Int.cast_mul _ _, rfl⟩
  · rw [buf512_getD _ _ _ (by decide), buf512_getD _ _ _ (by decide),
      buf512_getD _ _ _ (by decide), iBB_seq_odd code 510 (by decide), Int.cast_mul]
  · rw [buf512_getD _ _ _ (by decide), buf512_getD _ _ _ (by decide)]
    simp [qBB_seq]
  · rw [buf512_getD _ _ _ (by decide), buf512_getD _ _ _ (by decide), qBB_seq_one]
  · intro k heven h1 h2
    obtain ⟨j, rfl⟩ : ∃ j, k = j + 1 := ⟨k - 1, by omega⟩
    rw [buf512_getD _ _ _ (by omega), buf512_getD _ _ _ (by omega),
      buf512_getD _ _ _ (by omega), buf512_getD _ _ _ (by omega), Nat.add_sub_cancel,
      qBB_seq_odd code (j + 1) (by omega), qBB_seq_even code j (by omega) (by omega)]
    exact ⟨Int.cast_mul _ _, rfl⟩

theorem list_eq_of_getD {α : Type} (d : α) (l1 l2 : List α) (h1 : l1.length = 512)
    (h2 : l2.length = 512) (h : ∀ k, k < 512 → l1.getD k d = l2.getD k d) : l1 = l2 := by
  refine List.ext_getElem? fun k => ?_
  by_cases c : k < 512
  · have e := h k c
    rw [List.getD_eq_getElem?_getD, List.getD_eq_getElem?_getD,
      List.getElem?_eq_getElem (by omega), List.getElem?_eq_getElem (by omega)] at e
    rw [List.getElem?_eq_getElem (by omega), List.getElem?_eq_getElem (by omega)]
    exact congrArg some e
  · rw [List.getElem?_eq_none (by omega), List.getElem?_eq_none (by omega)]

/-- The relations of section 4.2 determine every entry of the three sequences: two triples
that satisfy them for the same code are equal. -/
theorem modulator_sequences_unique {R : Type} [CommRing R] (code : List Int)
    (d i q d2 i2 q2 : List R) (h : ModulatorSequences code d i q)
    (h2 : ModulatorSequences code d2 i2 q2) : d2 = d ∧ i2 = i ∧ q2 = q := by
  obtain ⟨ld, li, lq, a0, a1, b0, b1, b2, c0, c1, c2⟩ := h
  obtain ⟨ld', li', lq', a0', a1', b0', b1', b2', c0', c1', c2'⟩ := h2
  have hd : d2 = d := list_eq_of_getD 0 _ _ ld' ld fun k hk => by
    by_cases c : k = 0
    · rw [c, a0, a0']
    · rw [a1 k (by omega) (by omega), a1' k (by omega) (by omega)]
  subst hd
  have hi : ∀ k, k < 512 → i2.getD k 0 = i.getD k 0 := by
    intro k
    induction k with
    | zero => intro _; rw [b0, b0']
    | succ j ih =>
      intro hk
      have ihj := ih (by omega)
      by_cases e : j + 1 = 511
      · have ej : j = 510 := by omega
        subst ej
        rw [b2, b2', ihj]
      · by_cases odd : (j + 1) % 2 = 1
        · rw [(b1 (j + 1) odd (by omega) (by omega)).1,
            (b1' (j + 1) odd (by omega) (by omega)).1, Nat.add_sub_cancel, ihj]
        · rw [(b1 j (by omega) (by omega) (by omega)).2,
            (b1' j (by omega) (by omega) (by omega)).2, ihj]
  have hq : ∀ k, k < 512 → q2.getD k 0 = q.getD k 0 := by
    intro k
    induction k with
    | zero => intro _; rw [c0, c0']
    | succ j ih =>
      intro hk
      have ihj := ih (by omega)
      by_cases e : j = 0
      · subst e
        rw [c1, c1']
      · by_cases even : (j + 1) % 2 = 0
        · rw [(c2 (j + 1) even (by omega) (by omega)).1,
            (c2' (j + 1) even (by omega) (by omega)).1, Nat.add_sub_cancel, ihj]
        · rw [(c2 j (by omega) (by omega) (by omega)).2,
            (c2' j (by omega) (by omega) (by omega)).2, ihj]
  exact ⟨rfl, list_eq_of_getD 0 _ _ li' li hi, list_eq_of_getD 0 _ _ lq' lq hq⟩

/-- C10: on every 512-entry code of 0/1 bits the modulator (of either engine) runs without
an out-of-range access and leaves in `diffs`, `iBB`, `qBB` the sequences of section 4.2,
steps 1 to 3: `diff[0] = 1 - 2*code[0]`, `diff[k] = +1` if `code[k] = code[k-1]` else `-1`;
`iBB[0] = 1`, `iBB[k] = diff[k]*iBB[k-1]` and `iBB[k+1] = iBB[k]` for odd `k` in `[1, 509]`,
`iBB[511] = diff[511]*iBB[510]`; `qBB[0] = qBB[1] = diff[0]`, `qBB[k] = diff[k]*qBB[k-1]`
and `qBB[k+1] = qBB[k]` for even `k` in `[2, 510]`.  Every entry 0..511 is thereby defined:
these relations have no other solution, and the result is the same whatever the buffers
held before. -/
theorem modulator_sequences {R : Type} [CommRing R] (code : List Int) (hbits : IsBits code)
    (diffs iBB qBB : List R) (hd : diffs.length = 512) (hi : iBB.length = 512)
    (hq : qBB.length = 512) (baseBand : List (gr_complex R)) (hb : baseBand.length = 512) :
    ∃ d i q bb,
      correlator_cf_impl.cc430_modulator code diffs iBB qBB baseBand = some (d, i, q, bb) ∧
      single_correlator_cf_impl.cc430_modulator code diffs iBB qBB baseBand =
        some (d, i, q, bb) ∧
      ModulatorSequences code d i q ∧
      (∀ d2 i2 q2 : List R, ModulatorSequences code d2 i2 q2 → d2 = d ∧ i2 = i ∧ q2 = q) ∧
      ∀ (diffs2 iBB2 qBB2 : List R) (baseBand2 : List (gr_complex R)),
        diffs2.length = 512 → iBB2.length = 512 → qBB2.length = 512 →
        baseBand2.length = 512 →
        correlator_cf_impl.cc430_modulator code diffs2 iBB2 qBB2 baseBand2 =
          some (d, i, q, bb) :=
  ⟨_, _, _, _, cc430_modulator_eq code hbits.1 diffs iBB qBB hd hi hq baseBand hb,
    (single_cc430_modulator_eq_dual code diffs iBB qBB baseBand).trans
      (cc430_modulator_eq code hbits.1 diffs iBB qBB hd hi hq baseBand hb),
    closed_form_sequences code hbits,
    fun _ _ _ h2 => modulator_sequences_unique code _ _ _ _ _ _
      (closed_form_sequences code hbits) h2,
    fun d2 i2 q2 b2 h1 h2 h3 h4 => cc430_modulator_eq code hbits.1 d2 i2 q2 h1 h2 h3 b2 h4⟩

theorem zero_code_bits : IsBits (List.replicate 512 0) :=
  ⟨List.length_replicate _ _, fun k hk => Or.inl (by
    rw [List.getD_eq_getElem?_getD, List.getElem?_replicate, if_pos hk]
    rfl)⟩

theorem modulator_sequences_witness :
    IsBits (List.replicate 512 0) ∧
    (List.replicate 512 (5 : ℚ)).length = 512 ∧
    (List.replicate 512 (0 : gr_complex ℚ)).length = 512 ∧
    ∃ d i q bb,
      correlator_cf_impl.cc430_modulator (List.replicate 512 0) (List.replicate 512 (5 : ℚ))
        (List.replicate 512 5) (List.replicate 512 5) (List.replicate 512 0) =
        some (d, i, q, bb) ∧
      single_correlator_cf_impl.cc430_modulator (List.replicate 512 0)
        (List.replicate 512 (5 : ℚ)) (List.replicate 512 5) (List.replicate 512 5)
        (List.replicate 512 0) = some (d, i, q, bb) ∧
      ModulatorSequences (List.replicate 512 0) d i q ∧
      (∀ d2 i2 q2 : List ℚ, ModulatorSequences (List.replicate 512 0) d2 i2 q2 →
        d2 = d ∧ i2 = i ∧ q2 = q) ∧
      ∀ (diffs2 iBB2 qBB2 : List ℚ) (baseBand2 : List (gr_complex ℚ)),
        diffs2.length = 512 → iBB2.length = 512 → qBB2.length = 512 →
        baseBand2.length = 512 →
        correlator_cf_impl.cc430_modulator (List.replicate 512 0) diffs2 iBB2 qBB2 baseBand2 =
          some (d, i, q, bb) :=
  ⟨zero_code_bits, List.length_replicate _ _, List.length_replicate _ _,
    modulator_sequences (List.replicate 512 0) zero_code_bits (List.replicate 512 5)
      (List.replicate 512 5) (List.replicate 512 5) (List.length_replicate _ _)
      (List.length_replicate _ _) (List.length_replicate _ _) (List.replicate 512 0)
      (List.length_replicate _ _)⟩

/-! ## The forward DFT over the reals -/

theorem toComplexHom_apply (z : gr_complex ℝ) : toComplexHom z = ⟨z.re, z.im⟩ := rfl

theorem toComplexHom_injective : Function.Injective toComplexHom := by
  intro a b h
  have h1 := congrArg Complex.re h
  have h2 := congrArg Complex.im h
  exact gr_complex.ext h1 h2

theorem normSq_eq_norm_sq (z : gr_complex ℝ) : normSq z = ‖toComplexHom z‖ ^ 2 := by
  rw [← Complex.normSq_eq_norm_sq]
  rfl

/-- The kernel root `exp(-2*pi*i/512)` maps to a primitive 512-th root of unity. -/
theorem kernel_root_primitive :
    IsPrimitiveRoot
      (toComplexHom ⟨Real.cos (2 * Real.pi / 512), -Real.sin (2 * Real.pi / 512)⟩) 512 := by
  have h := (Complex.isPrimitiveRoot_exp 512 (by decide)).inv
  have e : (Complex.exp (2 * Real.pi * Complex.I / (512 : ℕ)))⁻¹ =
      toComplexHom ⟨Real.cos (2 * Real.pi / 512), -Real.sin (2 * Real.pi / 512)⟩ := by
    rw [← Complex.exp_neg]
    have : -(2 * (Real.pi : ℂ) * Complex.I / ((512 : ℕ) : ℂ)) =
        ((-(2 * Real.pi / 512) : ℝ) : ℂ) * Complex.I := by
      push_cast; ring
    rw [this]
    apply Complex.ext
    · rw [Complex.exp_ofReal_mul_I_re, Real.cos_neg]; rfl
    · rw [Complex.exp_ofReal_mul_I_im, Real.sin_neg]; rfl
  rw [e] at h
  exact h

theorem geom_sum_root_zero (z : ℂ) (hz : IsPrimitiveRoot z 512) (m : Nat) (h0 : 0 < m)
    (hm : m < 512) : ∑ j ∈ Finset.range 512, z ^ (j * m) = 0 := by
  have hne : z ^ m - 1 ≠ 0 := sub_ne_zero.mpr (hz.pow_ne_one_of_pos_of_lt h0 hm)
  have hs : (z ^ m - 1) * ∑ j ∈ Finset.range 512, (z ^ m) ^ j = (z ^ m) ^ 512 - 1 :=
    mul_geom_sum (z ^ m) 512
  have h1 : (z ^ m) ^ 512 = 1 := by
    rw [← pow_mul, Nat.mul_comm, pow_mul, hz.pow_eq_one, one_pow]
  rw [h1, sub_self] at hs
  have := (mul_eq_zero.mp hs).resolve_left hne
  rw [← this]
  exact Finset.sum_congr rfl fun j _ => by rw [← pow_mul, Nat.mul_comm]

/-- The transform of the all-ones buffer: 512 in bin 0 and 0 in every other bin. -/
theorem dft_ones :
    dft (⟨Real.cos (2 * Real.pi / 512), -Real.sin (2 * Real.pi / 512)⟩ : gr_complex ℝ)
      (buf512 fun _ => 1) = buf512 fun m => if m = 0 then ⟨512, 0⟩ else 0 := by
  unfold dft
  refine buf512_congr _ _ fun m hm => ?_
  apply toComplexHom_injective
  rw [map_sum]
  have hterm : ∀ j ∈ Finset.range 512,
      toComplexHom ((buf512 fun _ => (1 : gr_complex ℝ)).getD j 0 *
        (⟨Real.cos (2 * Real.pi / 512), -Real.sin (2 * Real.pi / 512)⟩ : gr_complex ℝ) ^
          (j * m)) =
      (toComplexHom ⟨Real.cos (2 * Real.pi / 512), -Real.sin (2 * Real.pi / 512)⟩) ^
        (j * m) := by
    intro j hj
    rw [buf512_getD _ _ _ (Finset.mem_range.mp hj), one_mul, map_pow]
  rw [Finset.sum_congr rfl hterm]
  by_cases c : m = 0
  · subst c
    simp only [Nat.mul_zero, pow_zero, Finset.sum_const, Finset.card_range, if_true,
      nsmul_eq_mul, mul_one]
    apply Complex.ext <;> simp [toComplexHom_apply]
  · rw [if_neg c, geom_sum_root_zero _ kernel_root_primitive m (Nat.pos_of_ne_zero c) hm,
      map_zero]

theorem norm_sum_le_card (u : Nat → ℂ) (s : Finset Nat) (hu : ∀ j ∈ s, ‖u j‖ = 1) :
    ‖∑ j ∈ s, u j‖ ≤ s.card := by
  refine le_trans (norm_sum_le s u) ?_
  rw [Finset.sum_congr rfl hu]
  simp

/-- Strict triangle inequality: unit vectors that are not all equal sum to a vector shorter
than their number. -/
theorem norm_sum_lt_card (u : Nat → ℂ) (n : Nat) (hu : ∀ j, j < n → ‖u j‖ = 1)
    (a b : Nat) (ha : a < n) (hb : b < n) (hne : u a ≠ u b) :
    ‖∑ j ∈ Finset.range n, u j‖ < n := by
  have hab : a ≠ b := fun h => hne (by rw [h])
  have hamem : a ∈ Finset.range n := Finset.mem_range.mpr ha
  have hbmem : b ∈ (Finset.range n).erase a :=
    Finset.mem_erase.mpr ⟨fun h => hab h.symm, Finset.mem_range.mpr hb⟩
  have hsplit : ∑ j ∈ Finset.range n, u j =
      (u a + u b) + ∑ j ∈ ((Finset.range n).erase a).erase b, u j := by
    rw [← Finset.add_sum_erase _ u hamem, ← Finset.add_sum_erase _ u hbmem, add_assoc]
  have hpair : ‖u a + u b‖ < 2 := by
    have hray : ¬ SameRay ℝ (u a) (u b) := fun h =>
      hne ((sameRay_iff_of_norm_eq (by rw [hu a ha, hu b hb])).mp h)
    have := norm_add_lt_of_not_sameRay hray
    rw [hu a ha, hu b hb] at this
    linarith
  have hrest : ‖∑ j ∈ ((Finset.range n).erase a).erase b, u j‖ ≤
      ((((Finset.range n).erase a).erase b).card : ℝ) :=
    norm_sum_le_card u _ fun j hj =>
      hu j (Finset.mem_range.mp (Finset.mem_of_mem_erase (Finset.mem_of_mem_erase hj)))
  have hcard : ((((Finset.range n).erase a).erase b).card : ℝ) = (n : ℝ) - 2 := by
    rw [Finset.card_erase_of_mem hbmem, Finset.card_erase_of_mem hamem, Finset.card_range]
    have : 2 ≤ n := by omega
    rw [Nat.sub_sub, Nat.cast_sub this]
    norm_num
  rw [hsplit]
  calc ‖u a + u b + ∑ j ∈ ((Finset.range n).erase a).erase b, u j‖
      ≤ ‖u a + u b‖ + ‖∑ j ∈ ((Finset.range n).erase a).erase b, u j‖ := norm_add_le _ _
    _ < 2 + ((n : ℝ) - 2) := by rw [hcard] at hrest; linarith
    _ = n := by ring

theorem norm_eq_one_of_normSq (z : gr_complex ℝ) (h : normSq z = 1) : ‖toComplexHom z‖ = 1 := by
  rw [normSq_eq_norm_sq] at h
  have h0 : 0 ≤ ‖toComplexHom z‖ := norm_nonneg _
  nlinarith [sq_nonneg (‖toComplexHom z‖ - 1), sq_nonneg (‖toComplexHom z‖ + 1)]

/-- Bin `m` of the transform, mapped to the complex numbers, is the sum of the samples
rotated by the powers of the kernel root. -/
theorem dft_bin (P : List (gr_complex ℝ)) (m : Nat) (hm : m < 512) :
    toComplexHom ((dft (⟨Real.cos (2 * Real.pi / 512), -Real.sin (2 * Real.pi / 512)⟩ :
      gr_complex ℝ) P).getD m 0) =
      ∑ j ∈ Finset.range 512, toComplexHom (P.getD j 0) *
        (toComplexHom ⟨Real.cos (2 * Real.pi / 512), -Real.sin (2 * Real.pi / 512)⟩) ^
          (j * m) := by
  unfold dft
  rw [buf512_getD _ _ _ hm, map_sum]
  exact Finset.sum_congr rfl fun j _ => by rw [map_mul, map_pow]

theorem rotated_norm (P : List (gr_complex ℝ)) (hP : ∀ j, j < 512 → normSq (P.getD j 0) = 1)
    (m j : Nat) (hj : j < 512) :
    ‖toComplexHom (P.getD j 0) *
      (toComplexHom ⟨Real.cos (2 * Real.pi / 512), -Real.sin (2 * Real.pi / 512)⟩) ^
        (j * m)‖ = 1 := by
  rw [norm_mul, norm_pow, kernel_root_primitive.norm'_eq_one (by decide), one_pow, mul_one]
  exact norm_eq_one_of_normSq _ (hP j hj)

/-- No bin of the transform of 512 unit-modulus samples exceeds `512^2` in squared
magnitude. -/
theorem dft_bin_le (P : List (gr_complex ℝ)) (hP : ∀ j, j < 512 → normSq (P.getD j 0) = 1)
    (m : Nat) (hm : m < 512) :
    normSq ((dft (⟨Real.cos (2 * Real.pi / 512), -Real.sin (2 * Real.pi / 512)⟩ :
      gr_complex ℝ) P).getD m 0) ≤ 262144 := by
  rw [normSq_eq_norm_sq, dft_bin P m hm]
  have h := norm_sum_le_card (fun j => toComplexHom (P.getD j 0) *
      (toComplexHom ⟨Real.cos (2 * Real.pi / 512), -Real.sin (2 * Real.pi / 512)⟩) ^ (j * m))
    (Finset.range 512) fun j hj => rotated_norm P hP m j (Finset.mem_range.mp hj)
  rw [Finset.card_range] at h
  have h0 := norm_nonneg (∑ j ∈ Finset.range 512, toComplexHom (P.getD j 0) *
      (toComplexHom ⟨Real.cos (2 * Real.pi / 512), -Real.sin (2 * Real.pi / 512)⟩) ^ (j * m))
  push_cast at h
  nlinarith

/-- Every bin of the transform of 512 unit-modulus samples that start `1, 1` and are not
all 1 is below `512^2` in squared magnitude. -/
theorem dft_bin_lt (P : List (gr_complex ℝ)) (hP : ∀ j, j < 512 → normSq (P.getD j 0) = 1)
    (h0 : P.getD 0 0 = 1) (h1 : P.getD 1 0 = 1) (js : Nat) (hjs : js < 512)
    (hne : P.getD js 0 ≠ 1) (m : Nat) (hm : m < 512) :
    normSq ((dft (⟨Real.cos (2 * Real.pi / 512), -Real.sin (2 * Real.pi / 512)⟩ :
      gr_complex ℝ) P).getD m 0) < 262144 := by
  rw [normSq_eq_norm_sq, dft_bin P m hm]
  have hlt : ‖∑ j ∈ Finset.range 512, toComplexHom (P.getD j 0) *
      (toComplexHom ⟨Real.cos (2 * Real.pi / 512), -Real.sin (2 * Real.pi / 512)⟩) ^
        (j * m)‖ < (512 : Nat) := by
    by_cases c : m = 0
    · subst c
      refine norm_sum_lt_card _ 512 (fun j hj => rotated_norm P hP 0 j hj) 0 js (by decide)
        hjs ?_
      simp only [Nat.mul_zero, pow_zero, mul_one]
      rw [h0]
      intro h
      exact hne (toComplexHom_injective h).symm
    · refine norm_sum_lt_card _ 512 (fun j hj => rotated_norm P hP m j hj) 0 1 (by decide)
        (by decide) ?_
      simp only [Nat.zero_mul, pow_zero, mul_one, Nat.one_mul]
      rw [h0, h1, map_one, one_mul]
      intro h
      exact kernel_root_primitive.pow_ne_one_of_pos_of_lt (Nat.pos_of_ne_zero c) hm h.symm
  have hn := norm_nonneg (∑ j ∈ Finset.range 512, toComplexHom (P.getD j 0) *
      (toComplexHom ⟨Real.cos (2 * Real.pi / 512), -Real.sin (2 * Real.pi / 512)⟩) ^ (j * m))
  push_cast at hlt
  nlinarith

/-! ## Closed form of the constructors -/

/-- The conjugation loop of the dual constructor. -/
theorem conj_loop2 {R : Type} [CommRing R] (A B : List (gr_complex R))
    (hA : A.length = 512) (hB : B.length = 512) :
    forLoop 0 SPRITE_PRN_LENGTH 1
      (fun k (t : List (gr_complex R) × List (gr_complex R)) =>
        (rd t.1 k).andThen fun a => (wr t.1 k (gr_complex.conj a)).andThen fun t0 =>
        (rd t.2 k).andThen fun b => (wr t.2 k (gr_complex.conj b)).andThen fun t1 =>
        some (t0, t1)) (A, B) =
      some (buf512 fun k => gr_complex.conj (A.getD k 0),
        buf512 fun k => gr_complex.conj (B.getD k 0)) := by
  obtain ⟨s, hs, hla, hlb, hga, hgb⟩ := loopFrom_inv
    (fun k (t : List (gr_complex R) × List (gr_complex R)) =>
      (rd t.1 k).andThen fun a => (wr t.1 k (gr_complex.conj a)).andThen fun t0 =>
      (rd t.2 k).andThen fun b => (wr t.2 k (gr_complex.conj b)).andThen fun t1 =>
      some (t0, t1)) 1 512 0
    (fun i s => s.1.length = 512 ∧ s.2.length = 512 ∧
      (∀ j, s.1[j]? = if j < i then some (gr_complex.conj (A.getD j 0)) else A[j]?) ∧
      (∀ j, s.2[j]? = if j < i then some (gr_complex.conj (B.getD j 0)) else B[j]?))
    (A, B) ⟨hA, hB, fun j => by simp, fun j => by simp⟩
    (fun i s hi ⟨hla, hlb, hga, hgb⟩ => by
      have e1 : ((0 : Int) + (i : Int) * 1) = (i : Int) := by ring
      have ra : rd s.1 (i : Int) = some (A.getD i 0) :=
        getElem?_eq_some_of_rd _ _ _ (by
          rw [hga i, if_neg (lt_irrefl i)]; exact getElem?_eq_some_getD A 0 i (by omega))
      have rb : rd s.2 (i : Int) = some (B.getD i 0) :=
        getElem?_eq_some_of_rd _ _ _ (by
          rw [hgb i, if_neg (lt_irrefl i)]; exact getElem?_eq_some_getD B 0 i (by omega))
      simp only [e1, ra, rb, andThen_some, wr_eq_set s.1 i _ (by omega),
        wr_eq_set s.2 i _ (by omega)]
      exact ⟨_, rfl, by simp [hla], by simp [hlb],
        prefix_step s.1 A (fun j => gr_complex.conj (A.getD j 0)) i (by omega) hga,
        prefix_step s.2 B (fun j => gr_complex.conj (B.getD j 0)) i (by omega) hgb⟩)
  rw [forLoop_one]
  have hn : (SPRITE_PRN_LENGTH - 0).toNat = 512 := by simp [SPRITE_PRN_LENGTH]
  rw [hn, hs]
  have e0 : s.1 = buf512 fun k => gr_complex.conj (A.getD k 0) :=
    eq_buf512 _ _ hla fun j hj => by rw [hga j, if_pos hj]
  have e1 : s.2 = buf512 fun k => gr_complex.conj (B.getD k 0) :=
    eq_buf512 _ _ hlb fun j hj => by rw [hgb j, if_pos hj]
  rw [← e0, ← e1]

/-- The conjugation loop of the single constructor. -/
theorem conj_loop {R : Type} [CommRing R] (A : List (gr_complex R)) (hA : A.length = 512) :
    forLoop 0 SPRITE_PRN_LENGTH 1
      (fun k (t : List (gr_complex R)) =>
        (rd t k).andThen fun a => wr t k (gr_complex.conj a)) A =
      some (buf512 fun k => gr_complex.conj (A.getD k 0)) := by
  obtain ⟨s, hs, hla, hga⟩ := loopFrom_inv
    (fun k (t : List (gr_complex R)) =>
      (rd t k).andThen fun a => wr t k (gr_complex.conj a)) 1 512 0
    (fun i s => s.length = 512 ∧
      (∀ j, s[j]? = if j < i then some (gr_complex.conj (A.getD j 0)) else A[j]?))
    A ⟨hA, fun j => by simp⟩
    (fun i s hi ⟨hla, hga⟩ => by
      have e1 : ((0 : Int) + (i : Int) * 1) = (i : Int) := by ring
      have ra : rd s (i : Int) = some (A.getD i 0) :=
        getElem?_eq_some_of_rd _ _ _ (by
          rw [hga i, if_neg (lt_irrefl i)]; exact getElem?_eq_some_getD A 0 i (by omega))
      simp only [e1, ra, andThen_some, wr_eq_set s i _ (by omega)]
      exact ⟨_, rfl, by simp [hla],
        prefix_step s A (fun j => gr_complex.conj (A.getD j 0)) i (by omega) hga⟩)
  rw [forLoop_one]
  have hn : (SPRITE_PRN_LENGTH - 0).toNat = 512 := by simp [SPRITE_PRN_LENGTH]
  rw [hn, hs]
  have e0 : s = buf512 fun k => gr_complex.conj (A.getD k 0) :=
    eq_buf512 _ _ hla fun j hj => by rw [hga j, if_pos hj]
  rw [← e0]

theorem conj_buf512 {R : Type} [CommRing R] (f : Nat → gr_complex R) :
    (buf512 fun k => gr_complex.conj ((buf512 f).getD k 0)) =
      buf512 fun k => gr_complex.conj (f k) :=
  buf512_congr _ _ fun j hj => by rw [buf512_getD _ _ _ hj]

/-- Closed form of the dual constructor on valid selectors: the codes are `prn_code`, the
templates the conjugated `baseBand_seq` of the codes, and the scratch buffers hold the
sequences of the second code. -/
theorem make_eq {R : Type} [CommRing R] (a b : Int) (ha : -2 ≤ a) (ha' : a ≤ 510)
    (hb : -2 ≤ b) (hb' : b ≤ 510) (self : correlator_cf_impl R) (hself : Allocated self) :
    correlator_cf_impl.make a b self = some { self with
      m_prn0 := prn_code correlator_cf_impl.mseq1 correlator_cf_impl.mseq2 a,
      m_prn1 := prn_code correlator_cf_impl.mseq1 correlator_cf_impl.mseq2 b,
      m_template0 := buf512 fun k => gr_complex.conj
        (baseBand_seq (prn_code correlator_cf_impl.mseq1 correlator_cf_impl.mseq2 a) k),
      m_template1 := buf512 fun k => gr_complex.conj
        (baseBand_seq (prn_code correlator_cf_impl.mseq1 correlator_cf_impl.mseq2 b) k),
      m_buffer_real1 := buf512 fun k =>
        ((diff_seq (prn_code correlator_cf_impl.mseq1 correlator_cf_impl.mseq2 b) k : Int) : R),
      m_buffer_real2 := buf512 fun k =>
        ((iBB_seq (prn_code correlator_cf_impl.mseq1 correlator_cf_impl.mseq2 b) k : Int) : R),
      m_buffer_real3 := buf512 fun k =>
        ((qBB_seq (prn_code correlator_cf_impl.mseq1 correlator_cf_impl.mseq2 b) k : Int) : R) }
      := by
  obtain ⟨p0, p1, t0, t1, b1, b2, b3, _, _⟩ := hself
  unfold correlator_cf_impl.make
  rw [generate_prns_eq a b ha ha' hb hb' _ _ p0 p1, andThen_some]
  dsimp only
  rw [cc430_modulator_eq _ (prn_code_length _ _ _) _ _ _ b1 b2 b3 _ t0, andThen_some]
  dsimp only
  rw [cc430_modulator_eq _ (prn_code_length _ _ _) _ _ _ (buf512_length _) (buf512_length _)
    (buf512_length _) _ t1, andThen_some]
  dsimp only
  rw [conj_loop2 _ _ (buf512_length _) (buf512_length _), andThen_some, conj_buf512,
    conj_buf512]

/-- Closed form of the single constructor on valid selectors. -/
theorem single_make_eq {R : Type} [CommRing R] (s : Int) (hs : -2 ≤ s) (hs' : s ≤ 510)
    (self : single_correlator_cf_impl R) (hself : SingleAllocated self) :
    single_correlator_cf_impl.make s self = some { self with
      m_prn := prn_code single_correlator_cf_impl.mseq1 single_correlator_cf_impl.mseq2 s,
      m_template := buf512 fun k => gr_complex.conj (baseBand_seq
        (prn_code single_correlator_cf_impl.mseq1 single_correlator_cf_impl.mseq2 s) k),
      m_buffer_real1 := buf512 fun k => ((diff_seq
        (prn_code single_correlator_cf_impl.mseq1 single_correlator_cf_impl.mseq2 s) k : Int) : R),
      m_buffer_real2 := buf512 fun k => ((iBB_seq
        (prn_code single_correlator_cf_impl.mseq1 single_correlator_cf_impl.mseq2 s) k : Int) : R),
      m_buffer_real3 := buf512 fun k => ((qBB_seq
        (prn_code single_correlator_cf_impl.mseq1 single_correlator_cf_impl.mseq2 s) k : Int) : R) }
      := by
  obtain ⟨p0, t0, b1, b2, b3, _⟩ := hself
  unfold single_correlator_cf_impl.make
  rw [generate_prn_eq s hs hs' _ p0, andThen_some, single_cc430_modulator_eq_dual,
    cc430_modulator_eq _ (prn_code_length _ _ _) _ _ _ b1 b2 b3 _ t0, andThen_some]
  dsimp only
  rw [conj_loop _ (buf512_length _), andThen_some, conj_buf512]

/-! ## Unit modulus of the template -/

theorem diff_seq_unit (code : List Int) (h0 : code.getD 0 0 = 0 ∨ code.getD 0 0 = 1)
    (k : Nat) : diff_seq code k = 1 ∨ diff_seq code k = -1 := by
  unfold diff_seq
  by_cases c : k = 0
  · rw [if_pos c]
    rcases h0 with h | h <;> rw [h] <;> decide
  · rw [if_neg c]
    by_cases c2 : to_char (code.getD k 0 - code.getD (k - 1) 0) = 0
    · rw [if_pos c2]; exact Or.inl rfl
    · rw [if_neg c2]; exact Or.inr rfl

theorem mul_unit (a b : Int) (ha : a = 1 ∨ a = -1) (hb : b = 1 ∨ b = -1) :
    a * b = 1 ∨ a * b = -1 := by
  rcases ha with rfl | rfl <;> rcases hb with rfl | rfl <;> decide

theorem iBB_seq_unit (code : List Int) (h0 : code.getD 0 0 = 0 ∨ code.getD 0 0 = 1) :
    ∀ k, iBB_seq code k = 1 ∨ iBB_seq code k = -1
  | 0 => Or.inl rfl
  | k + 1 => by
      unfold iBB_seq
      split
      · exact mul_unit _ _ (diff_seq_unit code h0 _) (iBB_seq_unit code h0 k)
      · exact iBB_seq_unit code h0 k

theorem qBB_seq_unit (code : List Int) (h0 : code.getD 0 0 = 0 ∨ code.getD 0 0 = 1) :
    ∀ k, qBB_seq code k = 1 ∨ qBB_seq code k = -1
  | 0 => diff_seq_unit code h0 0
  | k + 1 => by
      unfold qBB_seq
      split
      · exact mul_unit _ _ (diff_seq_unit code h0 _) (qBB_seq_unit code h0 k)
      · exact qBB_seq_unit code h0 k

theorem cast_unit_sq {R : Type} [CommRing R] (a : Int) (ha : a = 1 ∨ a = -1) :
    ((a : Int) : R) * ((a : Int) : R) = 1 := by
  rcases ha with rfl | rfl <;> simp

theorem quarter_cycle {R : Type} [CommRing R] (k : Int) :
    ((cos_half_pi k : R) = 1 ∧ (sin_half_pi k : R) = 0) ∨
    ((cos_half_pi k : R) = 0 ∧ (sin_half_pi k : R) = 1) ∨
    ((cos_half_pi k : R) = -1 ∧ (sin_half_pi k : R) = 0) ∨
    ((cos_half_pi k : R) = 0 ∧ (sin_half_pi k : R) = -1) := by
  unfold cos_half_pi sin_half_pi
  have h : k % 4 = 0 ∨ k % 4 = 1 ∨ k % 4 = 2 ∨ k % 4 = 3 := by omega
  rcases h with h | h | h | h <;> rw [h] <;> simp

/-- Every entry of the modulated waveform of a code starting with a bit has modulus 1:
its conjugate times itself is 1. -/
theorem conj_mul_baseBand {R : Type} [CommRing R] (code : List Int)
    (h0 : code.getD 0 0 = 0 ∨ code.getD 0 0 = 1) (k : Nat) :
    gr_complex.conj (baseBand_seq code k : gr_complex R) * baseBand_seq code k = 1 := by
  have hi := cast_unit_sq (R := R) _ (iBB_seq_unit code h0 k)
  have hq := cast_unit_sq (R := R) _ (qBB_seq_unit code h0 k)
  apply gr_complex.ext
  · show (((iBB_seq code k : Int) : R) * cos_half_pi (k : Int) + 0) *
        (((iBB_seq code k : Int) : R) * cos_half_pi (k : Int) + 0) -
        -(0 + ((qBB_seq code k : Int) : R) * sin_half_pi (k : Int)) *
        (0 + ((qBB_seq code k : Int) : R) * sin_half_pi (k : Int)) = 1
    rcases quarter_cycle (R := R) (k : Int) with ⟨c, s⟩ | ⟨c, s⟩ | ⟨c, s⟩ | ⟨c, s⟩
    · rw [c, s]; linear_combination hi
    · rw [c, s]; linear_combination hq
    · rw [c, s]; linear_combination hi
    · rw [c, s]; linear_combination hq
  · show (((iBB_seq code k : Int) : R) * cos_half_pi (k : Int) + 0) *
        (0 + ((qBB_seq code k : Int) : R) * sin_half_pi (k : Int)) +
        -(0 + ((qBB_seq code k : Int) : R) * sin_half_pi (k : Int)) *
        (((iBB_seq code k : Int) : R) * cos_half_pi (k : Int) + 0) = 0
    ring

/-! ## Claims on matched windows -/

theorem prn_code_head_bit (m1 m2 : List Int) (h1 : ∀ x ∈ m1, x = 0 ∨ x = 1)
    (h2 : ∀ x ∈ m2, x = 0 ∨ x = 1) (s : Int) :
    (prn_code m1 m2 s).getD 0 0 = 0 ∨ (prn_code m1 m2 s).getD 0 0 = 1 := by
  have e : (prn_code m1 m2 s).getD 0 0 = chip m1 m2 s 0 := by
    rw [List.getD_eq_getElem?_getD, prn_code_getElem?, if_pos (by decide)]
    rfl
  rw [e]
  exact chip_bit m1 m2 h1 h2 s 0

theorem window_zero {R : Type} [CommRing R] (f : Nat → gr_complex R) :
    window (buf512 f) 0 = buf512 f := by
  unfold window
  exact buf512_congr _ _ fun j hj => by rw [Nat.zero_add, buf512_getD _ _ _ hj]

/-- The stored template times its own un-conjugated waveform is the all-ones buffer. -/
theorem matched_product {R : Type} [CommRing R] (code : List Int)
    (h0 : code.getD 0 0 = 0 ∨ code.getD 0 0 = 1) :
    pointwise (buf512 fun k => gr_complex.conj (baseBand_seq code k : gr_complex R))
      (buf512 (baseBand_seq code)) = buf512 fun _ => 1 := by
  unfold pointwise
  exact buf512_congr _ _ fun j hj => by
    rw [buf512_getD _ _ _ hj, buf512_getD _ _ _ hj, conj_mul_baseBand code h0 j]

theorem normSq_512 : normSq (⟨512, 0⟩ : gr_complex ℝ) = 262144 := by
  show (512 : ℝ) * 512 + 0 * 0 = 262144
  norm_num

theorem normSq_zero : normSq (0 : gr_complex ℝ) = 0 := by
  show (0 : ℝ) * 0 + 0 * 0 = 0
  norm_num

/-- The peak scan on the transform of the all-ones buffer: energy `512^2` at bin 0. -/
theorem peak_of_matched (F : List (gr_complex ℝ))
    (hF : F = buf512 fun m => if m = 0 then (⟨512, 0⟩ : gr_complex ℝ) else 0) :
    correlator_cf_impl.peak_scan F = some (262144, 0) ∧ IsMaxMag F 262144 ∧
    normSq (F.getD 0 0) = 262144 ∧
    (∀ m, 1 ≤ m → m < 512 → normSq (F.getD m 0) < 262144) ∧ max_mag F = 262144 := by
  have hb0 : normSq (F.getD 0 0) = 262144 := by
    rw [hF, buf512_getD _ _ _ (by decide), if_pos rfl, normSq_512]
  have hbm : ∀ m, 1 ≤ m → m < 512 → normSq (F.getD m 0) = 0 := by
    intro m h1 h2
    rw [hF, buf512_getD _ _ _ h2, if_neg (by omega), normSq_zero]
  have hle : ∀ j, j < 512 → normSq (F.getD j 0) ≤ normSq (F.getD 0 0) := by
    intro j hj
    by_cases c : j = 0
    · rw [c]
    · rw [hbm j (by omega) hj, hb0]; norm_num
  obtain ⟨j0, hj0, hp, _, hlt⟩ := peak_scan_eq F (by rw [hF]; exact buf512_length _)
  have hj : j0 = 0 := by
    by_contra c
    have := hlt 0 (Nat.pos_of_ne_zero c)
    rw [hb0, hbm j0 (by omega) hj0] at this
    norm_num at this
  subst hj
  refine ⟨?_, ⟨⟨0, by decide, hb0⟩, fun j hj => ?_⟩, hb0, fun m h1 h2 => ?_, ?_⟩
  · rw [hp, hb0]; simp
  · rw [← hb0]; exact hle j hj
  · rw [hbm m h1 h2]; norm_num
  · rw [max_mag_eq F 0 (by decide) hle, hb0]

theorem dft_length {R : Type} [CommRing R] (w : gr_complex R) (x : List (gr_complex R)) :
    (dft w x).length = 512 := by
  unfold dft
  exact buf512_length _

/-- The dual constructor on valid selectors, by its effects: it succeeds, stores the two
codes, stores as templates the conjugated modulated waveforms of the codes and leaves the
FFT buffers alone. -/
theorem make_spec {R : Type} [CommRing R] (a b : Int) (ha : -2 ≤ a) (ha' : a ≤ 510)
    (hb : -2 ≤ b) (hb' : b ≤ 510) (self : correlator_cf_impl R) (hself : Allocated self) :
    ∃ eng, correlator_cf_impl.make a b self = some eng ∧
      eng.m_prn0 = prn_code correlator_cf_impl.mseq1 correlator_cf_impl.mseq2 a ∧
      eng.m_prn1 = prn_code correlator_cf_impl.mseq1 correlator_cf_impl.mseq2 b ∧
      eng.m_template0 = (buf512 fun k => gr_complex.conj
        (baseBand_seq (prn_code correlator_cf_impl.mseq1 correlator_cf_impl.mseq2 a) k)) ∧
      eng.m_template1 = (buf512 fun k => gr_complex.conj
        (baseBand_seq (prn_code correlator_cf_impl.mseq1 correlator_cf_impl.mseq2 b) k)) ∧
      WellSized eng := by
  refine ⟨_, make_eq a b ha ha' hb hb' self hself, ?_, ?_, ?_, ?_, ?_, ?_, ?_, ?_⟩
  · dsimp only
  · dsimp only
  · dsimp only
  · dsimp only
  · dsimp only; exact buf512_length _
  · dsimp only; exact buf512_length _
  · dsimp only; exact hself.2.2.2.2.2.2.2.1
  · dsimp only; exact hself.2.2.2.2.2.2.2.2

/-- The single constructor on valid selectors, by its effects. -/
theorem single_make_spec {R : Type} [CommRing R] (s : Int) (hs : -2 ≤ s) (hs' : s ≤ 510)
    (self : single_correlator_cf_impl R) (hself : SingleAllocated self) :
    ∃ eng, single_correlator_cf_impl.make s self = some eng ∧
      eng.m_prn = prn_code single_correlator_cf_impl.mseq1 single_correlator_cf_impl.mseq2 s ∧
      eng.m_template = (buf512 fun k => gr_complex.conj (baseBand_seq
        (prn_code single_correlator_cf_impl.mseq1 single_correlator_cf_impl.mseq2 s) k)) ∧
      SingleWellSized eng := by
  refine ⟨_, single_make_eq s hs hs' self hself, ?_, ?_, ?_, ?_⟩
  · dsimp only
  · dsimp only
  · dsimp only; exact buf512_length _
  · dsimp only; exact hself.2.2.2.2.2

/-- C7: for every selector `s` in `[-2, 510]` (the other selector of the dual engine being
any valid one), with the stored template `T0 = conj(modulate(generate(s)))` and the window
`W = modulate(generate(s))`, the forward DFT of `T0[j]*W[j]` that `work` leaves in
`m_fft_buffer_out0` has its largest squared magnitude, `512^2 = 262144`, at bin 0 and
only there, and the peak scan returns `(262144, 0)`.  Exact real arithmetic. -/
theorem self_correlation (w : gr_complex ℝ)
    (hw : w = ⟨Real.cos (2 * Real.pi / 512), -Real.sin (2 * Real.pi / 512)⟩)
    (s other : Int) (hs : -2 ≤ s) (hs' : s ≤ 510) (ho : -2 ≤ other) (ho' : other ≤ 510)
    (raw : correlator_cf_impl ℝ) (hraw : Allocated raw) (out : List ℝ)
    (hout : 1 ≤ out.length) :
    ∃ eng codes r eng' out',
      correlator_cf_impl.make s other raw = some eng ∧
      correlator_cf_impl.generate_prns s other raw.m_prn0 raw.m_prn1 = some codes ∧
      correlator_cf_impl.cc430_modulator codes.1 raw.m_buffer_real1 raw.m_buffer_real2
        raw.m_buffer_real3 raw.m_template0 = some r ∧
      (∀ j, j < 512 → eng.m_template0.getD j 0 = gr_complex.conj (r.2.2.2.getD j 0)) ∧
      correlator_cf_impl.work (dft w) Real.sqrt eng ((1 : Nat) : Int) r.2.2.2 out =
        some (eng', out', ((1 : Nat) : Int)) ∧
      eng'.m_fft_buffer_out0 = dft w (pointwise eng.m_template0 r.2.2.2) ∧
      correlator_cf_impl.peak_scan eng'.m_fft_buffer_out0 = some (262144, 0) ∧
      IsMaxMag eng'.m_fft_buffer_out0 262144 ∧
      normSq (eng'.m_fft_buffer_out0.getD 0 0) = 262144 ∧
      ∀ m, 1 ≤ m → m < 512 → normSq (eng'.m_fft_buffer_out0.getD m 0) < 262144 := by
  obtain ⟨eng, hmake, _, _, hT0, _, hsized⟩ := make_spec s other hs hs' ho ho' raw hraw
  have hbit := prn_code_head_bit _ _ mseq1_bits mseq2_bits s
  have hF : dft w (pointwise eng.m_template0
      (buf512 (baseBand_seq (prn_code correlator_cf_impl.mseq1 correlator_cf_impl.mseq2 s)))) =
      buf512 fun m => if m = 0 then (⟨512, 0⟩ : gr_complex ℝ) else 0 := by
    rw [hT0, matched_product _ hbit, hw, dft_ones]
  obtain ⟨q1, q2, q3, q4, _⟩ := peak_of_matched _ hF
  have hwork := work_closed (dft w) Real.sqrt (fun x _ => dft_length w x) eng hsized.1
    hsized.2.1 hsized.2.2.1 hsized.2.2.2 1
    (buf512 (baseBand_seq (prn_code correlator_cf_impl.mseq1 correlator_cf_impl.mseq2 s)))
    (by rw [buf512_length]) out hout
  have hout0 : (after_steps (dft w) eng
      (buf512 (baseBand_seq (prn_code correlator_cf_impl.mseq1 correlator_cf_impl.mseq2 s)))
      1).m_fft_buffer_out0 = dft w (pointwise eng.m_template0
      (buf512 (baseBand_seq (prn_code correlator_cf_impl.mseq1 correlator_cf_impl.mseq2 s)))) := by
    show dft w (pointwise eng.m_template0 (window (buf512 _) 0)) = _
    rw [window_zero]
  refine ⟨eng, _, _, _, _, hmake,
    generate_prns_eq s other hs hs' ho ho' _ _ hraw.1 hraw.2.1,
    cc430_modulator_eq _ (prn_code_length _ _ _) _ _ _ hraw.2.2.2.2.1 hraw.2.2.2.2.2.1
      hraw.2.2.2.2.2.2.1 _ hraw.2.2.1,
    fun j hj => ?_, hwork, hout0, ?_, ?_, ?_, ?_⟩
  · rw [hT0, buf512_getD _ _ _ hj, buf512_getD _ _ _ hj]
  · rw [hout0]; exact q1
  · rw [hout0]; exact q2
  · rw [hout0]; exact q3
  · rw [hout0]; exact q4

theorem sum_matched (F : List (gr_complex ℝ))
    (hF : F = buf512 fun m => if m = 0 then (⟨512, 0⟩ : gr_complex ℝ) else 0) :
    ∑ j ∈ Finset.range 512, normSq (F.getD j 0) = 262144 := by
  rw [Finset.sum_eq_single 0]
  · rw [hF, buf512_getD _ _ _ (by decide), if_pos rfl, normSq_512]
  · intro j hj hne
    rw [hF, buf512_getD _ _ _ (Finset.mem_range.mp hj), if_neg hne, normSq_zero]
  · intro h
    exact absurd (Finset.mem_range.mpr (by decide)) h

/-- C9: for every selector `s` in `[-2, 510]`, when the window is the un-conjugated waveform
`modulate(generate(s))` from which the single engine's template was built, `work` outputs
`sum_j |F[j]|^2 = 512*512 = 262144`, all of it at bin 0: `F[0] = 512` and `F[j] = 0` for
every `j` in `[1, 511]`.  Exact real arithmetic. -/
theorem single_matched_energy (w : gr_complex ℝ)
    (hw : w = ⟨Real.cos (2 * Real.pi / 512), -Real.sin (2 * Real.pi / 512)⟩)
    (s : Int) (hs : -2 ≤ s) (hs' : s ≤ 510)
    (raw : single_correlator_cf_impl ℝ) (hraw : SingleAllocated raw) (out : List ℝ)
    (hout : 1 ≤ out.length) :
    ∃ eng code r eng' out',
      single_correlator_cf_impl.make s raw = some eng ∧
      single_correlator_cf_impl.generate_prn s raw.m_prn = some code ∧
      single_correlator_cf_impl.cc430_modulator code raw.m_buffer_real1 raw.m_buffer_real2
        raw.m_buffer_real3 raw.m_template = some r ∧
      (∀ j, j < 512 → eng.m_template.getD j 0 = gr_complex.conj (r.2.2.2.getD j 0)) ∧
      single_correlator_cf_impl.work (dft w) eng ((1 : Nat) : Int) r.2.2.2 out =
        some (eng', out', ((1 : Nat) : Int)) ∧
      out'[0]? = some (262144 : ℝ) ∧
      eng'.m_fft_buffer_out = dft w (pointwise eng.m_template r.2.2.2) ∧
      ∑ j ∈ Finset.range 512, normSq (eng'.m_fft_buffer_out.getD j 0) = 262144 ∧
      eng'.m_fft_buffer_out.getD 0 0 = ⟨512, 0⟩ ∧
      ∀ j, 1 ≤ j → j < 512 → eng'.m_fft_buffer_out.getD j 0 = 0 := by
  obtain ⟨eng, hmake, _, hT, hsized⟩ := single_make_spec s hs hs' raw hraw
  have hbit := prn_code_head_bit _ _ single_mseq1_bits single_mseq2_bits s
  have hF : dft w (pointwise eng.m_template
      (buf512 (baseBand_seq
        (prn_code single_correlator_cf_impl.mseq1 single_correlator_cf_impl.mseq2 s)))) =
      buf512 fun m => if m = 0 then (⟨512, 0⟩ : gr_complex ℝ) else 0 := by
    rw [hT, matched_product _ hbit, hw, dft_ones]
  have hwork := single_work_closed (dft w) (fun x _ => dft_length w x) eng hsized.1
    hsized.2 1
    (buf512 (baseBand_seq
      (prn_code single_correlator_cf_impl.mseq1 single_correlator_cf_impl.mseq2 s)))
    (by rw [buf512_length]) out hout
  have hout0 : (single_after_steps (dft w) eng
      (buf512 (baseBand_seq
        (prn_code single_correlator_cf_impl.mseq1 single_correlator_cf_impl.mseq2 s)))
      1).m_fft_buffer_out = dft w (pointwise eng.m_template
      (buf512 (baseBand_seq
        (prn_code single_correlator_cf_impl.mseq1 single_correlator_cf_impl.mseq2 s)))) := by
    show dft w (pointwise eng.m_template (window (buf512 _) 0)) = _
    rw [window_zero]
  refine ⟨eng, _, _, _, _, hmake, generate_prn_eq s hs hs' _ hraw.1,
    (single_cc430_modulator_eq_dual _ _ _ _ _).trans
      (cc430_modulator_eq _ (prn_code_length _ _ _) _ _ _ hraw.2.2.1 hraw.2.2.2.1
        hraw.2.2.2.2.1 _ hraw.2.1),
    fun j hj => ?_, hwork, ?_, hout0, ?_, ?_, ?_⟩
  · rw [hT, buf512_getD _ _ _ hj, buf512_getD _ _ _ hj]
  · show ([single_output (dft w) eng.m_template (window (buf512 _) 0)] ++ _)[0]? = _
    rw [window_zero, List.singleton_append, List.getElem?_cons_zero]
    unfold single_output
    rw [sum_matched _ hF]
  · rw [hout0]; exact sum_matched _ hF
  · rw [hout0, hF, buf512_getD _ _ _ (by decide), if_pos rfl]
  · intro j h1 h2
    rw [hout0, hF, buf512_getD _ _ _ h2, if_neg (by omega)]

/-! ## The end-to-end scenario with selectors `(-2, -1)` -/

theorem conj_conj {R : Type} [CommRing R] (z : gr_complex R) :
    gr_complex.conj (gr_complex.conj z) = z :=
  gr_complex.ext rfl (neg_neg z.im)

theorem normSq_mul {R : Type} [CommRing R] (a b : gr_complex R) :
    normSq (a * b) = normSq a * normSq b := by
  show (a.re * b.re - a.im * b.im) * (a.re * b.re - a.im * b.im) +
      (a.re * b.im + a.im * b.re) * (a.re * b.im + a.im * b.re) =
    (a.re * a.re + a.im * a.im) * (b.re * b.re + b.im * b.im)
  ring

theorem normSq_conj {R : Type} [CommRing R] (a : gr_complex R) :
    normSq (gr_complex.conj a) = normSq a := by
  show a.re * a.re + -a.im * -a.im = a.re * a.re + a.im * a.im
  ring

theorem normSq_of_conj_mul {R : Type} [CommRing R] (a : gr_complex R)
    (h : gr_complex.conj a * a = 1) : normSq a = 1 := by
  have := congrArg gr_complex.re h
  have e : (gr_complex.conj a * a).re = normSq a := by
    show a.re * a.re - -a.im * a.im = a.re * a.re + a.im * a.im
    ring
  rw [e] at this
  exact this

theorem baseBand_seq_zero {R : Type} [CommRing R] (code : List Int) :
    (baseBand_seq code 0 : gr_complex R) = 1 := by
  apply gr_complex.ext
  · show ((iBB_seq code 0 : Int) : R) * cos_half_pi ((0 : Nat) : Int) + 0 = 1
    simp [iBB_seq, cos_half_pi]
  · show 0 + ((qBB_seq code 0 : Int) : R) * sin_half_pi ((0 : Nat) : Int) = 0
    simp [sin_half_pi]

theorem baseBand_seq_one {R : Type} [CommRing R] (code : List Int) :
    (baseBand_seq code 1 : gr_complex R) = ⟨0, ((-2 * code.getD 0 0 + 1 : Int) : R)⟩ := by
  apply gr_complex.ext
  · show ((iBB_seq code 1 : Int) : R) * cos_half_pi ((1 : Nat) : Int) + 0 = 0
    simp [cos_half_pi]
  · show 0 + ((qBB_seq code 1 : Int) : R) * sin_half_pi ((1 : Nat) : Int) =
      ((-2 * code.getD 0 0 + 1 : Int) : R)
    simp [sin_half_pi, qBB_seq_one, diff_seq]

theorem baseBand_seq_ten {R : Type} [CommRing R] (code : List Int) :
    (baseBand_seq code 10 : gr_complex R) = ⟨-((iBB_seq code 10 : Int) : R), 0⟩ := by
  apply gr_complex.ext
  · show ((iBB_seq code 10 : Int) : R) * cos_half_pi ((10 : Nat) : Int) + 0 = _
    simp [cos_half_pi]
  · show 0 + ((qBB_seq code 10 : Int) : R) * sin_half_pi ((10 : Nat) : Int) = 0
    simp [sin_half_pi]

set_option maxRecDepth 100000 in
theorem iBB_code0_10 :
    iBB_seq (prn_code correlator_cf_impl.mseq1 correlator_cf_impl.mseq2 (-2)) 10 = -1 := by
  decide

set_option maxRecDepth 100000 in
theorem iBB_code1_10 :
    iBB_seq (prn_code correlator_cf_impl.mseq1 correlator_cf_impl.mseq2 (-1)) 10 = 1 := by
  decide

set_option maxRecDepth 100000 in
theorem head_code0 :
    (prn_code correlator_cf_impl.mseq1 correlator_cf_impl.mseq2 (-2)).getD 0 0 = 1 := by
  decide

set_option maxRecDepth 100000 in
theorem head_code1 :
    (prn_code correlator_cf_impl.mseq1 correlator_cf_impl.mseq2 (-1)).getD 0 0 = 1 := by
  decide

/-- The product of the conjugated waveform of one code with the waveform of another has
unit-modulus entries. -/
theorem cross_unit (c1 c0 : List Int) (h1 : c1.getD 0 0 = 0 ∨ c1.getD 0 0 = 1)
    (h0 : c0.getD 0 0 = 0 ∨ c0.getD 0 0 = 1) (j : Nat) (hj : j < 512) :
    normSq ((buf512 fun k =>
      gr_complex.conj (baseBand_seq c1 k : gr_complex ℝ) * baseBand_seq c0 k).getD j 0) = 1 := by
  rw [buf512_getD _ _ _ hj, normSq_mul, normSq_conj,
    normSq_of_conj_mul _ (conj_mul_baseBand c1 h1 j),
    normSq_of_conj_mul _ (conj_mul_baseBand c0 h0 j), mul_one]

/-- The template of selector -1 against the waveform of selector -2 (and conversely): the
product starts `1, 1` and is `-1` at sample 10. -/
theorem cross_values (a b : Int)
    (h : (a = -2 ∧ b = -1) ∨ (a = -1 ∧ b = -2)) :
    (buf512 fun k => gr_complex.conj (baseBand_seq
        (prn_code correlator_cf_impl.mseq1 correlator_cf_impl.mseq2 a) k : gr_complex ℝ) *
      baseBand_seq (prn_code correlator_cf_impl.mseq1 correlator_cf_impl.mseq2 b) k).getD 0 0
      = 1 ∧
    (buf512 fun k => gr_complex.conj (baseBand_seq
        (prn_code correlator_cf_impl.mseq1 correlator_cf_impl.mseq2 a) k : gr_complex ℝ) *
      baseBand_seq (prn_code correlator_cf_impl.mseq1 correlator_cf_impl.mseq2 b) k).getD 1 0
      = 1 ∧
    (buf512 fun k => gr_complex.conj (baseBand_seq
        (prn_code correlator_cf_impl.mseq1 correlator_cf_impl.mseq2 a) k : gr_complex ℝ) *
      baseBand_seq (prn_code correlator_cf_impl.mseq1 correlator_cf_impl.mseq2 b) k).getD 10 0
      ≠ 1 := by
  have hne : (⟨-1, 0⟩ : gr_complex ℝ) ≠ 1 := by
    intro e
    have := congrArg gr_complex.re e
    have h1 : (-1 : ℝ) = 1 := this
    norm_num at h1
  rw [buf512_getD _ _ _ (by decide), buf512_getD _ _ _ (by decide),
    buf512_getD _ _ _ (by decide), baseBand_seq_zero, baseBand_seq_zero, baseBand_seq_one,
    baseBand_seq_one, baseBand_seq_ten, baseBand_seq_ten]
  rcases h with ⟨rfl, rfl⟩ | ⟨rfl, rfl⟩
  · rw [head_code0, head_code1, iBB_code0_10, iBB_code1_10]
    refine ⟨?_, ?_, ?_⟩
    · exact gr_complex.ext (by show (1 : ℝ) * 1 - -0 * 0 = 1; norm_num)
        (by show (1 : ℝ) * 0 + -0 * 1 = 0; norm_num)
    · apply gr_complex.ext
      · show (0 : ℝ) * 0 - -(((-2 * 1 + 1 : Int) : ℝ)) * (((-2 * 1 + 1 : Int) : ℝ)) = 1
        norm_num
      · show (0 : ℝ) * (((-2 * 1 + 1 : Int) : ℝ)) + -(((-2 * 1 + 1 : Int) : ℝ)) * 0 = 0
        norm_num
    · have e : gr_complex.conj (⟨-(((-1 : Int)) : ℝ), 0⟩ : gr_complex ℝ) *
          ⟨-(((1 : Int)) : ℝ), 0⟩ = ⟨-1, 0⟩ := by
        apply gr_complex.ext
        · show (-(((-1 : Int)) : ℝ)) * (-(((1 : Int)) : ℝ)) - -0 * 0 = -1
          norm_num
        · show (-(((-1 : Int)) : ℝ)) * 0 + -0 * (-(((1 : Int)) : ℝ)) = 0
          norm_num
      rw [e]
      exact hne
  · rw [head_code0, head_code1, iBB_code0_10, iBB_code1_10]
    refine ⟨?_, ?_, ?_⟩
    · exact gr_complex.ext (by show (1 : ℝ) * 1 - -0 * 0 = 1; norm_num)
        (by show (1 : ℝ) * 0 + -0 * 1 = 0; norm_num)
    · apply gr_complex.ext
      · show (0 : ℝ) * 0 - -(((-2 * 1 + 1 : Int) : ℝ)) * (((-2 * 1 + 1 : Int) : ℝ)) = 1
        norm_num
      · show (0 : ℝ) * (((-2 * 1 + 1 : Int) : ℝ)) + -(((-2 * 1 + 1 : Int) : ℝ)) * 0 = 0
        norm_num
    · have e : gr_complex.conj (⟨-(((1 : Int)) : ℝ), 0⟩ : gr_complex ℝ) *
          ⟨-(((-1 : Int)) : ℝ), 0⟩ = ⟨-1, 0⟩ := by
        apply gr_complex.ext
        · show (-(((1 : Int)) : ℝ)) * (-(((-1 : Int)) : ℝ)) - -0 * 0 = -1
          norm_num
        · show (-(((1 : Int)) : ℝ)) * 0 + -0 * (-(((-1 : Int)) : ℝ)) = 0
          norm_num
      rw [e]
      exact hne

theorem sqrt_262144 : Real.sqrt 262144 = 512 := by
  rw [show (262144 : ℝ) = 512 ^ 2 by norm_num]
  exact Real.sqrt_sq (by norm_num)

theorem max_mag_lt (F : List (gr_complex ℝ)) (b : ℝ)
    (h : ∀ m, m < 512 → normSq (F.getD m 0) < b) : max_mag F < b := by
  obtain ⟨⟨j, hj, e⟩, _⟩ := max_mag_isMax F
  rw [← e]
  exact h j hj

theorem max_mag_le (F : List (gr_complex ℝ)) (b : ℝ)
    (h : ∀ m, m < 512 → normSq (F.getD m 0) ≤ b) : max_mag F ≤ b := by
  obtain ⟨⟨j, hj, e⟩, _⟩ := max_mag_isMax F
  rw [← e]
  exact h j hj

/-- The window that is the conjugate of a stored template is the un-conjugated waveform. -/
theorem conj_template_window {R : Type} [CommRing R] (f : Nat → gr_complex R) :
    (buf512 fun j => gr_complex.conj ((buf512 fun k => gr_complex.conj (f k)).getD j 0)) =
      buf512 f :=
  buf512_congr _ _ fun j hj => by rw [buf512_getD _ _ _ hj, conj_conj]

theorem cross_product {R : Type} [CommRing R] (f g : Nat → gr_complex R) :
    pointwise (buf512 fun k => gr_complex.conj (f k)) (buf512 g) =
      buf512 fun k => gr_complex.conj (f k) * g k := by
  unfold pointwise
  exact buf512_congr _ _ fun j hj => by rw [buf512_getD _ _ _ hj, buf512_getD _ _ _ hj]

/-- C8: the dual engine built with the selector pair `(-2, -1)`, fed the window
`W[j] = conj(T0[j])`, outputs exactly `-512` (magnitude 512, the sign of the code-0
branch); fed the window `W[j] = conj(T1[j])` it outputs exactly `+512`.  Exact real
arithmetic. -/
theorem end_to_end (w : gr_complex ℝ)
    (hw : w = ⟨Real.cos (2 * Real.pi / 512), -Real.sin (2 * Real.pi / 512)⟩)
    (raw : correlator_cf_impl ℝ) (hraw : Allocated raw) (out : List ℝ)
    (hout : 1 ≤ out.length) :
    ∃ eng, correlator_cf_impl.make (-2) (-1) raw = some eng ∧
      (∃ eng' out', correlator_cf_impl.work (dft w) Real.sqrt eng ((1 : Nat) : Int)
          (buf512 fun j => gr_complex.conj (eng.m_template0.getD j 0)) out =
          some (eng', out', ((1 : Nat) : Int)) ∧ out'[0]? = some (-512 : ℝ)) ∧
      (∃ eng' out', correlator_cf_impl.work (dft w) Real.sqrt eng ((1 : Nat) : Int)
          (buf512 fun j => gr_complex.conj (eng.m_template1.getD j 0)) out =
          some (eng', out', ((1 : Nat) : Int)) ∧ out'[0]? = some (512 : ℝ)) := by
  obtain ⟨eng, hmake, _, _, hT0, hT1, hsized⟩ :=
    make_spec (-2) (-1) (by decide) (by decide) (by decide) (by decide) raw hraw
  have hb0 := prn_code_head_bit _ _ mseq1_bits mseq2_bits (-2)
  have hb1 := prn_code_head_bit _ _ mseq1_bits mseq2_bits (-1)
  have hones : dft w (buf512 fun _ => (1 : gr_complex ℝ)) =
      buf512 fun m => if m = 0 then (⟨512, 0⟩ : gr_complex ℝ) else 0 := by
    rw [hw, dft_ones]
  obtain ⟨_, _, _, _, hmax⟩ := peak_of_matched _ hones
  refine ⟨eng, hmake, ?_, ?_⟩
  · have hwork := work_closed (dft w) Real.sqrt (fun x _ => dft_length w x) eng hsized.1
      hsized.2.1 hsized.2.2.1 hsized.2.2.2 1
      (buf512 fun j => gr_complex.conj (eng.m_template0.getD j 0))
      (by rw [buf512_length]) out hout
    refine ⟨_, _, hwork, ?_⟩
    show ([dual_output (dft w) Real.sqrt eng.m_template0 eng.m_template1
      (window (buf512 _) 0)] ++ _)[0]? = _
    rw [window_zero, List.singleton_append, List.getElem?_cons_zero]
    have hW : (buf512 fun j => gr_complex.conj (eng.m_template0.getD j 0)) =
        buf512 (baseBand_seq (prn_code correlator_cf_impl.mseq1 correlator_cf_impl.mseq2 (-2))) := by
      rw [hT0]; exact conj_template_window _
    have hm0 : max_mag (dft w (pointwise eng.m_template0
        (buf512 fun j => gr_complex.conj (eng.m_template0.getD j 0)))) = 262144 := by
      rw [hW, hT0, matched_product _ hb0]; exact hmax
    have hm1 : max_mag (dft w (pointwise eng.m_template1
        (buf512 fun j => gr_complex.conj (eng.m_template0.getD j 0)))) < 262144 := by
      rw [hW, hT1, cross_product, hw]
      obtain ⟨v0, v1, v10⟩ := cross_values (-1) (-2) (Or.inr ⟨rfl, rfl⟩)
      exact max_mag_lt _ _ fun m hm =>
        dft_bin_lt _ (fun j hj => cross_unit _ _ hb1 hb0 j hj) v0 v1 10 (by decide) v10 m hm
    unfold dual_output
    rw [hm0, if_neg (not_le.mpr hm1), sqrt_262144]
  · have hwork := work_closed (dft w) Real.sqrt (fun x _ => dft_length w x) eng hsized.1
      hsized.2.1 hsized.2.2.1 hsized.2.2.2 1
      (buf512 fun j => gr_complex.conj (eng.m_template1.getD j 0))
      (by rw [buf512_length]) out hout
    refine ⟨_, _, hwork, ?_⟩
    show ([dual_output (dft w) Real.sqrt eng.m_template0 eng.m_template1
      (window (buf512 _) 0)] ++ _)[0]? = _
    rw [window_zero, List.singleton_append, List.getElem?_cons_zero]
    have hW : (buf512 fun j => gr_complex.conj (eng.m_template1.getD j 0)) =
        buf512 (baseBand_seq (prn_code correlator_cf_impl.mseq1 correlator_cf_impl.mseq2 (-1))) := by
      rw [hT1]; exact conj_template_window _
    have hm1 : max_mag (dft w (pointwise eng.m_template1
        (buf512 fun j => gr_complex.conj (eng.m_template1.getD j 0)))) = 262144 := by
      rw [hW, hT1, matched_product _ hb1]; exact hmax
    have hm0 : max_mag (dft w (pointwise eng.m_template0
        (buf512 fun j => gr_complex.conj (eng.m_template1.getD j 0)))) ≤ 262144 := by
      rw [hW, hT0, cross_product, hw]
      exact max_mag_le _ _ fun m hm =>
        dft_bin_le _ (fun j hj => cross_unit _ _ hb0 hb1 j hj) m hm
    unfold dual_output
    rw [hm1, if_pos hm0, sqrt_262144]

theorem zero_engine_allocated (R : Type) [CommRing R] : Allocated (zero_engine R) :=
  ⟨List.length_replicate _ _, List.length_replicate _ _, List.length_replicate _ _,
    List.length_replicate _ _, List.length_replicate _ _, List.length_replicate _ _,
    List.length_replicate _ _, List.length_replicate _ _, List.length_replicate _ _⟩

theorem single_zero_engine_allocated (R : Type) [CommRing R] :
    SingleAllocated (single_zero_engine R) :=
  ⟨List.length_replicate _ _, List.length_replicate _ _, List.length_replicate _ _,
    List.length_replicate _ _, List.length_replicate _ _, List.length_replicate _ _⟩

theorem self_correlation_witness :
    (⟨Real.cos (2 * Real.pi / 512), -Real.sin (2 * Real.pi / 512)⟩ : gr_complex ℝ) =
      ⟨Real.cos (2 * Real.pi / 512), -Real.sin (2 * Real.pi / 512)⟩ ∧
    (-2 : Int) ≤ 7 ∧ (7 : Int) ≤ 510 ∧ (-2 : Int) ≤ -1 ∧ (-1 : Int) ≤ 510 ∧
    Allocated (zero_engine ℝ) ∧ 1 ≤ [(0 : ℝ)].length ∧
    ∃ eng codes r eng' out',
      correlator_cf_impl.make 7 (-1) (zero_engine ℝ) = some eng ∧
      correlator_cf_impl.generate_prns 7 (-1) (zero_engine ℝ).m_prn0 (zero_engine ℝ).m_prn1 =
        some codes ∧
      correlator_cf_impl.cc430_modulator codes.1 (zero_engine ℝ).m_buffer_real1
        (zero_engine ℝ).m_buffer_real2 (zero_engine ℝ).m_buffer_real3
        (zero_engine ℝ).m_template0 = some r ∧
      (∀ j, j < 512 → eng.m_template0.getD j 0 = gr_complex.conj (r.2.2.2.getD j 0)) ∧
      correlator_cf_impl.work
        (dft ⟨Real.cos (2 * Real.pi / 512), -Real.sin (2 * Real.pi / 512)⟩) Real.sqrt eng
        ((1 : Nat) : Int) r.2.2.2 [0] = some (eng', out', ((1 : Nat) : Int)) ∧
      eng'.m_fft_buffer_out0 =
        dft ⟨Real.cos (2 * Real.pi / 512), -Real.sin (2 * Real.pi / 512)⟩
          (pointwise eng.m_template0 r.2.2.2) ∧
      correlator_cf_impl.peak_scan eng'.m_fft_buffer_out0 = some (262144, 0) ∧
      IsMaxMag eng'.m_fft_buffer_out0 262144 ∧
      normSq (eng'.m_fft_buffer_out0.getD 0 0) = 262144 ∧
      ∀ m, 1 ≤ m → m < 512 → normSq (eng'.m_fft_buffer_out0.getD m 0) < 262144 :=
  ⟨rfl, by decide, by decide, by decide, by decide, zero_engine_allocated ℝ, le_refl 1,
    self_correlation _ rfl 7 (-1) (by decide) (by decide) (by decide) (by decide)
      (zero_engine ℝ) (zero_engine_allocated ℝ) [0] (le_refl 1)⟩

theorem end_to_end_witness :
    (⟨Real.cos (2 * Real.pi / 512), -Real.sin (2 * Real.pi / 512)⟩ : gr_complex ℝ) =
      ⟨Real.cos (2 * Real.pi / 512), -Real.sin (2 * Real.pi / 512)⟩ ∧
    Allocated (zero_engine ℝ) ∧ 1 ≤ [(0 : ℝ)].length ∧
    ∃ eng, correlator_cf_impl.make (-2) (-1) (zero_engine ℝ) = some eng ∧
      (∃ eng' out', correlator_cf_impl.work
          (dft ⟨Real.cos (2 * Real.pi / 512), -Real.sin (2 * Real.pi / 512)⟩) Real.sqrt eng
          ((1 : Nat) : Int) (buf512 fun j => gr_complex.conj (eng.m_template0.getD j 0)) [0] =
          some (eng', out', ((1 : Nat) : Int)) ∧ out'[0]? = some (-512 : ℝ)) ∧
      (∃ eng' out', correlator_cf_impl.work
          (dft ⟨Real.cos (2 * Real.pi / 512), -Real.sin (2 * Real.pi / 512)⟩) Real.sqrt eng
          ((1 : Nat) : Int) (buf512 fun j => gr_complex.conj (eng.m_template1.getD j 0)) [0] =
          some (eng', out', ((1 : Nat) : Int)) ∧ out'[0]? = some (512 : ℝ)) :=
  ⟨rfl, zero_engine_allocated ℝ, le_refl 1,
    end_to_end _ rfl (zero_engine ℝ) (zero_engine_allocated ℝ) [0] (le_refl 1)⟩

theorem single_matched_energy_witness :
    (⟨Real.cos (2 * Real.pi / 512), -Real.sin (2 * Real.pi / 512)⟩ : gr_complex ℝ) =
      ⟨Real.cos (2 * Real.pi / 512), -Real.sin (2 * Real.pi / 512)⟩ ∧
    (-2 : Int) ≤ 0 ∧ (0 : Int) ≤ 510 ∧
    SingleAllocated (single_zero_engine ℝ) ∧ 1 ≤ [(0 : ℝ)].length ∧
    ∃ eng code r eng' out',
      single_correlator_cf_impl.make 0 (single_zero_engine ℝ) = some eng ∧
      single_correlator_cf_impl.generate_prn 0 (single_zero_engine ℝ).m_prn = some code ∧
      single_correlator_cf_impl.cc430_modulator code (single_zero_engine ℝ).m_buffer_real1
        (single_zero_engine ℝ).m_buffer_real2 (single_zero_engine ℝ).m_buffer_real3
        (single_zero_engine ℝ).m_template = some r ∧
      (∀ j, j < 512 → eng.m_template.getD j 0 = gr_complex.conj (r.2.2.2.getD j 0)) ∧
      single_correlator_cf_impl.work
        (dft ⟨Real.cos (2 * Real.pi / 512), -Real.sin (2 * Real.pi / 512)⟩) eng
        ((1 : Nat) : Int) r.2.2.2 [0] = some (eng', out', ((1 : Nat) : Int)) ∧
      out'[0]? = some (262144 : ℝ) ∧
      eng'.m_fft_buffer_out =
        dft ⟨Real.cos (2 * Real.pi / 512), -Real.sin (2 * Real.pi / 512)⟩
          (pointwise eng.m_template r.2.2.2) ∧
      ∑ j ∈ Finset.range 512, normSq (eng'.m_fft_buffer_out.getD j 0) = 262144 ∧
      eng'.m_fft_buffer_out.getD 0 0 = ⟨512, 0⟩ ∧
      ∀ j, 1 ≤ j → j < 512 → eng'.m_fft_buffer_out.getD j 0 = 0 :=
  ⟨rfl, by decide, by decide, single_zero_engine_allocated ℝ, le_refl 1,
    single_matched_energy _ rfl 0 (by decide) (by decide) (single_zero_engine ℝ)
      (single_zero_engine_allocated ℝ) [0] (le_refl 1)⟩

/-! ## Selectors outside `[-2, 510]` and the Gold-code split -/

theorem andThen_const_none {α β : Type} (x : Option α) :
    x.andThen (fun _ => (none : Option β)) = none := by
  cases x <;> rfl

theorem rd_neg {α : Type} (a : List α) (i : Int) (h : i < 0) : rd a i = none :=
  if_neg (not_le.mpr h)

theorem loopFrom_fail_first {σ : Type} (body : Int → σ → Option σ) (step : Int) (n : Nat)
    (k : Int) (s : σ) (h : body k s = none) : loopFrom body step (n + 1) k s = none := by
  show (body k s).bind _ = none
  rw [h]
  rfl

/-- A slot of PRN generation with a selector below -2 fails: the first Gold loop reads
`m2[0 + prn_id]` at a negative index. -/
theorem prn_slot_below (m1 m2 : List Int) (s : Int) (hs : s < -2) (m : List Int) :
    prn_slot m1 m2 s m = none := by
  unfold prn_slot
  have c1 : s ≠ -2 := by omega
  have c2 : s ≠ -1 := by omega
  obtain ⟨n, hn⟩ : ∃ n : Nat, (M_SEQUENCE_LENGTH - s - 0).toNat = n + 1 :=
    ⟨(M_SEQUENCE_LENGTH - s - 0).toNat - 1, by simp only [M_SEQUENCE_LENGTH]; omega⟩
  have hloop : forLoop 0 (M_SEQUENCE_LENGTH - s) 1
      (fun k m => (rd m1 k).andThen fun a => (rd m2 (k + s)).andThen fun b =>
        wr m k (Int.xor a b)) m = none := by
    rw [forLoop_one, hn]
    apply loopFrom_fail_first
    show (rd m1 0).andThen (fun a => (rd m2 (0 + s)).andThen fun b => wr m 0 (Int.xor a b)) =
      none
    rw [rd_neg m2 (0 + s) (by omega)]
    exact andThen_const_none _
  rw [if_neg c1, if_neg c2, hloop]
  rfl

/-- A slot of PRN generation with a selector above 511 fails: the second Gold loop starts
at the negative index `511 - prn_id` and reads `m1` there. -/
theorem prn_slot_above (m1 m2 : List Int) (s : Int) (hs : 511 < s) (m : List Int) :
    prn_slot m1 m2 s m = none := by
  unfold prn_slot
  have c1 : s ≠ -2 := by omega
  have c2 : s ≠ -1 := by omega
  have h0 : (M_SEQUENCE_LENGTH - s - 0).toNat = 0 := by
    simp only [M_SEQUENCE_LENGTH]; omega
  have hloop1 : forLoop 0 (M_SEQUENCE_LENGTH - s) 1
      (fun k m => (rd m1 k).andThen fun a => (rd m2 (k + s)).andThen fun b =>
        wr m k (Int.xor a b)) m = some m := by
    rw [forLoop_one, h0]
    rfl
  obtain ⟨n, hn⟩ : ∃ n : Nat,
      (M_SEQUENCE_LENGTH - (M_SEQUENCE_LENGTH - s)).toNat = n + 1 :=
    ⟨(M_SEQUENCE_LENGTH - (M_SEQUENCE_LENGTH - s)).toNat - 1, by
      simp only [M_SEQUENCE_LENGTH]; omega⟩
  have hloop2 : forLoop (M_SEQUENCE_LENGTH - s) M_SEQUENCE_LENGTH 1
      (fun k m => (rd m1 k).andThen fun a =>
        (rd m2 (k - M_SEQUENCE_LENGTH + s)).andThen fun b => wr m k (Int.xor a b)) m =
      none := by
    rw [forLoop_one, hn]
    apply loopFrom_fail_first
    show (rd m1 (M_SEQUENCE_LENGTH - s)).andThen _ = none
    rw [rd_neg m1 (M_SEQUENCE_LENGTH - s) (by simp only [M_SEQUENCE_LENGTH]; omega)]
    rfl
  rw [if_neg c1, if_neg c2, hloop1, andThen_some, hloop2]
  rfl

/-- A slot of PRN generation with selector 511 reads and writes in range only: the first
Gold loop is empty and the second reads `m2[k]` for `k` in `[0, 510]`. -/
theorem prn_slot_511 (m1 m2 : List Int) (h1 : m1.length = 511) (h2 : m2.length = 511)
    (m : List Int) (hlen : m.length = 512) :
    prn_slot m1 m2 511 m = some (prn_code m1 m2 511) := by
  unfold prn_slot
  have h0 : (M_SEQUENCE_LENGTH - 511 - 0).toNat = 0 := by
    simp only [M_SEQUENCE_LENGTH]; omega
  have hloop1 : forLoop 0 (M_SEQUENCE_LENGTH - 511) 1
      (fun k m => (rd m1 k).andThen fun a => (rd m2 (k + 511)).andThen fun b =>
        wr m k (Int.xor a b)) m = some m := by
    rw [forLoop_one, h0]
    rfl
  obtain ⟨mb, hmb, hlb, hgb⟩ := loopFrom_fill
    (fun k m => (rd m1 k).andThen fun a =>
      (rd m2 (k - M_SEQUENCE_LENGTH + 511)).andThen fun b =>
      wr m k (Int.xor a b)) (chip m1 m2 511) 511 0 m
    (fun i hi m' => by
      simp only [Nat.zero_add]
      rw [rd_eq_getD m1 0 i (by omega)]
      have : ((i : Int) - M_SEQUENCE_LENGTH + 511) = ((i : Nat) : Int) := by
        simp only [M_SEQUENCE_LENGTH]; omega
      rw [this, rd_eq_getD m2 0 i (by omega), andThen_some, andThen_some]
      have c1 : (511 : Int) ≠ -2 := by decide
      have c2 : (511 : Int) ≠ -1 := by decide
      simp only [chip, c1, c2, if_false]
      have e : (((i : Int) + 511) % 511).toNat = i := by omega
      rw [e])
    (by omega)
  have hloop2 : forLoop (M_SEQUENCE_LENGTH - 511) M_SEQUENCE_LENGTH 1
      (fun k m => (rd m1 k).andThen fun a =>
        (rd m2 (k - M_SEQUENCE_LENGTH + 511)).andThen fun b => wr m k (Int.xor a b)) m =
      some mb := by
    rw [forLoop_one]
    have e1 : (M_SEQUENCE_LENGTH - (M_SEQUENCE_LENGTH - 511)).toNat = 511 := by
      simp only [M_SEQUENCE_LENGTH]; omega
    have e2 : M_SEQUENCE_LENGTH - 511 = ((0 : Nat) : Int) := by
      simp only [M_SEQUENCE_LENGTH]; omega
    rw [e1, e2]
    exact hmb
  rw [if_neg (by decide), if_neg (by decide), hloop1, andThen_some, hloop2, andThen_some]
  apply pad_eq_prn_code _ _ _ _ (by omega)
  intro j hj
  rw [hgb j, if_pos (by omega)]

/-- Which selectors a slot of PRN generation accepts: exactly those of `[-2, 511]`. -/
theorem prn_slot_total (m1 m2 : List Int) (h1 : m1.length = 511) (h2 : m2.length = 511)
    (s : Int) (m : List Int) (hlen : m.length = 512) :
    prn_slot m1 m2 s m = if -2 ≤ s ∧ s ≤ 511 then some (prn_code m1 m2 s) else none := by
  by_cases c : -2 ≤ s ∧ s ≤ 511
  · rw [if_pos c]
    by_cases e : s = 511
    · subst e
      exact prn_slot_511 m1 m2 h1 h2 m hlen
    · exact prn_slot_eq m1 m2 h1 h2 s c.1 (by omega) m hlen
  · rw [if_neg c]
    by_cases e : s < -2
    · exact prn_slot_below m1 m2 s e m
    · exact prn_slot_above m1 m2 s (by omega) m

/-! ## Claims on the Gold-code split and on selectors outside the valid range -/

theorem single_mseq1_eq : single_correlator_cf_impl.mseq1 = correlator_cf_impl.mseq1 := rfl

theorem single_mseq2_eq : single_correlator_cf_impl.mseq2 = correlator_cf_impl.mseq2 := rfl

/-- The code of a Gold selector splits where the two loops of the generator meet, at
`511 - s`. -/
theorem prn_code_goldSplit (m1 m2 : List Int) (h1 : m1.length = 511) (h2 : m2.length = 511)
    (s : Int) (hs : 0 ≤ s) (hs' : s ≤ 510) : GoldSplitAt 511 m1 m2 s (prn_code m1 m2 s) := by
  have c1 : s ≠ -2 := by omega
  have c2 : s ≠ -1 := by omega
  obtain ⟨t, rfl⟩ : ∃ t : Nat, s = (t : Int) := ⟨s.toNat, by omega⟩
  have hcode : ∀ n : Nat, n < 511 →
      rd (prn_code m1 m2 (t : Int)) (n : Int) =
        some (Int.xor (m1.getD n 0) (m2.getD ((((n : Int) + (t : Int)) % 511).toNat) 0)) := by
    intro n hn
    rw [rd_eq_getD _ 0 n (by rw [prn_code_length]; omega), List.getD_eq_getElem?_getD,
      prn_code_getElem?, if_pos hn]
    simp only [chip, if_neg c1, if_neg c2, Option.getD_some]
  constructor
  · intro k hk0 hk
    obtain ⟨n, rfl⟩ : ∃ n : Nat, k = (n : Int) := ⟨k.toNat, by omega⟩
    refine ⟨m1.getD n 0, m2.getD (n + t) 0, rd_eq_getD m1 0 n (by omega), ?_, ?_⟩
    · have e : ((n : Int) + (t : Int)) = ((n + t : Nat) : Int) := by push_cast; rfl
      rw [e]
      exact rd_eq_getD m2 0 (n + t) (by omega)
    · rw [hcode n (by omega)]
      have e : (((n : Int) + (t : Int)) % 511).toNat = n + t := by omega
      rw [e]
  · intro k hk0 hk
    obtain ⟨n, rfl⟩ : ∃ n : Nat, k = (n : Int) := ⟨k.toNat, by omega⟩
    refine ⟨m1.getD n 0, m2.getD (n + t - 511) 0, rd_eq_getD m1 0 n (by omega), ?_, ?_⟩
    · have e : ((n : Int) - 511 + (t : Int)) = ((n + t - 511 : Nat) : Int) := by omega
      rw [e]
      exact rd_eq_getD m2 0 (n + t - 511) (by omega)
    · rw [hcode n (by omega)]
      have e : (((n : Int) + (t : Int)) % 511).toNat = n + t - 511 := by omega
      rw [e]

/-- With the split put at `510 - s`, chip `510 - s` falls in the second range, whose formula
names the table entry `m2[-1]`. -/
theorem not_goldSplit_510 (m1 m2 : List Int) (s : Int) (hs : 0 ≤ s) (code : List Int) :
    ¬ GoldSplitAt 510 m1 m2 s code := by
  intro h
  obtain ⟨a, b, _, hb, _⟩ := h.2 (510 - s) (le_refl _) (by omega)
  rw [rd_neg m2 _ (by omega)] at hb
  exact Option.noConfusion hb

theorem generate_prns_none_left (a b : Int) (m0 m1 : List Int)
    (h : prn_slot correlator_cf_impl.mseq1 correlator_cf_impl.mseq2 a m0 = none) :
    correlator_cf_impl.generate_prns a b m0 m1 = none := by
  rw [generate_prns_eq_slots, h]
  rfl

theorem generate_prns_none_right (a b : Int) (m0 m1 : List Int)
    (h : prn_slot correlator_cf_impl.mseq1 correlator_cf_impl.mseq2 b m1 = none) :
    correlator_cf_impl.generate_prns a b m0 m1 = none := by
  rw [generate_prns_eq_slots, h]
  cases prn_slot correlator_cf_impl.mseq1 correlator_cf_impl.mseq2 a m0 <;> rfl

theorem prn_slot_outside (m1 m2 : List Int) (s : Int) (hs : s < -2 ∨ 511 < s) (m : List Int) :
    prn_slot m1 m2 s m = none := by
  rcases hs with h | h
  · exact prn_slot_below m1 m2 s h m
  · exact prn_slot_above m1 m2 s h m

/-- Selectors 511 and 0 select the same chips: a rotation by 511 is a full turn. -/
theorem prn_code_511 (m1 m2 : List Int) : prn_code m1 m2 511 = prn_code m1 m2 0 := by
  unfold prn_code
  refine congrArg (fun l => l ++ [0]) (List.map_congr_left fun k _ => ?_)
  have e : (((k : Int) + 511) % 511) = (((k : Int) + 0) % 511) := by omega
  simp only [chip, e]
  rfl

theorem generate_prns_of_slots (a b : Int) (m0 m1 c0 c1 : List Int)
    (h0 : prn_slot correlator_cf_impl.mseq1 correlator_cf_impl.mseq2 a m0 = some c0)
    (h1 : prn_slot correlator_cf_impl.mseq1 correlator_cf_impl.mseq2 b m1 = some c1) :
    correlator_cf_impl.generate_prns a b m0 m1 = some (c0, c1) := by
  rw [generate_prns_eq_slots, h0, h1]
  rfl

/-- C13, as stated: with the split at `510 - s` the claim fails already for selector 0.
The generator writes chip 510 in its first loop, as `mseq1[510] XOR mseq2[510]`, whereas
the second range `[510 - s, 510]` of the statement contains `k = 510` and names
`mseq2[510 - 511 + 0] = mseq2[-1]`, which is not an entry of the table. -/
theorem gold_split_as_stated_fails :
    ∃ code, single_correlator_cf_impl.generate_prn 0 (List.replicate 512 0) = some code ∧
      (∃ a b, rd single_correlator_cf_impl.mseq1 510 = some a ∧
        rd single_correlator_cf_impl.mseq2 (510 + 0) = some b ∧
        rd code 510 = some (Int.xor a b)) ∧
      rd single_correlator_cf_impl.mseq2 (510 - 511 + 0) = none ∧
      ¬ GoldSplitAt 510 single_correlator_cf_impl.mseq1 single_correlator_cf_impl.mseq2 0
        code :=
  ⟨_, generate_prn_eq 0 (by decide) (by decide) _ (List.length_replicate _ _),
    (prn_code_goldSplit _ _ single_mseq1_length single_mseq2_length 0 (le_refl _)
      (by decide)).1 510 (by decide) (by decide),
    rd_neg _ _ (by decide),
    not_goldSplit_510 _ _ 0 (le_refl _) _⟩

/-- C13, amended: for every selector `s` in `[0, 510]` the generated code satisfies
`code[k] = mseq1[k] XOR mseq2[k + s]` for every `k` in `[0, 511 - s)` and
`code[k] = mseq1[k] XOR mseq2[k - 511 + s]` for every `k` in `[511 - s, 510]`, every index
named being in range; this holds for `generate_prn` and for each slot of `generate_prns`
(the other slot holding any valid selector), whatever the buffers held before. -/
theorem gold_split (s : Int) (hs : 0 ≤ s) (hs' : s ≤ 510)
    (other : Int) (ho : -2 ≤ other) (ho' : other ≤ 510)
    (m_prn0 m_prn1 : List Int) (h0 : m_prn0.length = 512) (h1 : m_prn1.length = 512) :
    (∃ code, single_correlator_cf_impl.generate_prn s m_prn0 = some code ∧
      GoldSplitAt 511 single_correlator_cf_impl.mseq1 single_correlator_cf_impl.mseq2 s
        code) ∧
    (∃ c0 c1, correlator_cf_impl.generate_prns s other m_prn0 m_prn1 = some (c0, c1) ∧
      GoldSplitAt 511 correlator_cf_impl.mseq1 correlator_cf_impl.mseq2 s c0) ∧
    (∃ c0 c1, correlator_cf_impl.generate_prns other s m_prn0 m_prn1 = some (c0, c1) ∧
      GoldSplitAt 511 correlator_cf_impl.mseq1 correlator_cf_impl.mseq2 s c1) :=
  ⟨⟨_, generate_prn_eq s (by omega) hs' _ h0,
      prn_code_goldSplit _ _ single_mseq1_length single_mseq2_length s hs hs'⟩,
   ⟨_, _, generate_prns_eq s other (by omega) hs' ho ho' _ _ h0 h1,
      prn_code_goldSplit _ _ mseq1_length mseq2_length s hs hs'⟩,
   ⟨_, _, generate_prns_eq other s ho ho' (by omega) hs' _ _ h0 h1,
      prn_code_goldSplit _ _ mseq1_length mseq2_length s hs hs'⟩⟩

theorem gold_split_witness :
    (0 : Int) ≤ 3 ∧ (3 : Int) ≤ 510 ∧ (-2 : Int) ≤ -1 ∧ (-1 : Int) ≤ 510 ∧
    (List.replicate 512 (7 : Int)).length = 512 ∧ (List.replicate 512 (9 : Int)).length = 512 ∧
    ((∃ code, single_correlator_cf_impl.generate_prn 3 (List.replicate 512 7) = some code ∧
      GoldSplitAt 511 single_correlator_cf_impl.mseq1 single_correlator_cf_impl.mseq2 3
        code) ∧
    (∃ c0 c1, correlator_cf_impl.generate_prns 3 (-1) (List.replicate 512 7)
        (List.replicate 512 9) = some (c0, c1) ∧
      GoldSplitAt 511 correlator_cf_impl.mseq1 correlator_cf_impl.mseq2 3 c0) ∧
    (∃ c0 c1, correlator_cf_impl.generate_prns (-1) 3 (List.replicate 512 7)
        (List.replicate 512 9) = some (c0, c1) ∧
      GoldSplitAt 511 correlator_cf_impl.mseq1 correlator_cf_impl.mseq2 3 c1)) :=
  ⟨by decide, by decide, by decide, by decide, List.length_replicate _ _,
    List.length_replicate _ _,
    gold_split 3 (by decide) (by decide) (-1) (by decide) (by decide)
      (List.replicate 512 7) (List.replicate 512 9)
      (List.length_replicate _ _) (List.length_replicate _ _)⟩

/-- C14, as stated: selector 511 lies outside `[-2, 510]`, yet generation with checked
array access succeeds for it, in `generate_prn` and in both slots of `generate_prns`: the
first Gold loop runs for no `k`, the second reads `mseq1[k]` and `mseq2[k - 511 + 511]` for
`k` in `[0, 510]`, and the result is the code of selector 0. -/
theorem selector_511_in_bounds :
    single_correlator_cf_impl.generate_prn 511 (List.replicate 512 0) =
      single_correlator_cf_impl.generate_prn 0 (List.replicate 512 0) ∧
    (∃ code, single_correlator_cf_impl.generate_prn 511 (List.replicate 512 0) = some code) ∧
    (∃ c0 c1, correlator_cf_impl.generate_prns 511 511 (List.replicate 512 0)
      (List.replicate 512 0) = some (c0, c1)) := by
  have e := prn_slot_511 single_correlator_cf_impl.mseq1 single_correlator_cf_impl.mseq2
    single_mseq1_length single_mseq2_length _ (List.length_replicate 512 (0 : Int))
  have d := prn_slot_511 correlator_cf_impl.mseq1 correlator_cf_impl.mseq2
    mseq1_length mseq2_length _ (List.length_replicate 512 (0 : Int))
  refine ⟨?_, ⟨_, e⟩, ⟨_, _, generate_prns_of_slots _ _ _ _ _ _ d d⟩⟩
  rw [generate_prn_eq_slot, e, prn_code_511,
    generate_prn_eq 0 (by decide) (by decide) _ (List.length_replicate _ _)]

/-- C14, amended: the generator validates nothing, and with checked array access
generation fails for every selector `s < -2` and every `s > 511`, in `generate_prn` and in
either slot of `generate_prns` (whatever the other selector and the buffers); selector 511
indexes in range only and generates the code of selector 0.  Selectors are unbounded
integers here; as `int` values those from `512 - 2^31` on involve no overflow. -/
theorem invalid_selectors (s : Int) (hs : s < -2 ∨ 511 < s) (other : Int)
    (m_prn0 m_prn1 : List Int) :
    single_correlator_cf_impl.generate_prn s m_prn0 = none ∧
    correlator_cf_impl.generate_prns s other m_prn0 m_prn1 = none ∧
    correlator_cf_impl.generate_prns other s m_prn0 m_prn1 = none ∧
    (m_prn0.length = 512 →
      single_correlator_cf_impl.generate_prn 511 m_prn0 =
        some (prn_code single_correlator_cf_impl.mseq1 single_correlator_cf_impl.mseq2 0)) ∧
    (m_prn0.length = 512 → m_prn1.length = 512 →
      correlator_cf_impl.generate_prns 511 511 m_prn0 m_prn1 =
        some (prn_code correlator_cf_impl.mseq1 correlator_cf_impl.mseq2 0,
          prn_code correlator_cf_impl.mseq1 correlator_cf_impl.mseq2 0)) := by
  refine ⟨prn_slot_outside _ _ s hs _, generate_prns_none_left _ _ _ _
    (prn_slot_outside _ _ s hs _), generate_prns_none_right _ _ _ _
    (prn_slot_outside _ _ s hs _), fun h0 => ?_, fun h0 h1 => ?_⟩
  · rw [generate_prn_eq_slot, prn_slot_511 _ _ single_mseq1_length single_mseq2_length _ h0,
      prn_code_511]
  · rw [← prn_code_511]
    exact generate_prns_of_slots _ _ _ _ _ _
      (prn_slot_511 _ _ mseq1_length mseq2_length _ h0)
      (prn_slot_511 _ _ mseq1_length mseq2_length _ h1)

theorem invalid_selectors_witness :
    ((-3 : Int) < -2 ∨ (511 : Int) < -3) ∧
    single_correlator_cf_impl.generate_prn (-3) (List.replicate 512 0) = none ∧
    correlator_cf_impl.generate_prns (-3) 7 (List.replicate 512 0) (List.replicate 512 0) =
      none ∧
    correlator_cf_impl.generate_prns 7 (-3) (List.replicate 512 0) (List.replicate 512 0) =
      none ∧
    ((List.replicate 512 (0 : Int)).length = 512 →
      single_correlator_cf_impl.generate_prn 511 (List.replicate 512 0) =
        some (prn_code single_correlator_cf_impl.mseq1 single_correlator_cf_impl.mseq2 0)) ∧
    ((List.replicate 512 (0 : Int)).length = 512 →
      (List.replicate 512 (0 : Int)).length = 512 →
      correlator_cf_impl.generate_prns 511 511 (List.replicate 512 0) (List.replicate 512 0) =
        some (prn_code correlator_cf_impl.mseq1 correlator_cf_impl.mseq2 0,
          prn_code correlator_cf_impl.mseq1 correlator_cf_impl.mseq2 0)) :=
  ⟨Or.inl (by decide),
    invalid_selectors (-3) (Or.inl (by decide)) 7 (List.replicate 512 0)
      (List.replicate 512 0)⟩

/-! ## Claims on the modulator: invariant, staggering, phase rotation -/

theorem cos_half_pi_even {R : Type} [CommRing R] (k : Nat) (h : k % 2 = 0) :
    ((cos_half_pi (k : Int) : R) = 1 ∨ (cos_half_pi (k : Int) : R) = -1) ∧
      (sin_half_pi (k : Int) : R) = 0 := by
  unfold cos_half_pi sin_half_pi
  have h4 : (k : Int) % 4 = 0 ∨ (k : Int) % 4 = 2 := by omega
  rcases h4 with h4 | h4 <;> rw [h4] <;> simp

theorem sin_half_pi_odd {R : Type} [CommRing R] (k : Nat) (h : k % 2 = 1) :
    ((sin_half_pi (k : Int) : R) = 1 ∨ (sin_half_pi (k : Int) : R) = -1) ∧
      (cos_half_pi (k : Int) : R) = 0 := by
  unfold cos_half_pi sin_half_pi
  have h4 : (k : Int) % 4 = 1 ∨ (k : Int) % 4 = 3 := by omega
  rcases h4 with h4 | h4 <;> rw [h4] <;> simp

theorem baseBand_seq_even {R : Type} [CommRing R] (code : List Int) (k : Nat)
    (h : k % 2 = 0) :
    (baseBand_seq code k : gr_complex R) = ⟨((iBB_seq code k : Int) : R), 0⟩ ∨
    (baseBand_seq code k : gr_complex R) = ⟨-((iBB_seq code k : Int) : R), 0⟩ := by
  obtain ⟨hc, hs⟩ := cos_half_pi_even (R := R) k h
  rcases hc with hc | hc
  · left
    apply gr_complex.ext
    · show ((iBB_seq code k : Int) : R) * cos_half_pi (k : Int) + 0 = _
      rw [hc]; ring
    · show 0 + ((qBB_seq code k : Int) : R) * sin_half_pi (k : Int) = 0
      rw [hs]; ring
  · right
    apply gr_complex.ext
    · show ((iBB_seq code k : Int) : R) * cos_half_pi (k : Int) + 0 = _
      rw [hc]; ring
    · show 0 + ((qBB_seq code k : Int) : R) * sin_half_pi (k : Int) = 0
      rw [hs]; ring

theorem baseBand_seq_odd {R : Type} [CommRing R] (code : List Int) (k : Nat)
    (h : k % 2 = 1) :
    (baseBand_seq code k : gr_complex R) = ⟨0, ((qBB_seq code k : Int) : R)⟩ ∨
    (baseBand_seq code k : gr_complex R) = ⟨0, -((qBB_seq code k : Int) : R)⟩ := by
  obtain ⟨hs, hc⟩ := sin_half_pi_odd (R := R) k h
  rcases hs with hs | hs
  · left
    apply gr_complex.ext
    · show ((iBB_seq code k : Int) : R) * cos_half_pi (k : Int) + 0 = 0
      rw [hc]; ring
    · show 0 + ((qBB_seq code k : Int) : R) * sin_half_pi (k : Int) = _
      rw [hs]; ring
  · right
    apply gr_complex.ext
    · show ((iBB_seq code k : Int) : R) * cos_half_pi (k : Int) + 0 = 0
      rw [hc]; ring
    · show 0 + ((qBB_seq code k : Int) : R) * sin_half_pi (k : Int) = _
      rw [hs]; ring

theorem cast_unit {R : Type} [CommRing R] (a : Int) (ha : a = 1 ∨ a = -1) :
    ((a : Int) : R) = 1 ∨ ((a : Int) : R) = -1 := by
  rcases ha with rfl | rfl
  · left; simp
  · right; simp

/-- C11: for every 512-entry code of bits the modulator (of either engine, whatever its
buffers held before) leaves rails `iBB[k]`, `qBB[k]` that are each 1 or -1 for every `k` in
`[0, 511]`, and the waveform entry `iBB[k]*cos(pi/2*k) + i*qBB[k]*sin(pi/2*k)` has squared
magnitude exactly 1: for even `k` it is the real number `iBB[k]` or `-iBB[k]`, for odd `k`
the imaginary number `i*qBB[k]` or `-i*qBB[k]`. -/
theorem modulator_invariant {R : Type} [CommRing R] (code : List Int) (hbits : IsBits code)
    (diffs iBB qBB : List R) (hd : diffs.length = 512) (hi : iBB.length = 512)
    (hq : qBB.length = 512) (baseBand : List (gr_complex R)) (hb : baseBand.length = 512) :
    ∃ d i q bb,
      correlator_cf_impl.cc430_modulator code diffs iBB qBB baseBand = some (d, i, q, bb) ∧
      single_correlator_cf_impl.cc430_modulator code diffs iBB qBB baseBand =
        some (d, i, q, bb) ∧
      ∀ k, k < 512 →
        (i.getD k 0 = 1 ∨ i.getD k 0 = -1) ∧ (q.getD k 0 = 1 ∨ q.getD k 0 = -1) ∧
        bb.getD k 0 = gr_complex.ofReal (i.getD k 0 * cos_half_pi (k : Int)) +
          (⟨0, q.getD k 0 * sin_half_pi (k : Int)⟩ : gr_complex R) ∧
        normSq (bb.getD k 0) = 1 ∧
        (k % 2 = 0 → bb.getD k 0 = ⟨i.getD k 0, 0⟩ ∨ bb.getD k 0 = ⟨-i.getD k 0, 0⟩) ∧
        (k % 2 = 1 → bb.getD k 0 = ⟨0, q.getD k 0⟩ ∨ bb.getD k 0 = ⟨0, -q.getD k 0⟩) := by
  refine ⟨_, _, _, _, cc430_modulator_eq code hbits.1 diffs iBB qBB hd hi hq baseBand hb,
    (single_cc430_modulator_eq_dual code diffs iBB qBB baseBand).trans
      (cc430_modulator_eq code hbits.1 diffs iBB qBB hd hi hq baseBand hb), fun k hk => ?_⟩
  have h0 := hbits.2 0 (by decide)
  rw [buf512_getD _ _ _ hk, buf512_getD _ _ _ hk, buf512_getD _ _ _ hk]
  exact ⟨cast_unit _ (iBB_seq_unit code h0 k), cast_unit _ (qBB_seq_unit code h0 k), rfl,
    normSq_of_conj_mul _ (conj_mul_baseBand code h0 k),
    baseBand_seq_even code k, baseBand_seq_odd code k⟩

theorem modulator_invariant_witness :
    IsBits (List.replicate 512 0) ∧
    (List.replicate 512 (5 : ℚ)).length = 512 ∧
    (List.replicate 512 (0 : gr_complex ℚ)).length = 512 ∧
    ∃ d i q bb,
      correlator_cf_impl.cc430_modulator (List.replicate 512 0) (List.replicate 512 (5 : ℚ))
        (List.replicate 512 5) (List.replicate 512 5) (List.replicate 512 0) =
        some (d, i, q, bb) ∧
      single_correlator_cf_impl.cc430_modulator (List.replicate 512 0)
        (List.replicate 512 (5 : ℚ)) (List.replicate 512 5) (List.replicate 512 5)
        (List.replicate 512 0) = some (d, i, q, bb) ∧
      ∀ k, k < 512 →
        (i.getD k 0 = 1 ∨ i.getD k 0 = -1) ∧ (q.getD k 0 = 1 ∨ q.getD k 0 = -1) ∧
        bb.getD k 0 = gr_complex.ofReal (i.getD k 0 * cos_half_pi (k : Int)) +
          (⟨0, q.getD k 0 * sin_half_pi (k : Int)⟩ : gr_complex ℚ) ∧
        normSq (bb.getD k 0) = 1 ∧
        (k % 2 = 0 → bb.getD k 0 = ⟨i.getD k 0, 0⟩ ∨ bb.getD k 0 = ⟨-i.getD k 0, 0⟩) ∧
        (k % 2 = 1 → bb.getD k 0 = ⟨0, q.getD k 0⟩ ∨ bb.getD k 0 = ⟨0, -q.getD k 0⟩) :=
  ⟨zero_code_bits, List.length_replicate _ _, List.length_replicate _ _,
    modulator_invariant (List.replicate 512 0) zero_code_bits (List.replicate 512 5)
      (List.replicate 512 5) (List.replicate 512 5) (List.length_replicate _ _)
      (List.length_replicate _ _) (List.length_replicate _ _) (List.replicate 512 0)
      (List.length_replicate _ _)⟩

/-- The closed-form rails hold the pairs the loops of the modulator write. -/
theorem staggering_seq {R : Type} [CommRing R] (code : List Int) :
    Staggering (buf512 fun k => ((iBB_seq code k : Int) : R))
      (buf512 fun k => ((qBB_seq code k : Int) : R)) := by
  constructor
  · intro m h1 h2
    obtain ⟨j, hj⟩ : ∃ j, 2 * m = j + 1 := ⟨2 * m - 1, by omega⟩
    rw [hj, Nat.add_sub_cancel, buf512_getD _ _ _ (by omega), buf512_getD _ _ _ (by omega),
      iBB_seq_even code j (by omega)]
  · intro m h2
    rw [buf512_getD _ _ _ (by omega), buf512_getD _ _ _ (by omega),
      qBB_seq_odd code (2 * m) (by omega)]

set_option maxRecDepth 100000 in
theorem iBB_code0_1 :
    iBB_seq (prn_code single_correlator_cf_impl.mseq1 single_correlator_cf_impl.mseq2 (-2)) 1 =
      -1 := by
  decide

set_option maxRecDepth 100000 in
theorem qBB_code0_1 :
    qBB_seq (prn_code single_correlator_cf_impl.mseq1 single_correlator_cf_impl.mseq2 (-2)) 1 =
      -1 := by
  decide

set_option maxRecDepth 100000 in
theorem qBB_code0_2 :
    qBB_seq (prn_code single_correlator_cf_impl.mseq1 single_correlator_cf_impl.mseq2 (-2)) 2 =
      1 := by
  decide

/-- C12, as stated: the code of selector -2 starts 1, 0, 1, so the modulator leaves
`iBB[0] = 1`, `iBB[1] = diffs[1]*iBB[0] = -1` and `qBB[1] = -1`,
`qBB[2] = diffs[2]*qBB[1] = 1`: the pair `iBB[2m+1] = iBB[2m]` fails at `m = 0` and the pair
`qBB[2m] = qBB[2m-1]` fails at `m = 1`. -/
theorem staggering_as_stated_fails :
    ∃ code d i q bb,
      single_correlator_cf_impl.generate_prn (-2) (List.replicate 512 0) = some code ∧
      single_correlator_cf_impl.cc430_modulator code (List.replicate 512 (0 : ℚ))
        (List.replicate 512 0) (List.replicate 512 0) (List.replicate 512 0) =
        some (d, i, q, bb) ∧
      i.getD 0 0 = 1 ∧ i.getD 1 0 = -1 ∧ q.getD 1 0 = -1 ∧ q.getD 2 0 = 1 ∧
      ¬ StaggeringAsStated i q := by
  refine ⟨_, _, _, _, _,
    generate_prn_eq (-2) (by decide) (by decide) _ (List.length_replicate _ _),
    (single_cc430_modulator_eq_dual _ _ _ _ _).trans
      (cc430_modulator_eq _ (prn_code_length _ _ _) _ _ _ (List.length_replicate _ _)
        (List.length_replicate _ _) (List.length_replicate _ _) _
        (List.length_replicate _ _)), ?_, ?_, ?_, ?_, ?_⟩
  · rw [buf512_getD _ _ _ (by decide)]
    simp [iBB_seq]
  · rw [buf512_getD _ _ _ (by decide), iBB_code0_1]
    simp
  · rw [buf512_getD _ _ _ (by decide), qBB_code0_1]
    simp
  · rw [buf512_getD _ _ _ (by decide), qBB_code0_2]
    simp
  · intro h
    have h1 := h.1 0 (by decide)
    rw [buf512_getD _ _ _ (by decide), buf512_getD _ _ _ (by decide), iBB_code0_1] at h1
    simp [iBB_seq] at h1
    norm_num at h1

/-- C12, amended: for every PRN code produced by a valid selector (by `generate_prn` or by
either slot of `generate_prns`), the modulator's rails satisfy `iBB[2m] = iBB[2m-1]` for
every `m` in `[1, 255]` and `qBB[2m+1] = qBB[2m]` for every `m` in `[0, 255]`. -/
theorem staggering_law {R : Type} [CommRing R] (s : Int) (hs : -2 ≤ s) (hs' : s ≤ 510)
    (other : Int) (ho : -2 ≤ other) (ho' : other ≤ 510)
    (m_prn0 m_prn1 : List Int) (h0 : m_prn0.length = 512) (h1 : m_prn1.length = 512)
    (diffs iBB qBB : List R) (hd : diffs.length = 512) (hi : iBB.length = 512)
    (hq : qBB.length = 512) (baseBand : List (gr_complex R)) (hb : baseBand.length = 512) :
    (∃ code d i q bb, single_correlator_cf_impl.generate_prn s m_prn0 = some code ∧
      single_correlator_cf_impl.cc430_modulator code diffs iBB qBB baseBand =
        some (d, i, q, bb) ∧ Staggering i q) ∧
    (∃ c0 c1 d i q bb,
      correlator_cf_impl.generate_prns s other m_prn0 m_prn1 = some (c0, c1) ∧
      correlator_cf_impl.cc430_modulator c0 diffs iBB qBB baseBand = some (d, i, q, bb) ∧
      Staggering i q) ∧
    (∃ c0 c1 d i q bb,
      correlator_cf_impl.generate_prns other s m_prn0 m_prn1 = some (c0, c1) ∧
      correlator_cf_impl.cc430_modulator c1 diffs iBB qBB baseBand = some (d, i, q, bb) ∧
      Staggering i q) :=
  ⟨⟨_, _, _, _, _, generate_prn_eq s hs hs' _ h0,
      (single_cc430_modulator_eq_dual _ _ _ _ _).trans
        (cc430_modulator_eq _ (prn_code_length _ _ _) diffs iBB qBB hd hi hq baseBand hb),
      staggering_seq _⟩,
   ⟨_, _, _, _, _, _, generate_prns_eq s other hs hs' ho ho' _ _ h0 h1,
      cc430_modulator_eq _ (prn_code_length _ _ _) diffs iBB qBB hd hi hq baseBand hb,
      staggering_seq _⟩,
   ⟨_, _, _, _, _, _, generate_prns_eq other s ho ho' hs hs' _ _ h0 h1,
      cc430_modulator_eq _ (prn_code_length _ _ _) diffs iBB qBB hd hi hq baseBand hb,
      staggering_seq _⟩⟩

theorem staggering_law_witness :
    (-2 : Int) ≤ -2 ∧ (-2 : Int) ≤ 510 ∧ (-2 : Int) ≤ 7 ∧ (7 : Int) ≤ 510 ∧
    (List.replicate 512 (0 : Int)).length = 512 ∧
    (List.replicate 512 (0 : ℚ)).length = 512 ∧
    (List.replicate 512 (0 : gr_complex ℚ)).length = 512 ∧
    ((∃ code d i q bb,
      single_correlator_cf_impl.generate_prn (-2) (List.replicate 512 0) = some code ∧
      single_correlator_cf_impl.cc430_modulator code (List.replicate 512 (0 : ℚ))
        (List.replicate 512 0) (List.replicate 512 0) (List.replicate 512 0) =
        some (d, i, q, bb) ∧ Staggering i q) ∧
    (∃ c0 c1 d i q bb,
      correlator_cf_impl.generate_prns (-2) 7 (List.replicate 512 0) (List.replicate 512 0) =
        some (c0, c1) ∧
      correlator_cf_impl.cc430_modulator c0 (List.replicate 512 (0 : ℚ))
        (List.replicate 512 0) (List.replicate 512 0) (List.replicate 512 0) =
        some (d, i, q, bb) ∧ Staggering i q) ∧
    (∃ c0 c1 d i q bb,
      correlator_cf_impl.generate_prns 7 (-2) (List.replicate 512 0) (List.replicate 512 0) =
        some (c0, c1) ∧
      correlator_cf_impl.cc430_modulator c1 (List.replicate 512 (0 : ℚ))
        (List.replicate 512 0) (List.replicate 512 0) (List.replicate 512 0) =
        some (d, i, q, bb) ∧ Staggering i q)) :=
  ⟨by decide, by decide, by decide, by decide, List.length_replicate _ _,
    List.length_replicate _ _, List.length_replicate _ _,
    staggering_law (-2) (by decide) (by decide) 7 (by decide) (by decide)
      (List.replicate 512 0) (List.replicate 512 0) (List.length_replicate _ _)
      (List.length_replicate _ _) (List.replicate 512 0) (List.replicate 512 0)
      (List.replicate 512 0) (List.length_replicate _ _) (List.length_replicate _ _)
      (List.length_replicate _ _) (List.replicate 512 0) (List.length_replicate _ _)⟩

/-! ## The phase-rotation law -/

theorem diff_seq_signs (code : List Int) (hbits : IsBits code) (k : Nat) (h : k + 1 ≤ 511) :
    diff_seq code (k + 1) = (1 - 2 * code.getD (k + 1) 0) * (1 - 2 * code.getD k 0) := by
  rw [diff_seq_bits code hbits (k + 1) (by omega) h, Nat.add_sub_cancel]
  rcases hbits.2 (k + 1) (by omega) with a | a <;> rcases hbits.2 k (by omega) with b | b <;>
    rw [a, b] <;> decide

/-- On a code of bits the rails are running products of chip signs: `iBB[k]` is the product
over the chips below `k` for even `k` and below `k + 1` for odd `k`, and `qBB[k]` the
product over the chips below `k + 1` for even `k` and below `k` for odd `k`. -/
theorem rails_phase_prod (code : List Int) (hbits : IsBits code) :
    ∀ k, k ≤ 511 →
      iBB_seq code k = phase_prod code (if k % 2 = 0 then k else k + 1) ∧
      qBB_seq code k = phase_prod code (if k % 2 = 0 then k + 1 else k)
  | 0, _ => by
      refine ⟨rfl, ?_⟩
      show diff_seq code 0 = (1 - 2 * code.getD 0 0) * 1
      simp only [diff_seq, if_true]
      ring
  | k + 1, h => by
      obtain ⟨hi, hq⟩ := rails_phase_prod code hbits k (by omega)
      by_cases c : k % 2 = 0
      · have c1 : ¬ (k + 1) % 2 = 0 := by omega
        rw [if_pos c] at hi hq
        rw [if_neg c1, if_neg c1, iBB_seq_odd code k c, qBB_seq_odd code k c, hi, hq,
          diff_seq_signs code hbits k h]
        refine ⟨?_, rfl⟩
        show _ = (1 - 2 * code.getD (k + 1) 0) * ((1 - 2 * code.getD k 0) * phase_prod code k)
        ring
      · have c1 : (k + 1) % 2 = 0 := by omega
        have c2 : k % 2 = 1 := by omega
        rw [if_neg c] at hi hq
        rw [if_pos c1, if_pos c1, iBB_seq_even code k c2, qBB_seq_even code k (by omega) c2, hi, hq,
          diff_seq_signs code hbits k h]
        refine ⟨rfl, ?_⟩
        show _ = (1 - 2 * code.getD (k + 1) 0) * ((1 - 2 * code.getD k 0) * phase_prod code k)
        ring

theorem cos_half_pi_succ {R : Type} [CommRing R] (k : Int) :
    (cos_half_pi (k + 1) : R) = -sin_half_pi k := by
  unfold cos_half_pi sin_half_pi
  have h : k % 4 = 0 ∨ k % 4 = 1 ∨ k % 4 = 2 ∨ k % 4 = 3 := by omega
  rcases h with h | h | h | h
  · have e : (k + 1) % 4 = 1 := by omega
    rw [h, e]; simp
  · have e : (k + 1) % 4 = 2 := by omega
    rw [h, e]; simp
  · have e : (k + 1) % 4 = 3 := by omega
    rw [h, e]; simp
  · have e : (k + 1) % 4 = 0 := by omega
    rw [h, e]; simp

theorem sin_half_pi_succ {R : Type} [CommRing R] (k : Int) :
    (sin_half_pi (k + 1) : R) = cos_half_pi k := by
  unfold cos_half_pi sin_half_pi
  have h : k % 4 = 0 ∨ k % 4 = 1 ∨ k % 4 = 2 ∨ k % 4 = 3 := by omega
  rcases h with h | h | h | h
  · have e : (k + 1) % 4 = 1 := by omega
    rw [h, e]; simp
  · have e : (k + 1) % 4 = 2 := by omega
    rw [h, e]; simp
  · have e : (k + 1) % 4 = 3 := by omega
    rw [h, e]; simp
  · have e : (k + 1) % 4 = 0 := by omega
    rw [h, e]; simp

/-- On a code of bits entry `k` of the waveform is the running product of chip signs
carried by the quarter-cycle phase `i^k`. -/
theorem baseBand_seq_phase {R : Type} [CommRing R] (code : List Int) (hbits : IsBits code)
    (k : Nat) (h : k ≤ 511) :
    (baseBand_seq code k : gr_complex R) =
      ⟨((phase_prod code k : Int) : R) * cos_half_pi (k : Int),
        ((phase_prod code k : Int) : R) * sin_half_pi (k : Int)⟩ := by
  obtain ⟨hi, hq⟩ := rails_phase_prod code hbits k h
  by_cases c : k % 2 = 0
  · rw [if_pos c] at hi
    obtain ⟨_, hs⟩ := cos_half_pi_even (R := R) k c
    apply gr_complex.ext
    · show ((iBB_seq code k : Int) : R) * cos_half_pi (k : Int) + 0 = _
      rw [hi]; ring
    · show 0 + ((qBB_seq code k : Int) : R) * sin_half_pi (k : Int) = _
      rw [hs]; ring
  · rw [if_neg c] at hq
    obtain ⟨_, hc⟩ := sin_half_pi_odd (R := R) k (by omega)
    apply gr_complex.ext
    · show ((iBB_seq code k : Int) : R) * cos_half_pi (k : Int) + 0 = _
      rw [hc]; ring
    · show 0 + ((qBB_seq code k : Int) : R) * sin_half_pi (k : Int) = _
      rw [hq]; ring

/-- The phase-rotation law on the closed form of the waveform. -/
theorem baseBand_seq_succ {R : Type} [CommRing R] (code : List Int) (hbits : IsBits code)
    (k : Nat) (h : k ≤ 510) :
    (baseBand_seq code (k + 1) : gr_complex R) =
      (⟨0, 1⟩ : gr_complex R) * gr_complex.ofReal (((1 - 2 * code.getD k 0 : Int) : R)) *
        baseBand_seq code k := by
  rw [baseBand_seq_phase code hbits (k + 1) (by omega), baseBand_seq_phase code hbits k
    (by omega)]
  have ec : (cos_half_pi (((k + 1 : Nat) : Int)) : R) = -sin_half_pi (k : Int) := by
    rw [Nat.cast_succ]; exact cos_half_pi_succ _
  have es : (sin_half_pi (((k + 1 : Nat) : Int)) : R) = cos_half_pi (k : Int) := by
    rw [Nat.cast_succ]; exact sin_half_pi_succ _
  have ep : ((phase_prod code (k + 1) : Int) : R) =
      ((1 - 2 * code.getD k 0 : Int) : R) * ((phase_prod code k : Int) : R) := by
    rw [← Int.cast_mul]; rfl
  rw [ec, es, ep]
  apply gr_complex.ext
  · show _ = (0 * ((1 - 2 * code.getD k 0 : Int) : R) - 1 * 0) *
        (((phase_prod code k : Int) : R) * cos_half_pi (k : Int)) -
      (0 * 0 + 1 * ((1 - 2 * code.getD k 0 : Int) : R)) *
        (((phase_prod code k : Int) : R) * sin_half_pi (k : Int))
    ring
  · show _ = (0 * ((1 - 2 * code.getD k 0 : Int) : R) - 1 * 0) *
        (((phase_prod code k : Int) : R) * sin_half_pi (k : Int)) +
      (0 * 0 + 1 * ((1 - 2 * code.getD k 0 : Int) : R)) *
        (((phase_prod code k : Int) : R) * cos_half_pi (k : Int))
    ring

theorem phase_prod_congr (code code2 : List Int) :
    ∀ k, (∀ j, j < k → code2.getD j 0 = code.getD j 0) →
      phase_prod code2 k = phase_prod code k
  | 0, _ => rfl
  | k + 1, h => by
      show (1 - 2 * code2.getD k 0) * phase_prod code2 k =
        (1 - 2 * code.getD k 0) * phase_prod code k
      rw [h k (by omega), phase_prod_congr code code2 k fun j hj => h j (by omega)]

/-- The waveform of a code of bits does not depend on chip 511. -/
theorem baseBand_seq_pad {R : Type} [CommRing R] (code code2 : List Int)
    (hbits : IsBits code) (hbits2 : IsBits code2)
    (hagree : ∀ j, j ≤ 510 → code2.getD j 0 = code.getD j 0) :
    buf512 (baseBand_seq (R := R) code2) = buf512 (baseBand_seq code) := by
  refine buf512_congr _ _ fun k hk => ?_
  rw [baseBand_seq_phase code2 hbits2 k (by omega), baseBand_seq_phase code hbits k (by omega),
    phase_prod_congr code code2 k fun j hj => hagree j (by omega)]

/-- C18: for every 512-entry code of bits the waveform written by the modulator (of either
engine, whatever its buffers held before) starts at 1 and obeys
`baseBand[k+1] = i * (1 - 2*code[k]) * baseBand[k]` for every `k` in `[0, 510]`: chip 0
multiplies by `i`, chip 1 by `-i`.  Consequently a code of bits that differs from `code`
in chip 511 only gives the same waveform. -/
theorem phase_rotation_law {R : Type} [CommRing R] (code : List Int) (hbits : IsBits code)
    (diffs iBB qBB : List R) (hd : diffs.length = 512) (hi : iBB.length = 512)
    (hq : qBB.length = 512) (baseBand : List (gr_complex R)) (hb : baseBand.length = 512) :
    ∃ d i q bb,
      correlator_cf_impl.cc430_modulator code diffs iBB qBB baseBand = some (d, i, q, bb) ∧
      single_correlator_cf_impl.cc430_modulator code diffs iBB qBB baseBand =
        some (d, i, q, bb) ∧
      bb.getD 0 0 = 1 ∧
      (∀ k, k ≤ 510 →
        bb.getD (k + 1) 0 =
          (⟨0, 1⟩ : gr_complex R) * gr_complex.ofReal (((1 - 2 * code.getD k 0 : Int) : R)) *
            bb.getD k 0 ∧
        (code.getD k 0 = 0 → bb.getD (k + 1) 0 = (⟨0, 1⟩ : gr_complex R) * bb.getD k 0) ∧
        (code.getD k 0 = 1 → bb.getD (k + 1) 0 = (⟨0, -1⟩ : gr_complex R) * bb.getD k 0)) ∧
      ∀ code2 : List Int, IsBits code2 → (∀ j, j ≤ 510 → code2.getD j 0 = code.getD j 0) →
        ∃ d2 i2 q2,
          correlator_cf_impl.cc430_modulator code2 diffs iBB qBB baseBand =
            some (d2, i2, q2, bb) ∧
          single_correlator_cf_impl.cc430_modulator code2 diffs iBB qBB baseBand =
            some (d2, i2, q2, bb) := by
  refine ⟨_, _, _, _, cc430_modulator_eq code hbits.1 diffs iBB qBB hd hi hq baseBand hb,
    (single_cc430_modulator_eq_dual code diffs iBB qBB baseBand).trans
      (cc430_modulator_eq code hbits.1 diffs iBB qBB hd hi hq baseBand hb), ?_,
    fun k hk => ?_, fun code2 hbits2 hagree => ?_⟩
  · rw [buf512_getD _ _ _ (by decide)]
    exact baseBand_seq_zero code
  · rw [buf512_getD _ _ _ (by omega), buf512_getD _ _ _ (by omega)]
    have hlaw := baseBand_seq_succ (R := R) code hbits k hk
    refine ⟨hlaw, fun h0 => ?_, fun h1 => ?_⟩
    · rw [hlaw, h0]
      congr 1
      apply gr_complex.ext
      · show (0 : R) * (((1 - 2 * 0 : Int) : Int) : R) - 1 * 0 = 0
        ring
      · show (0 : R) * 0 + 1 * (((1 - 2 * 0 : Int) : Int) : R) = 1
        simp
    · rw [hlaw, h1]
      congr 1
      apply gr_complex.ext
      · show (0 : R) * (((1 - 2 * 1 : Int) : Int) : R) - 1 * 0 = 0
        ring
      · show (0 : R) * 0 + 1 * (((1 - 2 * 1 : Int) : Int) : R) = -1
        simp
  · have e := cc430_modulator_eq code2 hbits2.1 diffs iBB qBB hd hi hq baseBand hb
    rw [baseBand_seq_pad code code2 hbits hbits2 hagree] at e
    exact ⟨_, _, _, e, (single_cc430_modulator_eq_dual code2 diffs iBB qBB baseBand).trans e⟩

theorem phase_rotation_law_witness :
    IsBits (List.replicate 512 0) ∧
    (List.replicate 512 (5 : ℚ)).length = 512 ∧
    (List.replicate 512 (0 : gr_complex ℚ)).length = 512 ∧
    ∃ d i q bb,
      correlator_cf_impl.cc430_modulator (List.replicate 512 0) (List.replicate 512 (5 : ℚ))
        (List.replicate 512 5) (List.replicate 512 5) (List.replicate 512 0) =
        some (d, i, q, bb) ∧
      single_correlator_cf_impl.cc430_modulator (List.replicate 512 0)
        (List.replicate 512 (5 : ℚ)) (List.replicate 512 5) (List.replicate 512 5)
        (List.replicate 512 0) = some (d, i, q, bb) ∧
      bb.getD 0 0 = 1 ∧
      (∀ k, k ≤ 510 →
        bb.getD (k + 1) 0 =
          (⟨0, 1⟩ : gr_complex ℚ) *
            gr_complex.ofReal (((1 - 2 * (List.replicate 512 (0 : Int)).getD k 0 : Int) : ℚ)) *
            bb.getD k 0 ∧
        ((List.replicate 512 (0 : Int)).getD k 0 = 0 →
          bb.getD (k + 1) 0 = (⟨0, 1⟩ : gr_complex ℚ) * bb.getD k 0) ∧
        ((List.replicate 512 (0 : Int)).getD k 0 = 1 →
          bb.getD (k + 1) 0 = (⟨0, -1⟩ : gr_complex ℚ) * bb.getD k 0)) ∧
      ∀ code2 : List Int, IsBits code2 →
        (∀ j, j ≤ 510 → code2.getD j 0 = (List.replicate 512 (0 : Int)).getD j 0) →
        ∃ d2 i2 q2,
          correlator_cf_impl.cc430_modulator code2 (List.replicate 512 (5 : ℚ))
            (List.replicate 512 5) (List.replicate 512 5) (List.replicate 512 0) =
            some (d2, i2, q2, bb) ∧
          single_correlator_cf_impl.cc430_modulator code2 (List.replicate 512 (5 : ℚ))
            (List.replicate 512 5) (List.replicate 512 5) (List.replicate 512 0) =
            some (d2, i2, q2, bb) :=
  ⟨zero_code_bits, List.length_replicate _ _, List.length_replicate _ _,
    phase_rotation_law (List.replicate 512 0) zero_code_bits (List.replicate 512 5)
      (List.replicate 512 5) (List.replicate 512 5) (List.length_replicate _ _)
      (List.length_replicate _ _) (List.length_replicate _ _) (List.replicate 512 0)
      (List.length_replicate _ _)⟩

/-! ## Construction over buffers that record their writes -/

theorem rd_written_of_getElem? {α : Type} (l : List (Option α)) (k : Nat) (v : α)
    (h : l[k]? = some (some v)) : rd_written l (k : Int) = some v := by
  unfold rd_written
  rw [getElem?_eq_some_of_rd l k (some v) h]
  rfl

theorem wr_written_eq_set {α : Type} (a : List (Option α)) (k : Nat) (v : α)
    (h : k < a.length) : wr_written a (k : Int) v = some (a.set k (some v)) :=
  wr_eq_set a k (some v) h

theorem written_length {α : Type} (l : List α) : (written l).length = l.length :=
  List.length_map _ _

theorem written_getElem? {α : Type} (l : List α) (d : α) (k : Nat) (h : k < l.length) :
    (written l)[k]? = some (some (l.getD k d)) := by
  unfold written
  rw [List.getElem?_map, getElem?_eq_some_getD l d k h]
  rfl

theorem written_buf512 {α : Type} (f : Nat → α) :
    written (buf512 f) = buf512 fun k => some (f k) := by
  refine eq_buf512 _ _ (by rw [written_length, buf512_length]) fun j hj => ?_
  rw [written_getElem? _ (f 0) j (by rw [buf512_length]; exact hj), buf512_getD _ _ _ hj]

theorem unwritten_length (α : Type) (n : Nat) : (unwritten α n).length = n :=
  List.length_replicate _ _

/-- After a recording buffer whose first 511 cells hold the chips is padded, it is the
code, every cell written. -/
theorem pad_eq_written_prn_code (m1 m2 : List Int) (s : Int) (m : List (Option Int))
    (hlen : m.length = 512) (hm : ∀ j, j < 511 → m[j]? = some (some (chip m1 m2 s j))) :
    wr_written m (SPRITE_PRN_LENGTH - 1) 0 = some (written (prn_code m1 m2 s)) := by
  have : wr_written m (SPRITE_PRN_LENGTH - 1) 0 = some (m.set 511 (some 0)) := by
    have := wr_written_eq_set m 511 (0 : Int) (by omega)
    simpa [SPRITE_PRN_LENGTH] using this
  rw [this]
  refine congrArg some (List.ext_getElem? fun j => ?_)
  unfold written
  rw [List.getElem?_map, prn_code_getElem?, List.getElem?_set]
  by_cases h1 : j < 511
  · have : (511 : Nat) ≠ j := by omega
    simp [h1, this, hm j h1]
  · by_cases h2 : j = 511
    · subst h2; simp [hlen]
    · have h3 : (511 : Nat) ≠ j := fun h => h2 h.symm
      have h4 : m.length ≤ j := by omega
      simp [h1, h2, h3, List.getElem?_eq_none h4]

/-- Closed form of PRN generation over a recording buffer: for every selector in
`[-2, 510]` the block runs without an access out of range, and writes every one of the 512
cells of the code buffer. -/
theorem tracked_generate_prn_eq (m1 m2 : List Int) (h1 : m1.length = 511)
    (h2 : m2.length = 511) (s : Int) (hs : -2 ≤ s) (hs' : s ≤ 510) (m : List (Option Int))
    (hlen : m.length = 512) :
    tracked.generate_prn m1 m2 s m = some (written (prn_code m1 m2 s)) := by
  unfold tracked.generate_prn
  simp only [andThen_eq_bind]
  by_cases c1 : s = -2
  · subst c1
    obtain ⟨m', hm', hl', hg'⟩ := loopFrom_fill
      (fun k m => (rd m1 k).bind fun v => wr_written m k v) (fun k => some (m1.getD k 0))
      511 0 m
      (fun i hi m' => by
        simp only [Nat.zero_add]
        rw [rd_eq_getD m1 0 i (by omega)]; rfl)
      (by omega)
    have e : forLoop 0 M_SEQUENCE_LENGTH 1
        (fun k m => (rd m1 k).bind fun v => wr_written m k v) m = some m' := by
      rw [forLoop_one]; simpa [M_SEQUENCE_LENGTH] using hm'
    simp only [if_true, e, Option.some_bind]
    apply pad_eq_written_prn_code _ _ _ _ (by omega)
    intro j hj
    rw [hg' j, if_pos (by omega)]
    simp [chip]
  · by_cases c2 : s = -1
    · subst c2
      obtain ⟨m', hm', hl', hg'⟩ := loopFrom_fill
        (fun k m => (rd m2 k).bind fun v => wr_written m k v) (fun k => some (m2.getD k 0))
        511 0 m
        (fun i hi m' => by
          simp only [Nat.zero_add]
          rw [rd_eq_getD m2 0 i (by omega)]; rfl)
        (by omega)
      have e : forLoop 0 M_SEQUENCE_LENGTH 1
          (fun k m => (rd m2 k).bind fun v => wr_written m k v) m = some m' := by
        rw [forLoop_one]; simpa [M_SEQUENCE_LENGTH] using hm'
      simp only [c1, if_false, if_true, e, Option.some_bind]
      apply pad_eq_written_prn_code _ _ _ _ (by omega)
      intro j hj
      rw [hg' j, if_pos (by omega)]
      simp [chip]
    · obtain ⟨t, rfl⟩ : ∃ t : Nat, s = (t : Int) := ⟨s.toNat, by omega⟩
      have ht : t ≤ 510 := by omega
      obtain ⟨ma, hma, hla, hga⟩ := loopFrom_fill
        (fun k m => (rd m1 k).bind fun a => (rd m2 (k + (t : Int))).bind fun b =>
          wr_written m k (Int.xor a b)) (fun k => some (chip m1 m2 (t : Int) k)) (511 - t) 0 m
        (fun i hi m' => by
          simp only [Nat.zero_add]
          rw [rd_eq_getD m1 0 i (by omega)]
          have : ((i : Int) + (t : Int)) = ((i + t : Nat) : Int) := by push_cast; rfl
          rw [this, rd_eq_getD m2 0 (i + t) (by omega)]
          simp only [Option.some_bind, chip, c1, c2, if_false, wr_written]
          have e : (((i : Int) + (t : Int)) % 511).toNat = i + t := by omega
          rw [e])
        (by omega)
      obtain ⟨mb, hmb, hlb, hgb⟩ := loopFrom_fill
        (fun k m => (rd m1 k).bind fun a =>
          (rd m2 (k - M_SEQUENCE_LENGTH + (t : Int))).bind fun b =>
          wr_written m k (Int.xor a b)) (fun k => some (chip m1 m2 (t : Int) k)) t (511 - t) ma
        (fun i hi m' => by
          dsimp only
          rw [rd_eq_getD m1 0 (511 - t + i) (by omega)]
          have : (((511 - t + i : Nat) : Int) - M_SEQUENCE_LENGTH + (t : Int)) =
              ((i : Nat) : Int) := by
            simp only [M_SEQUENCE_LENGTH]; omega
          rw [this, rd_eq_getD m2 0 i (by omega)]
          simp only [Option.some_bind, chip, c1, c2, if_false, wr_written]
          have e : ((((511 - t + i : Nat) : Int) + (t : Int)) % 511).toNat = i := by omega
          rw [e])
        (by omega)
      have ea : forLoop 0 (M_SEQUENCE_LENGTH - (t : Int)) 1
          (fun k m => (rd m1 k).bind fun a => (rd m2 (k + (t : Int))).bind fun b =>
            wr_written m k (Int.xor a b)) m = some ma := by
        rw [forLoop_one]
        have : (M_SEQUENCE_LENGTH - (t : Int) - 0).toNat = 511 - t := by
          simp only [M_SEQUENCE_LENGTH]; omega
        rw [this]; exact_mod_cast hma
      have eb : forLoop (M_SEQUENCE_LENGTH - (t : Int)) M_SEQUENCE_LENGTH 1
          (fun k m => (rd m1 k).bind fun a =>
            (rd m2 (k - M_SEQUENCE_LENGTH + (t : Int))).bind fun b =>
            wr_written m k (Int.xor a b)) ma = some mb := by
        rw [forLoop_one]
        have e1 : (M_SEQUENCE_LENGTH - (M_SEQUENCE_LENGTH - (t : Int))).toNat = t := by
          simp only [M_SEQUENCE_LENGTH]; omega
        have e2 : M_SEQUENCE_LENGTH - (t : Int) = ((511 - t : Nat) : Int) := by
          simp only [M_SEQUENCE_LENGTH]; omega
        rw [e1, e2]; exact hmb
      simp only [c1, c2, if_false, ea, eb, Option.some_bind]
      apply pad_eq_written_prn_code _ _ _ _ (by omega)
      intro j hj
      rw [hgb j]
      by_cases hj2 : 511 - t ≤ j ∧ j < 511 - t + t
      · rw [if_pos hj2]
      · rw [if_neg hj2, hga j, if_pos (by omega)]

/-- The rail loops of the modulator over recording buffers: every cell read has been
written, and the loop writes the cells `lo .. lo + 2n - 1`. -/
theorem tracked_rail_loop {R : Type} [CommRing R] (diffs : List (Option R)) (d f : Nat → R)
    (hd : ∀ j, j < 512 → diffs[j]? = some (some (d j))) (lo n : Nat) (hlo : 1 ≤ lo)
    (hn : lo + 2 * n ≤ 512)
    (hf1 : ∀ i, i < n → f (lo + 2 * i) = d (lo + 2 * i) * f (lo + 2 * i - 1))
    (hf2 : ∀ i, i < n → f (lo + 2 * i + 1) = f (lo + 2 * i))
    (s : List (Option R)) (hs : s.length = 512)
    (h0 : ∀ j, j < lo → s[j]? = some (some (f j))) :
    ∃ s', loopFrom
        (fun k (x : List (Option R)) =>
          (rd_written diffs k).andThen fun d => (rd_written x (k - 1)).andThen fun p =>
          (wr_written x k (d * p)).andThen fun x =>
          (rd_written x k).andThen fun v => wr_written x (k + 1) v) 2 n (lo : Int) s =
          some s' ∧
      s'.length = 512 ∧ ∀ j, j < lo + 2 * n → s'[j]? = some (some (f j)) := by
  obtain ⟨s', hs', hl, hg⟩ := loopFrom_inv
    (fun k (x : List (Option R)) =>
      (rd_written diffs k).andThen fun d => (rd_written x (k - 1)).andThen fun p =>
      (wr_written x k (d * p)).andThen fun x =>
      (rd_written x k).andThen fun v => wr_written x (k + 1) v) 2 n (lo : Int)
    (fun i x => x.length = 512 ∧ ∀ j, j < lo + 2 * i → x[j]? = some (some (f j)))
    s ⟨hs, fun j hj => h0 j (by omega)⟩
    (fun i x hi ⟨hl, hg⟩ => by
      have ek : ((lo : Int) + (i : Int) * 2) = ((lo + 2 * i : Nat) : Int) := by
        push_cast; ring
      have ek1 : (((lo + 2 * i : Nat) : Int) - 1) = ((lo + 2 * i - 1 : Nat) : Int) := by
        omega
      have ek2 : (((lo + 2 * i : Nat) : Int) + 1) = ((lo + 2 * i + 1 : Nat) : Int) := by
        omega
      have r1 := rd_written_of_getElem? diffs _ _ (hd (lo + 2 * i) (by omega))
      have r2 := rd_written_of_getElem? x _ _ (hg (lo + 2 * i - 1) (by omega))
      have w1 := wr_written_eq_set x (lo + 2 * i) (d (lo + 2 * i) * f (lo + 2 * i - 1))
        (by omega)
      have r3 : rd_written (x.set (lo + 2 * i) (some (d (lo + 2 * i) * f (lo + 2 * i - 1))))
          ((lo + 2 * i : Nat) : Int) = some (d (lo + 2 * i) * f (lo + 2 * i - 1)) :=
        rd_written_of_getElem? _ _ _ (by
          rw [List.getElem?_set]; simp; omega)
      have w2 := wr_written_eq_set
        (x.set (lo + 2 * i) (some (d (lo + 2 * i) * f (lo + 2 * i - 1))))
        (lo + 2 * i + 1) (d (lo + 2 * i) * f (lo + 2 * i - 1))
        (by rw [List.length_set]; omega)
      simp only [ek, ek1, ek2, r1, r2, w1, r3, w2, andThen_some]
      refine ⟨_, rfl, by simp [hl], fun j hj => ?_⟩
      rw [List.getElem?_set, List.getElem?_set]
      by_cases c2 : lo + 2 * i + 1 = j
      · subst c2
        simp only [if_true, List.length_set]
        rw [if_pos (by omega), hf2 i hi, hf1 i hi]
      · rw [if_neg c2]
        by_cases c1 : lo + 2 * i = j
        · subst c1
          simp only [if_true]
          rw [if_pos (by omega), hf1 i hi]
        · rw [if_neg c1]
          exact hg j (by omega))
  exact ⟨s', hs', hl, hg⟩

theorem rd_written_buf512 {α : Type} (f : Nat → α) (k : Nat) (h : k < 512) :
    rd_written (buf512 fun k => some (f k)) (k : Int) = some (f k) :=
  rd_written_of_getElem? _ _ _ (by rw [buf512_getElem?, if_pos h])

theorem rd_written_code (code : List Int) (k : Nat) (h : k < code.length) :
    rd_written (written code) (k : Int) = some (code.getD k 0) :=
  rd_written_of_getElem? _ _ _ (written_getElem? code 0 k h)

/-- The first stage of the modulator over recording buffers writes every cell of `diffs`. -/
theorem tracked_diffs_stage {R : Type} [CommRing R] (code : List Int) (hc : code.length = 512)
    (diffs : List (Option R)) (hd : diffs.length = 512) :
    ((rd_written (written code) 0).andThen fun p0 =>
      (wr_written diffs 0 (((-2 * p0 + 1 : Int) : R))).andThen fun diffs =>
      forLoop 1 SPRITE_PRN_LENGTH 1
        (fun k (diffs : List (Option R)) =>
          (rd_written (written code) k).andThen fun pk =>
          (rd_written (written code) (k - 1)).andThen fun pk1 =>
          if to_char (pk - pk1) = 0 then wr_written diffs k 1 else wr_written diffs k (-1))
        diffs) =
      some (buf512 fun k => some ((diff_seq code k : Int) : R)) := by
  have r0 : rd_written (written code) 0 = some (code.getD 0 0) := by
    simpa using rd_written_code code 0 (by omega)
  have w0 : wr_written diffs 0 (((-2 * code.getD 0 0 + 1 : Int) : R)) =
      some (diffs.set 0 (some ((-2 * code.getD 0 0 + 1 : Int) : R))) := by
    simpa using wr_written_eq_set diffs 0 (((-2 * code.getD 0 0 + 1 : Int) : R)) (by omega)
  obtain ⟨m', hm', hl', hg'⟩ := loopFrom_fill
    (fun k (diffs : List (Option R)) =>
      (rd_written (written code) k).andThen fun pk =>
      (rd_written (written code) (k - 1)).andThen fun pk1 =>
      if to_char (pk - pk1) = 0 then wr_written diffs k 1 else wr_written diffs k (-1))
    (fun k => some ((diff_seq code k : Int) : R)) 511 1
    (diffs.set 0 (some ((-2 * code.getD 0 0 + 1 : Int) : R)))
    (fun i hi m' => by
      have e1 : (((1 + i : Nat) : Int) - 1) = ((i : Nat) : Int) := by omega
      have e2 : diff_seq code (1 + i) =
          if to_char (code.getD (1 + i) 0 - code.getD i 0) = 0 then 1 else -1 := by
        rw [Nat.add_comm 1 i]; exact diff_seq_succ code i
      simp only [e1, rd_written_code code (1 + i) (by omega), rd_written_code code i (by omega),
        andThen_some, e2, wr_written]
      by_cases c : to_char (code.getD (1 + i) 0 - code.getD i 0) = 0
      · rw [if_pos c, if_pos c, Int.cast_one]
      · rw [if_neg c, if_neg c, Int.cast_neg, Int.cast_one])
    (by rw [List.length_set]; omega)
  rw [r0, andThen_some, w0, andThen_some, forLoop_one]
  have hn : (SPRITE_PRN_LENGTH - 1).toNat = 511 := by simp [SPRITE_PRN_LENGTH]
  rw [hn]
  have h1 : ((1 : Nat) : Int) = (1 : Int) := rfl
  rw [h1] at hm'
  rw [hm']
  refine congrArg some (eq_buf512 _ _ (by rw [hl', List.length_set]; exact hd) fun j hj => ?_)
  rw [hg' j]
  by_cases c : 1 ≤ j ∧ j < 1 + 511
  · rw [if_pos c]
  · have : j = 0 := by omega
    subst this
    rw [if_neg c, List.getElem?_set]
    simp [hd, diff_seq]

/-- The `iBB` stage of the modulator over recording buffers writes every cell of `iBB`. -/
theorem tracked_iBB_stage {R : Type} [CommRing R] (code : List Int) (iBB : List (Option R))
    (hi : iBB.length = 512) :
    ((wr_written iBB 0 1).andThen fun iBB =>
      (forLoop 1 (SPRITE_PRN_LENGTH - 2) 2
        (fun k (iBB : List (Option R)) =>
          (rd_written (buf512 fun k => some ((diff_seq code k : Int) : R)) k).andThen fun d =>
          (rd_written iBB (k - 1)).andThen fun p =>
          (wr_written iBB k (d * p)).andThen fun iBB =>
          (rd_written iBB k).andThen fun v => wr_written iBB (k + 1) v) iBB).andThen fun iBB =>
      (rd_written (buf512 fun k => some ((diff_seq code k : Int) : R))
        (SPRITE_PRN_LENGTH - 1)).andThen fun d =>
      (rd_written iBB (SPRITE_PRN_LENGTH - 2)).andThen fun p =>
      wr_written iBB (SPRITE_PRN_LENGTH - 1) (d * p)) =
      some (buf512 fun k => some ((iBB_seq code k : Int) : R)) := by
  have w0 : wr_written iBB 0 (1 : R) = some (iBB.set 0 (some 1)) := by
    simpa using wr_written_eq_set iBB 0 (1 : R) (by omega)
  obtain ⟨s, hs, hl, hg⟩ := tracked_rail_loop
    (buf512 fun k => some ((diff_seq code k : Int) : R))
    (fun k => ((diff_seq code k : Int) : R)) (fun k => ((iBB_seq code k : Int) : R))
    (fun j hj => by rw [buf512_getElem?, if_pos hj]) 1 255 (le_refl 1) (by decide)
    (fun i _ => by
      show ((iBB_seq code (1 + 2 * i) : Int) : R) =
        ((diff_seq code (1 + 2 * i) : Int) : R) * ((iBB_seq code (1 + 2 * i - 1) : Int) : R)
      rw [show 1 + 2 * i = 2 * i + 1 by omega, iBB_seq_odd code (2 * i) (by omega),
        Int.cast_mul]
      rfl)
    (fun i _ => by
      show ((iBB_seq code (1 + 2 * i + 1) : Int) : R) = ((iBB_seq code (1 + 2 * i) : Int) : R)
      rw [iBB_seq_even code (1 + 2 * i) (by omega)])
    (iBB.set 0 (some 1)) (by rw [List.length_set]; exact hi)
    (fun j hj => by
      have : j = 0 := by omega
      subst this
      rw [List.getElem?_set]
      simp [hi, iBB_seq])
  have hloop : forLoop 1 (SPRITE_PRN_LENGTH - 2) 2
      (fun k (iBB : List (Option R)) =>
        (rd_written (buf512 fun k => some ((diff_seq code k : Int) : R)) k).andThen fun d =>
        (rd_written iBB (k - 1)).andThen fun p =>
        (wr_written iBB k (d * p)).andThen fun iBB =>
        (rd_written iBB k).andThen fun v => wr_written iBB (k + 1) v) (iBB.set 0 (some 1)) =
      some s := by
    unfold forLoop
    have hn : ((SPRITE_PRN_LENGTH - 2 - 1 + 2 - 1) / 2).toNat = 255 := by
      simp [SPRITE_PRN_LENGTH]
    rw [hn]
    exact hs
  have r1 : rd_written (buf512 fun k => some ((diff_seq code k : Int) : R))
      (SPRITE_PRN_LENGTH - 1) = some ((diff_seq code 511 : Int) : R) := by
    have := rd_written_buf512 (fun k => ((diff_seq code k : Int) : R)) 511 (by decide)
    simpa [SPRITE_PRN_LENGTH] using this
  have r2 : rd_written s (SPRITE_PRN_LENGTH - 2) = some ((iBB_seq code 510 : Int) : R) := by
    have := rd_written_of_getElem? s 510 _ (hg 510 (by decide))
    simpa [SPRITE_PRN_LENGTH] using this
  have w1 : wr_written s (SPRITE_PRN_LENGTH - 1)
      (((diff_seq code 511 : Int) : R) * ((iBB_seq code 510 : Int) : R)) =
      some (s.set 511
        (some (((diff_seq code 511 : Int) : R) * ((iBB_seq code 510 : Int) : R)))) := by
    have := wr_written_eq_set s 511
      (((diff_seq code 511 : Int) : R) * ((iBB_seq code 510 : Int) : R)) (by omega)
    simpa [SPRITE_PRN_LENGTH] using this
  rw [w0, andThen_some, hloop, andThen_some, r1, andThen_some, r2, andThen_some, w1]
  refine congrArg some (eq_buf512 _ _ (by rw [List.length_set]; exact hl) fun j hj => ?_)
  rw [List.getElem?_set]
  by_cases c : 511 = j
  · subst c
    rw [if_pos rfl, if_pos (by omega), iBB_seq_odd code 510 (by decide), Int.cast_mul]
  · rw [if_neg c]
    exact hg j (by omega)

/-- The `qBB` stage of the modulator over recording buffers writes every cell of `qBB`. -/
theorem tracked_qBB_stage {R : Type} [CommRing R] (code : List Int) (qBB : List (Option R))
    (hq : qBB.length = 512) :
    ((rd_written (buf512 fun k => some ((diff_seq code k : Int) : R)) 0).andThen fun d0 =>
      (wr_written qBB 0 d0).andThen fun qBB =>
      (rd_written (buf512 fun k => some ((diff_seq code k : Int) : R)) 0).andThen fun d0 =>
      (wr_written qBB 1 d0).andThen fun qBB =>
      forLoop 2 SPRITE_PRN_LENGTH 2
        (fun k (qBB : List (Option R)) =>
          (rd_written (buf512 fun k => some ((diff_seq code k : Int) : R)) k).andThen fun d =>
          (rd_written qBB (k - 1)).andThen fun p =>
          (wr_written qBB k (d * p)).andThen fun qBB =>
          (rd_written qBB k).andThen fun v => wr_written qBB (k + 1) v) qBB) =
      some (buf512 fun k => some ((qBB_seq code k : Int) : R)) := by
  have r0 : rd_written (buf512 fun k => some ((diff_seq code k : Int) : R)) 0 =
      some ((diff_seq code 0 : Int) : R) := by
    simpa using rd_written_buf512 (fun k => ((diff_seq code k : Int) : R)) 0 (by decide)
  have w0 : wr_written qBB 0 ((diff_seq code 0 : Int) : R) =
      some (qBB.set 0 (some ((diff_seq code 0 : Int) : R))) := by
    simpa using wr_written_eq_set qBB 0 ((diff_seq code 0 : Int) : R) (by omega)
  have w1 : wr_written (qBB.set 0 (some ((diff_seq code 0 : Int) : R))) 1
      ((diff_seq code 0 : Int) : R) =
      some ((qBB.set 0 (some ((diff_seq code 0 : Int) : R))).set 1
        (some ((diff_seq code 0 : Int) : R))) := by
    simpa using wr_written_eq_set (qBB.set 0 (some ((diff_seq code 0 : Int) : R))) 1
      ((diff_seq code 0 : Int) : R) (by rw [List.length_set]; omega)
  obtain ⟨s, hs, hl, hg⟩ := tracked_rail_loop
    (buf512 fun k => some ((diff_seq code k : Int) : R))
    (fun k => ((diff_seq code k : Int) : R)) (fun k => ((qBB_seq code k : Int) : R))
    (fun j hj => by rw [buf512_getElem?, if_pos hj]) 2 255 (by decide) (by decide)
    (fun i _ => by
      show ((qBB_seq code (2 + 2 * i) : Int) : R) =
        ((diff_seq code (2 + 2 * i) : Int) : R) * ((qBB_seq code (2 + 2 * i - 1) : Int) : R)
      rw [show 2 + 2 * i = 2 * i + 1 + 1 by omega,
        qBB_seq_even code (2 * i + 1) (by omega) (by omega), Int.cast_mul]
      rfl)
    (fun i _ => by
      show ((qBB_seq code (2 + 2 * i + 1) : Int) : R) = ((qBB_seq code (2 + 2 * i) : Int) : R)
      rw [qBB_seq_odd code (2 + 2 * i) (by omega)])
    ((qBB.set 0 (some ((diff_seq code 0 : Int) : R))).set 1
      (some ((diff_seq code 0 : Int) : R)))
    (by rw [List.length_set, List.length_set]; exact hq)
    (fun j hj => by
      rw [List.getElem?_set, List.getElem?_set]
      by_cases c : 1 = j
      · subst c
        simp [hq, qBB_seq_one]
      · have : j = 0 := by omega
        subst this
        simp [hq, qBB_seq])
  have hloop : forLoop 2 SPRITE_PRN_LENGTH 2
      (fun k (qBB : List (Option R)) =>
        (rd_written (buf512 fun k => some ((diff_seq code k : Int) : R)) k).andThen fun d =>
        (rd_written qBB (k - 1)).andThen fun p =>
        (wr_written qBB k (d * p)).andThen fun qBB =>
        (rd_written qBB k).andThen fun v => wr_written qBB (k + 1) v)
      ((qBB.set 0 (some ((diff_seq code 0 : Int) : R))).set 1
        (some ((diff_seq code 0 : Int) : R))) = some s := by
    unfold forLoop
    have hn : ((SPRITE_PRN_LENGTH - 2 + 2 - 1) / 2).toNat = 255 := by
      simp [SPRITE_PRN_LENGTH]
    rw [hn]
    exact hs
  rw [r0, andThen_some, w0, andThen_some, andThen_some, w1, andThen_some, hloop]
  exact congrArg some (eq_buf512 _ _ hl fun j hj => hg j (by omega))

/-- The last stage of the modulator over recording buffers writes every cell of
`baseBand`. -/
theorem tracked_baseBand_stage {R : Type} [CommRing R] (code : List Int)
    (baseBand : List (Option (gr_complex R))) (hb : baseBand.length = 512) :
    forLoop 0 SPRITE_PRN_LENGTH 1
      (fun k (baseBand : List (Option (gr_complex R))) =>
        (rd_written (buf512 fun k => some ((iBB_seq code k : Int) : R)) k).andThen fun i =>
        (rd_written (buf512 fun k => some ((qBB_seq code k : Int) : R)) k).andThen fun q =>
        wr_written baseBand k
          (gr_complex.ofReal (i * cos_half_pi k) + (⟨0, q * sin_half_pi k⟩ : gr_complex R)))
      baseBand = some (buf512 fun k => some (baseBand_seq code k)) := by
  obtain ⟨m', hm', hl', hg'⟩ := loopFrom_fill
    (fun k (baseBand : List (Option (gr_complex R))) =>
      (rd_written (buf512 fun k => some ((iBB_seq code k : Int) : R)) k).andThen fun i =>
      (rd_written (buf512 fun k => some ((qBB_seq code k : Int) : R)) k).andThen fun q =>
      wr_written baseBand k
        (gr_complex.ofReal (i * cos_half_pi k) + (⟨0, q * sin_half_pi k⟩ : gr_complex R)))
    (fun k => some (baseBand_seq code k)) 512 0 baseBand
    (fun i hi m' => by
      simp only [Nat.zero_add]
      rw [rd_written_buf512 _ i hi, andThen_some, rd_written_buf512 _ i hi, andThen_some]
      rfl)
    (by omega)
  rw [forLoop_one]
  have hn : (SPRITE_PRN_LENGTH - 0).toNat = 512 := by simp [SPRITE_PRN_LENGTH]
  rw [hn]
  have h0 : ((0 : Nat) : Int) = (0 : Int) := rfl
  rw [h0] at hm'
  rw [hm']
  refine congrArg some (eq_buf512 _ _ (by rw [hl']; exact hb) fun j hj => ?_)
  rw [hg' j, if_pos (by omega)]

/-- Closed form of the modulator over recording buffers: for every 512-entry code, every
cell it reads has been written, no access is out of range, and every cell of `diffs`,
`iBB`, `qBB` and `baseBand` ends written, with the values the modulator leaves. -/
theorem tracked_cc430_modulator_eq {R : Type} [CommRing R] (code : List Int)
    (hc : code.length = 512) (diffs iBB qBB : List (Option R)) (hd : diffs.length = 512)
    (hi : iBB.length = 512) (hq : qBB.length = 512)
    (baseBand : List (Option (gr_complex R))) (hb : baseBand.length = 512) :
    tracked.cc430_modulator (written code) diffs iBB qBB baseBand =
      some (written (buf512 fun k => ((diff_seq code k : Int) : R)),
        written (buf512 fun k => ((iBB_seq code k : Int) : R)),
        written (buf512 fun k => ((qBB_seq code k : Int) : R)),
        written (buf512 (baseBand_seq code))) := by
  rw [written_buf512, written_buf512, written_buf512, written_buf512]
  have hA := tracked_diffs_stage (R := R) code hc diffs hd
  have hB := tracked_iBB_stage (R := R) code iBB hi
  have hC := tracked_qBB_stage (R := R) code qBB hq
  have hD := tracked_baseBand_stage (R := R) code baseBand hb
  have r0 : rd_written (written code) 0 = some (code.getD 0 0) := by
    simpa using rd_written_code code 0 (by omega)
  have w0 : wr_written diffs 0 (((-2 * code.getD 0 0 + 1 : Int) : R)) =
      some (diffs.set 0 (some ((-2 * code.getD 0 0 + 1 : Int) : R))) := by
    simpa using wr_written_eq_set diffs 0 (((-2 * code.getD 0 0 + 1 : Int) : R)) (by omega)
  rw [r0, andThen_some, w0, andThen_some] at hA
  have wi : wr_written iBB 0 (1 : R) = some (iBB.set 0 (some 1)) := by
    simpa using wr_written_eq_set iBB 0 (1 : R) (by omega)
  rw [wi, andThen_some] at hB
  obtain ⟨s, hs, hB1⟩ := andThen_eq_some hB
  obtain ⟨d, hd1, hB2⟩ := andThen_eq_some hB1
  obtain ⟨p, hp1, hB3⟩ := andThen_eq_some hB2
  have rq0 : rd_written (buf512 fun k => some ((diff_seq code k : Int) : R)) 0 =
      some ((diff_seq code 0 : Int) : R) := by
    simpa using rd_written_buf512 (fun k => ((diff_seq code k : Int) : R)) 0 (by decide)
  have wq0 : wr_written qBB 0 ((diff_seq code 0 : Int) : R) =
      some (qBB.set 0 (some ((diff_seq code 0 : Int) : R))) := by
    simpa using wr_written_eq_set qBB 0 ((diff_seq code 0 : Int) : R) (by omega)
  have wq1 : wr_written (qBB.set 0 (some ((diff_seq code 0 : Int) : R))) 1
      ((diff_seq code 0 : Int) : R) =
      some ((qBB.set 0 (some ((diff_seq code 0 : Int) : R))).set 1
        (some ((diff_seq code 0 : Int) : R))) := by
    simpa using wr_written_eq_set (qBB.set 0 (some ((diff_seq code 0 : Int) : R))) 1
      ((diff_seq code 0 : Int) : R) (by rw [List.length_set]; omega)
  rw [rq0, andThen_some, wq0, andThen_some, andThen_some, wq1, andThen_some] at hC
  unfold tracked.cc430_modulator
  rw [r0, andThen_some, w0, andThen_some, hA, andThen_some, wi, andThen_some,
    rq0, andThen_some, wq0, andThen_some, andThen_some, wq1, andThen_some,
    hs, andThen_some, hd1, andThen_some, hp1, andThen_some, hB3, andThen_some,
    hC, andThen_some, hD, andThen_some]

theorem conj_template_of_buf {R : Type} [CommRing R] (f : Nat → gr_complex R) :
    (buf512 fun k => gr_complex.conj (f k)) =
      buf512 fun k => gr_complex.conj ((buf512 f).getD k 0) :=
  buf512_congr _ _ fun j hj => by rw [buf512_getD _ _ _ hj]

/-- C15: construction is safe for valid selectors.  For every selector `s` in `[-2, 510]`
there are a code and modulator buffers, each of 512 entries, such that
* the tables have 511 entries, and with every access checked against `[0, 510]` for the
  tables and `[0, 511]` for the buffers, `generate_prn` and either slot of `generate_prns`
  return the code whatever the code buffers held before, and the modulator of either engine
  returns the same `diffs`, `iBB`, `qBB` and waveform whatever these four buffers held;
* over buffers that record their writes, where a read of a cell never written fails,
  generation started from any recording state, in particular from a buffer none of whose
  cells is written, ends with every one of the 512 code cells written, and the modulator
  run on that code ends with every cell of `diffs`, `iBB`, `qBB` and the waveform written:
  no cell is read before it is written;
* the constructors of both engines succeed on any freshly allocated object and store this
  code and the conjugated waveform. -/
theorem construction_safe {R : Type} [CommRing R] (s : Int) (hs : -2 ≤ s) (hs' : s ≤ 510)
    (other : Int) (ho : -2 ≤ other) (ho' : other ≤ 510) :
    ∃ (code : List Int) (d i q : List R) (bb : List (gr_complex R)),
      (correlator_cf_impl.mseq1.length = 511 ∧ correlator_cf_impl.mseq2.length = 511 ∧
        single_correlator_cf_impl.mseq1.length = 511 ∧
        single_correlator_cf_impl.mseq2.length = 511 ∧
        code.length = 512 ∧ d.length = 512 ∧ i.length = 512 ∧ q.length = 512 ∧
        bb.length = 512) ∧
      (∀ m_prn0 m_prn1 : List Int, m_prn0.length = 512 → m_prn1.length = 512 →
        single_correlator_cf_impl.generate_prn s m_prn0 = some code ∧
        (∃ c1, correlator_cf_impl.generate_prns s other m_prn0 m_prn1 = some (code, c1)) ∧
        (∃ c0, correlator_cf_impl.generate_prns other s m_prn0 m_prn1 = some (c0, code))) ∧
      (∀ (diffs iBB qBB : List R) (baseBand : List (gr_complex R)),
        diffs.length = 512 → iBB.length = 512 → qBB.length = 512 → baseBand.length = 512 →
        correlator_cf_impl.cc430_modulator code diffs iBB qBB baseBand = some (d, i, q, bb) ∧
        single_correlator_cf_impl.cc430_modulator code diffs iBB qBB baseBand =
          some (d, i, q, bb)) ∧
      (∀ m_prn : List (Option Int), m_prn.length = 512 →
        tracked.generate_prn correlator_cf_impl.mseq1 correlator_cf_impl.mseq2 s m_prn =
          some (written code) ∧
        tracked.generate_prn single_correlator_cf_impl.mseq1 single_correlator_cf_impl.mseq2
          s m_prn = some (written code)) ∧
      tracked.generate_prn single_correlator_cf_impl.mseq1 single_correlator_cf_impl.mseq2 s
        (unwritten Int 512) = some (written code) ∧
      (∀ (diffs iBB qBB : List (Option R)) (baseBand : List (Option (gr_complex R))),
        diffs.length = 512 → iBB.length = 512 → qBB.length = 512 → baseBand.length = 512 →
        tracked.cc430_modulator (written code) diffs iBB qBB baseBand =
          some (written d, written i, written q, written bb)) ∧
      tracked.cc430_modulator (written code) (unwritten R 512) (unwritten R 512)
        (unwritten R 512) (unwritten (gr_complex R) 512) =
          some (written d, written i, written q, written bb) ∧
      (∀ self : correlator_cf_impl R, Allocated self →
        (∃ eng, correlator_cf_impl.make s other self = some eng ∧ eng.m_prn0 = code ∧
          eng.m_template0 = buf512 fun k => gr_complex.conj (bb.getD k 0)) ∧
        (∃ eng, correlator_cf_impl.make other s self = some eng ∧ eng.m_prn1 = code ∧
          eng.m_template1 = buf512 fun k => gr_complex.conj (bb.getD k 0))) ∧
      (∀ self : single_correlator_cf_impl R, SingleAllocated self →
        ∃ eng, single_correlator_cf_impl.make s self = some eng ∧ eng.m_prn = code ∧
          eng.m_template = buf512 fun k => gr_complex.conj (bb.getD k 0)) := by
  refine ⟨prn_code correlator_cf_impl.mseq1 correlator_cf_impl.mseq2 s, _, _, _, _,
    ⟨mseq1_length, mseq2_length, single_mseq1_length, single_mseq2_length,
      prn_code_length _ _ _, buf512_length _, buf512_length _, buf512_length _,
      buf512_length _⟩,
    fun m0 m1 h0 h1 => ⟨generate_prn_eq s hs hs' m0 h0,
      ⟨_, generate_prns_eq s other hs hs' ho ho' m0 m1 h0 h1⟩,
      ⟨_, generate_prns_eq other s ho ho' hs hs' m0 m1 h0 h1⟩⟩,
    fun diffs iBB qBB baseBand hd hi hq hb =>
      ⟨cc430_modulator_eq _ (prn_code_length _ _ _) diffs iBB qBB hd hi hq baseBand hb,
        (single_cc430_modulator_eq_dual _ diffs iBB qBB baseBand).trans
          (cc430_modulator_eq _ (prn_code_length _ _ _) diffs iBB qBB hd hi hq baseBand hb)⟩,
    fun m hm => ⟨tracked_generate_prn_eq _ _ mseq1_length mseq2_length s hs hs' m hm,
      tracked_generate_prn_eq _ _ single_mseq1_length single_mseq2_length s hs hs' m hm⟩,
    tracked_generate_prn_eq _ _ single_mseq1_length single_mseq2_length s hs hs' _
      (unwritten_length _ _),
    fun diffs iBB qBB baseBand hd hi hq hb =>
      tracked_cc430_modulator_eq _ (prn_code_length _ _ _) diffs iBB qBB hd hi hq baseBand hb,
    tracked_cc430_modulator_eq _ (prn_code_length _ _ _) _ _ _ (unwritten_length _ _)
      (unwritten_length _ _) (unwritten_length _ _) _ (unwritten_length _ _),
    fun self hself => ⟨?_, ?_⟩, fun self hself => ?_⟩
  · obtain ⟨eng, he, h0, _, ht0, _, _⟩ := make_spec s other hs hs' ho ho' self hself
    exact ⟨eng, he, h0, ht0.trans (conj_template_of_buf _)⟩
  · obtain ⟨eng, he, _, h1, _, ht1, _⟩ := make_spec other s ho ho' hs hs' self hself
    exact ⟨eng, he, h1, ht1.trans (conj_template_of_buf _)⟩
  · obtain ⟨eng, he, h0, ht0, _⟩ := single_make_spec s hs hs' self hself
    exact ⟨eng, he, h0, ht0.trans (conj_template_of_buf _)⟩

theorem construction_safe_witness :
    (-2 : Int) ≤ 3 ∧ (3 : Int) ≤ 510 ∧ (-2 : Int) ≤ -1 ∧ (-1 : Int) ≤ 510 ∧
    ∃ (code : List Int) (d i q : List ℚ) (bb : List (gr_complex ℚ)),
      (correlator_cf_impl.mseq1.length = 511 ∧ correlator_cf_impl.mseq2.length = 511 ∧
        single_correlator_cf_impl.mseq1.length = 511 ∧
        single_correlator_cf_impl.mseq2.length = 511 ∧
        code.length = 512 ∧ d.length = 512 ∧ i.length = 512 ∧ q.length = 512 ∧
        bb.length = 512) ∧
      (∀ m_prn0 m_prn1 : List Int, m_prn0.length = 512 → m_prn1.length = 512 →
        single_correlator_cf_impl.generate_prn 3 m_prn0 = some code ∧
        (∃ c1, correlator_cf_impl.generate_prns 3 (-1) m_prn0 m_prn1 = some (code, c1)) ∧
        (∃ c0, correlator_cf_impl.generate_prns (-1) 3 m_prn0 m_prn1 = some (c0, code))) ∧
      (∀ (diffs iBB qBB : List ℚ) (baseBand : List (gr_complex ℚ)),
        diffs.length = 512 → iBB.length = 512 → qBB.length = 512 → baseBand.length = 512 →
        correlator_cf_impl.cc430_modulator code diffs iBB qBB baseBand = some (d, i, q, bb) ∧
        single_correlator_cf_impl.cc430_modulator code diffs iBB qBB baseBand =
          some (d, i, q, bb)) ∧
      (∀ m_prn : List (Option Int), m_prn.length = 512 →
        tracked.generate_prn correlator_cf_impl.mseq1 correlator_cf_impl.mseq2 3 m_prn =
          some (written code) ∧
        tracked.generate_prn single_correlator_cf_impl.mseq1 single_correlator_cf_impl.mseq2
          3 m_prn = some (written code)) ∧
      tracked.generate_prn single_correlator_cf_impl.mseq1 single_correlator_cf_impl.mseq2 3
        (unwritten Int 512) = some (written code) ∧
      (∀ (diffs iBB qBB : List (Option ℚ)) (baseBand : List (Option (gr_complex ℚ))),
        diffs.length = 512 → iBB.length = 512 → qBB.length = 512 → baseBand.length = 512 →
        tracked.cc430_modulator (written code) diffs iBB qBB baseBand =
          some (written d, written i, written q, written bb)) ∧
      tracked.cc430_modulator (written code) (unwritten ℚ 512) (unwritten ℚ 512)
        (unwritten ℚ 512) (unwritten (gr_complex ℚ) 512) =
          some (written d, written i, written q, written bb) ∧
      (∀ self : correlator_cf_impl ℚ, Allocated self →
        (∃ eng, correlator_cf_impl.make 3 (-1) self = some eng ∧ eng.m_prn0 = code ∧
          eng.m_template0 = buf512 fun k => gr_complex.conj (bb.getD k 0)) ∧
        (∃ eng, correlator_cf_impl.make (-1) 3 self = some eng ∧ eng.m_prn1 = code ∧
          eng.m_template1 = buf512 fun k => gr_complex.conj (bb.getD k 0))) ∧
      (∀ self : single_correlator_cf_impl ℚ, SingleAllocated self →
        ∃ eng, single_correlator_cf_impl.make 3 self = some eng ∧ eng.m_prn = code ∧
          eng.m_template = buf512 fun k => gr_complex.conj (bb.getD k 0)) :=
  ⟨by decide, by decide, by decide, by decide,
    construction_safe 3 (by decide) (by decide) (-1) (by decide) (by decide)⟩

/-! ## The dual engine built on one code twice -/

/-- C19: a dual engine constructed with `prn_id0 = prn_id1 = s`, `s` any valid selector,
holds the same template twice; on every input and for every output position `k` the two
peak values agree, `max0 = max1`, and the output is `+sqrt(max1)`, which is not negative
(exact reals, `fft` any transform returning 512 bins). -/
theorem degenerate_dual (fft : List (gr_complex ℝ) → List (gr_complex ℝ))
    (hfft : ∀ x, x.length = 512 → (fft x).length = 512)
    (s : Int) (hs : -2 ≤ s) (hs' : s ≤ 510)
    (raw : correlator_cf_impl ℝ) (hraw : Allocated raw)
    (n : Nat) (inp : List (gr_complex ℝ)) (hinp : n + 511 ≤ inp.length)
    (out : List ℝ) (hout : n ≤ out.length) :
    ∃ eng self' out',
      correlator_cf_impl.make s s raw = some eng ∧
      eng.m_prn0 = eng.m_prn1 ∧ eng.m_template0 = eng.m_template1 ∧
      correlator_cf_impl.work fft Real.sqrt eng (n : Int) inp out =
        some (self', out', (n : Int)) ∧
      ∀ k, k < n → ∃ o max0 max1,
        out'[k]? = some o ∧
        IsMaxMag (fft (pointwise eng.m_template0 (window inp k))) max0 ∧
        IsMaxMag (fft (pointwise eng.m_template1 (window inp k))) max1 ∧
        correlator_cf_impl.peak_scan (fft (pointwise eng.m_template0 (window inp k))) =
          correlator_cf_impl.peak_scan (fft (pointwise eng.m_template1 (window inp k))) ∧
        max0 = max1 ∧ o = Real.sqrt max1 ∧ 0 ≤ o := by
  obtain ⟨eng, he, hp0, hp1, ht0, ht1, hws⟩ := make_spec s s hs hs' hs hs' raw hraw
  have ht : eng.m_template0 = eng.m_template1 := ht0.trans ht1.symm
  obtain ⟨self', out', hw, _, hget, _⟩ := dual_streaming fft Real.sqrt hfft eng hws n inp out
    hinp hout
  refine ⟨eng, self', out', he, hp0.trans hp1.symm, ht, hw, fun k hk => ?_⟩
  refine ⟨_, _, _, hget k hk, max_mag_isMax _, max_mag_isMax _, by rw [ht], by rw [ht], ?_, ?_⟩
  · unfold dual_output
    rw [ht, if_pos (le_refl _)]
  · unfold dual_output
    rw [ht, if_pos (le_refl _)]
    exact Real.sqrt_nonneg _

theorem degenerate_dual_witness :
    (∀ x : List (gr_complex ℝ), x.length = 512 → (id x).length = 512) ∧
    (-2 : Int) ≤ 5 ∧ (5 : Int) ≤ 510 ∧ Allocated (zero_engine ℝ) ∧
    1 + 511 ≤ (List.replicate 512 (0 : gr_complex ℝ)).length ∧
    1 ≤ [(0 : ℝ)].length ∧
    ∃ eng self' out',
      correlator_cf_impl.make 5 5 (zero_engine ℝ) = some eng ∧
      eng.m_prn0 = eng.m_prn1 ∧ eng.m_template0 = eng.m_template1 ∧
      correlator_cf_impl.work id Real.sqrt eng ((1 : Nat) : Int)
        (List.replicate 512 0) [0] = some (self', out', ((1 : Nat) : Int)) ∧
      ∀ k, k < 1 → ∃ o max0 max1,
        out'[k]? = some o ∧
        IsMaxMag (id (pointwise eng.m_template0 (window (List.replicate 512 0) k))) max0 ∧
        IsMaxMag (id (pointwise eng.m_template1 (window (List.replicate 512 0) k))) max1 ∧
        correlator_cf_impl.peak_scan
            (id (pointwise eng.m_template0 (window (List.replicate 512 0) k))) =
          correlator_cf_impl.peak_scan
            (id (pointwise eng.m_template1 (window (List.replicate 512 0) k))) ∧
        max0 = max1 ∧ o = Real.sqrt max1 ∧ 0 ≤ o :=
  ⟨fun _ h => h, by decide, by decide, zero_engine_allocated ℝ,
    by rw [List.length_replicate], le_refl 1,
    degenerate_dual id (fun _ h => h) 5 (by decide) (by decide) (zero_engine ℝ)
      (zero_engine_allocated ℝ) 1 (List.replicate 512 0) (by rw [List.length_replicate]) [0]
      (le_refl 1)⟩

/-! ## The two engines share the generator and the modulator -/

theorem make_congr {R : Type} [CommRing R] (a b a2 b2 : Int) (self : correlator_cf_impl R)
    (h : correlator_cf_impl.generate_prns a b self.m_prn0 self.m_prn1 =
      correlator_cf_impl.generate_prns a2 b2 self.m_prn0 self.m_prn1) :
    correlator_cf_impl.make a b self = correlator_cf_impl.make a2 b2 self := by
  unfold correlator_cf_impl.make
  rw [h]

theorem single_make_congr {R : Type} [CommRing R] (a a2 : Int)
    (self : single_correlator_cf_impl R)
    (h : single_correlator_cf_impl.generate_prn a self.m_prn =
      single_correlator_cf_impl.generate_prn a2 self.m_prn) :
    single_correlator_cf_impl.make a self = single_correlator_cf_impl.make a2 self := by
  unfold single_correlator_cf_impl.make
  rw [h]

theorem make_none_of_generate {R : Type} [CommRing R] (a b : Int) (self : correlator_cf_impl R)
    (h : correlator_cf_impl.generate_prns a b self.m_prn0 self.m_prn1 = none) :
    correlator_cf_impl.make a b self = none := by
  unfold correlator_cf_impl.make
  rw [h]
  rfl

/-- The selector with the same code in `[-2, 510]`: 511 is a full turn, the same as 0. -/
theorem prn_slot_fold (m1 m2 : List Int) (h1 : m1.length = 511) (h2 : m2.length = 511)
    (s : Int) (hs : -2 ≤ s) (hs' : s ≤ 511) (m : List Int) (hlen : m.length = 512) :
    prn_slot m1 m2 s m = prn_slot m1 m2 (if s = 511 then 0 else s) m := by
  by_cases c : s = 511
  · subst c
    rw [if_pos rfl, prn_slot_511 m1 m2 h1 h2 m hlen, prn_code_511,
      prn_slot_eq m1 m2 h1 h2 0 (by decide) (by decide) m hlen]
  · rw [if_neg c]

/-- If the dual constructor succeeds, both selectors lie in `[-2, 511]`. -/
theorem make_selectors {R : Type} [CommRing R] (a b : Int) (self : correlator_cf_impl R)
    (eng : correlator_cf_impl R) (h : correlator_cf_impl.make a b self = some eng) :
    (-2 ≤ a ∧ a ≤ 511) ∧ (-2 ≤ b ∧ b ≤ 511) := by
  constructor
  · by_contra c
    have hn := generate_prns_none_left a b self.m_prn0 self.m_prn1
      (prn_slot_outside _ _ a (by omega) _)
    rw [make_none_of_generate a b self hn] at h
    exact Option.noConfusion h
  · by_contra c
    have hn := generate_prns_none_right a b self.m_prn0 self.m_prn1
      (prn_slot_outside _ _ b (by omega) _)
    rw [make_none_of_generate a b self hn] at h
    exact Option.noConfusion h

theorem make_fold {R : Type} [CommRing R] (a b : Int) (ha : -2 ≤ a) (ha' : a ≤ 511)
    (hb : -2 ≤ b) (hb' : b ≤ 511) (self : correlator_cf_impl R) (hself : Allocated self) :
    correlator_cf_impl.make a b self =
      correlator_cf_impl.make (if a = 511 then 0 else a) (if b = 511 then 0 else b) self := by
  apply make_congr
  rw [generate_prns_eq_slots, generate_prns_eq_slots,
    prn_slot_fold _ _ mseq1_length mseq2_length a ha ha' _ hself.1,
    prn_slot_fold _ _ mseq1_length mseq2_length b hb hb' _ hself.2.1]

theorem single_make_fold {R : Type} [CommRing R] (a : Int) (ha : -2 ≤ a) (ha' : a ≤ 511)
    (self : single_correlator_cf_impl R) (hself : SingleAllocated self) :
    single_correlator_cf_impl.make a self =
      single_correlator_cf_impl.make (if a = 511 then 0 else a) self := by
  apply single_make_congr
  rw [generate_prn_eq_slot, generate_prn_eq_slot,
    prn_slot_fold _ _ single_mseq1_length single_mseq2_length a ha ha' _ hself.1]

/-- Whenever the dual constructor succeeds, the single constructor succeeds on the
selector of either slot and stores that slot's code and template. -/
theorem single_of_dual {R : Type} [CommRing R] (a b : Int)
    (raw : correlator_cf_impl R) (hraw : Allocated raw)
    (sraw : single_correlator_cf_impl R) (hsraw : SingleAllocated sraw)
    (eng : correlator_cf_impl R) (h : correlator_cf_impl.make a b raw = some eng) :
    (∃ e, single_correlator_cf_impl.make a sraw = some e ∧ e.m_prn = eng.m_prn0 ∧
      e.m_template = eng.m_template0) ∧
    (∃ e, single_correlator_cf_impl.make b sraw = some e ∧ e.m_prn = eng.m_prn1 ∧
      e.m_template = eng.m_template1) := by
  obtain ⟨⟨ha, ha'⟩, ⟨hb, hb'⟩⟩ := make_selectors a b raw eng h
  have fa : -2 ≤ (if a = 511 then 0 else a) ∧ (if a = 511 then 0 else a) ≤ 510 := by
    split <;> omega
  have fb : -2 ≤ (if b = 511 then 0 else b) ∧ (if b = 511 then 0 else b) ≤ 510 := by
    split <;> omega
  obtain ⟨eng2, he2, hp0, hp1, ht0, ht1, _⟩ := make_spec (R := R) _ _ fa.1 fa.2 fb.1 fb.2 raw hraw
  rw [make_fold a b ha ha' hb hb' raw hraw, he2] at h
  have e := Option.some.inj h
  subst e
  obtain ⟨ea, hea, hpa, hta, _⟩ := single_make_spec (R := R) _ fa.1 fa.2 sraw hsraw
  obtain ⟨eb, heb, hpb, htb, _⟩ := single_make_spec (R := R) _ fb.1 fb.2 sraw hsraw
  refine ⟨⟨ea, ?_, hpa.trans hp0.symm, hta.trans ht0.symm⟩,
    ⟨eb, ?_, hpb.trans hp1.symm, htb.trans ht1.symm⟩⟩
  · rw [single_make_fold a ha ha' sraw hsraw]; exact hea
  · rw [single_make_fold b hb hb' sraw hsraw]; exact heb

/-- C20: the tables `mseq1` and `mseq2` of the two headers are the same lists, the two
modulators are the same function, `generate_prns` is `generate_prn` run on each of its two
slots (for all selectors, valid or not), and for every selector `s` and every other selector:
whenever the dual constructor succeeds with `prn_id0 = s`, the single constructor succeeds
on `s` and stores the dual engine's code 0 and template 0, and whenever the dual
constructor succeeds with `prn_id1 = s`, the single constructor stores its code 1 and
template 1.  For valid selectors all these constructions succeed. -/
theorem engines_share_code_paths {R : Type} [CommRing R] (s other : Int)
    (raw : correlator_cf_impl R) (hraw : Allocated raw)
    (sraw : single_correlator_cf_impl R) (hsraw : SingleAllocated sraw) :
    single_correlator_cf_impl.mseq1 = correlator_cf_impl.mseq1 ∧
    single_correlator_cf_impl.mseq2 = correlator_cf_impl.mseq2 ∧
    (∀ k, k < 511 →
      single_correlator_cf_impl.mseq1[k]? = correlator_cf_impl.mseq1[k]? ∧
      single_correlator_cf_impl.mseq2[k]? = correlator_cf_impl.mseq2[k]?) ∧
    (∀ (code : List Int) (diffs iBB qBB : List R) (baseBand : List (gr_complex R)),
      single_correlator_cf_impl.cc430_modulator code diffs iBB qBB baseBand =
        correlator_cf_impl.cc430_modulator code diffs iBB qBB baseBand) ∧
    (∀ (a b : Int) (m_prn0 m_prn1 : List Int),
      correlator_cf_impl.generate_prns a b m_prn0 m_prn1 =
        (single_correlator_cf_impl.generate_prn a m_prn0).bind fun c0 =>
        (single_correlator_cf_impl.generate_prn b m_prn1).bind fun c1 => some (c0, c1)) ∧
    (∀ eng, correlator_cf_impl.make s other raw = some eng →
      ∃ e, single_correlator_cf_impl.make s sraw = some e ∧ e.m_prn = eng.m_prn0 ∧
        e.m_template = eng.m_template0) ∧
    (∀ eng, correlator_cf_impl.make other s raw = some eng →
      ∃ e, single_correlator_cf_impl.make s sraw = some e ∧ e.m_prn = eng.m_prn1 ∧
        e.m_template = eng.m_template1) ∧
    (-2 ≤ s → s ≤ 510 → -2 ≤ other → other ≤ 510 →
      ∃ e eng0 eng1, single_correlator_cf_impl.make s sraw = some e ∧
        correlator_cf_impl.make s other raw = some eng0 ∧
        correlator_cf_impl.make other s raw = some eng1 ∧
        e.m_prn = eng0.m_prn0 ∧ e.m_template = eng0.m_template0 ∧
        e.m_prn = eng1.m_prn1 ∧ e.m_template = eng1.m_template1) := by
  refine ⟨rfl, rfl, fun k _ => ⟨rfl, rfl⟩,
    fun code diffs iBB qBB baseBand => single_cc430_modulator_eq_dual code diffs iBB qBB baseBand,
    fun a b m0 m1 => generate_prns_eq_slots a b m0 m1,
    fun eng h => (single_of_dual s other raw hraw sraw hsraw eng h).1,
    fun eng h => (single_of_dual other s raw hraw sraw hsraw eng h).2,
    fun hs hs' ho ho' => ?_⟩
  obtain ⟨eng0, he0, _⟩ := make_spec (R := R) s other hs hs' ho ho' raw hraw
  obtain ⟨eng1, he1, _⟩ := make_spec (R := R) other s ho ho' hs hs' raw hraw
  obtain ⟨e, he, hp, ht⟩ := (single_of_dual s other raw hraw sraw hsraw eng0 he0).1
  obtain ⟨e2, he2, hp2, ht2⟩ := (single_of_dual other s raw hraw sraw hsraw eng1 he1).2
  have ee : e2 = e := Option.some.inj (he2.symm.trans he)
  subst ee
  exact ⟨e2, eng0, eng1, he, he0, he1, hp, ht, hp2, ht2⟩

theorem engines_share_code_paths_witness :
    Allocated (zero_engine ℚ) ∧ SingleAllocated (single_zero_engine ℚ) ∧
    single_correlator_cf_impl.mseq1 = correlator_cf_impl.mseq1 ∧
    single_correlator_cf_impl.mseq2 = correlator_cf_impl.mseq2 ∧
    (∀ k, k < 511 →
      single_correlator_cf_impl.mseq1[k]? = correlator_cf_impl.mseq1[k]? ∧
      single_correlator_cf_impl.mseq2[k]? = correlator_cf_impl.mseq2[k]?) ∧
    (∀ (code : List Int) (diffs iBB qBB : List ℚ) (baseBand : List (gr_complex ℚ)),
      single_correlator_cf_impl.cc430_modulator code diffs iBB qBB baseBand =
        correlator_cf_impl.cc430_modulator code diffs iBB qBB baseBand) ∧
    (∀ (a b : Int) (m_prn0 m_prn1 : List Int),
      correlator_cf_impl.generate_prns a b m_prn0 m_prn1 =
        (single_correlator_cf_impl.generate_prn a m_prn0).bind fun c0 =>
        (single_correlator_cf_impl.generate_prn b m_prn1).bind fun c1 => some (c0, c1)) ∧
    (∀ eng, correlator_cf_impl.make 3 (-1) (zero_engine ℚ) = some eng →
      ∃ e, single_correlator_cf_impl.make 3 (single_zero_engine ℚ) = some e ∧
        e.m_prn = eng.m_prn0 ∧ e.m_template = eng.m_template0) ∧
    (∀ eng, correlator_cf_impl.make (-1) 3 (zero_engine ℚ) = some eng →
      ∃ e, single_correlator_cf_impl.make 3 (single_zero_engine ℚ) = some e ∧
        e.m_prn = eng.m_prn1 ∧ e.m_template = eng.m_template1) ∧
    ((-2 : Int) ≤ 3 → (3 : Int) ≤ 510 → (-2 : Int) ≤ -1 → (-1 : Int) ≤ 510 →
      ∃ e eng0 eng1, single_correlator_cf_impl.make 3 (single_zero_engine ℚ) = some e ∧
        correlator_cf_impl.make 3 (-1) (zero_engine ℚ) = some eng0 ∧
        correlator_cf_impl.make (-1) 3 (zero_engine ℚ) = some eng1 ∧
        e.m_prn = eng0.m_prn0 ∧ e.m_template = eng0.m_template0 ∧
        e.m_prn = eng1.m_prn1 ∧ e.m_template = eng1.m_template1) :=
  ⟨zero_engine_allocated ℚ, single_zero_engine_allocated ℚ,
    engines_share_code_paths 3 (-1) (zero_engine ℚ) (zero_engine_allocated ℚ)
      (single_zero_engine ℚ) (single_zero_engine_allocated ℚ)⟩

/-! ## Orthogonality of the DFT kernel -/

theorem kernel_root_eq_inv :
    toComplexHom ⟨Real.cos (2 * Real.pi / 512), -Real.sin (2 * Real.pi / 512)⟩ =
      (Complex.exp (2 * Real.pi * Complex.I / (512 : ℕ)))⁻¹ := by
  rw [← Complex.exp_neg]
  have : -(2 * (Real.pi : ℂ) * Complex.I / ((512 : ℕ) : ℂ)) =
      ((-(2 * Real.pi / 512) : ℝ) : ℂ) * Complex.I := by
    push_cast; ring
  rw [this]
  apply Complex.ext
  · rw [Complex.exp_ofReal_mul_I_re, Real.cos_neg]; rfl
  · rw [Complex.exp_ofReal_mul_I_im, Real.sin_neg]; rfl

/-- The 511-th power of the kernel root `exp(-2*pi*i/512)` is its inverse
`exp(2*pi*i/512)`. -/
theorem kernel_root_pow_511 :
    (toComplexHom ⟨Real.cos (2 * Real.pi / 512), -Real.sin (2 * Real.pi / 512)⟩) ^ 511 =
      Complex.exp (2 * Real.pi * Complex.I / (512 : ℕ)) := by
  have hz := Complex.isPrimitiveRoot_exp 512 (by decide)
  rw [kernel_root_eq_inv, inv_pow]
  have h1 : Complex.exp (2 * Real.pi * Complex.I / (512 : ℕ)) ^ 511 *
      Complex.exp (2 * Real.pi * Complex.I / (512 : ℕ)) = 1 := by
    rw [← pow_succ]; exact hz.pow_eq_one
  exact inv_eq_of_mul_eq_one_right h1

/-- The carrier sample `exp(2*pi*i*f*j/512)` is a power of the kernel root. -/
theorem carrier_hom (f j : Nat) :
    toComplexHom ⟨Real.cos (2 * Real.pi * f * j / 512), Real.sin (2 * Real.pi * f * j / 512)⟩ =
      (toComplexHom ⟨Real.cos (2 * Real.pi / 512), -Real.sin (2 * Real.pi / 512)⟩) ^
        (511 * (f * j)) := by
  rw [pow_mul, kernel_root_pow_511, ← Complex.exp_nat_mul]
  have : (((f * j : Nat) : ℂ)) * (2 * Real.pi * Complex.I / ((512 : ℕ) : ℂ)) =
      ((2 * Real.pi * f * j / 512 : ℝ) : ℂ) * Complex.I := by
    push_cast; ring
  rw [this]
  apply Complex.ext
  · rw [Complex.exp_ofReal_mul_I_re]; rfl
  · rw [Complex.exp_ofReal_mul_I_im]; rfl

theorem kernel_root_conj :
    (starRingEnd ℂ)
      (toComplexHom ⟨Real.cos (2 * Real.pi / 512), -Real.sin (2 * Real.pi / 512)⟩) =
      (toComplexHom ⟨Real.cos (2 * Real.pi / 512), -Real.sin (2 * Real.pi / 512)⟩) ^ 511 := by
  have h := carrier_hom 1 1
  simp only [Nat.cast_one, mul_one] at h
  rw [← h]
  apply Complex.ext
  · rfl
  · show -(-Real.sin (2 * Real.pi / 512)) = Real.sin (2 * Real.pi / 512)
    ring

/-- The sum of the powers `z^(j*k)`, `j` in `[0, 511]`, of a primitive 512-th root of unity
is 512 when 512 divides `k` and 0 otherwise. -/
theorem geom_sum_root (z : ℂ) (hz : IsPrimitiveRoot z 512) (k : Nat) :
    ∑ j ∈ Finset.range 512, z ^ (j * k) = if 512 ∣ k then 512 else 0 := by
  by_cases c : 512 ∣ k
  · rw [if_pos c]
    have h1 : z ^ k = 1 := (hz.pow_eq_one_iff_dvd k).mpr c
    have h2 : ∀ j ∈ Finset.range 512, z ^ (j * k) = 1 := fun j _ => by
      rw [Nat.mul_comm, pow_mul, h1, one_pow]
    rw [Finset.sum_congr rfl h2]
    simp
  · rw [if_neg c]
    have hne : z ^ k - 1 ≠ 0 :=
      sub_ne_zero.mpr fun h => c ((hz.pow_eq_one_iff_dvd k).mp h)
    have hs : (z ^ k - 1) * ∑ j ∈ Finset.range 512, (z ^ k) ^ j = (z ^ k) ^ 512 - 1 :=
      mul_geom_sum (z ^ k) 512
    have h1 : (z ^ k) ^ 512 = 1 := by
      rw [← pow_mul, Nat.mul_comm, pow_mul, hz.pow_eq_one, one_pow]
    rw [h1, sub_self] at hs
    have := (mul_eq_zero.mp hs).resolve_left hne
    rw [← this]
    exact Finset.sum_congr rfl fun j _ => by rw [← pow_mul, Nat.mul_comm]

/-- The transform of the carrier `exp(2*pi*i*f*j/512)`: 512 in bin `f`, 0 elsewhere. -/
theorem dft_carrier (f : Nat) (hf : f < 512) :
    dft (⟨Real.cos (2 * Real.pi / 512), -Real.sin (2 * Real.pi / 512)⟩ : gr_complex ℝ)
      (buf512 fun j => (⟨Real.cos (2 * Real.pi * f * j / 512),
        Real.sin (2 * Real.pi * f * j / 512)⟩ : gr_complex ℝ)) =
      buf512 fun m => if m = f then ⟨512, 0⟩ else 0 := by
  unfold dft
  refine buf512_congr _ _ fun m hm => ?_
  apply toComplexHom_injective
  rw [map_sum]
  have hterm : ∀ j ∈ Finset.range 512,
      toComplexHom ((buf512 fun j => (⟨Real.cos (2 * Real.pi * f * j / 512),
        Real.sin (2 * Real.pi * f * j / 512)⟩ : gr_complex ℝ)).getD j 0 *
        (⟨Real.cos (2 * Real.pi / 512), -Real.sin (2 * Real.pi / 512)⟩ : gr_complex ℝ) ^
          (j * m)) =
      (toComplexHom ⟨Real.cos (2 * Real.pi / 512), -Real.sin (2 * Real.pi / 512)⟩) ^
        (j * (511 * f + m)) := by
    intro j hj
    rw [buf512_getD _ _ _ (Finset.mem_range.mp hj), map_mul, map_pow, carrier_hom f j,
      ← pow_add]
    congr 1
    ring
  rw [Finset.sum_congr rfl hterm, geom_sum_root _ kernel_root_primitive]
  by_cases c : m = f
  · subst c
    rw [if_pos rfl, if_pos (by omega)]
    apply Complex.ext <;> simp [toComplexHom_apply]
  · rw [if_neg c, if_neg (by omega), map_zero]

/-- Parseval's identity for the 512-point transform `F[m] = sum_j p[j]*z^(j*m)`. -/
theorem parseval_complex (z : ℂ) (hz : IsPrimitiveRoot z 512)
    (hconj : (starRingEnd ℂ) z = z ^ 511) (p : Nat → ℂ) :
    ∑ m ∈ Finset.range 512, (∑ j ∈ Finset.range 512, p j * z ^ (j * m)) *
        (starRingEnd ℂ) (∑ j ∈ Finset.range 512, p j * z ^ (j * m)) =
      512 * ∑ j ∈ Finset.range 512, p j * (starRingEnd ℂ) (p j) := by
  have key : ∀ m, (∑ j ∈ Finset.range 512, p j * z ^ (j * m)) *
        (starRingEnd ℂ) (∑ j ∈ Finset.range 512, p j * z ^ (j * m)) =
      ∑ j ∈ Finset.range 512, ∑ k ∈ Finset.range 512,
        p j * (starRingEnd ℂ) (p k) * z ^ (m * (j + 511 * k)) := by
    intro m
    rw [map_sum, Finset.sum_mul_sum]
    refine Finset.sum_congr rfl fun j _ => Finset.sum_congr rfl fun k _ => ?_
    rw [map_mul, map_pow, hconj]
    have e : z ^ (m * (j + 511 * k)) = z ^ (j * m) * (z ^ 511) ^ (k * m) := by
      rw [← pow_mul, ← pow_add]
      congr 1
      ring
    rw [e]
    ring
  rw [Finset.sum_congr rfl fun m _ => key m, Finset.sum_comm]
  rw [Finset.mul_sum]
  refine Finset.sum_congr rfl fun j hj => ?_
  rw [Finset.sum_comm]
  have inner : ∀ k ∈ Finset.range 512,
      ∑ m ∈ Finset.range 512, p j * (starRingEnd ℂ) (p k) * z ^ (m * (j + 511 * k)) =
        if j = k then 512 * (p j * (starRingEnd ℂ) (p j)) else 0 := by
    intro k hk
    rw [← Finset.mul_sum, geom_sum_root z hz]
    have hj' := Finset.mem_range.mp hj
    have hk' := Finset.mem_range.mp hk
    by_cases c : j = k
    · subst c
      rw [if_pos (by omega), if_pos rfl]
      ring
    · rw [if_neg (by omega), if_neg c, mul_zero]
  rw [Finset.sum_congr rfl inner, Finset.sum_ite_eq, if_pos hj]

theorem normSq_cast (g : gr_complex ℝ) :
    ((normSq g : ℝ) : ℂ) = toComplexHom g * (starRingEnd ℂ) (toComplexHom g) := by
  rw [Complex.mul_conj, Complex.normSq_apply]
  rfl

/-- Parseval's identity for the transform of section 4.3: the energy of the 512 bins is
512 times the energy of the 512 input samples. -/
theorem parseval (P : List (gr_complex ℝ)) :
    ∑ m ∈ Finset.range 512,
      normSq ((dft (⟨Real.cos (2 * Real.pi / 512), -Real.sin (2 * Real.pi / 512)⟩ :
        gr_complex ℝ) P).getD m 0) =
      512 * ∑ j ∈ Finset.range 512, normSq (P.getD j 0) := by
  apply Complex.ofReal_injective
  rw [Complex.ofReal_sum, Complex.ofReal_mul, Complex.ofReal_sum]
  have hl : ∀ m ∈ Finset.range 512,
      ((normSq ((dft (⟨Real.cos (2 * Real.pi / 512), -Real.sin (2 * Real.pi / 512)⟩ :
        gr_complex ℝ) P).getD m 0) : ℝ) : ℂ) =
      (∑ j ∈ Finset.range 512, toComplexHom (P.getD j 0) *
        (toComplexHom ⟨Real.cos (2 * Real.pi / 512), -Real.sin (2 * Real.pi / 512)⟩) ^
          (j * m)) *
      (starRingEnd ℂ) (∑ j ∈ Finset.range 512, toComplexHom (P.getD j 0) *
        (toComplexHom ⟨Real.cos (2 * Real.pi / 512), -Real.sin (2 * Real.pi / 512)⟩) ^
          (j * m)) := by
    intro m hm
    rw [normSq_cast, dft_bin P m (Finset.mem_range.mp hm)]
  have hr : ∀ j ∈ Finset.range 512, ((normSq (P.getD j 0) : ℝ) : ℂ) =
      toComplexHom (P.getD j 0) * (starRingEnd ℂ) (toComplexHom (P.getD j 0)) :=
    fun j _ => normSq_cast _
  rw [Finset.sum_congr rfl hl, Finset.sum_congr rfl hr,
    parseval_complex _ kernel_root_primitive kernel_root_conj fun j =>
      toComplexHom (P.getD j 0), Complex.ofReal_ofNat]

/-! ## Claims on carrier offset and on the energy of the single engine -/

/-- The stored template times the waveform carried at offset `f` is the bare carrier. -/
theorem carrier_product (code : List Int) (h0 : code.getD 0 0 = 0 ∨ code.getD 0 0 = 1)
    (c : Nat → gr_complex ℝ) :
    pointwise (buf512 fun k => gr_complex.conj (baseBand_seq code k : gr_complex ℝ))
      (buf512 fun j => (buf512 (baseBand_seq code)).getD j 0 * c j) = buf512 c := by
  unfold pointwise
  exact buf512_congr _ _ fun j hj => by
    rw [buf512_getD _ _ _ hj, buf512_getD _ _ _ hj, buf512_getD _ _ _ hj, ← mul_assoc,
      conj_mul_baseBand code h0 j, one_mul]

/-- The peak scan on a transform with 512 in bin `f` and 0 elsewhere: energy `512^2` at
index `f`. -/
theorem peak_at_bin (F : List (gr_complex ℝ)) (f : Nat) (hf : f < 512)
    (hF : F = buf512 fun m => if m = f then (⟨512, 0⟩ : gr_complex ℝ) else 0) :
    correlator_cf_impl.peak_scan F = some (262144, (f : ℝ)) ∧ IsMaxMag F 262144 ∧
    normSq (F.getD f 0) = 262144 ∧
    (∀ m, m < 512 → m ≠ f → F.getD m 0 = 0) ∧ max_mag F = 262144 := by
  have hb0 : normSq (F.getD f 0) = 262144 := by
    rw [hF, buf512_getD _ _ _ hf, if_pos rfl, normSq_512]
  have hz : ∀ m, m < 512 → m ≠ f → F.getD m 0 = 0 := by
    intro m h1 h2
    rw [hF, buf512_getD _ _ _ h1, if_neg h2]
  have hbm : ∀ m, m < 512 → m ≠ f → normSq (F.getD m 0) = 0 := by
    intro m h1 h2
    rw [hz m h1 h2, normSq_zero]
  have hle : ∀ j, j < 512 → normSq (F.getD j 0) ≤ normSq (F.getD f 0) := by
    intro j hj
    by_cases c : j = f
    · rw [c]
    · rw [hbm j hj c, hb0]; norm_num
  obtain ⟨j0, hj0, hp, hmax, _⟩ := peak_scan_eq F (by rw [hF]; exact buf512_length _)
  have hj : j0 = f := by
    by_contra c
    have := hmax f hf
    rw [hb0, hbm j0 hj0 c] at this
    norm_num at this
  subst hj
  refine ⟨?_, ⟨⟨j0, hf, hb0⟩, fun j hj => ?_⟩, hb0, hz, ?_⟩
  · rw [hp, hb0]
  · rw [← hb0]; exact hle j hj
  · rw [max_mag_eq F j0 hf hle, hb0]

/-- C16: for every selector `s` in `[-2, 510]` (the other selector of the dual engine being
any valid one) and every `f` in `[0, 511]`, when the window is the source waveform shifted
by `f` bins, `W[j] = modulate(generate(s))[j] * exp(2*pi*i*f*j/512)`, the forward DFT of
`T0[j]*W[j]` that `work` leaves in `m_fft_buffer_out0` holds squared magnitude
`512^2 = 262144` in bin `f` and 0 in every other bin, and the peak scan returns
`(262144, f)`.  Exact real arithmetic. -/
theorem carrier_offset_search (w : gr_complex ℝ)
    (hw : w = ⟨Real.cos (2 * Real.pi / 512), -Real.sin (2 * Real.pi / 512)⟩)
    (s other : Int) (hs : -2 ≤ s) (hs' : s ≤ 510) (ho : -2 ≤ other) (ho' : other ≤ 510)
    (f : Nat) (hf : f ≤ 511)
    (raw : correlator_cf_impl ℝ) (hraw : Allocated raw) (out : List ℝ)
    (hout : 1 ≤ out.length) :
    ∃ eng codes r eng' out',
      correlator_cf_impl.make s other raw = some eng ∧
      correlator_cf_impl.generate_prns s other raw.m_prn0 raw.m_prn1 = some codes ∧
      correlator_cf_impl.cc430_modulator codes.1 raw.m_buffer_real1 raw.m_buffer_real2
        raw.m_buffer_real3 raw.m_template0 = some r ∧
      (∀ j, j < 512 → eng.m_template0.getD j 0 = gr_complex.conj (r.2.2.2.getD j 0)) ∧
      correlator_cf_impl.work (dft w) Real.sqrt eng ((1 : Nat) : Int)
        (buf512 fun j => r.2.2.2.getD j 0 *
          ⟨Real.cos (2 * Real.pi * f * j / 512), Real.sin (2 * Real.pi * f * j / 512)⟩) out =
        some (eng', out', ((1 : Nat) : Int)) ∧
      eng'.m_fft_buffer_out0 = dft w (pointwise eng.m_template0
        (buf512 fun j => r.2.2.2.getD j 0 *
          ⟨Real.cos (2 * Real.pi * f * j / 512), Real.sin (2 * Real.pi * f * j / 512)⟩)) ∧
      correlator_cf_impl.peak_scan eng'.m_fft_buffer_out0 = some (262144, (f : ℝ)) ∧
      IsMaxMag eng'.m_fft_buffer_out0 262144 ∧
      normSq (eng'.m_fft_buffer_out0.getD f 0) = 262144 ∧
      (262144 : ℝ) = 512 ^ 2 ∧
      ∀ m, m < 512 → m ≠ f → eng'.m_fft_buffer_out0.getD m 0 = 0 := by
  obtain ⟨eng, hmake, _, _, hT0, _, hsized⟩ := make_spec s other hs hs' ho ho' raw hraw
  have hbit := prn_code_head_bit _ _ mseq1_bits mseq2_bits s
  have hF : dft w (pointwise eng.m_template0
      (buf512 fun j =>
        (buf512 (baseBand_seq
          (prn_code correlator_cf_impl.mseq1 correlator_cf_impl.mseq2 s))).getD j 0 *
        (⟨Real.cos (2 * Real.pi * f * j / 512), Real.sin (2 * Real.pi * f * j / 512)⟩ :
          gr_complex ℝ))) =
      buf512 fun m => if m = f then (⟨512, 0⟩ : gr_complex ℝ) else 0 := by
    rw [hT0, carrier_product _ hbit, hw, dft_carrier f (by omega)]
  obtain ⟨q1, q2, q3, q4, _⟩ := peak_at_bin _ f (by omega) hF
  have hwork := work_closed (dft w) Real.sqrt (fun x _ => dft_length w x) eng hsized.1
    hsized.2.1 hsized.2.2.1 hsized.2.2.2 1
    (buf512 fun j =>
      (buf512 (baseBand_seq
        (prn_code correlator_cf_impl.mseq1 correlator_cf_impl.mseq2 s))).getD j 0 *
      (⟨Real.cos (2 * Real.pi * f * j / 512), Real.sin (2 * Real.pi * f * j / 512)⟩ :
        gr_complex ℝ))
    (by rw [buf512_length]) out hout
  have hout0 : (after_steps (dft w) eng
      (buf512 fun j =>
        (buf512 (baseBand_seq
          (prn_code correlator_cf_impl.mseq1 correlator_cf_impl.mseq2 s))).getD j 0 *
        (⟨Real.cos (2 * Real.pi * f * j / 512), Real.sin (2 * Real.pi * f * j / 512)⟩ :
          gr_complex ℝ))
      1).m_fft_buffer_out0 = dft w (pointwise eng.m_template0
      (buf512 fun j =>
        (buf512 (baseBand_seq
          (prn_code correlator_cf_impl.mseq1 correlator_cf_impl.mseq2 s))).getD j 0 *
        (⟨Real.cos (2 * Real.pi * f * j / 512), Real.sin (2 * Real.pi * f * j / 512)⟩ :
          gr_complex ℝ))) := by
    show dft w (pointwise eng.m_template0 (window (buf512 _) 0)) = _
    rw [window_zero]
  refine ⟨eng, _, _, _, _, hmake,
    generate_prns_eq s other hs hs' ho ho' _ _ hraw.1 hraw.2.1,
    cc430_modulator_eq _ (prn_code_length _ _ _) _ _ _ hraw.2.2.2.2.1 hraw.2.2.2.2.2.1
      hraw.2.2.2.2.2.2.1 _ hraw.2.2.1,
    fun j hj => ?_, hwork, hout0, ?_, ?_, ?_, by norm_num, ?_⟩
  · rw [hT0, buf512_getD _ _ _ hj, buf512_getD _ _ _ hj]
  · rw [hout0]; exact q1
  · rw [hout0]; exact q2
  · rw [hout0]; exact q3
  · rw [hout0]; exact q4

theorem carrier_offset_search_witness :
    (⟨Real.cos (2 * Real.pi / 512), -Real.sin (2 * Real.pi / 512)⟩ : gr_complex ℝ) =
      ⟨Real.cos (2 * Real.pi / 512), -Real.sin (2 * Real.pi / 512)⟩ ∧
    (-2 : Int) ≤ 7 ∧ (7 : Int) ≤ 510 ∧ (-2 : Int) ≤ -1 ∧ (-1 : Int) ≤ 510 ∧ 3 ≤ 511 ∧
    Allocated (zero_engine ℝ) ∧ 1 ≤ [(0 : ℝ)].length ∧
    ∃ eng codes r eng' out',
      correlator_cf_impl.make 7 (-1) (zero_engine ℝ) = some eng ∧
      correlator_cf_impl.generate_prns 7 (-1) (zero_engine ℝ).m_prn0 (zero_engine ℝ).m_prn1 =
        some codes ∧
      correlator_cf_impl.cc430_modulator codes.1 (zero_engine ℝ).m_buffer_real1
        (zero_engine ℝ).m_buffer_real2 (zero_engine ℝ).m_buffer_real3
        (zero_engine ℝ).m_template0 = some r ∧
      (∀ j, j < 512 → eng.m_template0.getD j 0 = gr_complex.conj (r.2.2.2.getD j 0)) ∧
      correlator_cf_impl.work
        (dft ⟨Real.cos (2 * Real.pi / 512), -Real.sin (2 * Real.pi / 512)⟩) Real.sqrt eng
        ((1 : Nat) : Int)
        (buf512 fun j => r.2.2.2.getD j 0 *
          ⟨Real.cos (2 * Real.pi * (3 : Nat) * j / 512),
            Real.sin (2 * Real.pi * (3 : Nat) * j / 512)⟩) [0] =
        some (eng', out', ((1 : Nat) : Int)) ∧
      eng'.m_fft_buffer_out0 =
        dft ⟨Real.cos (2 * Real.pi / 512), -Real.sin (2 * Real.pi / 512)⟩
          (pointwise eng.m_template0
            (buf512 fun j => r.2.2.2.getD j 0 *
              ⟨Real.cos (2 * Real.pi * (3 : Nat) * j / 512),
                Real.sin (2 * Real.pi * (3 : Nat) * j / 512)⟩)) ∧
      correlator_cf_impl.peak_scan eng'.m_fft_buffer_out0 = some (262144, ((3 : Nat) : ℝ)) ∧
      IsMaxMag eng'.m_fft_buffer_out0 262144 ∧
      normSq (eng'.m_fft_buffer_out0.getD 3 0) = 262144 ∧
      (262144 : ℝ) = 512 ^ 2 ∧
      ∀ m, m < 512 → m ≠ 3 → eng'.m_fft_buffer_out0.getD m 0 = 0 :=
  ⟨rfl, by decide, by decide, by decide, by decide, by decide, zero_engine_allocated ℝ,
    le_refl 1,
    carrier_offset_search _ rfl 7 (-1) (by decide) (by decide) (by decide) (by decide) 3
      (by decide) (zero_engine ℝ) (zero_engine_allocated ℝ) [0] (le_refl 1)⟩

/-- With a template of unit-modulus entries the single-code decision is 512 times the energy
of the window. -/
theorem single_output_unit (T W : List (gr_complex ℝ))
    (hT : ∀ j, j < 512 → normSq (T.getD j 0) = 1) :
    single_output
      (dft (⟨Real.cos (2 * Real.pi / 512), -Real.sin (2 * Real.pi / 512)⟩ : gr_complex ℝ))
      T W = 512 * ∑ j ∈ Finset.range 512, normSq (W.getD j 0) := by
  unfold single_output
  rw [parseval]
  refine congrArg (fun x => 512 * x) (Finset.sum_congr rfl fun j hj => ?_)
  unfold pointwise
  rw [buf512_getD _ _ _ (Finset.mem_range.mp hj), normSq_mul,
    hT j (Finset.mem_range.mp hj), one_mul]

theorem template_unit (code : List Int) (h0 : code.getD 0 0 = 0 ∨ code.getD 0 0 = 1)
    (j : Nat) (hj : j < 512) :
    normSq ((buf512 fun k => gr_complex.conj
      (baseBand_seq code k : gr_complex ℝ)).getD j 0) = 1 := by
  rw [buf512_getD _ _ _ hj, normSq_conj]
  exact normSq_of_conj_mul _ (conj_mul_baseBand code h0 j)

/-- C17: for every selector in `[-2, 510]` every entry of the single engine's stored
template has squared magnitude 1, and on every input the output of `work` at each position
`k` is `sum_j |F[j]|^2 = 512 * sum_j |in[k+j]|^2`, `F` the forward DFT of the product of the
template and the window; hence a single engine built with any other valid selector
returns the same output buffer.  Exact real arithmetic. -/
theorem single_output_code_independent (w : gr_complex ℝ)
    (hw : w = ⟨Real.cos (2 * Real.pi / 512), -Real.sin (2 * Real.pi / 512)⟩)
    (s : Int) (hs : -2 ≤ s) (hs' : s ≤ 510)
    (raw : single_correlator_cf_impl ℝ) (hraw : SingleAllocated raw)
    (n : Nat) (inp : List (gr_complex ℝ)) (hinp : n + 511 ≤ inp.length)
    (out : List ℝ) (hout : n ≤ out.length) :
    ∃ eng eng' out',
      single_correlator_cf_impl.make s raw = some eng ∧
      (∀ j, j < 512 → normSq (eng.m_template.getD j 0) = 1) ∧
      single_correlator_cf_impl.work (dft w) eng (n : Int) inp out =
        some (eng', out', (n : Int)) ∧
      (∀ k, k < n →
        out'[k]? = some (∑ j ∈ Finset.range 512,
          normSq ((dft w (pointwise eng.m_template (window inp k))).getD j 0)) ∧
        out'[k]? = some (512 * ∑ j ∈ Finset.range 512, normSq (inp.getD (k + j) 0))) ∧
      ∀ (s2 : Int) (raw2 : single_correlator_cf_impl ℝ), -2 ≤ s2 → s2 ≤ 510 →
        SingleAllocated raw2 →
        ∃ eng2 eng2', single_correlator_cf_impl.make s2 raw2 = some eng2 ∧
          single_correlator_cf_impl.work (dft w) eng2 (n : Int) inp out =
            some (eng2', out', (n : Int)) := by
  obtain ⟨eng, hmake, _, hT, hsized⟩ := single_make_spec s hs hs' raw hraw
  have hbit := prn_code_head_bit _ _ single_mseq1_bits single_mseq2_bits s
  have hunit : ∀ j, j < 512 → normSq (eng.m_template.getD j 0) = 1 := by
    intro j hj
    rw [hT]
    exact template_unit _ hbit j hj
  have hstep : ∀ k, single_output (dft w) eng.m_template (window inp k) =
      512 * ∑ j ∈ Finset.range 512, normSq (inp.getD (k + j) 0) := by
    intro k
    rw [hw, single_output_unit _ _ hunit]
    refine congrArg (fun x => 512 * x) (Finset.sum_congr rfl fun j hj => ?_)
    rw [window_getD inp k j (Finset.mem_range.mp hj)]
  obtain ⟨eng', out', hwork, _, hget, _⟩ :=
    single_streaming (dft w) (fun x _ => dft_length w x) eng hsized n inp out hinp hout
  refine ⟨eng, eng', out', hmake, hunit, hwork, fun k hk => ⟨hget k hk, ?_⟩, ?_⟩
  · rw [hget k hk, hstep k]
  · intro s2 raw2 h2 h2' hraw2
    obtain ⟨eng2, hmake2, _, hT2, hsized2⟩ := single_make_spec s2 h2 h2' raw2 hraw2
    have hbit2 := prn_code_head_bit _ _ single_mseq1_bits single_mseq2_bits s2
    have hunit2 : ∀ j, j < 512 → normSq (eng2.m_template.getD j 0) = 1 := by
      intro j hj
      rw [hT2]
      exact template_unit _ hbit2 j hj
    have hstep2 : ∀ k, single_output (dft w) eng2.m_template (window inp k) =
        single_output (dft w) eng.m_template (window inp k) := by
      intro k
      rw [hstep k, hw, single_output_unit _ _ hunit2]
      refine congrArg (fun x => 512 * x) (Finset.sum_congr rfl fun j hj => ?_)
      rw [window_getD inp k j (Finset.mem_range.mp hj)]
    have c1 := single_work_closed (dft w) (fun x _ => dft_length w x) eng hsized.1 hsized.2
      n inp hinp out hout
    have c2 := single_work_closed (dft w) (fun x _ => dft_length w x) eng2 hsized2.1
      hsized2.2 n inp hinp out hout
    rw [c1] at hwork
    have e := congrArg (fun r => r.2.1) (Option.some.inj hwork)
    dsimp only at e
    refine ⟨eng2, single_after_steps (dft w) eng2 inp n, hmake2, ?_⟩
    rw [c2, ← e]
    have : (fun k => single_output (dft w) eng2.m_template (window inp k)) =
        fun k => single_output (dft w) eng.m_template (window inp k) := funext hstep2
    rw [this]

theorem single_output_code_independent_witness :
    (⟨Real.cos (2 * Real.pi / 512), -Real.sin (2 * Real.pi / 512)⟩ : gr_complex ℝ) =
      ⟨Real.cos (2 * Real.pi / 512), -Real.sin (2 * Real.pi / 512)⟩ ∧
    (-2 : Int) ≤ 7 ∧ (7 : Int) ≤ 510 ∧ SingleAllocated (single_zero_engine ℝ) ∧
    1 + 511 ≤ (List.replicate 512 (1 : gr_complex ℝ)).length ∧ 1 ≤ [(0 : ℝ)].length ∧
    ∃ eng eng' out',
      single_correlator_cf_impl.make 7 (single_zero_engine ℝ) = some eng ∧
      (∀ j, j < 512 → normSq (eng.m_template.getD j 0) = 1) ∧
      single_correlator_cf_impl.work
        (dft ⟨Real.cos (2 * Real.pi / 512), -Real.sin (2 * Real.pi / 512)⟩) eng
        ((1 : Nat) : Int) (List.replicate 512 1) [0] = some (eng', out', ((1 : Nat) : Int)) ∧
      (∀ k, k < 1 →
        out'[k]? = some (∑ j ∈ Finset.range 512,
          normSq ((dft ⟨Real.cos (2 * Real.pi / 512), -Real.sin (2 * Real.pi / 512)⟩
            (pointwise eng.m_template (window (List.replicate 512 1) k))).getD j 0)) ∧
        out'[k]? = some (512 * ∑ j ∈ Finset.range 512,
          normSq ((List.replicate 512 (1 : gr_complex ℝ)).getD (k + j) 0))) ∧
      ∀ (s2 : Int) (raw2 : single_correlator_cf_impl ℝ), -2 ≤ s2 → s2 ≤ 510 →
        SingleAllocated raw2 →
        ∃ eng2 eng2', single_correlator_cf_impl.make s2 raw2 = some eng2 ∧
          single_correlator_cf_impl.work
            (dft ⟨Real.cos (2 * Real.pi / 512), -Real.sin (2 * Real.pi / 512)⟩) eng2
            ((1 : Nat) : Int) (List.replicate 512 1) [0] =
            some (eng2', out', ((1 : Nat) : Int)) :=
  ⟨rfl, by decide, by decide, single_zero_engine_allocated ℝ,
    by rw [List.length_replicate], le_refl 1,
    single_output_code_independent _ rfl 7 (by decide) (by decide) (single_zero_engine ℝ)
      (single_zero_engine_allocated ℝ) 1 (List.replicate 512 1)
      (by rw [List.length_replicate]) [0] (le_refl 1)⟩

/-! ## The tables are M-sequences -/

theorem cyc_congr (t : List Int) (a b : Nat) (h : a % 511 = b % 511) : cyc t a = cyc t b := by
  unfold cyc
  rw [h]

theorem lfsr_fold_congr (t : List Int) (a b : Nat) :
    ∀ (taps : List Nat) (x : Int), (∀ i ∈ taps, cyc t (a + i) = cyc t (b + i)) →
      taps.foldl (fun acc i => Int.xor acc (cyc t (a + i))) x =
        taps.foldl (fun acc i => Int.xor acc (cyc t (b + i))) x
  | [], _, _ => rfl
  | i :: rest, x, h => by
      rw [List.foldl_cons, List.foldl_cons, h i (List.mem_cons_self _ _)]
      exact lfsr_fold_congr t a b rest _ fun j hj => h j (List.mem_cons_of_mem _ hj)

theorem lfsr_next_congr (taps : List Nat) (t : List Int) (a b : Nat)
    (h : ∀ i ∈ taps, cyc t (a + i) = cyc t (b + i)) :
    lfsr_next taps t a = lfsr_next taps t b :=
  lfsr_fold_congr t a b taps 0 h

theorem rotate_getD (t : List Int) (ht : t.length = 511) (n k : Nat) (hk : k < 511) :
    (t.rotate n).getD k 0 = cyc t (k + n) := by
  unfold cyc
  rw [List.getD_eq_getElem?_getD, List.getD_eq_getElem?_getD,
    List.getElem?_rotate (by omega), ht]

theorem tap_fold_getD (t : List Int) (ht : t.length = 511) (k : Nat) (hk : k < 511) :
    ∀ (taps : List Nat) (A : List Int), A.length = 511 →
      (taps.foldl (fun acc i => List.zipWith Int.xor acc (t.rotate i)) A).getD k 0 =
        taps.foldl (fun acc i => Int.xor acc (cyc t (k + i))) (A.getD k 0)
  | [], _, _ => rfl
  | i :: rest, A, hA => by
      rw [List.foldl_cons, List.foldl_cons]
      have hl : (List.zipWith Int.xor A (t.rotate i)).length = 511 := by
        rw [List.length_zipWith, hA, List.length_rotate, ht]
        rfl
      rw [tap_fold_getD t ht k hk rest _ hl]
      congr 1
      rw [List.getD_eq_getElem _ _ (by omega), List.getElem_zipWith,
        ← List.getD_eq_getElem A 0 (by omega),
        ← List.getD_eq_getElem (t.rotate i) 0 (by rw [List.length_rotate]; omega),
        rotate_getD t ht i k hk]

/-- A table whose rotation by 9 is the entrywise XOR of its rotations by the taps satisfies
the recurrence at every index. -/
theorem recurrence_of_rotate (taps : List Nat) (t : List Int) (ht : t.length = 511)
    (h : t.rotate 9 =
      taps.foldl (fun acc i => List.zipWith Int.xor acc (t.rotate i)) (List.replicate 511 0)) :
    ∀ k : Nat, cyc t (k + 9) = lfsr_next taps t k := by
  have small : ∀ k, k < 511 → cyc t (k + 9) = lfsr_next taps t k := by
    intro k hk
    rw [← rotate_getD t ht 9 k hk, h,
      tap_fold_getD t ht k hk taps _ (List.length_replicate _ _)]
    have z : (List.replicate 511 (0 : Int)).getD k 0 = 0 := by
      rw [List.getD_eq_getElem?_getD, List.getElem?_replicate]
      split <;> rfl
    rw [z]
    rfl
  intro k
  rw [cyc_congr t (k + 9) (k % 511 + 9) (by omega), small (k % 511) (Nat.mod_lt _ (by decide))]
  exact lfsr_next_congr taps t _ _ fun i _ => cyc_congr t _ _ (by omega)

set_option maxRecDepth 100000 in
theorem mseq1_rotate :
    correlator_cf_impl.mseq1.rotate 9 =
      [0, 4].foldl (fun acc i => List.zipWith Int.xor acc (correlator_cf_impl.mseq1.rotate i))
        (List.replicate 511 0) := by
  decide

set_option maxRecDepth 100000 in
theorem mseq2_rotate :
    correlator_cf_impl.mseq2.rotate 9 =
      [0, 3, 4, 6].foldl
        (fun acc i => List.zipWith Int.xor acc (correlator_cf_impl.mseq2.rotate i))
        (List.replicate 511 0) := by
  decide

theorem period_511 (t : List Int) : IsCyclicPeriod t 511 :=
  fun k => cyc_congr t _ _ (by omega)

theorem period_mul (t : List Int) (p : Nat) (h : IsCyclicPeriod t p) :
    ∀ n, IsCyclicPeriod t (p * n)
  | 0 => fun _ => rfl
  | n + 1 => fun k => by
      rw [Nat.mul_succ, ← Nat.add_assoc, h (k + p * n)]
      exact period_mul t p h n k

theorem period_mod (t : List Int) (q : Nat) (h : IsCyclicPeriod t q) :
    IsCyclicPeriod t (q % 511) := fun k => by
  rw [cyc_congr t (k + q % 511) (k + q) (by omega)]
  exact h k

set_option maxRecDepth 100000 in
theorem dvd_511 : ∀ g, g < 511 → g ∣ 511 → g = 1 ∨ g = 7 ∨ g = 73 := by
  decide

/-- A table that does not repeat after 1, 7 or 73 entries has no cyclic period below 511:
the periods of a sequence of cyclic length 511 = 7 * 73 are closed under gcd with 511. -/
theorem no_small_period (t : List Int) (h1 : ¬ IsCyclicPeriod t 1)
    (h7 : ¬ IsCyclicPeriod t 7) (h73 : ¬ IsCyclicPeriod t 73) :
    ∀ p, 0 < p → p < 511 → ¬ IsCyclicPeriod t p := by
  intro p hp hp' hper
  have hg : Nat.gcd p 511 < 511 :=
    lt_of_le_of_lt (Nat.le_of_dvd hp (Nat.gcd_dvd_left p 511)) hp'
  obtain ⟨m, hm⟩ := Nat.exists_mul_emod_eq_gcd hg
  have hgper : IsCyclicPeriod t (Nat.gcd p 511) := by
    rw [← hm]
    exact period_mod t _ (period_mul t p hper m)
  rcases dvd_511 _ hg (Nat.gcd_dvd_right p 511) with e | e | e
  · rw [e] at hgper; exact h1 hgper
  · rw [e] at hgper; exact h7 hgper
  · rw [e] at hgper; exact h73 hgper

theorem window9_getD (t : List Int) (k i : Nat) (hi : i < 9) :
    (window9 t k).getD i 0 = cyc t (k + i) := by
  unfold window9
  rw [List.getD_eq_getElem?_getD, List.getElem?_map, List.getElem?_range hi]
  rfl

theorem window9_eq_iff (t : List Int) (j k : Nat) :
    window9 t j = window9 t k ↔ ∀ i, i < 9 → cyc t (j + i) = cyc t (k + i) := by
  constructor
  · intro h i hi
    rw [← window9_getD t j i hi, ← window9_getD t k i hi, h]
  · intro h
    exact List.map_congr_left fun i hi => h i (List.mem_range.mp hi)

/-- Under a recurrence of order 9, two positions with the same window of 9 entries carry
the same entries ever after. -/
theorem windows_propagate (taps : List Nat) (t : List Int) (hrec : IsRecurrence taps t)
    (j k : Nat) (h : window9 t j = window9 t k) : ∀ i, cyc t (j + i) = cyc t (k + i) := by
  have h9 := (window9_eq_iff t j k).mp h
  intro i
  induction i using Nat.strong_induction_on with
  | _ i ih =>
    by_cases c : i < 9
    · exact h9 i c
    · obtain ⟨n, rfl⟩ : ∃ n, i = n + 9 := ⟨i - 9, by omega⟩
      rw [← Nat.add_assoc, ← Nat.add_assoc, hrec.2.2.2 (j + n), hrec.2.2.2 (k + n)]
      refine lfsr_next_congr taps t _ _ fun a ha => ?_
      have ha8 := hrec.2.2.1 a ha
      rw [Nat.add_assoc, Nat.add_assoc]
      exact ih (n + a) (by omega)

/-- Under a recurrence of order 9, a table without a cyclic period below 511 has pairwise
distinct windows. -/
theorem windows_distinct (taps : List Nat) (t : List Int) (hrec : IsRecurrence taps t)
    (hper : ∀ p, 0 < p → p < 511 → ¬ IsCyclicPeriod t p) :
    ∀ j k, j < 511 → k < 511 → window9 t j = window9 t k → j = k := by
  have key : ∀ j k, j < k → k < 511 → window9 t j = window9 t k → False := by
    intro j k hjk hk h
    have hp := windows_propagate taps t hrec j k h
    refine hper (k - j) (by omega) (by omega) fun m => ?_
    have := hp (m + 511 - j)
    rw [cyc_congr t (j + (m + 511 - j)) m (by omega),
      cyc_congr t (k + (m + 511 - j)) (m + (k - j)) (by omega)] at this
    exact this.symm
  intro j k hj hk h
  rcases Nat.lt_trichotomy j k with c | c | c
  · exact (key j k c hk h).elim
  · exact c
  · exact (key k j c hj h.symm).elim

theorem lfsr_fold_zero (t : List Int) (k : Nat) :
    ∀ taps : List Nat, (∀ i ∈ taps, cyc t (k + i) = 0) →
      taps.foldl (fun acc i => Int.xor acc (cyc t (k + i))) 0 = 0
  | [], _ => rfl
  | i :: rest, h => by
      rw [List.foldl_cons, h i (List.mem_cons_self _ _)]
      exact lfsr_fold_zero t k rest fun j hj => h j (List.mem_cons_of_mem _ hj)

/-- Under a recurrence of order 9, a table that does not repeat after 1 entry has no
all-zero window. -/
theorem windows_nonzero (taps : List Nat) (t : List Int) (hrec : IsRecurrence taps t)
    (h1 : ¬ IsCyclicPeriod t 1) : ∀ k, window9 t k ≠ List.replicate 9 0 := by
  intro k hz
  have hz9 : ∀ i, i < 9 → cyc t (k + i) = 0 := by
    intro i hi
    rw [← window9_getD t k i hi, hz, List.getD_eq_getElem?_getD, List.getElem?_replicate]
    split <;> rfl
  have hnext : cyc t (k + 9) = 0 := by
    rw [hrec.2.2.2 k]
    exact lfsr_fold_zero t k taps fun i hi => hz9 i (by have := hrec.2.2.1 i hi; omega)
  have hw : window9 t k = window9 t (k + 1) := by
    rw [window9_eq_iff]
    intro i hi
    rw [hz9 i hi]
    by_cases c : i = 8
    · subst c; exact hnext.symm
    · rw [Nat.add_assoc]; exact (hz9 (1 + i) (by omega)).symm
  have hp := windows_propagate taps t hrec k (k + 1) hw
  refine h1 fun m => ?_
  have := hp (m + 511 - k % 511)
  rw [cyc_congr t (k + (m + 511 - k % 511)) m (by omega),
    cyc_congr t (k + 1 + (m + 511 - k % 511)) (m + 1) (by omega)] at this
  exact this.symm

theorem cyc_bit (t : List Int) (hbits : ∀ x ∈ t, x = 0 ∨ x = 1) (k : Nat) :
    cyc t k = 0 ∨ cyc t k = 1 :=
  getD_bit t hbits _

theorem zero_xor_bit (a : Int) (ha : a = 0 ∨ a = 1) : Int.xor 0 a = a := by
  rcases ha with rfl | rfl <;> decide

/-- A table of 511 bits whose rotation by 9 is the XOR of its rotations by the taps, and
which does not repeat after 1, 7 or 73 entries, is an M-sequence. -/
theorem isMSequence_of_rotate (taps : List Nat) (t : List Int) (ht : t.length = 511)
    (hbits : ∀ x ∈ t, x = 0 ∨ x = 1)
    (htaps : taps.Nodup ∧ 0 ∈ taps ∧ ∀ i ∈ taps, i ≤ 8)
    (hrot : t.rotate 9 =
      taps.foldl (fun acc i => List.zipWith Int.xor acc (t.rotate i)) (List.replicate 511 0))
    (h1 : ¬ IsCyclicPeriod t 1) (h7 : ¬ IsCyclicPeriod t 7) (h73 : ¬ IsCyclicPeriod t 73) :
    IsRecurrence taps t ∧ IsMSequence t := by
  have hrec : IsRecurrence taps t :=
    ⟨htaps.1, htaps.2.1, htaps.2.2, recurrence_of_rotate taps t ht hrot⟩
  have hper := no_small_period t h1 h7 h73
  exact ⟨hrec, ht, hbits, ⟨taps, hrec⟩, ⟨period_511 t, hper⟩,
    windows_distinct taps t hrec hper, fun k _ => windows_nonzero taps t hrec h1 k⟩

set_option maxRecDepth 100000 in
theorem mseq1_points :
    cyc correlator_cf_impl.mseq1 (0 + 1) ≠ cyc correlator_cf_impl.mseq1 0 ∧
    cyc correlator_cf_impl.mseq1 (0 + 7) ≠ cyc correlator_cf_impl.mseq1 0 ∧
    cyc correlator_cf_impl.mseq1 (2 + 73) ≠ cyc correlator_cf_impl.mseq1 2 := by
  decide

set_option maxRecDepth 100000 in
theorem mseq2_points :
    cyc correlator_cf_impl.mseq2 (0 + 1) ≠ cyc correlator_cf_impl.mseq2 0 ∧
    cyc correlator_cf_impl.mseq2 (0 + 7) ≠ cyc correlator_cf_impl.mseq2 0 ∧
    cyc correlator_cf_impl.mseq2 (1 + 73) ≠ cyc correlator_cf_impl.mseq2 1 := by
  decide

theorem mseq1_isMSequence :
    IsRecurrence [0, 4] correlator_cf_impl.mseq1 ∧ IsMSequence correlator_cf_impl.mseq1 :=
  isMSequence_of_rotate [0, 4] _ mseq1_length mseq1_bits
    ⟨by decide, by decide, by decide⟩ mseq1_rotate
    (fun h => mseq1_points.1 (h 0)) (fun h => mseq1_points.2.1 (h 0))
    (fun h => mseq1_points.2.2 (h 2))

theorem mseq2_isMSequence :
    IsRecurrence [0, 3, 4, 6] correlator_cf_impl.mseq2 ∧
      IsMSequence correlator_cf_impl.mseq2 :=
  isMSequence_of_rotate [0, 3, 4, 6] _ mseq2_length mseq2_bits
    ⟨by decide, by decide, by decide⟩ mseq2_rotate
    (fun h => mseq2_points.1 (h 0)) (fun h => mseq2_points.2.1 (h 0))
    (fun h => mseq2_points.2.2 (h 1))

/-- The recurrence of M-sequence #1 written out: `a[k+9] = a[k] XOR a[k+4]`. -/
theorem mseq1_recurrence (k : Nat) :
    cyc correlator_cf_impl.mseq1 (k + 9) =
      Int.xor (cyc correlator_cf_impl.mseq1 k) (cyc correlator_cf_impl.mseq1 (k + 4)) := by
  rw [mseq1_isMSequence.1.2.2.2 k]
  show Int.xor (Int.xor 0 (cyc correlator_cf_impl.mseq1 (k + 0))) _ = _
  rw [zero_xor_bit _ (cyc_bit _ mseq1_bits _), Nat.add_zero]

/-- The recurrence of M-sequence #2 written out:
`a[k+9] = a[k] XOR a[k+3] XOR a[k+4] XOR a[k+6]`. -/
theorem mseq2_recurrence (k : Nat) :
    cyc correlator_cf_impl.mseq2 (k + 9) =
      Int.xor (Int.xor (Int.xor (cyc correlator_cf_impl.mseq2 k)
        (cyc correlator_cf_impl.mseq2 (k + 3))) (cyc correlator_cf_impl.mseq2 (k + 4)))
        (cyc correlator_cf_impl.mseq2 (k + 6)) := by
  rw [mseq2_isMSequence.1.2.2.2 k]
  show Int.xor (Int.xor (Int.xor (Int.xor 0 (cyc correlator_cf_impl.mseq2 (k + 0))) _) _) _ = _
  rw [zero_xor_bit _ (cyc_bit _ mseq2_bits _), Nat.add_zero]

/-- C21: each of the tables `mseq1` and `mseq2` (the same in both headers) is an M-sequence
of length 511.  Read cyclically modulo 511, `mseq1` satisfies `a[k+9] = a[k] XOR a[k+4]` and
`mseq2` satisfies `a[k+9] = a[k] XOR a[k+3] XOR a[k+4] XOR a[k+6]` for every `k`, recurrences
of order 9 whose taps include `a[k]`; each table has least cyclic period 511, and its 511
cyclic windows of 9 consecutive bits are pairwise distinct and none is all-zero. -/
theorem tables_are_m_sequences :
    IsRecurrence [0, 4] correlator_cf_impl.mseq1 ∧
    IsRecurrence [0, 3, 4, 6] correlator_cf_impl.mseq2 ∧
    (∀ k : Nat, cyc correlator_cf_impl.mseq1 (k + 9) =
      Int.xor (cyc correlator_cf_impl.mseq1 k) (cyc correlator_cf_impl.mseq1 (k + 4))) ∧
    (∀ k : Nat, cyc correlator_cf_impl.mseq2 (k + 9) =
      Int.xor (Int.xor (Int.xor (cyc correlator_cf_impl.mseq2 k)
        (cyc correlator_cf_impl.mseq2 (k + 3))) (cyc correlator_cf_impl.mseq2 (k + 4)))
        (cyc correlator_cf_impl.mseq2 (k + 6))) ∧
    IsMSequence correlator_cf_impl.mseq1 ∧ IsMSequence correlator_cf_impl.mseq2 ∧
    IsMSequence single_correlator_cf_impl.mseq1 ∧
    IsMSequence single_correlator_cf_impl.mseq2 :=
  ⟨mseq1_isMSequence.1, mseq2_isMSequence.1, mseq1_recurrence, mseq2_recurrence,
    mseq1_isMSequence.2, mseq2_isMSequence.2, mseq1_isMSequence.2, mseq2_isMSequence.2⟩

/-! ## Distinct selectors give distinct codes -/

theorem xor_bit_mod (a b : Int) (ha : a = 0 ∨ a = 1) (hb : b = 0 ∨ b = 1) :
    Int.xor a b = (a + b) % 2 := by
  rcases ha with rfl | rfl <;> rcases hb with rfl | rfl <;> decide

theorem prn_code_getD (m1 m2 : List Int) (s : Int) (k : Nat) (hk : k < 511) :
    (prn_code m1 m2 s).getD k 0 = chip m1 m2 s k := by
  rw [List.getD_eq_getElem?_getD, prn_code_getElem?, if_pos hk]
  rfl

theorem prn_code_last (m1 m2 : List Int) (s : Int) : (prn_code m1 m2 s).getD 511 0 = 0 := by
  rw [List.getD_eq_getElem?_getD, prn_code_getElem?, if_neg (by decide), if_pos rfl]
  rfl

/-- Chip `k` of a Gold code in terms of the tables read cyclically. -/
theorem chip_gold (m1 m2 : List Int) (t k : Nat) (hk : k < 511) :
    chip m1 m2 (t : Int) k = Int.xor (cyc m1 k) (cyc m2 (k + t)) := by
  have c1 : ((t : Nat) : Int) ≠ -2 := by omega
  have c2 : ((t : Nat) : Int) ≠ -1 := by omega
  unfold chip cyc
  rw [if_neg c1, if_neg c2]
  have e1 : k % 511 = k := Nat.mod_eq_of_lt hk
  have e2 : (((k : Int) + (t : Int)) % 511).toNat = (k + t) % 511 := by omega
  rw [e1, e2]

set_option maxRecDepth 100000 in
theorem tables_points :
    cyc correlator_cf_impl.mseq2 0 = 1 ∧
    correlator_cf_impl.mseq1.getD 9 0 ≠ correlator_cf_impl.mseq2.getD 9 0 ∧
    cyc correlator_cf_impl.mseq1 0 = 1 ∧ cyc correlator_cf_impl.mseq1 3 = 0 ∧
    cyc correlator_cf_impl.mseq1 4 = 1 ∧ cyc correlator_cf_impl.mseq1 6 = 1 ∧
    cyc correlator_cf_impl.mseq1 9 = 0 := by
  decide

/-- The code of M-sequence #1 differs from every Gold code: the rotated M-sequence #2 has a
one somewhere. -/
theorem code_m1_ne_gold (t : Nat) :
    prn_code correlator_cf_impl.mseq1 correlator_cf_impl.mseq2 (-2) ≠
      prn_code correlator_cf_impl.mseq1 correlator_cf_impl.mseq2 (t : Int) := by
  intro h
  have hk : (511 - t % 511) % 511 < 511 := Nat.mod_lt _ (by decide)
  have e := congrArg (fun l => l.getD ((511 - t % 511) % 511) 0) h
  dsimp only at e
  rw [prn_code_getD _ _ _ _ hk, prn_code_getD _ _ _ _ hk, chip_gold _ _ t _ hk,
    cyc_congr correlator_cf_impl.mseq2 ((511 - t % 511) % 511 + t) 0 (by omega),
    tables_points.1] at e
  have e0 : chip correlator_cf_impl.mseq1 correlator_cf_impl.mseq2 (-2)
      ((511 - t % 511) % 511) = cyc correlator_cf_impl.mseq1 ((511 - t % 511) % 511) := by
    unfold chip cyc
    rw [if_pos rfl, Nat.mod_eq_of_lt hk]
  rw [e0] at e
  rcases cyc_bit _ mseq1_bits ((511 - t % 511) % 511) with b | b <;> rw [b] at e <;>
    exact absurd e (by decide)

/-- The code of M-sequence #2 differs from every Gold code: otherwise M-sequence #1 would be
the XOR of two rotations of M-sequence #2 and satisfy its recurrence, which fails at
`k = 0`. -/
theorem code_m2_ne_gold (t : Nat) :
    prn_code correlator_cf_impl.mseq1 correlator_cf_impl.mseq2 (-1) ≠
      prn_code correlator_cf_impl.mseq1 correlator_cf_impl.mseq2 (t : Int) := by
  intro h
  have hrel : ∀ k, k < 511 → cyc correlator_cf_impl.mseq2 k =
      Int.xor (cyc correlator_cf_impl.mseq1 k) (cyc correlator_cf_impl.mseq2 (t + k)) := by
    intro k hk
    have e := congrArg (fun l => l.getD k 0) h
    dsimp only at e
    rw [prn_code_getD _ _ _ _ hk, prn_code_getD _ _ _ _ hk, chip_gold _ _ t _ hk,
      Nat.add_comm k t] at e
    rw [← e]
    unfold chip cyc
    rw [if_neg (by decide), if_pos rfl, Nat.mod_eq_of_lt hk]
  have b := cyc_bit _ mseq2_bits
  have r0 := hrel 0 (by decide)
  have r3 := hrel 3 (by decide)
  have r4 := hrel 4 (by decide)
  have r6 := hrel 6 (by decide)
  have r9 := hrel 9 (by decide)
  have q0 := mseq2_recurrence 0
  have qt := mseq2_recurrence t
  obtain ⟨_, _, p0, p3, p4, p6, p9⟩ := tables_points
  rw [p0] at r0
  rw [p3] at r3
  rw [p4] at r4
  rw [p6] at r6
  rw [p9] at r9
  simp only [Nat.zero_add] at q0
  rw [xor_bit_mod _ _ (Or.inr rfl) (b _)] at r0 r4 r6
  rw [xor_bit_mod _ _ (Or.inl rfl) (b _)] at r3 r9
  have x1 := xor_bit_mod _ _ (b 0) (b 3)
  have x2 := xor_bit_mod _ _ (b t) (b (t + 3))
  rw [x1] at q0
  rw [x2] at qt
  have y1 : (cyc correlator_cf_impl.mseq2 0 + cyc correlator_cf_impl.mseq2 3) % 2 = 0 ∨
      (cyc correlator_cf_impl.mseq2 0 + cyc correlator_cf_impl.mseq2 3) % 2 = 1 := by omega
  have y2 : (cyc correlator_cf_impl.mseq2 t + cyc correlator_cf_impl.mseq2 (t + 3)) % 2 = 0 ∨
      (cyc correlator_cf_impl.mseq2 t + cyc correlator_cf_impl.mseq2 (t + 3)) % 2 = 1 := by
    omega
  rw [xor_bit_mod _ _ y1 (b 4)] at q0
  rw [xor_bit_mod _ _ y2 (b (t + 4))] at qt
  have z1 : ((cyc correlator_cf_impl.mseq2 0 + cyc correlator_cf_impl.mseq2 3) % 2 +
      cyc correlator_cf_impl.mseq2 4) % 2 = 0 ∨
      ((cyc correlator_cf_impl.mseq2 0 + cyc correlator_cf_impl.mseq2 3) % 2 +
      cyc correlator_cf_impl.mseq2 4) % 2 = 1 := by omega
  have z2 : ((cyc correlator_cf_impl.mseq2 t + cyc correlator_cf_impl.mseq2 (t + 3)) % 2 +
      cyc correlator_cf_impl.mseq2 (t + 4)) % 2 = 0 ∨
      ((cyc correlator_cf_impl.mseq2 t + cyc correlator_cf_impl.mseq2 (t + 3)) % 2 +
      cyc correlator_cf_impl.mseq2 (t + 4)) % 2 = 1 := by omega
  rw [xor_bit_mod _ _ z1 (b 6)] at q0
  rw [xor_bit_mod _ _ z2 (b (t + 6))] at qt
  have b0 := b 0
  have b3 := b 3
  have b4 := b 4
  have b6 := b 6
  have b9 := b 9
  have c0 := b (t + 0)
  have c3 := b (t + 3)
  have c4 := b (t + 4)
  have c6 := b (t + 6)
  have c9 := b (t + 9)
  simp only [Nat.add_zero] at c0 r0
  omega

/-- Two Gold codes with different selectors differ: otherwise M-sequence #2 would repeat
after the difference of the selectors. -/
theorem gold_ne_gold (t u : Nat) (ht : t < u) (hu : u ≤ 510) :
    prn_code correlator_cf_impl.mseq1 correlator_cf_impl.mseq2 (t : Int) ≠
      prn_code correlator_cf_impl.mseq1 correlator_cf_impl.mseq2 (u : Int) := by
  intro h
  have hrel : ∀ k, k < 511 →
      cyc correlator_cf_impl.mseq2 (k + t) = cyc correlator_cf_impl.mseq2 (k + u) := by
    intro k hk
    have e := congrArg (fun l => l.getD k 0) h
    dsimp only at e
    rw [prn_code_getD _ _ _ _ hk, prn_code_getD _ _ _ _ hk, chip_gold _ _ t _ hk,
      chip_gold _ _ u _ hk] at e
    rcases cyc_bit _ mseq1_bits k with a | a <;>
      rcases cyc_bit _ mseq2_bits (k + t) with b | b <;>
      rcases cyc_bit _ mseq2_bits (k + u) with c | c <;>
      rw [a, b, c] at e <;> rw [b, c] <;> first | rfl | exact absurd e (by decide)
  refine mseq2_isMSequence.2.2.2.2.1.2 (u - t) (by omega) (by omega) fun m => ?_
  have := hrel ((m % 511 + 511 - t) % 511) (Nat.mod_lt _ (by decide))
  rw [cyc_congr correlator_cf_impl.mseq2 ((m % 511 + 511 - t) % 511 + t) m (by omega),
    cyc_congr correlator_cf_impl.mseq2 ((m % 511 + 511 - t) % 511 + u) (m + (u - t))
      (by omega)] at this
  exact this.symm

/-- The map from valid selectors to codes is injective. -/
theorem prn_code_injective (s u : Int) (hs : -2 ≤ s) (hs' : s ≤ 510) (hu : -2 ≤ u)
    (hu' : u ≤ 510)
    (h : prn_code correlator_cf_impl.mseq1 correlator_cf_impl.mseq2 s =
      prn_code correlator_cf_impl.mseq1 correlator_cf_impl.mseq2 u) : s = u := by
  have h12 : prn_code correlator_cf_impl.mseq1 correlator_cf_impl.mseq2 (-2) ≠
      prn_code correlator_cf_impl.mseq1 correlator_cf_impl.mseq2 (-1) := by
    intro e
    have e9 := congrArg (fun l => l.getD 9 0) e
    dsimp only at e9
    rw [prn_code_getD _ _ _ _ (by decide), prn_code_getD _ _ _ _ (by decide)] at e9
    exact tables_points.2.1 e9
  by_cases a2 : s = -2
  · subst a2
    by_cases b2 : u = -2
    · exact b2.symm
    · by_cases b1 : u = -1
      · subst b1; exact (h12 h).elim
      · obtain ⟨t, rfl⟩ : ∃ t : Nat, u = (t : Int) := ⟨u.toNat, by omega⟩
        exact (code_m1_ne_gold t h).elim
  · by_cases a1 : s = -1
    · subst a1
      by_cases b2 : u = -2
      · subst b2; exact (h12 h.symm).elim
      · by_cases b1 : u = -1
        · exact b1.symm
        · obtain ⟨t, rfl⟩ : ∃ t : Nat, u = (t : Int) := ⟨u.toNat, by omega⟩
          exact (code_m2_ne_gold t h).elim
    · obtain ⟨t, rfl⟩ : ∃ t : Nat, s = (t : Int) := ⟨s.toNat, by omega⟩
      by_cases b2 : u = -2
      · subst b2; exact (code_m1_ne_gold t h.symm).elim
      · by_cases b1 : u = -1
        · subst b1; exact (code_m2_ne_gold t h.symm).elim
        · obtain ⟨v, rfl⟩ : ∃ v : Nat, u = (v : Int) := ⟨u.toNat, by omega⟩
          rcases Nat.lt_trichotomy t v with c | c | c
          · exact (gold_ne_gold t v c (by omega) h).elim
          · rw [c]
          · exact (gold_ne_gold v t c (by omega) h.symm).elim

theorem prn_code_isBits (s : Int) :
    IsBits (prn_code correlator_cf_impl.mseq1 correlator_cf_impl.mseq2 s) := by
  refine ⟨prn_code_length _ _ _, fun k hk => ?_⟩
  by_cases c : k < 511
  · rw [prn_code_getD _ _ _ _ c]
    exact chip_bit _ _ mseq1_bits mseq2_bits s k
  · have : k = 511 := by omega
    subst this
    exact Or.inl (prn_code_last _ _ _)

/-- The chips 0..510 of a code of bits can be read off its waveform: the modulator is
injective on them (in a ring where `1` and `-1` differ). -/
theorem baseBand_seq_injective {R : Type} [CommRing R] (h2 : (1 : R) ≠ -1)
    (c0 c1 : List Int) (hb0 : IsBits c0) (hb1 : IsBits c1)
    (h : ∀ k, k < 512 → (baseBand_seq c0 k : gr_complex R) = baseBand_seq c1 k) :
    ∀ k, k ≤ 510 → c0.getD k 0 = c1.getD k 0 := by
  intro k hk
  have e0 := baseBand_seq_succ (R := R) c0 hb0 k hk
  have e1 := baseBand_seq_succ (R := R) c1 hb1 k hk
  rw [h (k + 1) (by omega), h k (by omega), e1] at e0
  have hz := conj_mul_baseBand (R := R) c1 (hb1.2 0 (by decide)) k
  have e := congrArg (fun x => x * gr_complex.conj (baseBand_seq c1 k : gr_complex R)) e0
  dsimp only at e
  have hz' : (baseBand_seq c1 k : gr_complex R) * gr_complex.conj (baseBand_seq c1 k) = 1 := by
    rw [mul_comm]; exact hz
  simp only [mul_assoc, hz', mul_one] at e
  have him := congrArg gr_complex.im e
  have him' : (0 : R) * 0 + 1 * (((1 - 2 * c1.getD k 0 : Int) : Int) : R) =
      (0 : R) * 0 + 1 * (((1 - 2 * c0.getD k 0 : Int) : Int) : R) := him
  rw [zero_mul, zero_add, one_mul, one_mul] at him'
  rcases hb0.2 k (by omega) with a | a <;> rcases hb1.2 k (by omega) with b | b <;>
    rw [a, b] at him' ⊢
  · exact absurd him' (by simpa using h2.symm)
  · exact absurd him' (by simpa using h2)

theorem list_eq_of_getD_512 (l1 l2 : List Int) (h1 : l1.length = 512) (h2 : l2.length = 512)
    (h : ∀ k, k < 512 → l1.getD k 0 = l2.getD k 0) : l1 = l2 :=
  list_eq_of_getD 0 l1 l2 h1 h2 h

/-- Two valid selectors whose stored templates agree are equal. -/
theorem template_injective {R : Type} [CommRing R] (h2 : (1 : R) ≠ -1) (s u : Int)
    (hs : -2 ≤ s) (hs' : s ≤ 510) (hu : -2 ≤ u) (hu' : u ≤ 510)
    (h : (buf512 fun k => gr_complex.conj (baseBand_seq
        (prn_code correlator_cf_impl.mseq1 correlator_cf_impl.mseq2 s) k : gr_complex R)) =
      buf512 fun k => gr_complex.conj (baseBand_seq
        (prn_code correlator_cf_impl.mseq1 correlator_cf_impl.mseq2 u) k)) : s = u := by
  apply prn_code_injective s u hs hs' hu hu'
  have hbb : ∀ k, k < 512 →
      (baseBand_seq (prn_code correlator_cf_impl.mseq1 correlator_cf_impl.mseq2 s) k :
        gr_complex R) =
      baseBand_seq (prn_code correlator_cf_impl.mseq1 correlator_cf_impl.mseq2 u) k := by
    intro k hk
    have e := congrArg (fun l => gr_complex.conj (l.getD k 0)) h
    dsimp only at e
    rw [buf512_getD _ _ _ hk, buf512_getD _ _ _ hk, conj_conj, conj_conj] at e
    exact e
  have hc := baseBand_seq_injective h2 _ _ (prn_code_isBits s) (prn_code_isBits u) hbb
  refine list_eq_of_getD_512 _ _ (prn_code_length _ _ _) (prn_code_length _ _ _) fun k hk => ?_
  by_cases c : k ≤ 510
  · exact hc k c
  · have : k = 511 := by omega
    subst this
    rw [prn_code_last, prn_code_last]

/-- C22: the map from selectors to generated codes is injective on `[-2, 510]`.  For valid
selectors `s` and `u`, `generate_prn` returns the same 512-chip code for both only if
`s = u`; the two codes of `generate_prns s u` are equal only if `s = u`; and the dual engine
constructed on `(s, u)` holds two equal codes, or two equal templates, only if `s = u`
(exact values in which `1` and `-1` differ). -/
theorem selectors_injective {R : Type} [CommRing R] (h2 : (1 : R) ≠ -1)
    (s u : Int) (hs : -2 ≤ s) (hs' : s ≤ 510) (hu : -2 ≤ u) (hu' : u ≤ 510)
    (m_prn0 m_prn1 : List Int) (h0 : m_prn0.length = 512) (h1 : m_prn1.length = 512)
    (raw : correlator_cf_impl R) (hraw : Allocated raw) :
    (∃ c c2, single_correlator_cf_impl.generate_prn s m_prn0 = some c ∧
      single_correlator_cf_impl.generate_prn u m_prn1 = some c2 ∧ (c = c2 → s = u)) ∧
    (∃ c0 c1, correlator_cf_impl.generate_prns s u m_prn0 m_prn1 = some (c0, c1) ∧
      (c0 = c1 → s = u)) ∧
    (∃ eng, correlator_cf_impl.make s u raw = some eng ∧
      (eng.m_prn0 = eng.m_prn1 → s = u) ∧ (eng.m_template0 = eng.m_template1 → s = u)) := by
  refine ⟨⟨_, _, generate_prn_eq s hs hs' _ h0, generate_prn_eq u hu hu' _ h1,
      prn_code_injective s u hs hs' hu hu'⟩,
    ⟨_, _, generate_prns_eq s u hs hs' hu hu' _ _ h0 h1, prn_code_injective s u hs hs' hu hu'⟩,
    ?_⟩
  obtain ⟨eng, he, hp0, hp1, ht0, ht1, _⟩ := make_spec (R := R) s u hs hs' hu hu' raw hraw
  refine ⟨eng, he, fun e => ?_, fun e => ?_⟩
  · rw [hp0, hp1] at e
    exact prn_code_injective s u hs hs' hu hu' e
  · rw [ht0, ht1] at e
    exact template_injective h2 s u hs hs' hu hu' e

theorem selectors_injective_witness :
    (1 : ℚ) ≠ -1 ∧ (-2 : Int) ≤ 3 ∧ (3 : Int) ≤ 510 ∧ (-2 : Int) ≤ -1 ∧ (-1 : Int) ≤ 510 ∧
    (List.replicate 512 (7 : Int)).length = 512 ∧ (List.replicate 512 (9 : Int)).length = 512 ∧
    Allocated (zero_engine ℚ) ∧
    (∃ c c2, single_correlator_cf_impl.generate_prn 3 (List.replicate 512 7) = some c ∧
      single_correlator_cf_impl.generate_prn (-1) (List.replicate 512 9) = some c2 ∧
      (c = c2 → (3 : Int) = -1)) ∧
    (∃ c0 c1, correlator_cf_impl.generate_prns 3 (-1) (List.replicate 512 7)
        (List.replicate 512 9) = some (c0, c1) ∧ (c0 = c1 → (3 : Int) = -1)) ∧
    (∃ eng, correlator_cf_impl.make 3 (-1) (zero_engine ℚ) = some eng ∧
      (eng.m_prn0 = eng.m_prn1 → (3 : Int) = -1) ∧
      (eng.m_template0 = eng.m_template1 → (3 : Int) = -1)) :=
  ⟨by norm_num, by decide, by decide, by decide, by decide, List.length_replicate _ _,
    List.length_replicate _ _, zero_engine_allocated ℚ,
    selectors_injective (by norm_num) 3 (-1) (by decide) (by decide) (by decide) (by decide)
      (List.replicate 512 7) (List.replicate 512 9) (List.length_replicate _ _)
      (List.length_replicate _ _) (zero_engine ℚ) (zero_engine_allocated ℚ)⟩

end sprite
